import Mathlib

/-!
# MapsContainers: TreeMap, HashMap and LinkedList

A shallow embedding of the three containers of `src/TreeMap.h`, `src/HashMap.h` and
`src/LinkedList.h`, followed by theorems about them.

Conventions of the embedding.

* A tree of heap nodes linked by `left` / `right` / `parent` pointers is an inductive
  `Tree`; a `Node*` is the path of child links leading from the root to the node
  (`none` is `nullptr`), so that `node->parent` is the path without its last link.
* A chain of list nodes is the `List` of its elements in `next` order; a list `Node*`
  is the position of the node in the chain (`none` is `nullptr`). The links themselves
  are described a second time in `LinkedList.Raw`: a memory of nodes with their `next`
  and `prev` addresses, on which the methods of the list are followed statement by
  statement; `LinkedList.Raw.view_refines` relates the two descriptions.
* The two maps are described a second time as well, in `TreeMap.Raw` and `HashMap.Raw`:
  one memory of nodes that all maps share, a map being the fields of its object and a
  pointer the address of a node, so that two maps may point to the same nodes. The methods
  are followed statement by statement on this memory, and the `_refines` and
  `_simulates` theorems relate a call on the nodes to the call on the value.
* A `difference_type` offset is an integer; `plusWrapped` and `minusWrapped` repeat the
  offset loops with a counter of 64 bits that wraps around.
* `std::size_t` counters are natural numbers: a counter is only ever incremented once
  per stored node and decremented behind an `isEmpty()` guard.
* A C++ exception is an `Except.error`; `Error.dangling` marks the dereference of a
  pointer that addresses no node, which the C++ code leaves undefined.
-/

namespace aisdi

/-- The exceptions thrown by the containers (`std::out_of_range`, `std::logic_error`),
and a marker for the dereference of a pointer that addresses no node. -/
inductive Error where
  | out_of_range
  | logic_error
  | dangling
  deriving DecidableEq, Repr

instance instDecidableEqExcept {ε α : Type} [DecidableEq ε] [DecidableEq α] :
    DecidableEq (Except ε α)
  | Except.error a, Except.error b =>
    if h : a = b then isTrue (by rw [h]) else isFalse (fun h1 => h (by cases h1; rfl))
  | Except.ok a, Except.ok b =>
    if h : a = b then isTrue (by rw [h]) else isFalse (fun h1 => h (by cases h1; rfl))
  | Except.error _, Except.ok _ => isFalse (fun h => by cases h)
  | Except.ok _, Except.error _ => isFalse (fun h => by cases h)

/-- A call made on a map by its user. -/
inductive Op (K V : Type) where
  | access (key : K)
  | assign (key : K) (value : V)
  | remove (key : K)
  deriving DecidableEq, Repr

/-- Whether the call is an `operator[]` insertion. -/
def Op.isInsertion {K V : Type} : Op K V → Bool
  | Op.access _ => true
  | Op.assign _ _ => true
  | Op.remove _ => false

/-- The key a call is made with. -/
def Op.key {K V : Type} : Op K V → K
  | Op.access k => k
  | Op.assign k _ => k
  | Op.remove k => k

/-! ## TreeMap: data model -/

/-- One child link of a tree node. -/
inductive Dir where
  | left
  | right
  deriving DecidableEq, Repr

/-- The nodes reachable from a `Node*`: `null` is `nullptr`, `node l k v r` is a node
with `data = (k, v)` and children `l`, `r` (`TreeMap::Node`). -/
inductive Tree (K V : Type) where
  | null : Tree K V
  | node (left : Tree K V) (key : K) (value : V) (right : Tree K V) : Tree K V
  deriving DecidableEq, Repr

namespace Tree

variable {K V : Type}

/-- Test `ptr == nullptr`. -/
def isNull : Tree K V → Bool
  | null => true
  | node _ _ _ _ => false

/-- Number of nodes reachable from the pointer. -/
def numNodes : Tree K V → Nat
  | null => 0
  | node l _ _ r => numNodes l + 1 + numNodes r

/-- Entries in symmetric (in-order) order. -/
def toList : Tree K V → List (K × V)
  | null => []
  | node l k v r => toList l ++ (k, v) :: toList r

/-- Keys in symmetric (in-order) order. -/
def keys : Tree K V → List K
  | null => []
  | node l k _ r => keys l ++ k :: keys r

/-- The subtree addressed by following the child links of a path from the given root;
`null` when the path leaves the tree. -/
def subtreeAt : Tree K V → List Dir → Tree K V
  | t, [] => t
  | null, _ :: _ => null
  | node l _ _ _, Dir.left :: p => subtreeAt l p
  | node _ _ _ r, Dir.right :: p => subtreeAt r p

/-- Store a pointer into the slot that holds the node at the given path: the `root`
field for the empty path (`node->parent == nullptr`), otherwise the `left` or `right`
field of the parent, whichever holds the node. -/
def setSlot : Tree K V → List Dir → Tree K V → Tree K V
  | _, [], s => s
  | null, _ :: _, _ => null
  | node l k v r, Dir.left :: p, s => node (setSlot l p s) k v r
  | node l k v r, Dir.right :: p, s => node l k v (setSlot r p s)

/-- Write through a `mapped_type&` that refers to the value of the node at the path. -/
def setValueAt : Tree K V → List Dir → V → Tree K V
  | null, _, _ => null
  | node l k _ r, [], x => node l k x r
  | node l k v r, Dir.left :: p, x => node (setValueAt l p x) k v r
  | node l k v r, Dir.right :: p, x => node l k v (setValueAt r p x)

/-- The loop `while (temp->left != nullptr) temp = temp->left;` as the path it walks. -/
def leftmost : Tree K V → List Dir
  | null => []
  | node l _ _ _ => if l.isNull then [] else Dir.left :: leftmost l

/-- The pointers to the nodes of a tree in symmetric (in-order) order, as paths from its
root. -/
def paths : Tree K V → List (List Dir)
  | null => []
  | node l _ _ r => (paths l).map (Dir.left :: ·) ++ [] :: (paths r).map (Dir.right :: ·)

/-- The ordering invariant of the tree: every key of the left subtree is strictly
before the key of the node and every key of the right subtree strictly after it
(keys being unique), in every node. -/
def BST [LinearOrder K] : Tree K V → Prop
  | null => True
  | node l k _ r => (∀ x ∈ keys l, x < k) ∧ (∀ x ∈ keys r, k < x) ∧ BST l ∧ BST r

instance BST.instDecidable [LinearOrder K] : (t : Tree K V) → Decidable (BST t)
  | null => isTrue trivial
  | node l k _ r =>
    have _ := BST.instDecidable l
    have _ := BST.instDecidable r
    inferInstanceAs
      (Decidable ((∀ x ∈ keys l, x < k) ∧ (∀ x ∈ keys r, k < x) ∧ BST l ∧ BST r))

end Tree

/-- The map: the `root` pointer and the `size` counter (`TreeMap`). -/
structure TreeMap (K V : Type) where
  root : Tree K V
  size : Nat
  deriving DecidableEq, Repr

namespace TreeMap

open Tree

variable {K V : Type}

/-- The `node` field of a `ConstIterator`: `none` is `nullptr`, the end iterator. -/
abbrev Iterator := Option (List Dir)

/-- Default constructor `TreeMap()`. -/
def empty : TreeMap K V := { root := null, size := 0 }

/-- Method `isEmpty()`. -/
def isEmpty (m : TreeMap K V) : Bool := m.size == 0

/-- Method `getSize()`. -/
def getSize (m : TreeMap K V) : Nat := m.size

/-- Method `end()`. -/
def «end» (_m : TreeMap K V) : Iterator := none

/-- The loop of `find`: `temp` is the pointer at path `here`. -/
def findLoop [LinearOrder K] : Tree K V → List Dir → K → Iterator
  | null, _, _ => none
  | node l k _ r, here, key =>
    if k = key then some here
    else if key > k then findLoop r (here ++ [Dir.right]) key
    else findLoop l (here ++ [Dir.left]) key

/-- Method `find(key)`. -/
def find [LinearOrder K] (m : TreeMap K V) (key : K) : Iterator :=
  findLoop m.root [] key

/-- The descent loop of `insert`: `iter` is the pointer at path `here`; returns the
tree with `to_add` linked in and the path of `to_add`. The loop is entered at a node and
moves to a child only after testing it, so `iter` is never `nullptr`: the first case
only makes the function total, and does what the test before the move would have done. -/
def insertLoop [LinearOrder K] : Tree K V → List Dir → K → V → Tree K V × List Dir
  | null, here, key, value => (node null key value null, here)
  | node l k v r, here, key, value =>
    if key < k then
      if l.isNull then (node (node null key value null) k v r, here ++ [Dir.left])
      else
        let res := insertLoop l (here ++ [Dir.left]) key value
        (node res.1 k v r, res.2)
    else
      if r.isNull then (node l k v (node null key value null), here ++ [Dir.right])
      else
        let res := insertLoop r (here ++ [Dir.right]) key value
        (node l k v res.1, res.2)

/-- Private method `insert(key, value)`: the map afterwards and the returned iterator. -/
def insert [LinearOrder K] (m : TreeMap K V) (key : K) (value : V) :
    TreeMap K V × Iterator :=
  match find m key with
  | some p => (m, some p)
  | none =>
    if m.root.isNull then
      ({ root := node null key value null, size := m.size + 1 }, some [])
    else
      let res := insertLoop m.root [] key value
      ({ root := res.1, size := m.size + 1 }, some res.2)

/-- Iterator `operator*`. -/
def deref (m : TreeMap K V) : Iterator → Except Error (K × V)
  | none => Except.error Error.out_of_range
  | some p =>
    match subtreeAt m.root p with
    | null => Except.error Error.dangling
    | node _ k v _ => Except.ok (k, v)

/-- Method `operator[](key)`: the map afterwards and the node whose value the returned
reference refers to. -/
def index [LinearOrder K] [Inhabited V] (m : TreeMap K V) (key : K) :
    Except Error (TreeMap K V × List Dir) :=
  let res := insert m key default
  match res.2 with
  | none => Except.error Error.out_of_range
  | some p =>
    match subtreeAt res.1.root p with
    | null => Except.error Error.dangling
    | node _ _ _ _ => Except.ok (res.1, p)

/-- The statement `m[key] = value`. -/
def assign [LinearOrder K] [Inhabited V] (m : TreeMap K V) (key : K) (value : V) :
    Except Error (TreeMap K V) :=
  match index m key with
  | Except.error e => Except.error e
  | Except.ok (m1, p) => Except.ok { m1 with root := setValueAt m1.root p value }

/-- The expression `m[key]` read as a value: the map afterwards and the value read. -/
def access [LinearOrder K] [Inhabited V] (m : TreeMap K V) (key : K) :
    Except Error (TreeMap K V × V) :=
  match index m key with
  | Except.error e => Except.error e
  | Except.ok (m1, p) =>
    match deref m1 (some p) with
    | Except.error e => Except.error e
    | Except.ok kv => Except.ok (m1, kv.2)

/-- Method `valueOf(key)`. -/
def valueOf [LinearOrder K] (m : TreeMap K V) (key : K) : Except Error V :=
  match find m key with
  | none => Except.error Error.out_of_range
  | some p =>
    match deref m (some p) with
    | Except.error e => Except.error e
    | Except.ok kv => Except.ok kv.2

/-- Private method `erase(node)` on the tree below `root`, the node given by its path.
The three branches are those of the source, in its order and with its conditions. -/
def erase (root : Tree K V) (path : List Dir) : Tree K V :=
  match subtreeAt root path with
  | null => root
  | node l _ _ r =>
    -- no children
    if l.isNull && r.isNull then
      setSlot root path null
    -- one child
    else if !l.isNull || !r.isNull then
      let child := if !l.isNull then l else r
      setSlot root path child
    -- left and right children
    else
      let minPath := path ++ Dir.right :: leftmost r
      match subtreeAt root minPath with
      | null => root
      | node _ minKey minValue _ =>
        let holder := node l minKey minValue r
        erase (setSlot root path holder) minPath
termination_by 0
decreasing_by
  all_goals
    exfalso
    cases l <;> cases r <;> simp_all [isNull]

/-- Method `remove(const const_iterator&)`. -/
def removeAt (m : TreeMap K V) (it : Iterator) : Except Error (TreeMap K V) :=
  if m.isEmpty then Except.error Error.out_of_range
  else
    match it with
    | none => Except.error Error.out_of_range
    | some p => Except.ok { root := erase m.root p, size := m.size - 1 }

/-- Method `remove(const key_type&)`. -/
def remove [LinearOrder K] (m : TreeMap K V) (key : K) : Except Error (TreeMap K V) :=
  removeAt m (find m key)

/-- Method `begin()`. -/
def «begin» (m : TreeMap K V) : Iterator :=
  if m.root.isNull then none else some (leftmost m.root)

/-- The climbing loop of `operator++`: the argument is the reversed path of the node
just left, so that its tail is the reversed path of `node->parent`. -/
def climb [LinearOrder K] (root : Tree K V) (key : K) : List Dir → Iterator
  | [] => none
  | _ :: up =>
    match subtreeAt root up.reverse with
    | null => none
    | node _ k _ _ => if k < key then climb root key up else some up.reverse

/-- Iterator `operator++`. -/
def next [LinearOrder K] (m : TreeMap K V) : Iterator → Except Error Iterator
  | none => Except.error Error.out_of_range
  | some p =>
    match subtreeAt m.root p with
    | null => Except.error Error.dangling
    | node _ k _ r =>
      if !r.isNull then Except.ok (some (p ++ Dir.right :: leftmost r))
      else Except.ok (climb m.root k p.reverse)

/-- The nearest ancestor that is left through its `left` link when climbing from a
node, given the reversed path of the node; `none` when every link is a `right` link. -/
def exitOf : List Dir → Iterator
  | [] => none
  | Dir.left :: up => some up.reverse
  | Dir.right :: up => exitOf up

/-- The first pointer of a sequence of node pointers, or the iterator `e` that follows
the sequence when it has no pointer. -/
def firstOf : List (List Dir) → Iterator → Iterator
  | [], e => e
  | p :: _, _ => some p

/-- The sequence `ps` of node pointers is linked by `operator++`: incrementing each
pointer gives the next one, and incrementing the last one gives `e`. -/
def Linked [LinearOrder K] (m : TreeMap K V) : List (List Dir) → Iterator → Prop
  | [], _ => True
  | p :: ps, e => next m (some p) = Except.ok (firstOf ps e) ∧ Linked m ps e

/-- The loop `for (it = begin(); it != end(); ++it)` reading `*it` in each round: the
entries visited from `it` on. The first argument bounds the number of rounds; `none`
means the bound was reached before the loop ended. -/
def forwardLoop [LinearOrder K] (m : TreeMap K V) :
    Nat → Iterator → Option (Except Error (List (K × V)))
  | 0, _ => none
  | _ + 1, none => some (Except.ok [])
  | n + 1, some p =>
    match deref m (some p) with
    | Except.error e => some (Except.error e)
    | Except.ok kv =>
      match next m (some p) with
      | Except.error e => some (Except.error e)
      | Except.ok it =>
        match forwardLoop m n it with
        | none => none
        | some (Except.error e) => some (Except.error e)
        | some (Except.ok rest) => some (Except.ok (kv :: rest))

/-- Forward iteration from `begin()` to `end()`, in at most `fuel` rounds. -/
def traverse [LinearOrder K] (m : TreeMap K V) (fuel : Nat) :
    Option (Except Error (List (K × V))) :=
  forwardLoop m fuel m.begin

/-- The comparison loop of `operator==`, in at most the given number of rounds. -/
def eqLoop [LinearOrder K] [DecidableEq V] (a b : TreeMap K V) :
    Nat → Iterator → Iterator → Option (Except Error Bool)
  | 0, _, _ => none
  | _ + 1, none, _ => some (Except.ok true)
  | n + 1, some p, q =>
    match deref a (some p) with
    | Except.error e => some (Except.error e)
    | Except.ok x =>
      match deref b q with
      | Except.error e => some (Except.error e)
      | Except.ok y =>
        if x ≠ y then some (Except.ok false)
        else
          match next a (some p) with
          | Except.error e => some (Except.error e)
          | Except.ok p1 =>
            match next b q with
            | Except.error e => some (Except.error e)
            | Except.ok q1 => eqLoop a b n p1 q1

/-- Method `operator==`, its loop bounded by `fuel` rounds. -/
def eq [LinearOrder K] [DecidableEq V] (fuel : Nat) (a b : TreeMap K V) :
    Option (Except Error Bool) :=
  if a.size ≠ b.size then some (Except.ok false)
  else eqLoop a b fuel a.begin b.begin

/-- One call: the map afterwards, or the exception thrown. -/
def step [LinearOrder K] [Inhabited V] (m : TreeMap K V) : Op K V → Except Error (TreeMap K V)
  | Op.access k =>
    match access m k with
    | Except.error e => Except.error e
    | Except.ok res => Except.ok res.1
  | Op.assign k v => assign m k v
  | Op.remove k => remove m k

/-- One call whose exception, if any, is caught by the caller: every method throws
before it changes the map, so the map is then the one before the call. -/
def applyOp [LinearOrder K] [Inhabited V] (m : TreeMap K V) (op : Op K V) : TreeMap K V :=
  match step m op with
  | Except.error _ => m
  | Except.ok m1 => m1

/-- A sequence of calls applied in order. -/
def run [LinearOrder K] [Inhabited V] (m : TreeMap K V) (ops : List (Op K V)) : TreeMap K V :=
  ops.foldl applyOp m

/-- The invariant of the map: the tree is ordered with unique keys and the counter is
at least the number of reachable nodes. -/
def WF [LinearOrder K] (m : TreeMap K V) : Prop :=
  BST m.root ∧ m.root.numNodes ≤ m.size

instance WF.instDecidable [LinearOrder K] (m : TreeMap K V) : Decidable (WF m) :=
  inferInstanceAs (Decidable (BST m.root ∧ m.root.numNodes ≤ m.size))

/-- Method `remove(const const_iterator&)` as its caller sees it: the normal return or
the exception thrown, and the map as it is then. -/
def removeAtCall (m : TreeMap K V) (it : Iterator) : Except Error Unit × TreeMap K V :=
  if m.isEmpty then (Except.error Error.out_of_range, m)
  else
    match it with
    | none => (Except.error Error.out_of_range, m)
    | some p =>
      -- erase(it.node); --size;
      (Except.ok (), { root := erase m.root p, size := m.size - 1 })

/-- Method `remove(const key_type&)` as its caller sees it. -/
def removeCall [LinearOrder K] (m : TreeMap K V) (key : K) : Except Error Unit × TreeMap K V :=
  removeAtCall m (find m key)

/-- Private method `copyTreeStructure(parent, other_node)`: a new node for every node
reachable from `other_node`, with the same data and with the copies of the children as
children. -/
def copyTreeStructure : Tree K V → Tree K V
  | null => null
  | node l k v r => node (copyTreeStructure l) k v (copyTreeStructure r)

/-- Copy constructor `TreeMap(const TreeMap& other)`. -/
def copy (other : TreeMap K V) : TreeMap K V :=
  { root := copyTreeStructure other.root, size := other.size }

/-- Copy assignment `operator=(const TreeMap& other)`; `sameObject` tells whether
`this == &other`, in which case the map assigned to is `other` itself. -/
def copyAssign (sameObject : Bool) (self other : TreeMap K V) : TreeMap K V :=
  if sameObject then self
  else { root := copyTreeStructure other.root, size := other.size }

/-- The loop `while (node->right != nullptr) node = node->right;` as the path it
walks. -/
def rightmostPath : Tree K V → List Dir
  | null => []
  | node _ _ _ r => if r.isNull then [] else Dir.right :: rightmostPath r

/-- The climbing loop of `operator--`: the argument is the reversed path of the node
just left, so that its tail is the reversed path of `node->parent`. -/
def climbBack [LinearOrder K] (root : Tree K V) (key : K) : List Dir → Iterator
  | [] => none
  | _ :: up =>
    match subtreeAt root up.reverse with
    | null => none
    | node _ k _ _ => if k > key then climbBack root key up else some up.reverse

/-- The statements of iterator `operator--` that follow its test for `begin()`. -/
def retreat [LinearOrder K] (m : TreeMap K V) : Iterator → Except Error Iterator
  | none =>
    -- node = parent.root; while (node->right != nullptr) node = node->right;
    if m.root.isNull then Except.error Error.dangling
    else Except.ok (some (rightmostPath m.root))
  | some p =>
    match subtreeAt m.root p with
    | null => Except.error Error.dangling
    | node l k _ _ =>
      if !l.isNull then Except.ok (some (p ++ Dir.left :: rightmostPath l))
      else Except.ok (climbBack m.root k p.reverse)

/-- Iterator `operator--`. -/
def prev [LinearOrder K] (m : TreeMap K V) (it : Iterator) : Except Error Iterator :=
  if it = m.begin then Except.error Error.out_of_range
  else retreat m it

/-- The nearest ancestor that is left through its `right` link when climbing from a
node, given the reversed path of the node; `none` when every link is a `left` link. -/
def enterOf : List Dir → Iterator
  | [] => none
  | Dir.right :: up => some up.reverse
  | Dir.left :: up => enterOf up

end TreeMap

/-! ## LinkedList: data model -/

/-- The list: the chain of nodes from `root` to `tail` as the sequence of their `data`,
and the `size` counter (`LinkedList`). -/
structure LinkedList (α : Type) where
  elems : List α
  size : Nat
  deriving DecidableEq, Repr

namespace LinkedList

variable {α : Type}

/-- The `ptr` field of a `ConstIterator`: the position in the chain of the node pointed
to; `none` is `nullptr`, the end iterator. -/
abbrev Iterator := Option Nat

/-- Default constructor `LinkedList()`. -/
def empty : LinkedList α := { elems := [], size := 0 }

/-- Method `isEmpty()`. -/
def isEmpty (l : LinkedList α) : Bool := l.size == 0

/-- Method `getSize()`. -/
def getSize (l : LinkedList α) : Nat := l.size

/-- Method `begin()`: the iterator at `root`, which is `nullptr` when the chain has no
node. -/
def «begin» (l : LinkedList α) : Iterator :=
  match l.elems with
  | [] => none
  | _ :: _ => some 0

/-- Method `end()`. -/
def «end» (_l : LinkedList α) : Iterator := none

/-- The list invariant: the counter is the number of nodes of the chain. -/
def WF (l : LinkedList α) : Prop := l.size = l.elems.length

instance WF.instDecidable (l : LinkedList α) : Decidable (WF l) :=
  inferInstanceAs (Decidable (l.size = l.elems.length))

/-- Method `insert(insertPosition, item)`. -/
def insert (l : LinkedList α) (insertPosition : Iterator) (item : α) : LinkedList α :=
  if l.isEmpty then
    { elems := [item], size := l.size + 1 }
  else if insertPosition = l.begin then
    { elems := item :: l.elems, size := l.size + 1 }
  else
    match insertPosition with
    | none => { elems := l.elems ++ [item], size := l.size + 1 }
    | some i => { elems := l.elems.take i ++ item :: l.elems.drop i, size := l.size + 1 }

/-- Method `append(item)`. -/
def append (l : LinkedList α) (item : α) : LinkedList α := insert l l.end item

/-- Method `prepend(item)`. -/
def prepend (l : LinkedList α) (item : α) : LinkedList α := insert l l.begin item

/-- Method `erase(possition)`. A pointer that addresses no node of the chain cannot be
unlinked; the model marks it `dangling`. -/
def erase (l : LinkedList α) (possition : Iterator) : Except Error (LinkedList α) :=
  if l.isEmpty then Except.error Error.out_of_range
  else
    match possition with
    | none => Except.error Error.out_of_range
    | some i =>
      if l.elems.length ≤ i then Except.error Error.dangling
      -- root == tail
      else if l.elems.length ≤ 1 then Except.ok { elems := [], size := l.size - 1 }
      -- possition.ptr == root
      else if i = 0 then Except.ok { elems := l.elems.tail, size := l.size - 1 }
      -- possition.ptr == tail
      else if i + 1 = l.elems.length then
        Except.ok { elems := l.elems.dropLast, size := l.size - 1 }
      else Except.ok { elems := l.elems.eraseIdx i, size := l.size - 1 }

/-- Iterator `operator*`. -/
def deref (l : LinkedList α) : Iterator → Except Error α
  | none => Except.error Error.out_of_range
  | some i =>
    match l.elems[i]? with
    | none => Except.error Error.dangling
    | some x => Except.ok x

/-- The loop of iterator `operator+`: `rest` is the chain from `temp.ptr` on (empty when
`temp.ptr` is `nullptr`), `i` the position of `temp.ptr`, `d` the offset left. -/
def plusLoop : List α → Nat → Int → Except Error Iterator
  | [], _, d => if d = 0 then Except.ok none else Except.error Error.out_of_range
  | _ :: rest, i, d => if d = 0 then Except.ok (some i) else plusLoop rest (i + 1) (d - 1)

/-- Iterator `operator+(d)`. A pointer that addresses no node of the chain is returned
as it is for `d == 0` and cannot be followed otherwise. -/
def plus (l : LinkedList α) (it : Iterator) (d : Int) : Except Error Iterator :=
  match it with
  | none => plusLoop ([] : List α) 0 d
  | some i =>
    if l.elems.length ≤ i then
      if d = 0 then Except.ok (some i) else Except.error Error.dangling
    else plusLoop (l.elems.drop i) i d

/-- The iterator at position `i` of the chain: the pointer to the node with `i` nodes
before it, and `end()` from the length of the chain on. -/
def iteratorAt (l : LinkedList α) (i : Nat) : Iterator :=
  if i < l.elems.length then some i else none

/-- The position of an iterator: the number of nodes before the node pointed to, the
length of the chain for `end()`. -/
def positionOf (l : LinkedList α) : Iterator → Nat
  | none => l.elems.length
  | some i => i

/-- The field `tail`, which is `nullptr` when the chain has no node. -/
def tailPtr (l : LinkedList α) : Iterator :=
  match l.elems with
  | [] => none
  | _ :: _ => some (l.elems.length - 1)

/-- Iterator `operator++`. -/
def next (l : LinkedList α) : Iterator → Except Error Iterator
  | none => Except.error Error.out_of_range
  | some i =>
    if l.elems.length ≤ i then Except.error Error.dangling
    else Except.ok (iteratorAt l (i + 1))

/-- Iterator `operator--`. -/
def prev (l : LinkedList α) (it : Iterator) : Except Error Iterator :=
  if it = l.begin then Except.error Error.out_of_range
  else
    match it with
    | none => Except.ok l.tailPtr
    | some i =>
      if l.elems.length ≤ i then Except.error Error.dangling
      else Except.ok (some (i - 1))

/-- The loop of iterator `operator-`, `temp.ptr` being given by its position `p`: it is
`parent.root` exactly for `p = 0` (in an empty list `root` is `nullptr`, the pointer of
`end()`), and both `parent.tail` for `nullptr` and `ptr->prev` otherwise are the node at
the position before. `d` is the offset left. -/
def minusLoop : Nat → Int → Except Error Nat
  | 0, d => if d = 0 then Except.ok 0 else Except.error Error.out_of_range
  | p + 1, d => if d = 0 then Except.ok (p + 1) else minusLoop p (d - 1)

/-- Iterator `operator-(d)`. A pointer that addresses no node of the chain is returned
as it is for `d == 0` and cannot be followed otherwise. -/
def minus (l : LinkedList α) (it : Iterator) (d : Int) : Except Error Iterator :=
  match it with
  | none =>
    match minusLoop l.elems.length d with
    | Except.error e => Except.error e
    | Except.ok p => Except.ok (iteratorAt l p)
  | some i =>
    if l.elems.length ≤ i then
      if d = 0 then Except.ok (some i) else Except.error Error.dangling
    else
      match minusLoop i d with
      | Except.error e => Except.error e
      | Except.ok p => Except.ok (iteratorAt l p)

/-- The value of a `difference_type` counter after `--d` on two's-complement hardware
with 64 bits: below the least value the counter continues with the greatest one. (The
language leaves that overflow undefined; `plusLoop` and `minusLoop` count in the
integers, which is the same as long as the least value is not reached.) -/
def decrWrapped (d : Int) : Int := (d - 1 + 2 ^ 63) % 2 ^ 64 - 2 ^ 63

/-- The loop of iterator `operator+` as `plusLoop`, with a counter of 64 bits. -/
def plusLoopWrapped : List α → Nat → Int → Except Error Iterator
  | [], _, d => if d = 0 then Except.ok none else Except.error Error.out_of_range
  | _ :: rest, i, d =>
    if d = 0 then Except.ok (some i) else plusLoopWrapped rest (i + 1) (decrWrapped d)

/-- Iterator `operator+(d)` as `plus`, with a counter of 64 bits. -/
def plusWrapped (l : LinkedList α) (it : Iterator) (d : Int) : Except Error Iterator :=
  match it with
  | none => plusLoopWrapped ([] : List α) 0 d
  | some i =>
    if l.elems.length ≤ i then
      if d = 0 then Except.ok (some i) else Except.error Error.dangling
    else plusLoopWrapped (l.elems.drop i) i d

/-- The loop of iterator `operator-` as `minusLoop`, with a counter of 64 bits. -/
def minusLoopWrapped : Nat → Int → Except Error Nat
  | 0, d => if d = 0 then Except.ok 0 else Except.error Error.out_of_range
  | p + 1, d => if d = 0 then Except.ok (p + 1) else minusLoopWrapped p (decrWrapped d)

/-- Iterator `operator-(d)` as `minus`, with a counter of 64 bits. -/
def minusWrapped (l : LinkedList α) (it : Iterator) (d : Int) : Except Error Iterator :=
  match it with
  | none =>
    match minusLoopWrapped l.elems.length d with
    | Except.error e => Except.error e
    | Except.ok p => Except.ok (iteratorAt l p)
  | some i =>
    if l.elems.length ≤ i then
      if d = 0 then Except.ok (some i) else Except.error Error.dangling
    else
      match minusLoopWrapped i d with
      | Except.error e => Except.error e
      | Except.ok p => Except.ok (iteratorAt l p)

/-- A step applied `n` times in a row, stopping at the first exception. -/
def repeatStep (step : Iterator → Except Error Iterator) : Nat → Iterator → Except Error Iterator
  | 0, it => Except.ok it
  | n + 1, it =>
    match step it with
    | Except.error e => Except.error e
    | Except.ok it1 => repeatStep step n it1

/-- Method `erase(possition)` as its caller sees it: the normal return or the exception
thrown, and the list as it is then. -/
def eraseCall (l : LinkedList α) (possition : Iterator) : Except Error Unit × LinkedList α :=
  if l.isEmpty then (Except.error Error.out_of_range, l)
  else
    match possition with
    | none => (Except.error Error.out_of_range, l)
    | some i =>
      if l.elems.length ≤ i then (Except.error Error.dangling, l)
      -- root == tail
      else if l.elems.length ≤ 1 then (Except.ok (), { elems := [], size := l.size - 1 })
      -- possition.ptr == root
      else if i = 0 then (Except.ok (), { elems := l.elems.tail, size := l.size - 1 })
      -- possition.ptr == tail
      else if i + 1 = l.elems.length then
        (Except.ok (), { elems := l.elems.dropLast, size := l.size - 1 })
      else (Except.ok (), { elems := l.elems.eraseIdx i, size := l.size - 1 })

/-- Method `popFirst()` as its caller sees it: the element returned or the exception
thrown, and the list as it is then. `moved x` is the value that `std::move` leaves in
an element `x` it has moved from. -/
def popFirst (moved : α → α) (l : LinkedList α) : Except Error α × LinkedList α :=
  if l.isEmpty then (Except.error Error.logic_error, l)
  else
    match l.elems with
    | [] => (Except.error Error.dangling, l)
    | x :: rest =>
      -- Type copy = std::move(root->data);
      let l1 : LinkedList α := { elems := moved x :: rest, size := l.size }
      -- erase(begin());
      let r := eraseCall l1 l1.begin
      match r.1 with
      | Except.error e => (Except.error e, r.2)
      | Except.ok _ => (Except.ok x, r.2)

/-- Method `popLast()` as its caller sees it: the element returned or the exception
thrown, and the list as it is then. -/
def popLast (moved : α → α) (l : LinkedList α) : Except Error α × LinkedList α :=
  if l.isEmpty then (Except.error Error.logic_error, l)
  else
    match l.elems.getLast? with
    | none => (Except.error Error.dangling, l)
    | some y =>
      -- Type copy = std::move(tail->data);
      let l1 : LinkedList α := { elems := l.elems.dropLast ++ [moved y], size := l.size }
      -- erase(--end());
      match prev l1 l1.end with
      | Except.error e => (Except.error e, l1)
      | Except.ok it =>
        let r := eraseCall l1 it
        match r.1 with
        | Except.error e => (Except.error e, r.2)
        | Except.ok _ => (Except.ok y, r.2)

/-- The node a pointer addresses, as a position of the chain after the node at position
`t` has been unlinked: the nodes behind the unlinked one have one node less before
them. -/
def afterErase (t : Nat) : Iterator → Iterator
  | none => none
  | some p => if t < p then some (p - 1) else some p

/-- The loop of `erase(firstIncluded, lastExcluded)`, in at most the given number of
rounds (`none` when the bound is reached): `temp` and `last` are the pointers `temp` and
`lastExcluded.ptr` as positions of the present chain. -/
def eraseRangeLoop : Nat → LinkedList α → Iterator → Iterator →
    Option (Except Error (LinkedList α))
  | 0, _, _, _ => none
  | n + 1, l, temp, last =>
    if temp = last then some (Except.ok l)
    else
      match temp with
      | none => some (Except.error Error.dangling)
      | some t =>
        if l.elems.length ≤ t then some (Except.error Error.dangling)
        else
          -- to_delete = temp; temp = temp->next;
          let nxt := iteratorAt l (t + 1)
          -- erase(iterator(*this, to_delete));
          match erase l (some t) with
          | Except.error e => some (Except.error e)
          | Except.ok l1 => eraseRangeLoop n l1 (afterErase t nxt) (afterErase t last)

/-- Method `erase(firstIncluded, lastExcluded)`, its loop bounded by `fuel` rounds. -/
def eraseRange (fuel : Nat) (l : LinkedList α) (firstIncluded lastExcluded : Iterator) :
    Option (Except Error (LinkedList α)) :=
  eraseRangeLoop fuel l firstIncluded lastExcluded

/-! ### The nodes and their links

The definitions above describe a list by the sequence of its elements. The ones below
follow the source statement by statement on the nodes themselves: a memory of nodes, each
with its `next` and `prev` link, and the fields `root`, `tail` and `size` of the list. -/

/-- Class `Node`: the links `next` and `prev` (the address of a node, `none` for
`nullptr`) and the field `data`. -/
structure Node (α : Type) where
  next : Option Nat
  prev : Option Nat
  data : α
  deriving DecidableEq, Repr

/-- The list as the source stores it: `mem` is the memory of nodes, the node at address
`a` being `mem[a]` (`none` where no node is allocated); `root`, `tail` and `size` are the
fields of the class. -/
structure Raw (α : Type) where
  mem : List (Option (Node α))
  root : Option Nat
  tail : Option Nat
  size : Nat
  deriving DecidableEq, Repr

namespace Raw

/-- The node allocated at an address, if any. -/
def nodeAt (mem : List (Option (Node α))) (a : Nat) : Option (Node α) :=
  mem.getD a none

/-- A read through a pointer, `p->...`. Reading through `nullptr` or through a pointer to
no allocated node has no defined outcome; the model marks it `dangling`. -/
def load (mem : List (Option (Node α))) (p : Option Nat) : Except Error (Node α) :=
  match p with
  | none => Except.error Error.dangling
  | some a =>
    match nodeAt mem a with
    | none => Except.error Error.dangling
    | some n => Except.ok n

/-- A write through a pointer, `p->... = ...`: the memory afterwards. -/
def store (mem : List (Option (Node α))) (p : Option Nat) (f : Node α → Node α) :
    Except Error (List (Option (Node α))) :=
  match p with
  | none => Except.error Error.dangling
  | some a =>
    match nodeAt mem a with
    | none => Except.error Error.dangling
    | some n => Except.ok (mem.set a (some (f n)))

/-- The expression `delete p`: the memory afterwards. Deleting `nullptr` does nothing. -/
def free (mem : List (Option (Node α))) (p : Option Nat) :
    Except Error (List (Option (Node α))) :=
  match p with
  | none => Except.ok mem
  | some a =>
    match nodeAt mem a with
    | none => Except.error Error.dangling
    | some _ => Except.ok (mem.set a none)

/-- Default constructor `LinkedList()`. -/
def empty : Raw α := { mem := [], root := none, tail := none, size := 0 }

/-- Method `isEmpty()`. -/
def isEmpty (l : Raw α) : Bool := l.size == 0

/-- Method `insert(insertPosition, item)`; `new Node(item)` allocates the node at the
first address past the memory in use. -/
def insert (l : Raw α) (insertPosition : Option Nat) (item : α) : Except Error (Raw α) :=
  -- Node* to_add = new Node(item);
  let to_add := l.mem.length
  let mem0 := l.mem ++ [some { next := none, prev := none, data := item }]
  if l.isEmpty then
    -- root = to_add; tail = to_add;
    Except.ok { mem := mem0, root := some to_add, tail := some to_add, size := l.size + 1 }
  else if insertPosition = l.root then do
    -- to_add->next = root;
    let mem1 ← store mem0 (some to_add) (fun n => { n with next := l.root })
    -- root->prev = to_add;
    let mem2 ← store mem1 l.root (fun n => { n with prev := some to_add })
    -- root = to_add;
    Except.ok { mem := mem2, root := some to_add, tail := l.tail, size := l.size + 1 }
  else if insertPosition = none then do
    -- to_add->prev = tail;
    let mem1 ← store mem0 (some to_add) (fun n => { n with prev := l.tail })
    -- tail->next = to_add;
    let mem2 ← store mem1 l.tail (fun n => { n with next := some to_add })
    -- tail = to_add;
    Except.ok { mem := mem2, root := l.root, tail := some to_add, size := l.size + 1 }
  else do
    -- to_add->next = insertPosition.ptr;
    let mem1 ← store mem0 (some to_add) (fun n => { n with next := insertPosition })
    -- to_add->prev = insertPosition.ptr->prev;
    let pos ← load mem1 insertPosition
    let mem2 ← store mem1 (some to_add) (fun n => { n with prev := pos.prev })
    -- insertPosition.ptr->prev->next = to_add;
    let pos ← load mem2 insertPosition
    let mem3 ← store mem2 pos.prev (fun n => { n with next := some to_add })
    -- insertPosition.ptr->prev = to_add;
    let mem4 ← store mem3 insertPosition (fun n => { n with prev := some to_add })
    Except.ok { mem := mem4, root := l.root, tail := l.tail, size := l.size + 1 }

/-- Method `append(item)`: `insert(end(), item)`. -/
def append (l : Raw α) (item : α) : Except Error (Raw α) := insert l none item

/-- Method `prepend(item)`: `insert(begin(), item)`. -/
def prepend (l : Raw α) (item : α) : Except Error (Raw α) := insert l l.root item

/-- Method `erase(possition)`. -/
def erase (l : Raw α) (possition : Option Nat) : Except Error (Raw α) :=
  if l.isEmpty then Except.error Error.out_of_range
  else if possition = none then Except.error Error.out_of_range
  else if l.root = l.tail then do
    -- root = nullptr; tail = nullptr; delete possition.ptr; --size;
    let mem1 ← free l.mem possition
    Except.ok { mem := mem1, root := none, tail := none, size := l.size - 1 }
  else if possition = l.root then do
    -- root = root->next;
    let r ← load l.mem l.root
    -- root->prev = nullptr;
    let mem1 ← store l.mem r.next (fun n => { n with prev := none })
    let mem2 ← free mem1 possition
    Except.ok { mem := mem2, root := r.next, tail := l.tail, size := l.size - 1 }
  else if possition = l.tail then do
    -- tail = tail->prev;
    let t ← load l.mem l.tail
    -- tail->next = nullptr;
    let mem1 ← store l.mem t.prev (fun n => { n with next := none })
    let mem2 ← free mem1 possition
    Except.ok { mem := mem2, root := l.root, tail := t.prev, size := l.size - 1 }
  else do
    -- possition.ptr->prev->next = possition.ptr->next;
    let pos ← load l.mem possition
    let mem1 ← store l.mem pos.prev (fun n => { n with next := pos.next })
    -- possition.ptr->next->prev = possition.ptr->prev;
    let pos ← load mem1 possition
    let mem2 ← store mem1 pos.next (fun n => { n with prev := pos.prev })
    let mem3 ← free mem2 possition
    Except.ok { mem := mem3, root := l.root, tail := l.tail, size := l.size - 1 }

/-- The loop of `erase(firstIncluded, lastExcluded)`, in at most the given number of
rounds (`none` when the bound is reached); `temp` and `last` are the pointers `temp` and
`lastExcluded.ptr`. -/
def eraseRangeLoop : Nat → Raw α → Option Nat → Option Nat → Option (Except Error (Raw α))
  | 0, _, _, _ => none
  | n + 1, l, temp, last =>
    if temp = last then some (Except.ok l)
    else
      -- to_delete = temp; temp = temp->next;
      match load l.mem temp with
      | Except.error e => some (Except.error e)
      | Except.ok node =>
        -- erase(iterator(*this, to_delete));
        match erase l temp with
        | Except.error e => some (Except.error e)
        | Except.ok l1 => eraseRangeLoop n l1 node.next last

/-- Method `erase(firstIncluded, lastExcluded)`, its loop bounded by `fuel` rounds. -/
def eraseRange (fuel : Nat) (l : Raw α) (firstIncluded lastExcluded : Option Nat) :
    Option (Except Error (Raw α)) :=
  eraseRangeLoop fuel l firstIncluded lastExcluded

/-- Iterator `operator--` on the pointer `ptr` of an iterator of the list. -/
def prev (l : Raw α) (ptr : Option Nat) : Except Error (Option Nat) :=
  if ptr = l.root then Except.error Error.out_of_range
  else if ptr = none then Except.ok l.tail
  else do
    let n ← load l.mem ptr
    Except.ok n.prev

/-- Method `popFirst()`: the element returned and the list afterwards. `moved x` is the
value that `std::move` leaves in an element `x` it has moved from. -/
def popFirst (moved : α → α) (l : Raw α) : Except Error (α × Raw α) :=
  if l.isEmpty then Except.error Error.logic_error
  else do
    -- Type copy = std::move(root->data);
    let r ← load l.mem l.root
    let mem1 ← store l.mem l.root (fun n => { n with data := moved n.data })
    -- erase(begin());
    let l1 ← erase { l with mem := mem1 } l.root
    Except.ok (r.data, l1)

/-- Method `popLast()`: the element returned and the list afterwards. -/
def popLast (moved : α → α) (l : Raw α) : Except Error (α × Raw α) :=
  if l.isEmpty then Except.error Error.logic_error
  else do
    -- Type copy = std::move(tail->data);
    let t ← load l.mem l.tail
    let mem1 ← store l.mem l.tail (fun n => { n with data := moved n.data })
    -- erase(--end());
    let it ← prev { l with mem := mem1 } none
    let l1 ← erase { l with mem := mem1 } it
    Except.ok (t.data, l1)

/-- The pointer to the first node of a sequence of cells (address and data of a node),
or the pointer `q` for the empty sequence. -/
def firstAddr : List (Nat × α) → Option Nat → Option Nat
  | [], q => q
  | c :: _, _ => some c.1

/-- The pointer to the last node of a sequence of cells, or the pointer `p` for the empty
sequence. -/
def lastAddr : List (Nat × α) → Option Nat → Option Nat
  | [], p => p
  | c :: rest, _ => lastAddr rest (some c.1)

/-- The cells are nodes of the memory linked in a row: each holds its data, its `next`
link is the address of the cell after it (`q` for the last cell) and its `prev` link the
address of the cell before it (`p` for the first cell). -/
def Seg (mem : List (Option (Node α))) : Option Nat → List (Nat × α) → Option Nat → Prop
  | _, [], _ => True
  | p, c :: rest, q =>
    nodeAt mem c.1 = some { next := firstAddr rest q, prev := p, data := c.2 } ∧
      Seg mem (some c.1) rest q

instance Seg.instDecidable [DecidableEq α] (mem : List (Option (Node α))) :
    ∀ (p : Option Nat) (cells : List (Nat × α)) (q : Option Nat), Decidable (Seg mem p cells q)
  | _, [], _ => isTrue trivial
  | p, c :: rest, q =>
    @instDecidableAnd _ _ (inferInstanceAs (Decidable (nodeAt mem c.1 =
      some { next := firstAddr rest q, prev := p, data := c.2 })))
      (Seg.instDecidable mem (some c.1) rest q)

/-- The list invariant, for the sequence `cells` of the nodes of the list: the nodes are
pairwise distinct; following `next` from `root` visits them in order and ends after the
node `tail`, whose `next` is `nullptr`; the `prev` link of each node is the node before
it, that of the first node is `nullptr`; `root` and `tail` are `nullptr` exactly when
there is no node; and `size` is the number of nodes. -/
def Inv (l : Raw α) (cells : List (Nat × α)) : Prop :=
  (cells.map Prod.fst).Nodup ∧ Seg l.mem none cells none ∧
    l.root = firstAddr cells none ∧ l.tail = lastAddr cells none ∧ l.size = cells.length

instance Inv.instDecidable [DecidableEq α] (l : Raw α) (cells : List (Nat × α)) :
    Decidable (Inv l cells) :=
  inferInstanceAs (Decidable ((cells.map Prod.fst).Nodup ∧ Seg l.mem none cells none ∧
    l.root = firstAddr cells none ∧ l.tail = lastAddr cells none ∧ l.size = cells.length))

/-- The list of the elements that the nodes hold, with the counter of the list: the
description of the list used before this section. -/
def view (l : Raw α) (cells : List (Nat × α)) : LinkedList α :=
  { elems := cells.map Prod.snd, size := l.size }

/-- The pointer of the iterator at position `i` of the sequence of nodes: the address of
the node with `i` nodes before it, and `nullptr`, the pointer of `end()`, from the
number of nodes on. -/
def ptrAt (cells : List (Nat × α)) (i : Nat) : Option Nat :=
  (cells[i]?).map Prod.fst

end Raw

end LinkedList

/-! ## HashMap: data model -/

/-- The map: the array `data` of buckets and the `size` counter (`HashMap`). -/
structure HashMap (K V : Type) where
  data : List (LinkedList (K × V))
  size : Nat
  deriving DecidableEq, Repr

namespace HashMap

variable {K V : Type}

/-- The constant `BUCKET_COUNT` of the source. The functions below take the bucket count
as their first argument `B`, so that they can be evaluated with few buckets; the
theorems hold for every positive `B`, `BUCKET_COUNT` included. -/
def BUCKET_COUNT : Nat := 10000

/-- The fields `bucket` and `index` of a `ConstIterator`. -/
structure Iterator where
  bucket : Nat
  index : Nat
  deriving DecidableEq, Repr

/-- Default constructor `HashMap()`. -/
def empty (B : Nat) : HashMap K V :=
  { data := List.replicate B LinkedList.empty, size := 0 }

/-- The array element `data[i]` (an empty list stands for an element outside the array,
which no method reads: bucket indices are remainders modulo the bucket count). -/
def bucketAt (m : HashMap K V) (i : Nat) : LinkedList (K × V) :=
  m.data.getD i LinkedList.empty

/-- Method `isEmpty()`. -/
def isEmpty (m : HashMap K V) : Bool := m.size == 0

/-- Method `getSize()`. -/
def getSize (m : HashMap K V) : Nat := m.size

/-- Private method `getBucket(key)`, for the hash function `hash` of the key type. -/
def getBucket (B : Nat) (hash : K → Nat) (key : K) : Nat := hash key % B

/-- Method `end()`. -/
def «end» (B : Nat) (m : HashMap K V) : Iterator :=
  { bucket := B - 1, index := (m.bucketAt (B - 1)).getSize }

/-- The loop `for (it = data[bucket].begin(); it != data[bucket].end(); ++it, ++i)` with
the test `it->first == key`, over the chain from `it` on: the position of the first
node that holds the key. `find` returns it as the index `i`, `remove` erases at the
iterator `it`, which points to that position. -/
def chainFind [DecidableEq K] (key : K) : List (K × V) → Nat → Option Nat
  | [], _ => none
  | kv :: rest, i => if kv.1 = key then some i else chainFind key rest (i + 1)

/-- Method `find(key)`. -/
def find [DecidableEq K] (B : Nat) (hash : K → Nat) (m : HashMap K V) (key : K) : Iterator :=
  let bucket := getBucket B hash key
  match chainFind key (m.bucketAt bucket).elems 0 with
  | some i => { bucket := bucket, index := i }
  | none => «end» B m

/-- Private method `insert(key, value)`: the map afterwards and the returned iterator. -/
def insert [DecidableEq K] (B : Nat) (hash : K → Nat) (m : HashMap K V) (key : K) (value : V) :
    HashMap K V × Iterator :=
  let search := find B hash m key
  if search ≠ «end» B m then (m, search)
  else
    let bucket := getBucket B hash key
    let m1 : HashMap K V :=
      { data := m.data.set bucket ((m.bucketAt bucket).append (key, value)),
        size := m.size + 1 }
    (m1, { bucket := bucket, index := (m1.bucketAt bucket).getSize - 1 })

/-- Iterator `operator*`. -/
def deref (m : HashMap K V) (it : Iterator) : Except Error (K × V) :=
  if it.index ≥ (m.bucketAt it.bucket).getSize then Except.error Error.out_of_range
  else
    match (m.bucketAt it.bucket).plus (m.bucketAt it.bucket).begin it.index with
    | Except.error e => Except.error e
    | Except.ok p => (m.bucketAt it.bucket).deref p

/-- Write through a `mapped_type&` that refers to the value of the entry at a position
of a chain. -/
def setSecond : List (K × V) → Nat → V → List (K × V)
  | [], _, _ => []
  | kv :: rest, 0, x => (kv.1, x) :: rest
  | kv :: rest, i + 1, x => kv :: setSecond rest i x

/-- Write through the `mapped_type&` obtained from an iterator. -/
def setValueAt (m : HashMap K V) (it : Iterator) (x : V) : HashMap K V :=
  let chain := m.bucketAt it.bucket
  { data := m.data.set it.bucket { elems := setSecond chain.elems it.index x, size := chain.size },
    size := m.size }

/-- Method `operator[](key)`: the map afterwards and the iterator whose entry the
returned reference refers to. -/
def index [DecidableEq K] [Inhabited V] (B : Nat) (hash : K → Nat) (m : HashMap K V) (key : K) :
    Except Error (HashMap K V × Iterator) :=
  let res := insert B hash m key default
  match deref res.1 res.2 with
  | Except.error e => Except.error e
  | Except.ok _ => Except.ok res

/-- The statement `m[key] = value`. -/
def assign [DecidableEq K] [Inhabited V] (B : Nat) (hash : K → Nat) (m : HashMap K V) (key : K)
    (value : V) : Except Error (HashMap K V) :=
  match index B hash m key with
  | Except.error e => Except.error e
  | Except.ok res => Except.ok (setValueAt res.1 res.2 value)

/-- The expression `m[key]` read as a value: the map afterwards and the value read. -/
def access [DecidableEq K] [Inhabited V] (B : Nat) (hash : K → Nat) (m : HashMap K V) (key : K) :
    Except Error (HashMap K V × V) :=
  match index B hash m key with
  | Except.error e => Except.error e
  | Except.ok res =>
    match deref res.1 res.2 with
    | Except.error e => Except.error e
    | Except.ok kv => Except.ok (res.1, kv.2)

/-- Method `valueOf(key)`. -/
def valueOf [DecidableEq K] (B : Nat) (hash : K → Nat) (m : HashMap K V) (key : K) :
    Except Error V :=
  let search := find B hash m key
  if search = «end» B m then Except.error Error.out_of_range
  else
    match deref m search with
    | Except.error e => Except.error e
    | Except.ok kv => Except.ok kv.2

/-- Method `remove(const key_type&)`. -/
def remove [DecidableEq K] (B : Nat) (hash : K → Nat) (m : HashMap K V) (key : K) :
    Except Error (HashMap K V) :=
  if m.isEmpty then Except.error Error.out_of_range
  else
    let bucket := getBucket B hash key
    match chainFind key (m.bucketAt bucket).elems 0 with
    | some i =>
      match (m.bucketAt bucket).erase (some i) with
      | Except.error e => Except.error e
      | Except.ok l => Except.ok { data := m.data.set bucket l, size := m.size - 1 }
    | none => Except.error Error.out_of_range

/-- The inner loop of `operator==` over the two chains from `it_this` and `it_other` on:
`*it_other` throws when the other chain has ended. -/
def chainEqLoop [DecidableEq K] [DecidableEq V] :
    List (K × V) → List (K × V) → Except Error Bool
  | [], _ => Except.ok true
  | _ :: _, [] => Except.error Error.out_of_range
  | x :: xs, y :: ys => if x ≠ y then Except.ok false else chainEqLoop xs ys

/-- The outer loop `for (i = 0; i < BUCKET_COUNT; ++i)` of `operator==` from bucket `i`
on, `n` buckets being left. -/
def eqLoop [DecidableEq K] [DecidableEq V] (a b : HashMap K V) : Nat → Nat → Except Error Bool
  | 0, _ => Except.ok true
  | n + 1, i =>
    if (a.bucketAt i).getSize ≠ (b.bucketAt i).getSize then Except.ok false
    else
      match chainEqLoop (a.bucketAt i).elems (b.bucketAt i).elems with
      | Except.error e => Except.error e
      | Except.ok false => Except.ok false
      | Except.ok true => eqLoop a b n (i + 1)

/-- Method `operator==`. -/
def eq [DecidableEq K] [DecidableEq V] (B : Nat) (a b : HashMap K V) : Except Error Bool :=
  if a.size ≠ b.size then Except.ok false
  else eqLoop a b B 0

/-- One call: the map afterwards, or the exception thrown. -/
def step [DecidableEq K] [Inhabited V] (B : Nat) (hash : K → Nat) (m : HashMap K V) :
    Op K V → Except Error (HashMap K V)
  | Op.access k =>
    match access B hash m k with
    | Except.error e => Except.error e
    | Except.ok res => Except.ok res.1
  | Op.assign k v => assign B hash m k v
  | Op.remove k => remove B hash m k

/-- One call whose exception, if any, is caught by the caller: every method throws
before it changes the map, so the map is then the one before the call. -/
def applyOp [DecidableEq K] [Inhabited V] (B : Nat) (hash : K → Nat) (m : HashMap K V)
    (op : Op K V) : HashMap K V :=
  match step B hash m op with
  | Except.error _ => m
  | Except.ok m1 => m1

/-- A sequence of calls applied in order. -/
def run [DecidableEq K] [Inhabited V] (B : Nat) (hash : K → Nat) (m : HashMap K V)
    (ops : List (Op K V)) : HashMap K V :=
  ops.foldl (applyOp B hash) m

/-- The stored entries, bucket after bucket and in chain order within a bucket. -/
def entries (B : Nat) (m : HashMap K V) : List (K × V) :=
  (List.range B).flatMap (fun i => (m.bucketAt i).elems)

/-- The invariant of the map for `B` buckets and the hash function `hash`: the array has
`B > 0` buckets, every bucket is a well-formed list, the counter is the number of stored
entries, every key of bucket `i` has `hash key % B = i`, and no key occurs twice in a
chain. -/
def WF (B : Nat) (hash : K → Nat) (m : HashMap K V) : Prop :=
  0 < B ∧ m.data.length = B ∧
    (∀ i < B, LinkedList.WF (m.bucketAt i)) ∧
    m.size = (entries B m).length ∧
    (∀ i < B, ∀ kv ∈ (m.bucketAt i).elems, hash kv.1 % B = i) ∧
    (∀ i < B, ((m.bucketAt i).elems.map Prod.fst).Nodup)

instance WF.instDecidable [DecidableEq K] (B : Nat) (hash : K → Nat) (m : HashMap K V) :
    Decidable (WF B hash m) :=
  inferInstanceAs (Decidable (0 < B ∧ m.data.length = B ∧
    (∀ i < B, LinkedList.WF (m.bucketAt i)) ∧
    m.size = (entries B m).length ∧
    (∀ i < B, ∀ kv ∈ (m.bucketAt i).elems, hash kv.1 % B = i) ∧
    (∀ i < B, ((m.bucketAt i).elems.map Prod.fst).Nodup)))

/-- Method `remove(const key_type&)` as its caller sees it: the normal return or the
exception thrown, and the map as it is then. -/
def removeCall [DecidableEq K] (B : Nat) (hash : K → Nat) (m : HashMap K V) (key : K) :
    Except Error Unit × HashMap K V :=
  if m.isEmpty then (Except.error Error.out_of_range, m)
  else
    let bucket := getBucket B hash key
    match chainFind key (m.bucketAt bucket).elems 0 with
    | some i =>
      -- data[bucket].erase(it);
      let r := (m.bucketAt bucket).eraseCall (some i)
      match r.1 with
      | Except.error e => (Except.error e, HashMap.mk (m.data.set bucket r.2) m.size)
      -- --size;
      | Except.ok _ => (Except.ok (), HashMap.mk (m.data.set bucket r.2) (m.size - 1))
    | none => (Except.error Error.out_of_range, m)

/-- Method `remove(const const_iterator&)` as its caller sees it. -/
def removeAtCall [DecidableEq K] (B : Nat) (hash : K → Nat) (m : HashMap K V) (it : Iterator) :
    Except Error Unit × HashMap K V :=
  -- remove(it->first);
  match deref m it with
  | Except.error e => (Except.error e, m)
  | Except.ok kv => removeCall B hash m kv.1

/-- The loop `for (i = from; i < BUCKET_COUNT; ++i)` with the test
`data[i].getSize() != 0`, `n` buckets being left from bucket `i` on: the first bucket
that is not empty. -/
def nextScan (m : HashMap K V) : Nat → Nat → Option Nat
  | 0, _ => none
  | n + 1, i => if (m.bucketAt i).getSize ≠ 0 then some i else nextScan m n (i + 1)

/-- Method `begin()`. -/
def «begin» (B : Nat) (m : HashMap K V) : Iterator :=
  match nextScan m B 0 with
  | some i => { bucket := i, index := 0 }
  | none => { bucket := B - 1, index := 0 }

/-- Iterator `operator++`. -/
def next (B : Nat) (m : HashMap K V) (it : Iterator) : Except Error Iterator :=
  if it = «end» B m then Except.error Error.out_of_range
  else if it.index + 1 ≠ (m.bucketAt it.bucket).getSize then
    Except.ok { bucket := it.bucket, index := it.index + 1 }
  else
    match nextScan m (B - (it.bucket + 1)) (it.bucket + 1) with
    | some i => Except.ok { bucket := i, index := 0 }
    | none => Except.ok { bucket := B - 1, index := (m.bucketAt (B - 1)).getSize }

/-- The loop `for (i = bucket - 1; ; --i)` of `operator--` with the test
`data[i].getSize() != 0`, the argument being `i + 1`: the last bucket below that is not
empty. The loop has no bound: below bucket 0 it reads outside the array, which the
model marks `dangling`. -/
def prevScan (m : HashMap K V) : Nat → Except Error Iterator
  | 0 => Except.error Error.dangling
  | i + 1 =>
    if (m.bucketAt i).getSize ≠ 0 then
      Except.ok { bucket := i, index := (m.bucketAt i).getSize - 1 }
    else prevScan m i

/-- Iterator `operator--`. -/
def prev (B : Nat) (m : HashMap K V) (it : Iterator) : Except Error Iterator :=
  if it = «begin» B m then Except.error Error.out_of_range
  else if it.index ≠ 0 then Except.ok { bucket := it.bucket, index := it.index - 1 }
  else prevScan m it.bucket

/-- The loop `for (it = begin(); it != end(); ++it)` reading `*it` in each round: the
entries visited from `it` on. The first argument bounds the number of rounds; `none`
means the bound was reached before the loop ended. -/
def forwardLoop (B : Nat) (m : HashMap K V) : Nat → Iterator → Option (Except Error (List (K × V)))
  | 0, _ => none
  | n + 1, it =>
    if it = «end» B m then some (Except.ok [])
    else
      match deref m it with
      | Except.error e => some (Except.error e)
      | Except.ok kv =>
        match next B m it with
        | Except.error e => some (Except.error e)
        | Except.ok it1 =>
          match forwardLoop B m n it1 with
          | none => none
          | some (Except.error e) => some (Except.error e)
          | some (Except.ok rest) => some (Except.ok (kv :: rest))

/-- Forward iteration from `begin()` to `end()`, in at most `fuel` rounds. -/
def traverse (B : Nat) (m : HashMap K V) (fuel : Nat) : Option (Except Error (List (K × V))) :=
  forwardLoop B m fuel («begin» B m)

/-- The loop `for (const auto& it : other) insert(it.first, it.second);` of the copy
constructor and of the copy assignment, from the iterator `it` of `other` on, in at
most the given number of rounds; `self` is the map being built. -/
def copyLoop [DecidableEq K] (B : Nat) (hash : K → Nat) (other : HashMap K V) :
    Nat → Iterator → HashMap K V → Option (Except Error (HashMap K V))
  | 0, _, _ => none
  | n + 1, it, self =>
    if it = «end» B other then some (Except.ok self)
    else
      match deref other it with
      | Except.error e => some (Except.error e)
      | Except.ok kv =>
        match next B other it with
        | Except.error e => some (Except.error e)
        | Except.ok it1 => copyLoop B hash other n it1 (insert B hash self kv.1 kv.2).1

/-- Copy constructor `HashMap(const HashMap& other)`, its loop bounded by `fuel`
rounds. -/
def copy [DecidableEq K] (B : Nat) (hash : K → Nat) (fuel : Nat) (other : HashMap K V) :
    Option (Except Error (HashMap K V)) :=
  copyLoop B hash other fuel («begin» B other) (empty B)

/-- Copy assignment `operator=(const HashMap& other)`, its loop bounded by `fuel`
rounds; `sameObject` tells whether `this == &other`, in which case the map assigned to
is `other` itself. -/
def copyAssign [DecidableEq K] (B : Nat) (hash : K → Nat) (fuel : Nat) (sameObject : Bool)
    (self other : HashMap K V) : Option (Except Error (HashMap K V)) :=
  if sameObject then some (Except.ok self)
  else copyLoop B hash other fuel («begin» B other) (empty B)

/-- The iterators at the entries of bucket `b`, in chain order. -/
def bucketPositions (m : HashMap K V) (b : Nat) : List Iterator :=
  (List.range (m.bucketAt b).elems.length).map (fun j => { bucket := b, index := j })

/-- The iterators at the stored entries, bucket after bucket and in chain order within a
bucket. -/
def positions (B : Nat) (m : HashMap K V) : List Iterator :=
  (List.range B).flatMap (bucketPositions m)

end HashMap

/-! ## The maps in memory

The definitions above describe a map by its value: two maps are then two values, and a
change of one cannot show in the other. The definitions below follow the source statement
by statement on the nodes in memory. The memory is one list of nodes that all maps share,
a map is the fields of its object, and a pointer is the address of a node (`none` for
`nullptr`); `new` allocates at the first address past the memory in use and `delete` empties
the address. Two maps may therefore point to the same nodes, and a write through one map is
then seen through the other. -/

namespace TreeMap

open Tree

/-- Class `Node` of the tree: the field `data`, a key and a value, and the pointers
`parent`, `left` and `right`. -/
structure Node (K V : Type) where
  key : K
  value : V
  parent : Option Nat
  left : Option Nat
  right : Option Nat
  deriving DecidableEq, Repr

/-- The fields `root` and `size` of a `TreeMap` object. -/
structure Raw where
  root : Option Nat
  size : Nat
  deriving DecidableEq, Repr

namespace Raw

variable {K V : Type}

/-- The node allocated at an address, if any. -/
def nodeAt (mem : List (Option (Node K V))) (a : Nat) : Option (Node K V) :=
  mem.getD a none

/-- A read through a pointer, `p->...`. Reading through `nullptr` or through a pointer to
no allocated node has no defined outcome; the model marks it `dangling`. -/
def load (mem : List (Option (Node K V))) (p : Option Nat) : Except Error (Node K V) :=
  match p with
  | none => Except.error Error.dangling
  | some a =>
    match nodeAt mem a with
    | none => Except.error Error.dangling
    | some n => Except.ok n

/-- A write through a pointer, `p->... = ...`: the memory afterwards. -/
def store (mem : List (Option (Node K V))) (p : Option Nat) (f : Node K V → Node K V) :
    Except Error (List (Option (Node K V))) :=
  match p with
  | none => Except.error Error.dangling
  | some a =>
    match nodeAt mem a with
    | none => Except.error Error.dangling
    | some n => Except.ok (mem.set a (some (f n)))

/-- The expression `delete p`: the memory afterwards. Deleting `nullptr` does nothing. -/
def free (mem : List (Option (Node K V))) (p : Option Nat) :
    Except Error (List (Option (Node K V))) :=
  match p with
  | none => Except.ok mem
  | some a =>
    match nodeAt mem a with
    | none => Except.error Error.dangling
    | some _ => Except.ok (mem.set a none)

/-- Default constructor `TreeMap()`. -/
def empty : Raw := { root := none, size := 0 }

/-- Method `isEmpty()`. -/
def isEmpty (self : Raw) : Bool := self.size == 0

/-- The loop of `find(key)` from the pointer `temp`, in at most the given number of
rounds (`none` when the bound is reached): the pointer `node` of the iterator returned,
`nullptr` for `end()`. -/
def findLoop [LinearOrder K] :
    Nat → List (Option (Node K V)) → Option Nat → K → Option (Except Error (Option Nat))
  | 0, _, _, _ => none
  | n + 1, mem, temp, key =>
    -- if (temp == nullptr) return end();
    if temp = none then some (Except.ok none)
    else
      match load mem temp with
      | Except.error e => some (Except.error e)
      | Except.ok nd =>
        if nd.key = key then some (Except.ok temp)
        else if key > nd.key then findLoop n mem nd.right key
        else findLoop n mem nd.left key

/-- Method `find(key)`, its loop bounded by `fuel` rounds. -/
def find [LinearOrder K] (fuel : Nat) (mem : List (Option (Node K V))) (self : Raw) (key : K) :
    Option (Except Error (Option Nat)) :=
  findLoop fuel mem self.root key

/-- The descent loop of `insert(key, value)` from the pointer `iter`, `to_add` being the
new node: the memory once the node is linked in. -/
def insertLoop [LinearOrder K] :
    Nat → List (Option (Node K V)) → Option Nat → Option Nat → K →
      Option (Except Error (List (Option (Node K V))))
  | 0, _, _, _, _ => none
  | n + 1, mem, iter, to_add, key =>
    match load mem iter with
    | Except.error e => some (Except.error e)
    | Except.ok nd =>
      if key < nd.key then
        if nd.left = none then
          -- iter->left = to_add; to_add->parent = iter;
          some (do
            let mem1 ← store mem iter (fun x => { x with left := to_add })
            store mem1 to_add (fun x => { x with parent := iter }))
        else insertLoop n mem nd.left to_add key
      else
        if nd.right = none then
          -- iter->right = to_add; to_add->parent = iter;
          some (do
            let mem1 ← store mem iter (fun x => { x with right := to_add })
            store mem1 to_add (fun x => { x with parent := iter }))
        else insertLoop n mem nd.right to_add key

/-- Private method `insert(key, value)`: the memory and the fields of the map afterwards
and the pointer of the iterator returned. -/
def insert [LinearOrder K] (fuel : Nat) (mem : List (Option (Node K V))) (self : Raw)
    (key : K) (value : V) : Option (Except Error (List (Option (Node K V)) × Raw × Option Nat)) :=
  match find fuel mem self key with
  | none => none
  | some (Except.error e) => some (Except.error e)
  | some (Except.ok search) =>
    if search ≠ none then some (Except.ok (mem, self, search))
    else
      -- Node* to_add = new Node(std::make_pair(key, value)); ++size;
      let to_add := some mem.length
      let mem0 := mem ++ [some (Node.mk key value none none none)]
      let size1 := self.size + 1
      if self.root = none then
        some (Except.ok (mem0, { root := to_add, size := size1 }, to_add))
      else
        match insertLoop fuel mem0 self.root to_add key with
        | none => none
        | some (Except.error e) => some (Except.error e)
        | some (Except.ok mem1) => some (Except.ok (mem1, { root := self.root, size := size1 }, to_add))

/-- Method `operator[](key)`: the memory and the fields of the map afterwards, and the
node whose value the returned reference refers to. -/
def index [LinearOrder K] [Inhabited V] (fuel : Nat) (mem : List (Option (Node K V)))
    (self : Raw) (key : K) : Option (Except Error (List (Option (Node K V)) × Raw × Nat)) :=
  match insert fuel mem self key default with
  | none => none
  | some (Except.error e) => some (Except.error e)
  | some (Except.ok (mem1, self1, it)) =>
    -- operator->: the iterator throws at `nullptr`
    match it with
    | none => some (Except.error Error.out_of_range)
    | some a =>
      match nodeAt mem1 a with
      | none => some (Except.error Error.dangling)
      | some _ => some (Except.ok (mem1, self1, a))

/-- The statement `m[key] = value`. -/
def assign [LinearOrder K] [Inhabited V] (fuel : Nat) (mem : List (Option (Node K V)))
    (self : Raw) (key : K) (value : V) : Option (Except Error (List (Option (Node K V)) × Raw)) :=
  match index fuel mem self key with
  | none => none
  | some (Except.error e) => some (Except.error e)
  | some (Except.ok (mem1, self1, a)) =>
    match store mem1 (some a) (fun x => { x with value := value }) with
    | Except.error e => some (Except.error e)
    | Except.ok mem2 => some (Except.ok (mem2, self1))

/-- The expression `m[key]` read as a value: the memory and the fields of the map
afterwards, and the value read. -/
def access [LinearOrder K] [Inhabited V] (fuel : Nat) (mem : List (Option (Node K V)))
    (self : Raw) (key : K) : Option (Except Error (List (Option (Node K V)) × Raw × V)) :=
  match index fuel mem self key with
  | none => none
  | some (Except.error e) => some (Except.error e)
  | some (Except.ok (mem1, self1, a)) =>
    match load mem1 (some a) with
    | Except.error e => some (Except.error e)
    | Except.ok nd => some (Except.ok (mem1, self1, nd.value))

/-- The statements of `erase(node)` that make the link to `node` point to `child`: the
`left` or `right` pointer of its parent, or `root` when it has no parent. -/
def relink (mem : List (Option (Node K V))) (self : Raw) (nodePtr child : Option Nat) :
    Except Error (List (Option (Node K V)) × Raw) := do
  let nd ← load mem nodePtr
  if nd.parent ≠ none then
    let par ← load mem nd.parent
    if nodePtr = par.left then
      -- node->parent->left = child;
      let mem1 ← store mem nd.parent (fun x => { x with left := child })
      Except.ok (mem1, self)
    else
      -- node->parent->right = child;
      let mem1 ← store mem nd.parent (fun x => { x with right := child })
      Except.ok (mem1, self)
  else
    -- root = child;
    Except.ok (mem, { self with root := child })

/-- The loop `while (min->left != nullptr) min = min->left;`, in at most the given
number of rounds. -/
def leftmostLoop :
    Nat → List (Option (Node K V)) → Option Nat → Option (Except Error (Option Nat))
  | 0, _, _ => none
  | n + 1, mem, min =>
    match load mem min with
    | Except.error e => some (Except.error e)
    | Except.ok nd =>
      if nd.left ≠ none then leftmostLoop n mem nd.left else some (Except.ok min)

/-- Private method `erase(node)`, with the three branches of the source in its order and
with its conditions; the first argument bounds the rounds of the loop and the depth of
the recursion of the third branch. -/
def erase : Nat → List (Option (Node K V)) → Raw → Option Nat →
    Option (Except Error (List (Option (Node K V)) × Raw))
  | 0, _, _, _ => none
  | n + 1, mem, self, nodePtr =>
    match load mem nodePtr with
    | Except.error e => some (Except.error e)
    | Except.ok nd =>
      -- no children
      if nd.left = none ∧ nd.right = none then
        some (do
          let res ← relink mem self nodePtr none
          let mem2 ← free res.1 nodePtr
          Except.ok (mem2, res.2))
      -- one child
      else if nd.left ≠ none ∨ nd.right ≠ none then
        let child := if nd.left ≠ none then nd.left else nd.right
        some (do
          let res ← relink mem self nodePtr child
          -- child->parent = node->parent;
          let nd1 ← load res.1 nodePtr
          let mem2 ← store res.1 child (fun x => { x with parent := nd1.parent })
          let mem3 ← free mem2 nodePtr
          Except.ok (mem3, res.2))
      -- left and right children
      else
        match leftmostLoop n mem nd.right with
        | none => none
        | some (Except.error e) => some (Except.error e)
        | some (Except.ok min) =>
          match load mem min with
          | Except.error e => some (Except.error e)
          | Except.ok mn =>
            -- Node* holder = new Node(..., node->parent, node->left, node->right);
            let holder := some mem.length
            let mem0 := mem ++ [some (Node.mk mn.key mn.value nd.parent nd.left nd.right)]
            match (do
              let res ← relink mem0 self nodePtr holder
              let mem2 ← free res.1 nodePtr
              Except.ok (mem2, res.2)) with
            | Except.error e => some (Except.error e)
            | Except.ok res => erase n res.1 res.2 min

/-- Method `remove(const key_type&)`, which is `remove(find(key))`. -/
def remove [LinearOrder K] (fuel : Nat) (mem : List (Option (Node K V))) (self : Raw)
    (key : K) : Option (Except Error (List (Option (Node K V)) × Raw)) :=
  match find fuel mem self key with
  | none => none
  | some (Except.error e) => some (Except.error e)
  | some (Except.ok it) =>
    if self.isEmpty then some (Except.error Error.out_of_range)
    else if it = none then some (Except.error Error.out_of_range)
    else
      -- erase(it.node); --size;
      match erase fuel mem self it with
      | none => none
      | some (Except.error e) => some (Except.error e)
      | some (Except.ok res) => some (Except.ok (res.1, { res.2 with size := res.2.size - 1 }))

/-- One call: the memory and the fields of the map afterwards, or the exception thrown. -/
def step [LinearOrder K] [Inhabited V] (fuel : Nat) (mem : List (Option (Node K V)))
    (self : Raw) : Op K V → Option (Except Error (List (Option (Node K V)) × Raw))
  | Op.access k =>
    match access fuel mem self k with
    | none => none
    | some (Except.error e) => some (Except.error e)
    | some (Except.ok res) => some (Except.ok (res.1, res.2.1))
  | Op.assign k v => assign fuel mem self k v
  | Op.remove k => remove fuel mem self k

/-- One call whose exception, if any, is caught by the caller: every method throws
before its first write, so the memory and the map are then those before the call. -/
def applyOp [LinearOrder K] [Inhabited V] (fuel : Nat)
    (s : List (Option (Node K V)) × Raw) (op : Op K V) :
    Option (List (Option (Node K V)) × Raw) :=
  match step fuel s.1 s.2 op with
  | none => none
  | some (Except.error _) => some s
  | some (Except.ok s1) => some s1

/-- A sequence of calls applied in order, each with its loops bounded by `fuel`. -/
def run [LinearOrder K] [Inhabited V] (fuel : Nat) :
    List (Option (Node K V)) × Raw → List (Op K V) → Option (List (Option (Node K V)) × Raw)
  | s, [] => some s
  | s, op :: ops =>
    match applyOp fuel s op with
    | none => none
    | some s1 => run fuel s1 ops

/-- Private method `clear(node)`, its recursion bounded by the first argument. -/
def clear : Nat → List (Option (Node K V)) → Option Nat →
    Option (Except Error (List (Option (Node K V))))
  | 0, _, _ => none
  | n + 1, mem, nodePtr =>
    if nodePtr = none then some (Except.ok mem)
    else
      match load mem nodePtr with
      | Except.error e => some (Except.error e)
      | Except.ok nd =>
        -- clear(node->left);
        match clear n mem nd.left with
        | none => none
        | some (Except.error e) => some (Except.error e)
        | some (Except.ok mem1) =>
          -- clear(node->right);
          match load mem1 nodePtr with
          | Except.error e => some (Except.error e)
          | Except.ok nd1 =>
            match clear n mem1 nd1.right with
            | none => none
            | some (Except.error e) => some (Except.error e)
            | some (Except.ok mem2) =>
              -- delete node;
              some (free mem2 nodePtr)

/-- Private method `copyTreeStructure(parent, other_node)`, its recursion bounded by the
first argument: the memory afterwards and the pointer returned. -/
def copyTreeStructure : Nat → List (Option (Node K V)) → Option Nat → Option Nat →
    Option (Except Error (List (Option (Node K V)) × Option Nat))
  | 0, _, _, _ => none
  | n + 1, mem, parent, other_node =>
    if other_node = none then some (Except.ok (mem, none))
    else
      match load mem other_node with
      | Except.error e => some (Except.error e)
      | Except.ok src =>
        -- Node* to_add = new Node(other_node->data, parent);
        let to_add := some mem.length
        let mem0 := mem ++ [some (Node.mk src.key src.value parent none none)]
        -- to_add->left = copyTreeStructure(to_add, other_node->left);
        match load mem0 other_node with
        | Except.error e => some (Except.error e)
        | Except.ok src1 =>
          match copyTreeStructure n mem0 to_add src1.left with
          | none => none
          | some (Except.error e) => some (Except.error e)
          | some (Except.ok (mem1, l)) =>
            match store mem1 to_add (fun x => { x with left := l }) with
            | Except.error e => some (Except.error e)
            | Except.ok mem2 =>
              -- to_add->right = copyTreeStructure(to_add, other_node->right);
              match load mem2 other_node with
              | Except.error e => some (Except.error e)
              | Except.ok src2 =>
                match copyTreeStructure n mem2 to_add src2.right with
                | none => none
                | some (Except.error e) => some (Except.error e)
                | some (Except.ok (mem3, r)) =>
                  match store mem3 to_add (fun x => { x with right := r }) with
                  | Except.error e => some (Except.error e)
                  | Except.ok mem4 => some (Except.ok (mem4, to_add))

/-- Copy constructor `TreeMap(const TreeMap& other)`: the memory afterwards and the
fields of the new map. -/
def copy (fuel : Nat) (mem : List (Option (Node K V))) (other : Raw) :
    Option (Except Error (List (Option (Node K V)) × Raw)) :=
  match copyTreeStructure fuel mem none other.root with
  | none => none
  | some (Except.error e) => some (Except.error e)
  | some (Except.ok (mem1, r)) => some (Except.ok (mem1, { root := r, size := other.size }))

/-- Copy assignment `operator=(const TreeMap& other)`; `sameObject` tells whether
`this == &other`. -/
def copyAssign (fuel : Nat) (sameObject : Bool) (mem : List (Option (Node K V)))
    (self other : Raw) : Option (Except Error (List (Option (Node K V)) × Raw)) :=
  if sameObject then some (Except.ok (mem, self))
  else
    -- clear(root);
    match clear fuel mem self.root with
    | none => none
    | some (Except.error e) => some (Except.error e)
    | some (Except.ok mem1) =>
      -- root = copyTreeStructure(nullptr, other.root); size = other.size;
      match copyTreeStructure fuel mem1 none other.root with
      | none => none
      | some (Except.error e) => some (Except.error e)
      | some (Except.ok (mem2, r)) => some (Except.ok (mem2, { root := r, size := other.size }))

/-- The tree of a map in memory without the addresses: the tree of keys and values. -/
def strip : Tree (Nat × K) V → Tree K V
  | null => null
  | node l ak v r => node (strip l) ak.2 v (strip r)

/-- The pointer to the root node of a tree of nodes. -/
def rootPtr : Tree (Nat × K) V → Option Nat
  | null => none
  | node _ ak _ _ => some ak.1

/-- The addresses of the nodes of a tree of nodes. -/
def addrs : Tree (Nat × K) V → List Nat
  | null => []
  | node l ak _ r => ak.1 :: (addrs l ++ addrs r)

/-- The memory holds the tree `t`, each node of `t` given with its address: the node at
that address has the key and the value, its `left` and `right` point to the roots of the
subtrees, and its `parent` points to the node above (`parent` for the root of `t`). -/
def Shape (mem : List (Option (Node K V))) : Option Nat → Tree (Nat × K) V → Prop
  | _, null => True
  | parent, node l ak v r =>
    nodeAt mem ak.1 = some (Node.mk ak.2 v parent (rootPtr l) (rootPtr r)) ∧
    Shape mem (some ak.1) l ∧ Shape mem (some ak.1) r

instance Shape.instDecidable [DecidableEq K] [DecidableEq V] (mem : List (Option (Node K V))) :
    ∀ (parent : Option Nat) (t : Tree (Nat × K) V), Decidable (Shape mem parent t)
  | _, null => isTrue trivial
  | parent, node l ak v r =>
    @instDecidableAnd _ _ (inferInstanceAs (Decidable (nodeAt mem ak.1 =
      some (Node.mk ak.2 v parent (rootPtr l) (rootPtr r)))))
      (@instDecidableAnd _ _ (Shape.instDecidable mem (some ak.1) l)
        (Shape.instDecidable mem (some ak.1) r))

/-- The map in memory: `root` points to the root of the tree `t` held by the memory, and
the nodes of `t` are pairwise distinct. -/
def Inv (mem : List (Option (Node K V))) (self : Raw) (t : Tree (Nat × K) V) : Prop :=
  (addrs t).Nodup ∧ Shape mem none t ∧ self.root = rootPtr t

instance Inv.instDecidable [DecidableEq K] [DecidableEq V] (mem : List (Option (Node K V)))
    (self : Raw) (t : Tree (Nat × K) V) : Decidable (Inv mem self t) :=
  inferInstanceAs (Decidable ((addrs t).Nodup ∧ Shape mem none t ∧ self.root = rootPtr t))

/-- The value of a map in memory: the tree of its keys and values and its counter, the
description of the map used before this section. -/
def view (self : Raw) (t : Tree (Nat × K) V) : TreeMap K V :=
  { root := strip t, size := self.size }

/-- The pointer `node` of the iterator at a node given by its path from the root, and
`nullptr` for `end()`. -/
def ptrAt (t : Tree (Nat × K) V) : TreeMap.Iterator → Option Nat
  | none => none
  | some p => rootPtr (subtreeAt t p)

/-- The memory `mem1` has the nodes of `mem` outside the addresses `s`: it is at least as
long, and at every address of `mem` that is not in `s` it holds what `mem` holds. -/
def Frame (mem mem1 : List (Option (Node K V))) (s : List Nat) : Prop :=
  mem.length ≤ mem1.length ∧ ∀ a, a < mem.length → a ∉ s → nodeAt mem1 a = nodeAt mem a

end Raw

end TreeMap

namespace LinkedList

namespace Raw

variable {α : Type}

/-- The loop `while (root != nullptr) { temp = root->next; delete root; root = temp; }`
of `clear()`, in at most the given number of rounds: the memory afterwards. -/
def clearLoop : Nat → List (Option (Node α)) → Option Nat →
    Option (Except Error (List (Option (Node α))))
  | 0, _, _ => none
  | n + 1, mem, root =>
    if root = none then some (Except.ok mem)
    else
      match load mem root with
      | Except.error e => some (Except.error e)
      | Except.ok nd =>
        match free mem root with
        | Except.error e => some (Except.error e)
        | Except.ok mem1 => clearLoop n mem1 nd.next

/-- Private method `clear()`, which the destructor calls, its loop bounded by `fuel`
rounds. -/
def clear (fuel : Nat) (l : Raw α) : Option (Except Error (Raw α)) :=
  -- size = 0; while (...) ...; tail = nullptr;
  match clearLoop fuel l.mem l.root with
  | none => none
  | some (Except.error e) => some (Except.error e)
  | some (Except.ok mem1) => some (Except.ok { mem := mem1, root := none, tail := none, size := 0 })

end Raw

end LinkedList

namespace HashMap

/-- The fields `root`, `tail` and `size` of a `LinkedList` object, an element of the
array `data`. -/
structure Bucket where
  root : Option Nat
  tail : Option Nat
  size : Nat
  deriving DecidableEq, Repr

/-- The memory that hash maps share: the nodes of their lists, and the arrays of lists
that `new LinkedList<value_type>[BUCKET_COUNT]` allocates (`none` where no node, or no
array, is allocated). -/
structure Heap (K V : Type) where
  nodes : List (Option (LinkedList.Node (K × V)))
  arrays : List (Option (List Bucket))
  deriving DecidableEq, Repr

/-- The fields `data`, the address of an array, and `size` of a `HashMap` object. -/
structure Raw where
  data : Option Nat
  size : Nat
  deriving DecidableEq, Repr

namespace Raw

variable {K V : Type}

/-- The array that the pointer `data` points to; `dangling` when it points to no
allocated array. -/
def arrayAt (hp : Heap K V) (data : Option Nat) : Except Error (List Bucket) :=
  match data with
  | none => Except.error Error.dangling
  | some d =>
    match hp.arrays.getD d none with
    | none => Except.error Error.dangling
    | some arr => Except.ok arr

/-- The list `data[i]`: its fields, with the memory of nodes. -/
def listAt (hp : Heap K V) (data : Option Nat) (i : Nat) :
    Except Error (LinkedList.Raw (K × V)) :=
  match arrayAt hp data with
  | Except.error e => Except.error e
  | Except.ok arr =>
    match arr[i]? with
    | none => Except.error Error.dangling
    | some b => Except.ok { mem := hp.nodes, root := b.root, tail := b.tail, size := b.size }

/-- The memory once a method of the list `data[i]` has run and left the list `l`. -/
def putList (hp : Heap K V) (data : Option Nat) (i : Nat) (l : LinkedList.Raw (K × V)) :
    Except Error (Heap K V) :=
  match data with
  | none => Except.error Error.dangling
  | some d =>
    match arrayAt hp data with
    | Except.error e => Except.error e
    | Except.ok arr =>
      if i < arr.length then
        Except.ok { nodes := l.mem,
                    arrays := hp.arrays.set d (some (arr.set i (Bucket.mk l.root l.tail l.size))) }
      else Except.error Error.dangling

/-- Default constructor `HashMap()`: the memory with the new array of `B` empty lists,
and the fields of the new map. -/
def create (B : Nat) (hp : Heap K V) : Heap K V × Raw :=
  ({ nodes := hp.nodes,
     arrays := hp.arrays ++ [some (List.replicate B (Bucket.mk none none 0))] },
   { data := some hp.arrays.length, size := 0 })

/-- Method `isEmpty()`. -/
def isEmpty (self : Raw) : Bool := self.size == 0

/-- Method `end()`. -/
def «end» (B : Nat) (hp : Heap K V) (self : Raw) : Except Error Iterator :=
  match listAt hp self.data (B - 1) with
  | Except.error e => Except.error e
  | Except.ok l => Except.ok { bucket := B - 1, index := l.size }

/-- The loop `for (it = data[bucket].begin(); it != data[bucket].end(); ++it, ++i)` of
`find` from the pointer `it` and the index `i`, in at most the given number of rounds:
the index at which the key is found, if it is. -/
def findLoop [DecidableEq K] : Nat → List (Option (LinkedList.Node (K × V))) → Option Nat →
    Nat → K → Option (Except Error (Option Nat))
  | 0, _, _, _, _ => none
  | n + 1, mem, it, i, key =>
    if it = none then some (Except.ok none)
    else
      match LinkedList.Raw.load mem it with
      | Except.error e => some (Except.error e)
      | Except.ok nd =>
        if nd.data.1 = key then some (Except.ok (some i))
        else findLoop n mem nd.next (i + 1) key

/-- Method `find(key)`, its loop bounded by `fuel` rounds. -/
def find [DecidableEq K] (B : Nat) (hash : K → Nat) (fuel : Nat) (hp : Heap K V) (self : Raw)
    (key : K) : Option (Except Error Iterator) :=
  let bucket := getBucket B hash key
  match listAt hp self.data bucket with
  | Except.error e => some (Except.error e)
  | Except.ok l =>
    match findLoop fuel hp.nodes l.root 0 key with
    | none => none
    | some (Except.error e) => some (Except.error e)
    | some (Except.ok (some i)) => some (Except.ok { bucket := bucket, index := i })
    | some (Except.ok none) => some («end» B hp self)

/-- Private method `insert(key, value)`: the memory and the fields of the map afterwards
and the iterator returned. -/
def insert [DecidableEq K] (B : Nat) (hash : K → Nat) (fuel : Nat) (hp : Heap K V) (self : Raw)
    (key : K) (value : V) : Option (Except Error (Heap K V × Raw × Iterator)) :=
  match find B hash fuel hp self key with
  | none => none
  | some (Except.error e) => some (Except.error e)
  | some (Except.ok search) =>
    match «end» B hp self with
    | Except.error e => some (Except.error e)
    | Except.ok last =>
      if search ≠ last then some (Except.ok (hp, self, search))
      else
        let bucket := getBucket B hash key
        some (do
          -- data[bucket].append(std::make_pair(key, value));
          let l ← listAt hp self.data bucket
          let l1 ← LinkedList.Raw.append l (key, value)
          let hp1 ← putList hp self.data bucket l1
          -- ++size; return iterator(*this, bucket, data[bucket].getSize() - 1);
          Except.ok (hp1, { data := self.data, size := self.size + 1 },
            { bucket := bucket, index := l1.size - 1 }))

/-- The loop of `operator+` of the list iterator from the pointer `ptr`, `d` steps being
left, in at most the given number of rounds. -/
def plusLoop : Nat → List (Option (LinkedList.Node (K × V))) → Option Nat → Int →
    Option (Except Error (Option Nat))
  | 0, _, _, _ => none
  | n + 1, mem, ptr, d =>
    if d = 0 then some (Except.ok ptr)
    else if ptr = none then some (Except.error Error.out_of_range)
    else
      match LinkedList.Raw.load mem ptr with
      | Except.error e => some (Except.error e)
      | Except.ok nd => plusLoop n mem nd.next (d - 1)

/-- Iterator `operator*`: the node whose `data` the returned reference refers to. -/
def deref (fuel : Nat) (hp : Heap K V) (self : Raw) (it : Iterator) :
    Option (Except Error Nat) :=
  match listAt hp self.data it.bucket with
  | Except.error e => some (Except.error e)
  | Except.ok l =>
    if it.index ≥ l.size then some (Except.error Error.out_of_range)
    else
      -- *(parent.data[bucket].begin() + index)
      match plusLoop fuel hp.nodes l.root it.index with
      | none => none
      | some (Except.error e) => some (Except.error e)
      | some (Except.ok none) => some (Except.error Error.out_of_range)
      | some (Except.ok (some a)) =>
        match LinkedList.Raw.nodeAt hp.nodes a with
        | none => some (Except.error Error.dangling)
        | some _ => some (Except.ok a)

/-- Method `operator[](key)`: the memory and the fields of the map afterwards, and the
node whose value the returned reference refers to. -/
def index [DecidableEq K] [Inhabited V] (B : Nat) (hash : K → Nat) (fuel : Nat) (hp : Heap K V)
    (self : Raw) (key : K) : Option (Except Error (Heap K V × Raw × Nat)) :=
  match insert B hash fuel hp self key default with
  | none => none
  | some (Except.error e) => some (Except.error e)
  | some (Except.ok (hp1, self1, it)) =>
    match deref fuel hp1 self1 it with
    | none => none
    | some (Except.error e) => some (Except.error e)
    | some (Except.ok a) => some (Except.ok (hp1, self1, a))

/-- The statement `m[key] = value`. -/
def assign [DecidableEq K] [Inhabited V] (B : Nat) (hash : K → Nat) (fuel : Nat) (hp : Heap K V)
    (self : Raw) (key : K) (value : V) : Option (Except Error (Heap K V × Raw)) :=
  match index B hash fuel hp self key with
  | none => none
  | some (Except.error e) => some (Except.error e)
  | some (Except.ok (hp1, self1, a)) =>
    match LinkedList.Raw.store hp1.nodes (some a) (fun x => { x with data := (x.data.1, value) }) with
    | Except.error e => some (Except.error e)
    | Except.ok nodes2 => some (Except.ok ({ nodes := nodes2, arrays := hp1.arrays }, self1))

/-- The expression `m[key]` read as a value: the memory and the fields of the map
afterwards, and the value read. -/
def access [DecidableEq K] [Inhabited V] (B : Nat) (hash : K → Nat) (fuel : Nat) (hp : Heap K V)
    (self : Raw) (key : K) : Option (Except Error (Heap K V × Raw × V)) :=
  match index B hash fuel hp self key with
  | none => none
  | some (Except.error e) => some (Except.error e)
  | some (Except.ok (hp1, self1, a)) =>
    match LinkedList.Raw.load hp1.nodes (some a) with
    | Except.error e => some (Except.error e)
    | Except.ok nd => some (Except.ok (hp1, self1, nd.data.2))

/-- The loop `for (it = data[bucket].begin(); it != data[bucket].end(); ++it)` of
`remove` from the pointer `it`, in at most the given number of rounds: the pointer to
the node that holds the key, `nullptr` when the loop ends without one. -/
def removeLoop [DecidableEq K] : Nat → List (Option (LinkedList.Node (K × V))) → Option Nat →
    K → Option (Except Error (Option Nat))
  | 0, _, _, _ => none
  | n + 1, mem, it, key =>
    if it = none then some (Except.ok none)
    else
      match LinkedList.Raw.load mem it with
      | Except.error e => some (Except.error e)
      | Except.ok nd =>
        if nd.data.1 = key then some (Except.ok it)
        else removeLoop n mem nd.next key

/-- Method `remove(const key_type&)`, its loop bounded by `fuel` rounds. -/
def remove [DecidableEq K] (B : Nat) (hash : K → Nat) (fuel : Nat) (hp : Heap K V) (self : Raw)
    (key : K) : Option (Except Error (Heap K V × Raw)) :=
  if self.isEmpty then some (Except.error Error.out_of_range)
  else
    let bucket := getBucket B hash key
    match listAt hp self.data bucket with
    | Except.error e => some (Except.error e)
    | Except.ok l =>
      match removeLoop fuel hp.nodes l.root key with
      | none => none
      | some (Except.error e) => some (Except.error e)
      | some (Except.ok none) => some (Except.error Error.out_of_range)
      | some (Except.ok (some a)) =>
        some (do
          -- data[bucket].erase(it); --size;
          let l1 ← LinkedList.Raw.erase l (some a)
          let hp1 ← putList hp self.data bucket l1
          Except.ok (hp1, { data := self.data, size := self.size - 1 }))

/-- One call: the memory and the fields of the map afterwards, or the exception thrown. -/
def step [DecidableEq K] [Inhabited V] (B : Nat) (hash : K → Nat) (fuel : Nat) (hp : Heap K V)
    (self : Raw) : Op K V → Option (Except Error (Heap K V × Raw))
  | Op.access k =>
    match access B hash fuel hp self k with
    | none => none
    | some (Except.error e) => some (Except.error e)
    | some (Except.ok res) => some (Except.ok (res.1, res.2.1))
  | Op.assign k v => assign B hash fuel hp self k v
  | Op.remove k => remove B hash fuel hp self k

/-- One call whose exception, if any, is caught by the caller: every method throws
before its first write, so the memory and the map are then those before the call. -/
def applyOp [DecidableEq K] [Inhabited V] (B : Nat) (hash : K → Nat) (fuel : Nat)
    (s : Heap K V × Raw) (op : Op K V) : Option (Heap K V × Raw) :=
  match step B hash fuel s.1 s.2 op with
  | none => none
  | some (Except.error _) => some s
  | some (Except.ok s1) => some s1

/-- A sequence of calls applied in order, each with its loops bounded by `fuel`. -/
def run [DecidableEq K] [Inhabited V] (B : Nat) (hash : K → Nat) (fuel : Nat) :
    Heap K V × Raw → List (Op K V) → Option (Heap K V × Raw)
  | s, [] => some s
  | s, op :: ops =>
    match applyOp B hash fuel s op with
    | none => none
    | some s1 => run B hash fuel s1 ops

/-- The loop `for (i = from; i < BUCKET_COUNT; ++i)` with the test
`data[i].getSize() != 0`, `n` buckets being left from bucket `i` on: the first bucket
that is not empty. -/
def nextScan (hp : Heap K V) (data : Option Nat) : Nat → Nat → Except Error (Option Nat)
  | 0, _ => Except.ok none
  | n + 1, i =>
    match listAt hp data i with
    | Except.error e => Except.error e
    | Except.ok l => if l.size ≠ 0 then Except.ok (some i) else nextScan hp data n (i + 1)

/-- Method `begin()`. -/
def «begin» (B : Nat) (hp : Heap K V) (self : Raw) : Except Error Iterator :=
  match nextScan hp self.data B 0 with
  | Except.error e => Except.error e
  | Except.ok (some i) => Except.ok { bucket := i, index := 0 }
  | Except.ok none => Except.ok { bucket := B - 1, index := 0 }

/-- Iterator `operator++`. -/
def next (B : Nat) (hp : Heap K V) (self : Raw) (it : Iterator) : Except Error Iterator :=
  match «end» B hp self with
  | Except.error e => Except.error e
  | Except.ok last =>
    if it = last then Except.error Error.out_of_range
    else
      match listAt hp self.data it.bucket with
      | Except.error e => Except.error e
      | Except.ok l =>
        if it.index + 1 ≠ l.size then Except.ok { bucket := it.bucket, index := it.index + 1 }
        else
          match nextScan hp self.data (B - (it.bucket + 1)) (it.bucket + 1) with
          | Except.error e => Except.error e
          | Except.ok (some i) => Except.ok { bucket := i, index := 0 }
          | Except.ok none => «end» B hp self

/-- The loop `for (const auto& it : other) insert(it.first, it.second);` of the copy
constructor and of the copy assignment, from the iterator `it` of `other` on, in at most
the given number of rounds; `last` is `other.end()`, which the loop takes once before
its first round, and `self` is the map being built. -/
def copyLoop [DecidableEq K] (B : Nat) (hash : K → Nat) (fuel : Nat) (other : Raw)
    (last : Iterator) : Nat → Heap K V → Iterator → Raw → Option (Except Error (Heap K V × Raw))
  | 0, _, _, _ => none
  | n + 1, hp, it, self =>
    if it = last then some (Except.ok (hp, self))
    else
      match deref fuel hp other it with
      | none => none
      | some (Except.error e) => some (Except.error e)
      | some (Except.ok a) =>
        match LinkedList.Raw.load hp.nodes (some a) with
        | Except.error e => some (Except.error e)
        | Except.ok nd =>
          match insert B hash fuel hp self nd.data.1 nd.data.2 with
          | none => none
          | some (Except.error e) => some (Except.error e)
          | some (Except.ok (hp1, self1, _)) =>
            match next B hp1 other it with
            | Except.error e => some (Except.error e)
            | Except.ok it1 => copyLoop B hash fuel other last n hp1 it1 self1

/-- The statements of the copy constructor after the member initialisers, and of the
copy assignment after the new array is in place. -/
def copyInto [DecidableEq K] (B : Nat) (hash : K → Nat) (fuel : Nat) (hp : Heap K V)
    (self other : Raw) : Option (Except Error (Heap K V × Raw)) :=
  match «begin» B hp other with
  | Except.error e => some (Except.error e)
  | Except.ok first =>
    match «end» B hp other with
    | Except.error e => some (Except.error e)
    | Except.ok last => copyLoop B hash fuel other last fuel hp first self

/-- Copy constructor `HashMap(const HashMap& other)`: the memory afterwards and the
fields of the new map. -/
def copy [DecidableEq K] (B : Nat) (hash : K → Nat) (fuel : Nat) (hp : Heap K V)
    (other : Raw) : Option (Except Error (Heap K V × Raw)) :=
  copyInto B hash fuel (create B hp).1 (create B hp).2 other

/-- The destructors that `delete[] data` runs, on the lists `data[i - 1]` down to
`data[0]`, each `clear()` with its loop bounded by `fuel` rounds. -/
def destroyLoop (fuel : Nat) (data : Option Nat) : Nat → Heap K V →
    Option (Except Error (Heap K V))
  | 0, hp => some (Except.ok hp)
  | i + 1, hp =>
    match listAt hp data i with
    | Except.error e => some (Except.error e)
    | Except.ok l =>
      match LinkedList.Raw.clear fuel l with
      | none => none
      | some (Except.error e) => some (Except.error e)
      | some (Except.ok l1) =>
        match putList hp data i l1 with
        | Except.error e => some (Except.error e)
        | Except.ok hp1 => destroyLoop fuel data i hp1

/-- The expression `delete[] data` for an array of `B` lists: the lists are destroyed and
the array is freed. Deleting `nullptr` does nothing. -/
def deleteArray (B : Nat) (fuel : Nat) (hp : Heap K V) (data : Option Nat) :
    Option (Except Error (Heap K V)) :=
  match data with
  | none => some (Except.ok hp)
  | some d =>
    match destroyLoop fuel data B hp with
    | none => none
    | some (Except.error e) => some (Except.error e)
    | some (Except.ok hp1) =>
      some (Except.ok { nodes := hp1.nodes, arrays := hp1.arrays.set d none })

/-- Copy assignment `operator=(const HashMap& other)`; `sameObject` tells whether
`this == &other`. -/
def copyAssign [DecidableEq K] (B : Nat) (hash : K → Nat) (fuel : Nat) (sameObject : Bool)
    (hp : Heap K V) (self other : Raw) : Option (Except Error (Heap K V × Raw)) :=
  if sameObject then some (Except.ok (hp, self))
  else
    -- size = 0; delete[] data;
    match deleteArray B fuel hp self.data with
    | none => none
    | some (Except.error e) => some (Except.error e)
    | some (Except.ok hp1) =>
      -- data = new LinkedList<value_type>[BUCKET_COUNT];
      copyInto B hash fuel (create B hp1).1 (create B hp1).2 other

/-- The bucket `arr[i]` of an array, an empty list where the array has no such
element. -/
def bucketOf (arr : List Bucket) (i : Nat) : Bucket :=
  arr.getD i (Bucket.mk none none 0)

/-- The addresses of the nodes of the chains of a map. -/
def addrs (chains : List (List (Nat × (K × V)))) : List Nat :=
  chains.flatten.map Prod.fst

/-- The map in memory, for `B` buckets: `data` points to the array `arr` of `B` lists,
the list `data[i]` is made of the nodes `chains[i]` (address and entry of each node, in
chain order) as the list invariant says, and no node belongs to two chains. -/
def Inv (B : Nat) (hp : Heap K V) (self : Raw) (arr : List Bucket)
    (chains : List (List (Nat × (K × V)))) : Prop :=
  arrayAt hp self.data = Except.ok arr ∧ arr.length = B ∧ chains.length = B ∧
    (∀ i, i < B → LinkedList.Raw.Inv
      (LinkedList.Raw.mk hp.nodes (bucketOf arr i).root (bucketOf arr i).tail (bucketOf arr i).size)
      (chains.getD i [])) ∧
    (∀ i, i < B → ∀ j, j < B → i ≠ j →
      ∀ c ∈ chains.getD i [], ∀ d ∈ chains.getD j [], c.1 ≠ d.1)

instance Inv.instDecidable [DecidableEq K] [DecidableEq V] (B : Nat) (hp : Heap K V) (self : Raw)
    (arr : List Bucket) (chains : List (List (Nat × (K × V)))) :
    Decidable (Inv B hp self arr chains) :=
  inferInstanceAs (Decidable (arrayAt hp self.data = Except.ok arr ∧ arr.length = B ∧
    chains.length = B ∧
    (∀ i, i < B → LinkedList.Raw.Inv
      (LinkedList.Raw.mk hp.nodes (bucketOf arr i).root (bucketOf arr i).tail (bucketOf arr i).size)
      (chains.getD i [])) ∧
    (∀ i, i < B → ∀ j, j < B → i ≠ j →
      ∀ c ∈ chains.getD i [], ∀ d ∈ chains.getD j [], c.1 ≠ d.1)))

/-- The value of a map in memory: in every bucket the entries of its nodes in chain
order, with the counter of the map; the description of the map used before this
section. -/
def view (self : Raw) (chains : List (List (Nat × (K × V)))) : HashMap K V :=
  { data := chains.map (fun cells => { elems := cells.map Prod.snd, size := cells.length }),
    size := self.size }

/-- The memory `hp1` has the nodes and the arrays of `hp` outside the node addresses `s`
and the array address `d`: it has at least as many, and holds the same at every other
address of `hp`. -/
def Frame (hp hp1 : Heap K V) (s : List Nat) (d : Option Nat) : Prop :=
  hp.nodes.length ≤ hp1.nodes.length ∧ hp.arrays.length ≤ hp1.arrays.length ∧
    (∀ a, a < hp.nodes.length → a ∉ s →
      LinkedList.Raw.nodeAt hp1.nodes a = LinkedList.Raw.nodeAt hp.nodes a) ∧
    (∀ a, a < hp.arrays.length → some a ≠ d → hp1.arrays.getD a none = hp.arrays.getD a none)

end Raw

end HashMap

/-! ## Iteration sequences -/

namespace Walk

variable {ι : Type}

/-- The first iterator of a sequence of iterators, or the iterator `e` that follows the
sequence when it is empty. -/
def firstOr : List ι → ι → ι
  | [], e => e
  | p :: _, _ => p

/-- The sequence `ps` of iterators is linked by the step: stepping from each iterator
gives the next one, and stepping from the last one gives `e`. -/
def LinkedBy (step : ι → Except Error ι) : List ι → ι → Prop
  | [], _ => True
  | p :: ps, e => step p = Except.ok (firstOr ps e) ∧ LinkedBy step ps e

/-- The sequence `ps` of iterators is linked backwards by the step: stepping back from
the iterator that follows an iterator of the sequence (`e` after the last one) gives
that iterator. -/
def BackLinkedBy (back : ι → Except Error ι) : List ι → ι → Prop
  | [], _ => True
  | p :: ps, e => back (firstOr ps e) = Except.ok p ∧ BackLinkedBy back ps e

end Walk

/-! ## Iteration sequences: lemmas -/

namespace Walk

variable {ι : Type}

theorem firstOr_append (xs ys : List ι) (e : ι) :
    firstOr (xs ++ ys) e = firstOr xs (firstOr ys e) := by
  cases xs <;> rfl

theorem LinkedBy_append (step : ι → Except Error ι) (xs ys : List ι) (e : ι) :
    LinkedBy step (xs ++ ys) e ↔ LinkedBy step xs (firstOr ys e) ∧ LinkedBy step ys e := by
  induction xs with
  | nil => simp [LinkedBy]
  | cons x xs ih =>
    show (step x = Except.ok (firstOr (xs ++ ys) e) ∧ LinkedBy step (xs ++ ys) e) ↔
      ((step x = Except.ok (firstOr xs (firstOr ys e)) ∧
        LinkedBy step xs (firstOr ys e)) ∧ LinkedBy step ys e)
    rw [ih, firstOr_append]
    tauto

theorem BackLinkedBy_append (back : ι → Except Error ι) (xs ys : List ι) (e : ι) :
    BackLinkedBy back (xs ++ ys) e ↔
      BackLinkedBy back xs (firstOr ys e) ∧ BackLinkedBy back ys e := by
  induction xs with
  | nil => simp [BackLinkedBy]
  | cons x xs ih =>
    show (back (firstOr (xs ++ ys) e) = Except.ok x ∧ BackLinkedBy back (xs ++ ys) e) ↔
      ((back (firstOr xs (firstOr ys e)) = Except.ok x ∧
        BackLinkedBy back xs (firstOr ys e)) ∧ BackLinkedBy back ys e)
    rw [ih, firstOr_append]
    tauto

theorem firstOr_mem (ps : List ι) (e : ι) : firstOr ps e = e ∨ firstOr ps e ∈ ps := by
  cases ps with
  | nil => exact Or.inl rfl
  | cons p ps => exact Or.inr (List.mem_cons_self _ _)

/-- In a linked sequence, stepping from one of its iterators and then back returns to
it; the step leads to a later iterator of the sequence or to the iterator that follows
the sequence. -/
theorem step_back_of_mem {step back : ι → Except Error ι} {ps : List ι} {e : ι}
    (hl : LinkedBy step ps e) (hb : BackLinkedBy back ps e) {p : ι} (hp : p ∈ ps) :
    ∃ q, step p = Except.ok q ∧ back q = Except.ok p ∧ (q = e ∨ q ∈ ps) := by
  induction ps with
  | nil => simp at hp
  | cons p0 rest ih =>
    obtain ⟨hl1, hl2⟩ := hl
    obtain ⟨hb1, hb2⟩ := hb
    rcases List.mem_cons.mp hp with rfl | hp
    · refine ⟨firstOr rest e, hl1, hb1, ?_⟩
      rcases firstOr_mem rest e with h | h
      · exact Or.inl h
      · exact Or.inr (List.mem_cons_of_mem _ h)
    · obtain ⟨q, h1, h2, h3⟩ := ih hl2 hb2 hp
      refine ⟨q, h1, h2, ?_⟩
      rcases h3 with h | h
      · exact Or.inl h
      · exact Or.inr (List.mem_cons_of_mem _ h)

/-- In a linked sequence a step from one of its iterators leads to a later iterator of
the sequence or to the iterator that follows the sequence. -/
theorem step_mem {step : ι → Except Error ι} {ps : List ι} {e : ι}
    (hl : LinkedBy step ps e) {p q : ι} (hp : p ∈ ps) (hq : step p = Except.ok q) :
    q = e ∨ q ∈ ps := by
  induction ps with
  | nil => simp at hp
  | cons p0 rest ih =>
    obtain ⟨hl1, hl2⟩ := hl
    rcases List.mem_cons.mp hp with rfl | hp
    · rw [hl1] at hq
      cases hq
      rcases firstOr_mem rest e with h | h
      · exact Or.inl h
      · exact Or.inr (List.mem_cons_of_mem _ h)
    · rcases ih hl2 hp with h | h
      · exact Or.inl h
      · exact Or.inr (List.mem_cons_of_mem _ h)

/-- In a linked sequence without repetition that does not contain the iterator that
follows it, no step from an iterator of the sequence leads to its first iterator. -/
theorem step_ne_first {step : ι → Except Error ι} {ps : List ι} {e : ι}
    (hl : LinkedBy step ps e) (hnd : ps.Nodup) (he : e ∉ ps) {p q : ι} (hp : p ∈ ps)
    (hq : step p = Except.ok q) : q ≠ firstOr ps e := by
  cases ps with
  | nil => simp at hp
  | cons p0 rest =>
    obtain ⟨hl1, hl2⟩ := hl
    have hp0 : p0 ∉ rest := (List.nodup_cons.mp hnd).1
    have he0 : e ≠ p0 := fun h => he (h ▸ List.mem_cons_self _ _)
    show q ≠ p0
    have key : q = e ∨ q ∈ rest := by
      rcases List.mem_cons.mp hp with rfl | hp
      · rw [hl1] at hq
        cases hq
        exact firstOr_mem rest e
      · exact step_mem hl2 hp hq
    rcases key with h | h
    · rw [h]
      exact he0
    · intro hq0
      exact hp0 (hq0 ▸ h)

end Walk

/-! ## TreeMap: lemmas -/

namespace Tree

variable {K V : Type}

theorem isNull_iff (t : Tree K V) : t.isNull = true ↔ t = null := by
  cases t <;> simp [isNull]

theorem isNull_false_iff (t : Tree K V) : t.isNull = false ↔ t ≠ null := by
  cases t <;> simp [isNull]

theorem keys_eq_map_toList (t : Tree K V) : keys t = (toList t).map Prod.fst := by
  induction t with
  | null => rfl
  | node l k v r ihl ihr => simp [keys, toList, ihl, ihr]

theorem length_toList (t : Tree K V) : (toList t).length = numNodes t := by
  induction t with
  | null => rfl
  | node l k v r ihl ihr => simp [toList, numNodes, ihl, ihr]; omega

theorem length_keys (t : Tree K V) : (keys t).length = numNodes t := by
  rw [keys_eq_map_toList, List.length_map, length_toList]

theorem subtreeAt_null (p : List Dir) : subtreeAt (null : Tree K V) p = null := by
  cases p <;> rfl

theorem subtreeAt_append (t : Tree K V) (p q : List Dir) :
    subtreeAt t (p ++ q) = subtreeAt (subtreeAt t p) q := by
  induction p generalizing t with
  | nil => simp [subtreeAt]
  | cons d p ih =>
    cases t with
    | null => simp [subtreeAt, subtreeAt_null]
    | node l k v r => cases d <;> simp [subtreeAt, ih]

/-- The ordering invariant says exactly that the in-order key sequence is strictly
ascending. -/
theorem BST_iff_sorted [LinearOrder K] (t : Tree K V) :
    BST t ↔ (keys t).Pairwise (· < ·) := by
  induction t with
  | null => simp [BST, keys]
  | node l k v r ihl ihr =>
    simp only [BST, keys, List.pairwise_append, List.pairwise_cons, ihl, ihr,
      List.mem_cons]
    constructor
    · rintro ⟨h1, h2, h3, h4⟩
      refine ⟨h3, ⟨h2, h4⟩, ?_⟩
      intro a ha b hb
      rcases hb with rfl | hb
      · exact h1 a ha
      · exact lt_trans (h1 a ha) (h2 b hb)
    · rintro ⟨h3, ⟨h2, h4⟩, h5⟩
      exact ⟨fun x hx => h5 x hx k (Or.inl rfl), h2, h3, h4⟩

theorem BST.nodup_keys [LinearOrder K] {t : Tree K V} (h : BST t) : (keys t).Nodup := by
  rw [BST_iff_sorted] at h
  exact h.imp (fun hab => ne_of_lt hab)

end Tree

namespace TreeMap

open Tree

variable {K V : Type}

/-- The recursive call of `erase` is never made: the second branch is taken whenever
the first is not. -/
theorem erase_eq (root : Tree K V) (path : List Dir) :
    erase root path =
      match subtreeAt root path with
      | null => root
      | node l _ _ r =>
        if l.isNull && r.isNull then setSlot root path null
        else setSlot root path (if !l.isNull then l else r) := by
  rw [erase]
  cases h : subtreeAt root path with
  | null => rfl
  | node l k v r =>
    cases l <;> cases r <;> simp [isNull]

/-! ### find -/

theorem findLoop_here [LinearOrder K] (t : Tree K V) (here : List Dir) (key : K) :
    findLoop t here key = (findLoop t [] key).map (here ++ ·) := by
  induction t generalizing here with
  | null => simp [findLoop]
  | node l k v r ihl ihr =>
    simp only [findLoop, List.nil_append]
    by_cases h1 : k = key
    · simp [h1]
    · by_cases h2 : key > k
      · simp only [h1, h2, if_true, if_false]
        rw [ihr (here ++ [Dir.right]), ihr [Dir.right]]
        cases findLoop r [] key <;> simp
      · simp only [h1, h2, if_false]
        rw [ihl (here ++ [Dir.left]), ihl [Dir.left]]
        cases findLoop l [] key <;> simp

theorem findLoop_node [LinearOrder K] (l r : Tree K V) (k : K) (v : V) (key : K) :
    findLoop (node l k v r) [] key =
      if k = key then some []
      else if key > k then (findLoop r [] key).map (Dir.right :: ·)
      else (findLoop l [] key).map (Dir.left :: ·) := by
  simp only [findLoop, List.nil_append]
  rw [findLoop_here r [Dir.right], findLoop_here l [Dir.left]]
  rfl

/-- The iterator returned by `find` addresses a node holding the key. -/
theorem findLoop_some [LinearOrder K] {t : Tree K V} {key : K} {p : List Dir}
    (h : findLoop t [] key = some p) : ∃ l v r, subtreeAt t p = node l key v r := by
  induction t generalizing p with
  | null => simp [findLoop] at h
  | node l k v r ihl ihr =>
    rw [findLoop_node] at h
    by_cases h1 : k = key
    · simp only [h1, if_true, Option.some.injEq] at h
      subst h; subst h1
      exact ⟨l, v, r, rfl⟩
    · by_cases h2 : key > k
      · simp only [h1, h2, if_true, if_false, Option.map_eq_some'] at h
        obtain ⟨q, hq, rfl⟩ := h
        simpa [subtreeAt] using ihr hq
      · simp only [h1, h2, if_false, Option.map_eq_some'] at h
        obtain ⟨q, hq, rfl⟩ := h
        simpa [subtreeAt] using ihl hq

theorem mem_toList_of_subtreeAt {t : Tree K V} {p : List Dir} {l r : Tree K V} {k : K} {v : V}
    (h : subtreeAt t p = node l k v r) : (k, v) ∈ toList t := by
  induction p generalizing t with
  | nil =>
    simp only [subtreeAt] at h
    subst h
    simp [toList]
  | cons d p ih =>
    cases t with
    | null => simp [subtreeAt] at h
    | node l1 k1 v1 r1 =>
      cases d
      · simp only [subtreeAt] at h
        simp [toList, ih h]
      · simp only [subtreeAt] at h
        simp [toList, ih h]

theorem mem_keys_of_subtreeAt {t : Tree K V} {p : List Dir} {l r : Tree K V} {k : K} {v : V}
    (h : subtreeAt t p = node l k v r) : k ∈ keys t := by
  rw [keys_eq_map_toList]
  exact List.mem_map.mpr ⟨(k, v), mem_toList_of_subtreeAt h, rfl⟩

/-- In an ordered tree `find` returns the one node holding the key. -/
theorem findLoop_of_subtreeAt [LinearOrder K] {t : Tree K V} (hb : BST t) {key : K}
    {p : List Dir} {l r : Tree K V} {v : V} (h : subtreeAt t p = node l key v r) :
    findLoop t [] key = some p := by
  induction t generalizing p with
  | null => simp [subtreeAt_null] at h
  | node l1 k1 v1 r1 ihl ihr =>
    obtain ⟨h1, h2, h3, h4⟩ := hb
    rw [findLoop_node]
    cases p with
    | nil =>
      simp only [subtreeAt, node.injEq] at h
      simp [h.2.1]
    | cons d p =>
      cases d
      · simp only [subtreeAt] at h
        have hlt : key < k1 := h1 key (mem_keys_of_subtreeAt h)
        have hne : k1 ≠ key := ne_of_gt hlt
        have hng : ¬ key > k1 := not_lt_of_gt hlt
        simp [hne, hng, ihl h3 h]
      · simp only [subtreeAt] at h
        have hlt : k1 < key := h2 key (mem_keys_of_subtreeAt h)
        have hne : k1 ≠ key := ne_of_lt hlt
        simp [hne, hlt, ihr h4 h]

theorem exists_subtreeAt_of_mem_toList {t : Tree K V} {k : K} {v : V}
    (h : (k, v) ∈ toList t) : ∃ p l r, subtreeAt t p = node l k v r := by
  induction t with
  | null => simp [toList] at h
  | node l1 k1 v1 r1 ihl ihr =>
    simp only [toList, List.mem_append, List.mem_cons, Prod.mk.injEq] at h
    rcases h with h | ⟨rfl, rfl⟩ | h
    · obtain ⟨p, l, r, hp⟩ := ihl h
      exact ⟨Dir.left :: p, l, r, by simpa [subtreeAt] using hp⟩
    · exact ⟨[], l1, r1, rfl⟩
    · obtain ⟨p, l, r, hp⟩ := ihr h
      exact ⟨Dir.right :: p, l, r, by simpa [subtreeAt] using hp⟩

theorem exists_subtreeAt_of_mem_keys {t : Tree K V} {k : K}
    (h : k ∈ keys t) : ∃ p l v r, subtreeAt t p = node l k v r := by
  rw [keys_eq_map_toList, List.mem_map] at h
  obtain ⟨⟨k1, v⟩, hkv, rfl⟩ := h
  obtain ⟨p, l, r, hp⟩ := exists_subtreeAt_of_mem_toList hkv
  exact ⟨p, l, v, r, hp⟩

/-- In an ordered tree `find` returns `end()` exactly for the keys that are not stored. -/
theorem findLoop_eq_none_iff [LinearOrder K] {t : Tree K V} (hb : BST t) (key : K) :
    findLoop t [] key = none ↔ key ∉ keys t := by
  constructor
  · intro h hmem
    obtain ⟨p, l, v, r, hp⟩ := exists_subtreeAt_of_mem_keys hmem
    rw [findLoop_of_subtreeAt hb hp] at h
    cases h
  · intro h
    cases hf : findLoop t [] key with
    | none => rfl
    | some p =>
      obtain ⟨l, v, r, hp⟩ := findLoop_some hf
      exact absurd (mem_keys_of_subtreeAt hp) h

/-! ### insert -/

/-- The null tests of the descent loop of `insert` only anticipate what the next round
would do. -/
theorem insertLoop_node [LinearOrder K] (l r : Tree K V) (k : K) (v : V) (here : List Dir)
    (key : K) (value : V) :
    insertLoop (node l k v r) here key value =
      if key < k then
        (node (insertLoop l (here ++ [Dir.left]) key value).1 k v r,
          (insertLoop l (here ++ [Dir.left]) key value).2)
      else
        (node l k v (insertLoop r (here ++ [Dir.right]) key value).1,
          (insertLoop r (here ++ [Dir.right]) key value).2) := by
  simp only [insertLoop]
  by_cases h : key < k
  · cases l <;> simp [h, isNull, insertLoop]
  · cases r <;> simp [h, isNull, insertLoop]

theorem insertLoop_here [LinearOrder K] (t : Tree K V) (here : List Dir) (key : K) (value : V) :
    insertLoop t here key value =
      ((insertLoop t [] key value).1, here ++ (insertLoop t [] key value).2) := by
  induction t generalizing here with
  | null => simp [insertLoop]
  | node l k v r ihl ihr =>
    rw [insertLoop_node, insertLoop_node]
    by_cases h : key < k
    · simp only [h, if_true, List.nil_append]
      rw [ihl (here ++ [Dir.left]), ihl [Dir.left]]
      simp
    · simp only [h, if_false, List.nil_append]
      rw [ihr (here ++ [Dir.right]), ihr [Dir.right]]
      simp

theorem subtreeAt_insertLoop [LinearOrder K] (t : Tree K V) (key : K) (value : V) :
    subtreeAt (insertLoop t [] key value).1 (insertLoop t [] key value).2 =
      node null key value null := by
  induction t with
  | null => simp [insertLoop, subtreeAt]
  | node l k v r ihl ihr =>
    rw [insertLoop_node]
    by_cases h : key < k
    · simp only [h, if_true, List.nil_append]
      rw [insertLoop_here l [Dir.left]]
      simpa [subtreeAt] using ihl
    · simp only [h, if_false, List.nil_append]
      rw [insertLoop_here r [Dir.right]]
      simpa [subtreeAt] using ihr

theorem mem_toList_insertLoop [LinearOrder K] (t : Tree K V) (here : List Dir) (key : K)
    (value : V) (x : K × V) :
    x ∈ toList (insertLoop t here key value).1 ↔ x = (key, value) ∨ x ∈ toList t := by
  induction t generalizing here with
  | null => simp [insertLoop, toList]
  | node l k v r ihl ihr =>
    rw [insertLoop_node]
    by_cases h : key < k
    · simp only [h, if_true, toList, List.mem_append, List.mem_cons, ihl]
      tauto
    · simp only [h, if_false, toList, List.mem_append, List.mem_cons, ihr]
      tauto

theorem mem_keys_insertLoop [LinearOrder K] (t : Tree K V) (here : List Dir) (key : K)
    (value : V) (x : K) :
    x ∈ keys (insertLoop t here key value).1 ↔ x = key ∨ x ∈ keys t := by
  induction t generalizing here with
  | null => simp [insertLoop, keys]
  | node l k v r ihl ihr =>
    rw [insertLoop_node]
    by_cases h : key < k
    · simp only [h, if_true, keys, List.mem_append, List.mem_cons, ihl]
      tauto
    · simp only [h, if_false, keys, List.mem_append, List.mem_cons, ihr]
      tauto

theorem numNodes_insertLoop [LinearOrder K] (t : Tree K V) (here : List Dir) (key : K)
    (value : V) : numNodes (insertLoop t here key value).1 = numNodes t + 1 := by
  induction t generalizing here with
  | null => simp [insertLoop, numNodes]
  | node l k v r ihl ihr =>
    rw [insertLoop_node]
    by_cases h : key < k
    · simp only [h, if_true, numNodes, ihl]
      omega
    · simp only [h, if_false, numNodes, ihr]
      omega

/-- Linking a key that is not stored keeps the tree ordered. -/
theorem BST_insertLoop [LinearOrder K] {t : Tree K V} (hb : BST t) (here : List Dir) {key : K}
    (value : V) (hk : key ∉ keys t) : BST (insertLoop t here key value).1 := by
  induction t generalizing here with
  | null => simp [insertLoop, BST, keys]
  | node l k v r ihl ihr =>
    obtain ⟨h1, h2, h3, h4⟩ := hb
    simp only [keys, List.mem_append, List.mem_cons, not_or] at hk
    obtain ⟨hkl, hkk, hkr⟩ := hk
    rw [insertLoop_node]
    by_cases h : key < k
    · simp only [h, if_true, BST]
      refine ⟨?_, h2, ihl h3 _ hkl, h4⟩
      intro x hx
      rcases (mem_keys_insertLoop _ _ _ _ _).mp hx with rfl | hx
      · exact h
      · exact h1 x hx
    · simp only [h, if_false, BST]
      refine ⟨h1, ?_, h3, ihr h4 _ hkr⟩
      intro x hx
      rcases (mem_keys_insertLoop _ _ _ _ _).mp hx with rfl | hx
      · exact lt_of_le_of_ne (not_lt.mp h) (Ne.symm hkk)
      · exact h2 x hx

/-! ### writing through a reference -/

theorem keys_setValueAt (t : Tree K V) (p : List Dir) (x : V) :
    keys (setValueAt t p x) = keys t := by
  induction t generalizing p with
  | null => cases p <;> rfl
  | node l k v r ihl ihr =>
    cases p with
    | nil => rfl
    | cons d p => cases d <;> simp [setValueAt, keys, ihl, ihr]

theorem numNodes_setValueAt (t : Tree K V) (p : List Dir) (x : V) :
    numNodes (setValueAt t p x) = numNodes t := by
  rw [← length_keys, keys_setValueAt, length_keys]

theorem BST_setValueAt [LinearOrder K] {t : Tree K V} (hb : BST t) (p : List Dir) (x : V) :
    BST (setValueAt t p x) := by
  rw [BST_iff_sorted] at hb ⊢
  rwa [keys_setValueAt]

theorem subtreeAt_setValueAt {t : Tree K V} {p : List Dir} {l r : Tree K V} {k : K} {v : V}
    (h : subtreeAt t p = node l k v r) (x : V) :
    subtreeAt (setValueAt t p x) p = node l k x r := by
  induction t generalizing p with
  | null => simp [subtreeAt_null] at h
  | node l1 k1 v1 r1 ihl ihr =>
    cases p with
    | nil =>
      simp only [subtreeAt, node.injEq] at h
      obtain ⟨rfl, rfl, -, rfl⟩ := h
      rfl
    | cons d p =>
      cases d
      · simp only [subtreeAt] at h
        simpa [setValueAt, subtreeAt] using ihl h
      · simp only [subtreeAt] at h
        simpa [setValueAt, subtreeAt] using ihr h

/-! ### erase -/

/-- The entries of a tree split around the subtree a pointer addresses, and storing
another pointer into the slot exchanges the middle part only. -/
theorem toList_setSlot {t : Tree K V} {p : List Dir} {l r : Tree K V} {k : K} {v : V}
    (h : subtreeAt t p = node l k v r) :
    ∃ A B, toList t = A ++ toList (node l k v r) ++ B ∧
      ∀ s, toList (setSlot t p s) = A ++ toList s ++ B := by
  induction t generalizing p with
  | null => simp [subtreeAt_null] at h
  | node l1 k1 v1 r1 ihl ihr =>
    cases p with
    | nil =>
      simp only [subtreeAt] at h
      refine ⟨[], [], by simp [h], fun s => by simp [setSlot]⟩
    | cons d p =>
      cases d
      · simp only [subtreeAt] at h
        obtain ⟨A, B, h1, h2⟩ := ihl h
        refine ⟨A, B ++ (k1, v1) :: toList r1, ?_, fun s => ?_⟩
        · simp only [toList] at h1 ⊢
          rw [h1]
          simp
        · simp only [setSlot, toList, h2 s]
          simp
      · simp only [subtreeAt] at h
        obtain ⟨A, B, h1, h2⟩ := ihr h
        refine ⟨toList l1 ++ (k1, v1) :: A, B, ?_, fun s => ?_⟩
        · simp only [toList] at h1 ⊢
          rw [h1]
          simp
        · simp only [setSlot, toList, h2 s]
          simp

/-- What `erase` leaves of the entries: those of the left child take the place of the
entries of the erased node and of both its children, or those of the right child when
there is no left child. -/
theorem toList_erase {t : Tree K V} {p : List Dir} {l r : Tree K V} {k : K} {v : V}
    (h : subtreeAt t p = node l k v r) :
    ∃ A B, toList t = A ++ (toList l ++ (k, v) :: toList r) ++ B ∧
      toList (erase t p) = A ++ (if l.isNull then toList r else toList l) ++ B := by
  obtain ⟨A, B, h1, h2⟩ := toList_setSlot h
  refine ⟨A, B, h1, ?_⟩
  rw [erase_eq, h]
  cases l with
  | null =>
    cases r with
    | null => simp [isNull, h2, toList]
    | node l2 k2 v2 r2 => simp [isNull, h2]
  | node l2 k2 v2 r2 => simp [isNull, h2]

theorem keys_erase {t : Tree K V} {p : List Dir} {l r : Tree K V} {k : K} {v : V}
    (h : subtreeAt t p = node l k v r) :
    ∃ A B, keys t = A ++ (keys l ++ k :: keys r) ++ B ∧
      keys (erase t p) = A ++ (if l.isNull then keys r else keys l) ++ B := by
  obtain ⟨A, B, h1, h2⟩ := toList_erase h
  refine ⟨A.map Prod.fst, B.map Prod.fst, ?_, ?_⟩
  · simp [keys_eq_map_toList, h1]
  · rw [keys_eq_map_toList, h2]
    cases l <;> simp [isNull, keys_eq_map_toList]

theorem keys_erase_sublist {t : Tree K V} {p : List Dir} {l r : Tree K V} {k : K} {v : V}
    (h : subtreeAt t p = node l k v r) : (keys (erase t p)).Sublist (keys t) := by
  obtain ⟨A, B, h1, h2⟩ := keys_erase h
  rw [h1, h2]
  refine List.Sublist.append (List.Sublist.append (List.Sublist.refl A) ?_) (List.Sublist.refl B)
  by_cases hl : l.isNull = true
  · simp only [hl, if_true]
    exact (List.sublist_append_right _ _).trans
      (List.Sublist.append_left (List.sublist_cons_self k (keys r)) _)
  · simp only [hl]
    exact List.sublist_append_left _ _

theorem BST_erase [LinearOrder K] {t : Tree K V} (hb : BST t) {p : List Dir}
    {l r : Tree K V} {k : K} {v : V} (h : subtreeAt t p = node l k v r) :
    BST (erase t p) := by
  rw [BST_iff_sorted] at hb ⊢
  exact hb.sublist (keys_erase_sublist h)

theorem not_mem_keys_erase [LinearOrder K] {t : Tree K V} (hb : BST t) {p : List Dir}
    {l r : Tree K V} {k : K} {v : V} (h : subtreeAt t p = node l k v r) :
    k ∉ keys (erase t p) := by
  obtain ⟨A, B, h1, h2⟩ := keys_erase h
  have hn := hb.nodup_keys
  rw [h1] at hn
  have hp : (A ++ (keys l ++ k :: keys r) ++ B).Perm (k :: ((A ++ keys l) ++ (keys r ++ B))) := by
    have : A ++ (keys l ++ k :: keys r) ++ B = (A ++ keys l) ++ k :: (keys r ++ B) := by simp
    rw [this]
    exact List.perm_middle
  have hk : k ∉ (A ++ keys l) ++ (keys r ++ B) := (List.nodup_cons.mp (hp.nodup_iff.mp hn)).1
  rw [h2]
  intro hmem
  apply hk
  simp only [List.mem_append] at hmem ⊢
  rcases hmem with (hmem | hmem) | hmem
  · exact Or.inl (Or.inl hmem)
  · by_cases hl : l.isNull = true
    · simp only [hl, if_true] at hmem
      exact Or.inr (Or.inl hmem)
    · simp only [hl] at hmem
      exact Or.inl (Or.inr hmem)
  · exact Or.inr (Or.inr hmem)

theorem numNodes_erase_lt {t : Tree K V} {p : List Dir} {l r : Tree K V} {k : K} {v : V}
    (h : subtreeAt t p = node l k v r) : numNodes (erase t p) < numNodes t := by
  obtain ⟨A, B, h1, h2⟩ := keys_erase h
  rw [← length_keys, ← length_keys, h1, h2]
  by_cases hl : l.isNull = true <;> simp [hl] <;> omega

/-! ### the public methods -/

theorem insert_of_find_some [LinearOrder K] {m : TreeMap K V} {key : K} {p : List Dir}
    (h : find m key = some p) (value : V) : insert m key value = (m, some p) := by
  simp [insert, h]

theorem insert_of_find_none [LinearOrder K] {m : TreeMap K V} {key : K}
    (h : find m key = none) (value : V) :
    insert m key value =
      ({ root := (insertLoop m.root [] key value).1, size := m.size + 1 },
        some (insertLoop m.root [] key value).2) := by
  simp only [insert, h]
  cases hr : m.root <;> simp [isNull, insertLoop]

theorem index_of_find_some [LinearOrder K] [Inhabited V] {m : TreeMap K V} {key : K}
    {p : List Dir} (h : find m key = some p) : index m key = Except.ok (m, p) := by
  obtain ⟨l, v, r, hp⟩ := findLoop_some h
  simp [index, insert_of_find_some h, hp]

theorem index_of_find_none [LinearOrder K] [Inhabited V] {m : TreeMap K V} {key : K}
    (h : find m key = none) :
    index m key =
      Except.ok ({ root := (insertLoop m.root [] key default).1, size := m.size + 1 },
        (insertLoop m.root [] key default).2) := by
  simp [index, insert_of_find_none h, subtreeAt_insertLoop]

theorem find_eq_none_iff [LinearOrder K] {m : TreeMap K V} (hb : BST m.root) (key : K) :
    find m key = none ↔ key ∉ keys m.root :=
  findLoop_eq_none_iff hb key

/-- What `m[key] = value` does to a map whose tree is ordered. -/
theorem assign_ok [LinearOrder K] [Inhabited V] {m : TreeMap K V} (hb : BST m.root)
    (key : K) (value : V) :
    ∃ m1 p l r, assign m key value = Except.ok m1 ∧ BST m1.root ∧
      subtreeAt m1.root p = node l key value r ∧
      (∀ x, x ∈ keys m1.root ↔ x = key ∨ x ∈ keys m.root) ∧
      (key ∈ keys m.root → m1.size = m.size ∧ keys m1.root = keys m.root) ∧
      (key ∉ keys m.root → m1.size = m.size + 1 ∧ numNodes m1.root = numNodes m.root + 1) := by
  cases hf : find m key with
  | some p =>
    obtain ⟨l, v, r, hp⟩ := findLoop_some hf
    have hmem : key ∈ keys m.root := mem_keys_of_subtreeAt hp
    refine ⟨{ m with root := setValueAt m.root p value }, p, l, r, ?_, ?_, ?_, ?_, ?_, ?_⟩
    · simp [assign, index_of_find_some hf]
    · exact BST_setValueAt hb p value
    · exact subtreeAt_setValueAt hp value
    · intro x
      simp only [keys_setValueAt]
      constructor
      · exact Or.inr
      · rintro (rfl | hx)
        · exact hmem
        · exact hx
    · intro _
      exact ⟨rfl, keys_setValueAt _ _ _⟩
    · intro hn
      exact absurd hmem hn
  | none =>
    have hnot : key ∉ keys m.root := (find_eq_none_iff hb key).mp hf
    have hsub := subtreeAt_insertLoop m.root key (default : V)
    refine ⟨TreeMap.mk (setValueAt (insertLoop m.root [] key default).1
        (insertLoop m.root [] key default).2 value) (m.size + 1),
      (insertLoop m.root [] key default).2, null, null, ?_, ?_, ?_, ?_, ?_, ?_⟩
    · simp [assign, index_of_find_none hf]
    · exact BST_setValueAt (BST_insertLoop hb [] default hnot) _ value
    · exact subtreeAt_setValueAt hsub value
    · intro x
      simp only [keys_setValueAt]
      exact mem_keys_insertLoop _ _ _ _ _
    · intro hmem
      exact absurd hmem hnot
    · intro _
      exact ⟨rfl, by simp [numNodes_setValueAt, numNodes_insertLoop]⟩

/-- What a bare `m[key]` does to a map whose tree is ordered. -/
theorem access_ok [LinearOrder K] [Inhabited V] {m : TreeMap K V} (hb : BST m.root)
    (key : K) :
    ∃ m1 v, access m key = Except.ok (m1, v) ∧ BST m1.root ∧
      (∀ x, x ∈ keys m1.root ↔ x = key ∨ x ∈ keys m.root) ∧
      (key ∈ keys m.root → m1 = m ∧ (key, v) ∈ toList m.root) ∧
      (key ∉ keys m.root → m1.size = m.size + 1 ∧ numNodes m1.root = numNodes m.root + 1) := by
  cases hf : find m key with
  | some p =>
    obtain ⟨l, v, r, hp⟩ := findLoop_some hf
    have hmem : key ∈ keys m.root := mem_keys_of_subtreeAt hp
    refine ⟨m, v, ?_, hb, ?_, ?_, ?_⟩
    · simp [access, index_of_find_some hf, deref, hp]
    · intro x
      constructor
      · exact Or.inr
      · rintro (rfl | hx)
        · exact hmem
        · exact hx
    · intro _
      exact ⟨rfl, mem_toList_of_subtreeAt hp⟩
    · intro hn
      exact absurd hmem hn
  | none =>
    have hnot : key ∉ keys m.root := (find_eq_none_iff hb key).mp hf
    have hsub := subtreeAt_insertLoop m.root key (default : V)
    refine ⟨TreeMap.mk (insertLoop m.root [] key default).1 (m.size + 1), default,
      ?_, ?_, ?_, ?_, ?_⟩
    · simp [access, index_of_find_none hf, deref, hsub]
    · exact BST_insertLoop hb [] default hnot
    · intro x
      exact mem_keys_insertLoop _ _ _ _ _
    · intro hmem
      exact absurd hmem hnot
    · intro _
      exact ⟨rfl, numNodes_insertLoop _ _ _ _⟩

/-- What `remove(key)` does to a map that satisfies its invariant. -/
theorem remove_ok [LinearOrder K] {m : TreeMap K V} (hwf : WF m) {key : K}
    (hmem : key ∈ keys m.root) :
    ∃ p l v r, subtreeAt m.root p = node l key v r ∧ find m key = some p ∧
      remove m key = Except.ok { root := erase m.root p, size := m.size - 1 } ∧
      0 < m.size := by
  obtain ⟨p, l, v, r, hp⟩ := exists_subtreeAt_of_mem_keys hmem
  have hf : find m key = some p := findLoop_of_subtreeAt hwf.1 hp
  have hpos : 0 < numNodes m.root := by
    rw [← length_keys]
    exact List.length_pos_of_mem hmem
  have hsz : 0 < m.size := lt_of_lt_of_le hpos hwf.2
  refine ⟨p, l, v, r, hp, hf, ?_, hsz⟩
  have : m.isEmpty = false := by
    simp only [isEmpty, beq_eq_false_iff_ne]
    omega
  simp [remove, removeAt, hf, this]

theorem remove_absent [LinearOrder K] {m : TreeMap K V} (hb : BST m.root) {key : K}
    (hmem : key ∉ keys m.root) : remove m key = Except.error Error.out_of_range := by
  have hf : find m key = none := (find_eq_none_iff hb key).mpr hmem
  simp only [remove, removeAt, hf]
  split <;> rfl

theorem WF_remove [LinearOrder K] {m m1 : TreeMap K V} (hwf : WF m) {key : K}
    (h : remove m key = Except.ok m1) : WF m1 := by
  by_cases hmem : key ∈ keys m.root
  · obtain ⟨p, l, v, r, hp, -, hr, hsz⟩ := remove_ok hwf hmem
    rw [hr] at h
    cases h
    refine ⟨BST_erase hwf.1 hp, ?_⟩
    have h1 := numNodes_erase_lt hp
    have h2 := hwf.2
    simp only
    omega
  · rw [remove_absent hwf.1 hmem] at h
    cases h

theorem WF_applyOp [LinearOrder K] [Inhabited V] {m : TreeMap K V} (hwf : WF m) (op : Op K V) :
    WF (applyOp m op) := by
  cases op with
  | access k =>
    obtain ⟨m1, v, h1, h2, h3, h4, h5⟩ := access_ok hwf.1 k
    simp only [applyOp, step, h1]
    refine ⟨h2, ?_⟩
    by_cases hmem : k ∈ keys m.root
    · rw [(h4 hmem).1]
      exact hwf.2
    · have := h5 hmem
      have := hwf.2
      omega
  | assign k v =>
    obtain ⟨m1, p, l, r, h1, h2, h3, h4, h5, h6⟩ := assign_ok hwf.1 k v
    simp only [applyOp, step, h1]
    refine ⟨h2, ?_⟩
    by_cases hmem : k ∈ keys m.root
    · have := h5 hmem
      rw [← length_keys, this.2, length_keys, this.1]
      exact hwf.2
    · have := h6 hmem
      have := hwf.2
      omega
  | remove k =>
    simp only [applyOp, step]
    cases h : remove m k with
    | error e => exact hwf
    | ok m1 => exact WF_remove hwf h

theorem WF_empty [LinearOrder K] : WF (empty : TreeMap K V) := by
  simp [WF, empty, BST, numNodes]

theorem WF_run [LinearOrder K] [Inhabited V] {m : TreeMap K V} (hwf : WF m)
    (ops : List (Op K V)) : WF (run m ops) := by
  induction ops generalizing m with
  | nil => exact hwf
  | cons op ops ih => exact ih (WF_applyOp hwf op)

/-! ### iteration -/

theorem BST_subtreeAt [LinearOrder K] {t : Tree K V} (hb : BST t) (p : List Dir) :
    BST (subtreeAt t p) := by
  induction t generalizing p with
  | null => simp [subtreeAt_null, BST]
  | node l k v r ihl ihr =>
    cases p with
    | nil => exact hb
    | cons d p =>
      cases d
      · exact ihl hb.2.2.1 p
      · exact ihr hb.2.2.2 p

/-- Climbing by key comparisons stops where climbing by link direction stops, in an
ordered tree, when started from a key of the subtree that is left. -/
theorem climb_eq_exitOf [LinearOrder K] {root : Tree K V} (hb : BST root) (key : K)
    (rp : List Dir) (hk : key ∈ keys (subtreeAt root rp.reverse)) :
    climb root key rp = exitOf rp := by
  induction rp with
  | nil => rfl
  | cons d up ih =>
    rw [List.reverse_cons, subtreeAt_append] at hk
    have hbs := BST_subtreeAt hb up.reverse
    cases hs : subtreeAt root up.reverse with
    | null => simp [hs, subtreeAt_null, keys] at hk
    | node l k v r =>
      rw [hs] at hk hbs
      obtain ⟨h1, h2, -, -⟩ := hbs
      cases d
      · simp only [subtreeAt] at hk
        have : ¬ k < key := not_lt_of_gt (h1 key hk)
        simp [climb, hs, this, exitOf]
      · simp only [subtreeAt] at hk
        have hlt : k < key := h2 key hk
        have hmem : key ∈ keys (subtreeAt root up.reverse) := by
          rw [hs]
          simp [keys, hk]
        simp [climb, hs, hlt, exitOf, ih hmem]

theorem firstOf_append (xs ys : List (List Dir)) (e : Iterator) :
    firstOf (xs ++ ys) e = firstOf xs (firstOf ys e) := by
  cases xs <;> rfl

theorem Linked_append [LinearOrder K] (m : TreeMap K V) (xs ys : List (List Dir))
    (e : Iterator) :
    Linked m (xs ++ ys) e ↔ Linked m xs (firstOf ys e) ∧ Linked m ys e := by
  induction xs with
  | nil => simp [Linked]
  | cons x xs ih =>
    show (next m (some x) = Except.ok (firstOf (xs ++ ys) e) ∧ Linked m (xs ++ ys) e) ↔
      ((next m (some x) = Except.ok (firstOf xs (firstOf ys e)) ∧
        Linked m xs (firstOf ys e)) ∧ Linked m ys e)
    rw [ih, firstOf_append]
    tauto

theorem firstOf_paths (t : Tree K V) (q : List Dir) (e : Iterator) :
    firstOf ((paths t).map (q ++ ·)) e = if t.isNull then e else some (q ++ leftmost t) := by
  induction t generalizing q e with
  | null => rfl
  | node l k v r ihl _ =>
    simp only [paths, List.map_append, List.map_map, List.map_cons, firstOf_append]
    have hfun : ((fun x => q ++ x) ∘ fun x => Dir.left :: x) =
        (fun x => (q ++ [Dir.left]) ++ x) := by
      funext x
      simp
    rw [hfun, ihl (q ++ [Dir.left])]
    cases l <;> simp [isNull, firstOf, leftmost]

/-- In an ordered tree `operator++` links the node pointers of every subtree in
symmetric order and leaves the subtree towards the nearest ancestor on the right. -/
theorem Linked_paths [LinearOrder K] (m : TreeMap K V) (hb : BST m.root) (t : Tree K V)
    (q : List Dir) (h : subtreeAt m.root q = t) :
    Linked m ((paths t).map (q ++ ·)) (exitOf q.reverse) := by
  induction t generalizing q with
  | null => simp [paths, Linked]
  | node l k v r ihl ihr =>
    have hl : subtreeAt m.root (q ++ [Dir.left]) = l := by
      rw [subtreeAt_append, h]
      simp [subtreeAt]
    have hr : subtreeAt m.root (q ++ [Dir.right]) = r := by
      rw [subtreeAt_append, h]
      simp [subtreeAt]
    have hfl : ((fun x => q ++ x) ∘ fun x => Dir.left :: x) =
        (fun x => (q ++ [Dir.left]) ++ x) := by
      funext x
      simp
    have hfr : ((fun x => q ++ x) ∘ fun x => Dir.right :: x) =
        (fun x => (q ++ [Dir.right]) ++ x) := by
      funext x
      simp
    simp only [paths, List.map_append, List.map_map, List.map_cons, hfl, hfr, List.append_nil]
    rw [Linked_append]
    refine ⟨?_, ?_, ?_⟩
    · have := ihl (q ++ [Dir.left]) hl
      simpa [exitOf, firstOf] using this
    · rw [firstOf_paths]
      simp only [next, h]
      by_cases hn : r.isNull = true
      · have hk : k ∈ keys (subtreeAt m.root q.reverse.reverse) := by
          rw [List.reverse_reverse, h]
          simp [keys]
        simp [hn, climb_eq_exitOf hb k q.reverse hk]
      · simp [hn]
    · have := ihr (q ++ [Dir.right]) hr
      simpa [exitOf] using this

theorem deref_paths (m : TreeMap K V) (t : Tree K V) (q : List Dir)
    (h : subtreeAt m.root q = t) :
    ((paths t).map (q ++ ·)).map (fun p => deref m (some p)) = (toList t).map Except.ok := by
  induction t generalizing q with
  | null => simp [paths, toList]
  | node l k v r ihl ihr =>
    have hl : subtreeAt m.root (q ++ [Dir.left]) = l := by
      rw [subtreeAt_append, h]
      simp [subtreeAt]
    have hr : subtreeAt m.root (q ++ [Dir.right]) = r := by
      rw [subtreeAt_append, h]
      simp [subtreeAt]
    have h1 := ihl (q ++ [Dir.left]) hl
    have h2 := ihr (q ++ [Dir.right]) hr
    simp only [List.map_map] at h1 h2
    simp only [paths, toList, List.map_append, List.map_map, List.map_cons, List.append_nil]
    have e1 : ((fun p => deref m (some p)) ∘ (fun x => q ++ x) ∘ fun x => Dir.left :: x) =
        ((fun p => deref m (some p)) ∘ fun x => q ++ [Dir.left] ++ x) := by
      funext x
      simp
    have e2 : ((fun p => deref m (some p)) ∘ (fun x => q ++ x) ∘ fun x => Dir.right :: x) =
        ((fun p => deref m (some p)) ∘ fun x => q ++ [Dir.right] ++ x) := by
      funext x
      simp
    rw [e1, e2, h1, h2]
    simp [deref, h]

/-- A forward loop over a linked sequence of node pointers reads their entries and goes
on from the iterator that follows the sequence. -/
theorem forwardLoop_linked [LinearOrder K] (m : TreeMap K V) (ps : List (List Dir))
    (es : List (K × V)) (e : Iterator) (n : Nat) (hl : Linked m ps e)
    (hd : ps.map (fun p => deref m (some p)) = es.map Except.ok) :
    forwardLoop m (ps.length + n) (firstOf ps e) =
      match forwardLoop m n e with
      | none => none
      | some (Except.error x) => some (Except.error x)
      | some (Except.ok rest) => some (Except.ok (es ++ rest)) := by
  induction ps generalizing es with
  | nil =>
    cases es with
    | nil =>
      simp only [List.length_nil, Nat.zero_add, firstOf, List.nil_append]
      rcases forwardLoop m n e with _ | _ | _ <;> rfl
    | cons x xs => simp at hd
  | cons p ps ih =>
    cases es with
    | nil => simp at hd
    | cons x xs =>
      simp only [List.map_cons, List.cons.injEq] at hd
      obtain ⟨hd1, hd2⟩ := hd
      obtain ⟨hn, hl2⟩ := hl
      have hfuel : (p :: ps).length + n = (ps.length + n) + 1 := by
        simp only [List.length_cons]
        omega
      have hfirst : firstOf (p :: ps) e = some p := rfl
      rw [hfuel, hfirst]
      simp only [forwardLoop, hd1, hn]
      rw [ih xs hl2 hd2]
      rcases forwardLoop m n e with _ | _ | _ <;> rfl

/-- Forward iteration over a map whose tree is ordered ends normally within one round
per node and one more, and visits the entries in symmetric order. -/
theorem traverse_eq [LinearOrder K] (m : TreeMap K V) (hb : BST m.root) (n : Nat) :
    traverse m (numNodes m.root + (n + 1)) = some (Except.ok (toList m.root)) := by
  have h0 : subtreeAt m.root [] = m.root := by simp [subtreeAt]
  have hl := Linked_paths m hb m.root [] h0
  have hd := deref_paths m m.root [] h0
  have hf := firstOf_paths m.root [] none
  simp only [List.nil_append, List.map_id_fun, id_eq, List.reverse_nil, exitOf,
    List.map_id'] at hl hd hf
  have hlen : (paths m.root).length = numNodes m.root := by
    have := congrArg List.length hd
    simpa [length_toList] using this
  have := forwardLoop_linked m (paths m.root) (toList m.root) none (n + 1) hl hd
  rw [hlen, hf] at this
  simp only [traverse, «begin»]
  rw [this]
  simp [forwardLoop]

/-! ### operator== -/

/-- The comparison loop over two linked sequences of node pointers of equal length ends
normally and tells whether the entries read are the same. -/
theorem eqLoop_linked [LinearOrder K] [DecidableEq V] (a b : TreeMap K V)
    (psA psB : List (List Dir)) (esA esB : List (K × V)) (n : Nat)
    (hlA : Linked a psA none) (hdA : psA.map (fun p => deref a (some p)) = esA.map Except.ok)
    (hlB : Linked b psB none) (hdB : psB.map (fun p => deref b (some p)) = esB.map Except.ok)
    (hlen : psA.length = psB.length) :
    eqLoop a b (psA.length + (n + 1)) (firstOf psA none) (firstOf psB none) =
      some (Except.ok (decide (esA = esB))) := by
  induction psA generalizing psB esA esB with
  | nil =>
    cases psB with
    | cons q qs => simp at hlen
    | nil =>
      cases esA with
      | cons x xs => simp at hdA
      | nil =>
        cases esB with
        | cons y ys => simp at hdB
        | nil => simp [firstOf, eqLoop]
  | cons p ps ih =>
    cases psB with
    | nil => simp at hlen
    | cons q qs =>
      cases esA with
      | nil => simp at hdA
      | cons x xs =>
        cases esB with
        | nil => simp at hdB
        | cons y ys =>
          simp only [List.map_cons, List.cons.injEq] at hdA hdB
          obtain ⟨hn1, hl1⟩ := hlA
          obtain ⟨hn2, hl2⟩ := hlB
          have hfuel : (p :: ps).length + (n + 1) = (ps.length + (n + 1)) + 1 := by
            simp only [List.length_cons]
            omega
          have hf1 : firstOf (p :: ps) none = some p := rfl
          have hf2 : firstOf (q :: qs) none = some q := rfl
          rw [hfuel, hf1, hf2]
          simp only [eqLoop, hdA.1, hdB.1, hn1, hn2]
          by_cases hxy : x = y
          · subst hxy
            simp only [ne_eq, not_true_eq_false, if_false]
            rw [ih qs xs ys hl1 hdA.2 hl2 hdB.2 (by simpa using hlen)]
            simp
          · simp [hxy]

/-- On two maps whose trees are ordered and whose counters are the numbers of their
nodes, `operator==` ends normally and tells whether the entries in symmetric order are
the same. -/
theorem eq_of_BST [LinearOrder K] [DecidableEq V] (a b : TreeMap K V) (ha : BST a.root)
    (hb : BST b.root) (hsa : a.size = numNodes a.root) (hsb : b.size = numNodes b.root)
    (n : Nat) :
    eq (a.size + (n + 1)) a b = some (Except.ok (decide (toList a.root = toList b.root))) := by
  have h0a : subtreeAt a.root [] = a.root := by simp [subtreeAt]
  have h0b : subtreeAt b.root [] = b.root := by simp [subtreeAt]
  have hla := Linked_paths a ha a.root [] h0a
  have hda := deref_paths a a.root [] h0a
  have hfa := firstOf_paths a.root [] none
  have hlb := Linked_paths b hb b.root [] h0b
  have hdb := deref_paths b b.root [] h0b
  have hfb := firstOf_paths b.root [] none
  simp only [List.nil_append, List.map_id_fun, id_eq, List.reverse_nil, exitOf,
    List.map_id'] at hla hda hfa hlb hdb hfb
  have hlena : (paths a.root).length = numNodes a.root := by
    have := congrArg List.length hda
    simpa [length_toList] using this
  have hlenb : (paths b.root).length = numNodes b.root := by
    have := congrArg List.length hdb
    simpa [length_toList] using this
  unfold eq
  by_cases hs : a.size = b.size
  · simp only [hs, ne_eq, not_true_eq_false, if_false]
    have hlen : (paths a.root).length = (paths b.root).length := by
      rw [hlena, hlenb, ← hsa, ← hsb, hs]
    have := eqLoop_linked a b (paths a.root) (paths b.root) (toList a.root) (toList b.root) n
      hla hda hlb hdb hlen
    rw [hlena, hfa, hfb, ← hsa, hs] at this
    simpa [«begin»] using this
  · simp only [ne_eq, hs, not_false_eq_true, if_true]
    have hne : toList a.root ≠ toList b.root := by
      intro he
      apply hs
      rw [hsa, hsb, ← length_toList, ← length_toList, he]
    simp [hne]

/-! ### maps built by insertions -/

/-- Insertions alone keep the counter equal to the number of nodes, and store exactly
the keys they are called with. -/
theorem run_insertions [LinearOrder K] [Inhabited V] (m : TreeMap K V) (hb : BST m.root)
    (hs : m.size = numNodes m.root) (ops : List (Op K V))
    (hins : ∀ op ∈ ops, op.isInsertion = true) :
    BST (run m ops).root ∧ (run m ops).size = numNodes (run m ops).root ∧
      ∀ x, x ∈ keys (run m ops).root ↔ x ∈ keys m.root ∨ x ∈ ops.map Op.key := by
  induction ops generalizing m with
  | nil => simp [run, hb, hs]
  | cons op ops ih =>
    have hins2 : ∀ o ∈ ops, o.isInsertion = true := fun o ho => hins o (List.mem_cons_of_mem _ ho)
    have hop := hins op (List.mem_cons_self _ _)
    have key : BST (applyOp m op).root ∧ (applyOp m op).size = numNodes (applyOp m op).root ∧
        ∀ x, x ∈ keys (applyOp m op).root ↔ x = op.key ∨ x ∈ keys m.root := by
      cases op with
      | access k =>
        obtain ⟨m1, v, h1, h2, h3, h4, h5⟩ := access_ok hb k
        simp only [applyOp, step, h1, Op.key]
        refine ⟨h2, ?_, h3⟩
        by_cases hmem : k ∈ keys m.root
        · rw [(h4 hmem).1]
          exact hs
        · have := h5 hmem
          omega
      | assign k v =>
        obtain ⟨m1, p, l, r, h1, h2, h3, h4, h5, h6⟩ := assign_ok hb k v
        simp only [applyOp, step, h1, Op.key]
        refine ⟨h2, ?_, h4⟩
        by_cases hmem : k ∈ keys m.root
        · have := h5 hmem
          rw [← length_keys, this.2, length_keys, this.1]
          exact hs
        · have := h6 hmem
          omega
      | remove k => simp [Op.isInsertion] at hop
    obtain ⟨k1, k2, k3⟩ := key
    obtain ⟨i1, i2, i3⟩ := ih (applyOp m op) k1 k2 hins2
    refine ⟨i1, i2, ?_⟩
    intro x
    have := i3 x
    simp only [run, List.foldl_cons, List.map_cons, List.mem_cons] at this ⊢
    rw [this, k3 x]
    tauto

theorem value_unique_of_BST [LinearOrder K] {t : Tree K V} (hb : BST t) {k : K} {v w : V}
    (hv : (k, v) ∈ toList t) (hw : (k, w) ∈ toList t) : v = w := by
  obtain ⟨p, l, r, hp⟩ := exists_subtreeAt_of_mem_toList hv
  obtain ⟨q, l1, r1, hq⟩ := exists_subtreeAt_of_mem_toList hw
  have h1 := findLoop_of_subtreeAt hb hp
  have h2 := findLoop_of_subtreeAt hb hq
  rw [h1] at h2
  cases h2
  rw [hp] at hq
  cases hq
  rfl

/-- A strictly ascending list is the sorted list of the distinct members of any list
with the same members. -/
theorem eq_sort_of_sorted [LinearOrder K] {l ks : List K} (hl : l.Pairwise (· < ·))
    (hmem : ∀ x, x ∈ l ↔ x ∈ ks) : l = ks.toFinset.sort (· ≤ ·) := by
  have hnd : l.Nodup := hl.imp (fun h => ne_of_lt h)
  have hperm : l.Perm (ks.toFinset.sort (· ≤ ·)) := by
    rw [List.perm_ext_iff_of_nodup hnd (Finset.sort_nodup _ _)]
    intro x
    simp [Finset.mem_sort, hmem]
  exact List.eq_of_perm_of_sorted hperm (hl.imp (fun h => le_of_lt h)) (Finset.sort_sorted _ _)

theorem setValueAt_insertLoop [LinearOrder K] (t : Tree K V) (key : K) (d value : V) :
    setValueAt (insertLoop t [] key d).1 (insertLoop t [] key d).2 value =
      (insertLoop t [] key value).1 := by
  induction t with
  | null => simp [insertLoop, setValueAt]
  | node l k v r ihl ihr =>
    rw [insertLoop_node, insertLoop_node]
    by_cases h : key < k
    · simp only [h, if_true, List.nil_append]
      rw [insertLoop_here l [Dir.left] key d, insertLoop_here l [Dir.left] key value]
      simp [setValueAt, ihl]
    · simp only [h, if_false, List.nil_append]
      rw [insertLoop_here r [Dir.right] key d, insertLoop_here r [Dir.right] key value]
      simp [setValueAt, ihr]

/-- Assigning to a key that is not stored adds the pair and keeps every other entry. -/
theorem assign_fresh [LinearOrder K] [Inhabited V] {m : TreeMap K V} (hb : BST m.root)
    {key : K} (value : V) (hk : key ∉ keys m.root) :
    assign m key value =
      Except.ok { root := (insertLoop m.root [] key value).1, size := m.size + 1 } := by
  have hf : find m key = none := (find_eq_none_iff hb key).mpr hk
  simp [assign, index_of_find_none hf, setValueAt_insertLoop]

theorem toList_run_assigns [LinearOrder K] [Inhabited V] (m : TreeMap K V) (hb : BST m.root)
    (xs : List (K × V)) (hnd : (xs.map Prod.fst).Nodup)
    (hfresh : ∀ kv ∈ xs, kv.1 ∉ keys m.root) (x : K × V) :
    x ∈ toList (run m (xs.map (fun kv => Op.assign kv.1 kv.2))).root ↔
      x ∈ toList m.root ∨ x ∈ xs := by
  induction xs generalizing m with
  | nil => simp [run]
  | cons kv xs ih =>
    simp only [List.map_cons, List.nodup_cons] at hnd
    have hk : kv.1 ∉ keys m.root := hfresh kv (List.mem_cons_self _ _)
    have hstep : applyOp m (Op.assign kv.1 kv.2) =
        { root := (insertLoop m.root [] kv.1 kv.2).1, size := m.size + 1 } := by
      simp [applyOp, step, assign_fresh hb kv.2 hk]
    have hb1 : BST (applyOp m (Op.assign kv.1 kv.2)).root := by
      rw [hstep]
      exact BST_insertLoop hb [] kv.2 hk
    have hfresh1 : ∀ kv1 ∈ xs, kv1.1 ∉ keys (applyOp m (Op.assign kv.1 kv.2)).root := by
      intro kv1 hkv1
      rw [hstep]
      simp only [mem_keys_insertLoop, not_or]
      refine ⟨?_, hfresh kv1 (List.mem_cons_of_mem _ hkv1)⟩
      intro he
      exact hnd.1 (he ▸ List.mem_map.mpr ⟨kv1, hkv1, rfl⟩)
    have := ih (applyOp m (Op.assign kv.1 kv.2)) hb1 hnd.2 hfresh1
    simp only [run, List.map_cons, List.foldl_cons, List.mem_cons] at this ⊢
    rw [this, hstep]
    simp only [mem_toList_insertLoop]
    tauto

/-- Two sequences of entries in strictly ascending key order with the same members are
the same sequence. -/
theorem eq_of_sorted_of_mem [LinearOrder K] {l1 l2 : List (K × V)}
    (h1 : (l1.map Prod.fst).Pairwise (· < ·)) (h2 : (l2.map Prod.fst).Pairwise (· < ·))
    (hmem : ∀ x, x ∈ l1 ↔ x ∈ l2) : l1 = l2 := by
  rw [List.pairwise_map] at h1 h2
  have hn1 : l1.Nodup := h1.imp (fun h he => by rw [he] at h; exact lt_irrefl _ h)
  have hn2 : l2.Nodup := h2.imp (fun h he => by rw [he] at h; exact lt_irrefl _ h)
  have hperm : l1.Perm l2 := (List.perm_ext_iff_of_nodup hn1 hn2).mpr hmem
  haveI : IsAntisymm (K × V) (fun a b => a.1 < b.1) :=
    ⟨fun a b hab hba => absurd hab (not_lt_of_gt hba)⟩
  exact List.eq_of_perm_of_sorted hperm h1 h2

/-! ### valueOf, the caller's view of remove, copies -/

/-- `valueOf` returns the value stored under a stored key. -/
theorem valueOf_of_mem [LinearOrder K] {m : TreeMap K V} (hb : BST m.root) {key : K} {v : V}
    (h : (key, v) ∈ toList m.root) : valueOf m key = Except.ok v := by
  obtain ⟨p, l, r, hp⟩ := exists_subtreeAt_of_mem_toList h
  have hf : find m key = some p := findLoop_of_subtreeAt hb hp
  simp [valueOf, hf, deref, hp]

/-- `valueOf` throws `out_of_range` for a key that is not stored. -/
theorem valueOf_of_not_mem [LinearOrder K] {m : TreeMap K V} (hb : BST m.root) {key : K}
    (h : key ∉ keys m.root) : valueOf m key = Except.error Error.out_of_range := by
  have hf : find m key = none := (find_eq_none_iff hb key).mpr h
  simp [valueOf, hf]

/-- The plain and the caller's view of `remove(iterator)` agree. -/
theorem removeAtCall_fst (m : TreeMap K V) (it : Iterator) :
    removeAt m it =
      match (removeAtCall m it).1 with
      | Except.error e => Except.error e
      | Except.ok _ => Except.ok (removeAtCall m it).2 := by
  unfold removeAt removeAtCall
  by_cases he : m.isEmpty = true
  · simp [he]
  · simp only [he, Bool.false_eq_true, if_false]
    cases it <;> rfl

/-- A call of `remove(iterator)` that throws leaves the map as it was. -/
theorem removeAtCall_error (m : TreeMap K V) (it : Iterator) (e : Error)
    (h : (removeAtCall m it).1 = Except.error e) : (removeAtCall m it).2 = m := by
  unfold removeAtCall at h ⊢
  by_cases he : m.isEmpty = true
  · simp [he]
  · simp only [he, Bool.false_eq_true, if_false] at h ⊢
    cases it with
    | none => rfl
    | some p => simp at h

theorem copyTreeStructure_eq (t : Tree K V) : copyTreeStructure t = t := by
  induction t with
  | null => rfl
  | node l k v r ihl ihr => simp [copyTreeStructure, ihl, ihr]

/-- On two maps with the same ordered tree and equal counters `operator==` ends normally
with `true`, within one round per node and one more. -/
theorem eq_self_of_BST [LinearOrder K] [DecidableEq V] (a b : TreeMap K V) (hroot : a.root = b.root)
    (hsize : a.size = b.size) (hb : BST a.root) (n : Nat) :
    eq (numNodes a.root + (n + 1)) a b = some (Except.ok true) := by
  have h0a : subtreeAt a.root [] = a.root := by simp [subtreeAt]
  have h0b : subtreeAt b.root [] = b.root := by simp [subtreeAt]
  have hbb : BST b.root := hroot ▸ hb
  have hla := Linked_paths a hb a.root [] h0a
  have hda := deref_paths a a.root [] h0a
  have hfa := firstOf_paths a.root [] none
  have hlb := Linked_paths b hbb b.root [] h0b
  have hdb := deref_paths b b.root [] h0b
  have hfb := firstOf_paths b.root [] none
  simp only [List.nil_append, List.map_id_fun, id_eq, List.reverse_nil, exitOf,
    List.map_id'] at hla hda hfa hlb hdb hfb
  have hlena : (paths a.root).length = numNodes a.root := by
    have := congrArg List.length hda
    simpa [length_toList] using this
  have hlen : (paths a.root).length = (paths b.root).length := by rw [hroot]
  have := eqLoop_linked a b (paths a.root) (paths b.root) (toList a.root) (toList b.root) n
    hla hda hlb hdb hlen
  rw [hlena, hfa, hfb] at this
  unfold eq
  simp only [hsize, ne_eq, not_true_eq_false, if_false]
  simp only [«begin»]
  rw [this, hroot]
  simp

/-! ### operator-- -/

theorem Linked_iff_LinkedBy [LinearOrder K] (m : TreeMap K V) (ps : List (List Dir))
    (e : Iterator) :
    (Linked m ps e ↔ Walk.LinkedBy (next m) (ps.map some) e) ∧
      firstOf ps e = Walk.firstOr (ps.map some) e := by
  induction ps with
  | nil => simp [Linked, Walk.LinkedBy, firstOf, Walk.firstOr]
  | cons p ps ih =>
    refine ⟨?_, rfl⟩
    show (next m (some p) = Except.ok (firstOf ps e) ∧ Linked m ps e) ↔
      (next m (some p) = Except.ok (Walk.firstOr (ps.map some) e) ∧
        Walk.LinkedBy (next m) (ps.map some) e)
    rw [ih.1, ih.2]

/-- Climbing by key comparisons stops where climbing by link direction stops, in an
ordered tree, when started from a key of the subtree that is left. -/
theorem climbBack_eq_enterOf [LinearOrder K] {root : Tree K V} (hb : BST root) (key : K)
    (rp : List Dir) (hk : key ∈ keys (subtreeAt root rp.reverse)) :
    climbBack root key rp = enterOf rp := by
  induction rp with
  | nil => rfl
  | cons d up ih =>
    rw [List.reverse_cons, subtreeAt_append] at hk
    have hbs := BST_subtreeAt hb up.reverse
    cases hs : subtreeAt root up.reverse with
    | null => simp [hs, subtreeAt_null, keys] at hk
    | node l k v r =>
      rw [hs] at hk hbs
      obtain ⟨h1, h2, -, -⟩ := hbs
      cases d
      · simp only [subtreeAt] at hk
        have hlt : k > key := h1 key hk
        have hmem : key ∈ keys (subtreeAt root up.reverse) := by
          rw [hs]
          simp [keys, hk]
        simp [climbBack, hs, hlt, enterOf, ih hmem]
      · simp only [subtreeAt] at hk
        have : ¬ k > key := not_lt_of_gt (h2 key hk)
        simp [climbBack, hs, this, enterOf]

theorem enterOf_leftmost (t : Tree K V) (rest : List Dir) :
    enterOf ((leftmost t).reverse ++ rest) = enterOf rest := by
  induction t generalizing rest with
  | null => simp [leftmost]
  | node l k v r ihl _ =>
    simp only [leftmost]
    by_cases h : l.isNull = true
    · simp [h]
    · simp only [h, Bool.false_eq_true, if_false, List.reverse_cons, List.append_assoc,
        List.singleton_append]
      rw [ihl (Dir.left :: rest)]
      rfl

/-- The leftmost node of a tree has no left child. -/
theorem subtreeAt_leftmost (t : Tree K V) (h : t ≠ null) :
    ∃ k v r, subtreeAt t (leftmost t) = node null k v r := by
  induction t with
  | null => exact absurd rfl h
  | node l k v r ihl _ =>
    simp only [leftmost]
    cases l with
    | null => exact ⟨k, v, r, by simp [isNull, subtreeAt]⟩
    | node l1 k1 v1 r1 =>
      obtain ⟨k2, v2, r2, h2⟩ := ihl (by simp)
      exact ⟨k2, v2, r2, by simpa [isNull, subtreeAt] using h2⟩

/-- Stepping back from the iterator that follows a subtree gives the rightmost node of
the subtree. -/
theorem retreat_exitOf [LinearOrder K] (m : TreeMap K V) (rq : List Dir) (t : Tree K V)
    (h : subtreeAt m.root rq.reverse = t) (ht : t ≠ null) :
    retreat m (exitOf rq) = Except.ok (some (rq.reverse ++ rightmostPath t)) := by
  induction rq generalizing t with
  | nil =>
    simp only [List.reverse_nil, subtreeAt] at h
    subst h
    have hn : m.root.isNull = false := (isNull_false_iff _).mpr ht
    simp [exitOf, retreat, hn]
  | cons d up ih =>
    rw [List.reverse_cons, subtreeAt_append] at h
    cases hs : subtreeAt m.root up.reverse with
    | null =>
      rw [hs, subtreeAt_null] at h
      exact absurd h.symm ht
    | node l k v r =>
      rw [hs] at h
      cases d
      · simp only [subtreeAt] at h
        subst h
        have hn : l.isNull = false := (isNull_false_iff _).mpr ht
        simp [exitOf, retreat, hs, hn]
      · simp only [subtreeAt] at h
        subst h
        have hn : r.isNull = false := (isNull_false_iff _).mpr ht
        have := ih (node l k v r) hs (by simp)
        simp only [exitOf]
        rw [this]
        simp [rightmostPath, hn]

/-- In an ordered tree `operator--`, past its test for `begin()`, links the node
pointers of every subtree backwards. -/
theorem BackLinked_paths [LinearOrder K] (m : TreeMap K V) (hb : BST m.root) (t : Tree K V)
    (q : List Dir) (h : subtreeAt m.root q = t) :
    Walk.BackLinkedBy (retreat m) ((paths t).map (fun p => some (q ++ p)))
      (exitOf q.reverse) := by
  induction t generalizing q with
  | null => simp [paths, Walk.BackLinkedBy]
  | node l k v r ihl ihr =>
    have hl : subtreeAt m.root (q ++ [Dir.left]) = l := by
      rw [subtreeAt_append, h]
      simp [subtreeAt]
    have hr : subtreeAt m.root (q ++ [Dir.right]) = r := by
      rw [subtreeAt_append, h]
      simp [subtreeAt]
    have hfl : ((fun p => some (q ++ p)) ∘ fun x => Dir.left :: x) =
        (fun p => (some ((q ++ [Dir.left]) ++ p) : Iterator)) := by
      funext x
      simp
    have hfr : ((fun p => some (q ++ p)) ∘ fun x => Dir.right :: x) =
        (fun p => (some ((q ++ [Dir.right]) ++ p) : Iterator)) := by
      funext x
      simp
    simp only [paths, List.map_append, List.map_map, List.map_cons, hfl, hfr, List.append_nil]
    rw [Walk.BackLinkedBy_append]
    refine ⟨?_, ?_, ?_⟩
    · have := ihl (q ++ [Dir.left]) hl
      simpa [exitOf, Walk.firstOr] using this
    · have hfirst : Walk.firstOr ((paths r).map (fun p => (some ((q ++ [Dir.right]) ++ p) :
          Iterator))) (exitOf q.reverse) =
          if r.isNull then exitOf q.reverse else some ((q ++ [Dir.right]) ++ leftmost r) := by
        have h1 := (Linked_iff_LinkedBy m ((paths r).map ((q ++ [Dir.right]) ++ ·))
          (exitOf q.reverse)).2
        rw [firstOf_paths] at h1
        rw [h1, List.map_map]
        rfl
      rw [hfirst]
      by_cases hn : r.isNull = true
      · have hrn : r = null := (isNull_iff r).mp hn
        simp only [hn, if_true]
        have := retreat_exitOf m q.reverse (node l k v r)
          (by rw [List.reverse_reverse]; exact h) (by simp)
        rw [this, hrn]
        simp [rightmostPath, isNull]
      · simp only [hn, Bool.false_eq_true, if_false]
        have hrne : r ≠ null := fun e => hn ((isNull_iff r).mpr e)
        obtain ⟨k2, v2, r2, h2⟩ := subtreeAt_leftmost r hrne
        have hsub : subtreeAt m.root ((q ++ [Dir.right]) ++ leftmost r) = node null k2 v2 r2 := by
          rw [subtreeAt_append, hr, h2]
        have hk : k2 ∈ keys (subtreeAt m.root
            (((q ++ [Dir.right]) ++ leftmost r).reverse).reverse) := by
          rw [List.reverse_reverse, hsub]
          simp [keys]
        simp only [retreat, hsub, isNull, Bool.not_true, Bool.false_eq_true, if_false]
        rw [climbBack_eq_enterOf hb k2 _ hk]
        simp only [List.reverse_append, List.reverse_cons, List.reverse_nil, List.nil_append,
          List.singleton_append]
        rw [enterOf_leftmost]
        simp [enterOf]
    · have := ihr (q ++ [Dir.right]) hr
      simpa [exitOf] using this

theorem mem_paths_of_subtreeAt {t : Tree K V} {p : List Dir} (h : subtreeAt t p ≠ null) :
    p ∈ paths t := by
  induction t generalizing p with
  | null => simp [subtreeAt_null] at h
  | node l k v r ihl ihr =>
    cases p with
    | nil => simp [paths]
    | cons d p =>
      cases d
      · simp only [subtreeAt] at h
        simp [paths, ihl h]
      · simp only [subtreeAt] at h
        simp [paths, ihr h]

theorem nodup_paths (t : Tree K V) : (paths t).Nodup := by
  induction t with
  | null => simp [paths]
  | node l k v r ihl ihr =>
    simp only [paths]
    rw [List.nodup_append]
    refine ⟨?_, ?_, ?_⟩
    · exact ihl.map (fun a b hab => by simpa using hab)
    · rw [List.nodup_cons]
      refine ⟨by simp, ?_⟩
      exact ihr.map (fun a b hab => by simpa using hab)
    · intro x hx hx2
      simp only [List.mem_map] at hx
      obtain ⟨a, -, rfl⟩ := hx
      simp at hx2

/-- In a map whose tree is ordered, `--` after `++` returns to the node the iterator
pointed to. -/
theorem prev_next [LinearOrder K] (m : TreeMap K V) (hb : BST m.root) {p : List Dir}
    (hp : subtreeAt m.root p ≠ null) :
    ∃ q, next m (some p) = Except.ok q ∧ prev m q = Except.ok (some p) := by
  have h0 : subtreeAt m.root [] = m.root := by simp [subtreeAt]
  have hl := Linked_paths m hb m.root [] h0
  have hbl := BackLinked_paths m hb m.root [] h0
  have hf := firstOf_paths m.root [] none
  simp only [List.nil_append, List.map_id_fun, id_eq, List.reverse_nil, exitOf,
    List.map_id'] at hl hbl hf
  have hl2 := (Linked_iff_LinkedBy m (paths m.root) none).1.mp hl
  have hf2 := (Linked_iff_LinkedBy m (paths m.root) none).2
  have hmem : (some p : Iterator) ∈ (paths m.root).map some :=
    List.mem_map.mpr ⟨p, mem_paths_of_subtreeAt hp, rfl⟩
  obtain ⟨q, hq1, hq2, -⟩ := Walk.step_back_of_mem hl2 hbl hmem
  have hnd : ((paths m.root).map (some : List Dir → Iterator)).Nodup :=
    (nodup_paths m.root).map (fun a b hab => by simpa using hab)
  have hne : q ≠ Walk.firstOr ((paths m.root).map some) none :=
    Walk.step_ne_first hl2 hnd (by simp) hmem hq1
  refine ⟨q, hq1, ?_⟩
  have hbegin : m.begin = Walk.firstOr ((paths m.root).map some) none := by
    rw [← hf2, hf]
    rfl
  simp only [prev, hbegin, hne, if_false]
  exact hq2

end TreeMap

/-! ## LinkedList: lemmas -/

namespace LinkedList

variable {α : Type}

theorem elems_eq_nil_of_isEmpty {l : LinkedList α} (hwf : WF l) (h : l.isEmpty = true) :
    l.elems = [] := by
  simp only [isEmpty, beq_iff_eq] at h
  rw [WF, h] at hwf
  exact List.length_eq_zero.mp hwf.symm

/-- On a well-formed list `append` links the item after the last node. -/
theorem append_eq {l : LinkedList α} (hwf : WF l) (x : α) :
    append l x = { elems := l.elems ++ [x], size := l.size + 1 } := by
  unfold append insert
  by_cases he : l.isEmpty = true
  · simp [he, elems_eq_nil_of_isEmpty hwf he]
  · have hne : l.elems ≠ [] := by
      intro h
      apply he
      simp only [isEmpty, beq_iff_eq]
      rw [hwf, h]
      rfl
    have hb : (none : Iterator) ≠ l.begin := by
      cases hl : l.elems with
      | nil => exact absurd hl hne
      | cons a as => simp [«begin», hl]
    simp [he, hb, «end»]

/-- On a well-formed list `erase` unlinks the node at a position of the chain. -/
theorem erase_some_eq {l : LinkedList α} (hwf : WF l) {i : Nat} (hi : i < l.elems.length) :
    erase l (some i) = Except.ok { elems := l.elems.eraseIdx i, size := l.size - 1 } := by
  have he : l.isEmpty = false := by
    simp only [isEmpty, beq_eq_false_iff_ne]
    rw [hwf]
    omega
  unfold erase
  simp only [he, Bool.false_eq_true, if_false, not_le.mpr hi]
  by_cases h1 : l.elems.length ≤ 1
  · have hi0 : i = 0 := by omega
    subst hi0
    cases hl : l.elems with
    | nil => simp [hl] at hi
    | cons a as =>
      have : as = [] := by
        rw [hl] at h1
        simpa using h1
      simp [hl, this]
  · simp only [h1, if_false]
    by_cases h2 : i = 0
    · subst h2
      cases hl : l.elems with
      | nil => simp [hl] at hi
      | cons a as => simp
    · simp only [h2, if_false]
      by_cases h3 : i + 1 = l.elems.length
      · have hi2 : i = l.elems.length - 1 := by omega
        simp only [h3, if_true]
        rw [List.dropLast_eq_eraseIdx h3]
      · simp [h3]

theorem plusLoop_nat (xs : List α) (j n : Nat) (h : n < xs.length) :
    plusLoop xs j (n : Int) = Except.ok (some (j + n)) := by
  induction n generalizing xs j with
  | zero =>
    cases xs with
    | nil => simp at h
    | cons a as => simp [plusLoop]
  | succ n ih =>
    cases xs with
    | nil => simp at h
    | cons a as =>
      have hn : ((n + 1 : Nat) : Int) ≠ 0 := by omega
      have hsub : ((n + 1 : Nat) : Int) - 1 = (n : Int) := by omega
      simp only [plusLoop, hn, if_false, hsub]
      rw [ih as (j + 1) (by simpa using h)]
      congr 2
      omega

/-- From `begin()`, `operator+` with an offset below the length reaches the node at that
position, and `operator*` reads it. -/
theorem deref_plus_begin (l : LinkedList α) {i : Nat} {x : α} (h : l.elems[i]? = some x) :
    plus l l.begin (i : Int) = Except.ok (some i) ∧ deref l (some i) = Except.ok x := by
  have hi : i < l.elems.length := by
    rw [List.getElem?_eq_some] at h
    exact h.1
  constructor
  · cases hl : l.elems with
    | nil => simp [hl] at hi
    | cons a as =>
      have := plusLoop_nat (a :: as) 0 i (by rw [← hl]; exact hi)
      simpa [plus, «begin», hl] using this
  · simp [deref, h]

/-! ### positions -/

theorem iteratorAt_of_lt (l : LinkedList α) {i : Nat} (h : i < l.elems.length) :
    iteratorAt l i = some i := by
  simp [iteratorAt, h]

theorem iteratorAt_of_ge (l : LinkedList α) {i : Nat} (h : l.elems.length ≤ i) :
    iteratorAt l i = none := by
  simp [iteratorAt, not_lt.mpr h]

theorem begin_eq_iteratorAt (l : LinkedList α) : l.begin = iteratorAt l 0 := by
  cases hl : l.elems with
  | nil => simp [«begin», iteratorAt, hl]
  | cons a as => simp [«begin», iteratorAt, hl]

theorem tailPtr_eq_iteratorAt (l : LinkedList α) (h : 0 < l.elems.length) :
    l.tailPtr = iteratorAt l (l.elems.length - 1) := by
  cases hl : l.elems with
  | nil => simp [hl] at h
  | cons a as => simp [tailPtr, iteratorAt, hl]

/-- Two positions up to the length give the same iterator only when they are equal. -/
theorem iteratorAt_inj (l : LinkedList α) {i j : Nat} (hi : i ≤ l.elems.length)
    (hj : j ≤ l.elems.length) (h : iteratorAt l i = iteratorAt l j) : i = j := by
  unfold iteratorAt at h
  by_cases h1 : i < l.elems.length <;> by_cases h2 : j < l.elems.length <;>
    simp [h1, h2] at h <;> omega

/-- What `operator++` does at a position. -/
theorem next_iteratorAt (l : LinkedList α) {i : Nat} (_hi : i ≤ l.elems.length) :
    next l (iteratorAt l i) =
      if i < l.elems.length then Except.ok (iteratorAt l (i + 1))
      else Except.error Error.out_of_range := by
  by_cases h : i < l.elems.length
  · simp [iteratorAt_of_lt l h, next, h, not_le.mpr h]
  · simp [iteratorAt_of_ge l (not_lt.mp h), next, h]

/-- What `operator--` does at a position. -/
theorem prev_iteratorAt (l : LinkedList α) {i : Nat} (hi : i ≤ l.elems.length) :
    prev l (iteratorAt l i) =
      if i = 0 then Except.error Error.out_of_range
      else Except.ok (iteratorAt l (i - 1)) := by
  by_cases h0 : i = 0
  · subst h0
    simp [prev, begin_eq_iteratorAt]
  · have hpos : 0 < l.elems.length := by omega
    have hb : l.begin = some 0 := by
      rw [begin_eq_iteratorAt, iteratorAt_of_lt l hpos]
    by_cases h : i < l.elems.length
    · have h1 : i - 1 < l.elems.length := by omega
      simp [iteratorAt_of_lt l h, iteratorAt_of_lt l h1, prev, hb, h0, not_le.mpr h]
    · have hi2 : i = l.elems.length := by omega
      rw [iteratorAt_of_ge l (not_lt.mp h)]
      simp only [prev, hb, h0, if_false]
      rw [tailPtr_eq_iteratorAt l hpos, hi2]
      simp

theorem plusLoop_closed (xs : List α) (j d : Nat) :
    plusLoop xs j (d : Int) =
      if d < xs.length then Except.ok (some (j + d))
      else if d = xs.length then Except.ok none
      else Except.error Error.out_of_range := by
  induction xs generalizing j d with
  | nil =>
    cases d with
    | zero => simp [plusLoop]
    | succ d =>
      have hn : ((d + 1 : Nat) : Int) ≠ 0 := by omega
      simp only [plusLoop, hn, if_false]
      simp
  | cons a as ih =>
    cases d with
    | zero => simp [plusLoop]
    | succ d =>
      have hn : ((d + 1 : Nat) : Int) ≠ 0 := by omega
      have hsub : ((d + 1 : Nat) : Int) - 1 = (d : Int) := by omega
      simp only [plusLoop, hn, if_false, hsub, ih, List.length_cons,
        Nat.add_lt_add_iff_right, Nat.add_right_cancel_iff]
      have : j + 1 + d = j + (d + 1) := by omega
      rw [this]

theorem minusLoop_closed (p d : Nat) :
    minusLoop p (d : Int) =
      if d ≤ p then Except.ok (p - d) else Except.error Error.out_of_range := by
  induction p generalizing d with
  | zero =>
    cases d with
    | zero => simp [minusLoop]
    | succ d =>
      have hn : ((d + 1 : Nat) : Int) ≠ 0 := by omega
      simp only [minusLoop, hn, if_false]
      simp
  | succ p ih =>
    cases d with
    | zero => simp [minusLoop]
    | succ d =>
      have hn : ((d + 1 : Nat) : Int) ≠ 0 := by omega
      have hsub : ((d + 1 : Nat) : Int) - 1 = (d : Int) := by omega
      simp only [minusLoop, hn, if_false, hsub, ih, Nat.add_le_add_iff_right,
        Nat.add_sub_add_right]

/-- What `it + d` is at a position, for an offset that is not negative. -/
theorem plus_iteratorAt (l : LinkedList α) {i : Nat} (hi : i ≤ l.elems.length) (d : Nat) :
    plus l (iteratorAt l i) (d : Int) =
      if i + d ≤ l.elems.length then Except.ok (iteratorAt l (i + d))
      else Except.error Error.out_of_range := by
  by_cases h : i < l.elems.length
  · rw [iteratorAt_of_lt l h]
    simp only [plus, not_le.mpr h, if_false, plusLoop_closed, List.length_drop]
    by_cases h1 : d < l.elems.length - i
    · have h2 : i + d < l.elems.length := by omega
      simp [h1, iteratorAt_of_lt l h2, le_of_lt h2]
    · by_cases h3 : d = l.elems.length - i
      · have h4 : i + d = l.elems.length := by omega
        have h5 : i + d ≤ l.elems.length := by omega
        simp only [h1, if_false, h5, if_true]
        rw [if_pos h3, iteratorAt_of_ge l (by omega)]
      · have h4 : ¬ i + d ≤ l.elems.length := by omega
        simp [h1, h3, h4]
  · have hi2 : i = l.elems.length := by omega
    rw [iteratorAt_of_ge l (not_lt.mp h)]
    simp only [plus, plusLoop_closed, List.length_nil]
    cases d with
    | zero => simp [iteratorAt, hi2]
    | succ d =>
      have h4 : ¬ i + (d + 1) ≤ l.elems.length := by omega
      simp [h4]

/-- What `it - d` is at a position, for an offset that is not negative. -/
theorem minus_iteratorAt (l : LinkedList α) {i : Nat} (hi : i ≤ l.elems.length) (d : Nat) :
    minus l (iteratorAt l i) (d : Int) =
      if d ≤ i then Except.ok (iteratorAt l (i - d))
      else Except.error Error.out_of_range := by
  by_cases h : i < l.elems.length
  · rw [iteratorAt_of_lt l h]
    simp only [minus, not_le.mpr h, if_false, minusLoop_closed]
    by_cases h1 : d ≤ i <;> simp [h1]
  · have hi2 : i = l.elems.length := by omega
    rw [iteratorAt_of_ge l (not_lt.mp h)]
    simp only [minus, minusLoop_closed]
    rw [← hi2]
    by_cases h1 : d ≤ i <;> simp [h1]

theorem repeatStep_next (l : LinkedList α) (d : Nat) {i : Nat} (hi : i ≤ l.elems.length) :
    repeatStep (next l) d (iteratorAt l i) =
      if i + d ≤ l.elems.length then Except.ok (iteratorAt l (i + d))
      else Except.error Error.out_of_range := by
  induction d generalizing i with
  | zero => simp [repeatStep, hi]
  | succ d ih =>
    simp only [repeatStep, next_iteratorAt l hi]
    by_cases h : i < l.elems.length
    · simp only [h, if_true]
      rw [ih (by omega)]
      have : i + 1 + d = i + (d + 1) := by omega
      rw [this]
    · have h4 : ¬ i + (d + 1) ≤ l.elems.length := by omega
      simp [h, h4]

theorem repeatStep_prev (l : LinkedList α) (d : Nat) {i : Nat} (hi : i ≤ l.elems.length) :
    repeatStep (prev l) d (iteratorAt l i) =
      if d ≤ i then Except.ok (iteratorAt l (i - d))
      else Except.error Error.out_of_range := by
  induction d generalizing i with
  | zero => simp [repeatStep]
  | succ d ih =>
    simp only [repeatStep, prev_iteratorAt l hi]
    by_cases h : i = 0
    · subst h
      simp
    · simp only [h, if_false]
      rw [ih (by omega)]
      have h1 : (d ≤ i - 1) ↔ (d + 1 ≤ i) := by omega
      have h2 : i - 1 - d = i - (d + 1) := by omega
      simp only [h1, h2]

/-! ### insert, erase and the pop methods -/

/-- On a well-formed list `insert` links the item before the node at the position. -/
theorem insert_iteratorAt {l : LinkedList α} (hwf : WF l) {i : Nat}
    (hi : i ≤ l.elems.length) (v : α) :
    insert l (iteratorAt l i) v =
      LinkedList.mk (l.elems.take i ++ [v] ++ l.elems.drop i) (l.elems.length + 1) := by
  unfold insert
  by_cases he : l.isEmpty = true
  · have hnil := elems_eq_nil_of_isEmpty hwf he
    have hi0 : i = 0 := by
      rw [hnil] at hi
      simpa using hi
    have hs : l.size = 0 := by simpa [isEmpty] using he
    simp [he, hnil, hi0, hs]
  · have hs : l.size = l.elems.length := hwf
    have hpos : 0 < l.elems.length := by
      rw [← hs]
      simp only [isEmpty, beq_iff_eq] at he
      omega
    have hb : l.begin = some 0 := by
      rw [begin_eq_iteratorAt, iteratorAt_of_lt l hpos]
    simp only [he, Bool.false_eq_true, if_false, hb, hs]
    by_cases h0 : i = 0
    · subst h0
      simp [iteratorAt_of_lt l hpos]
    · by_cases h : i < l.elems.length
      · simp [iteratorAt_of_lt l h, h0]
      · have hi2 : i = l.elems.length := by omega
        rw [iteratorAt_of_ge l (not_lt.mp h)]
        simp [hi2]

theorem eraseIdx_eq_take_append_drop (xs : List α) (i : Nat) :
    xs.eraseIdx i = xs.take i ++ xs.drop (i + 1) := by
  induction xs generalizing i with
  | nil => simp
  | cons a as ih =>
    cases i with
    | zero => simp
    | succ i => simp [ih]

/-- The plain and the caller's view of `erase` agree. -/
theorem eraseCall_fst (l : LinkedList α) (pos : Iterator) :
    erase l pos =
      match (eraseCall l pos).1 with
      | Except.error e => Except.error e
      | Except.ok _ => Except.ok (eraseCall l pos).2 := by
  unfold erase eraseCall
  by_cases he : l.isEmpty = true
  · simp [he]
  · simp only [he, Bool.false_eq_true, if_false]
    cases pos with
    | none => rfl
    | some i =>
      simp only
      split_ifs <;> rfl

/-- On a well-formed list the caller's view of `erase` at a position of the chain. -/
theorem eraseCall_some {l : LinkedList α} (hwf : WF l) {i : Nat} (hi : i < l.elems.length) :
    eraseCall l (some i) = (Except.ok (), LinkedList.mk (l.elems.eraseIdx i) (l.size - 1)) := by
  have h1 := eraseCall_fst l (some i)
  rw [erase_some_eq hwf hi] at h1
  cases hr : eraseCall l (some i) with
  | mk r st =>
    rw [hr] at h1
    cases r with
    | error e => simp at h1
    | ok u =>
      simp only [Except.ok.injEq] at h1
      rw [← h1]

/-- A call of `erase` that throws leaves the list as it was. -/
theorem eraseCall_error (l : LinkedList α) (pos : Iterator) (e : Error)
    (h : (eraseCall l pos).1 = Except.error e) : (eraseCall l pos).2 = l := by
  unfold eraseCall at h ⊢
  by_cases he : l.isEmpty = true
  · simp [he]
  · simp only [he, Bool.false_eq_true, if_false] at h ⊢
    cases pos with
    | none => rfl
    | some i =>
      simp only at h ⊢
      split_ifs at h ⊢
      rfl

/-- What `popFirst` does on a well-formed list with a first element. -/
theorem popFirst_cons (moved : α → α) {l : LinkedList α} (hwf : WF l) {x : α} {rest : List α}
    (h : l.elems = x :: rest) :
    popFirst moved l = (Except.ok x, LinkedList.mk rest (l.size - 1)) := by
  have hs : l.size = rest.length + 1 := by
    rw [hwf, h]
    rfl
  have he : l.isEmpty = false := by
    simp [isEmpty, hs]
  have hwf1 : WF (LinkedList.mk (moved x :: rest) l.size) := by
    simp [WF, hs]
  have hcall := eraseCall_some (i := 0) hwf1 (by simp)
  simp only [popFirst, he, Bool.false_eq_true, if_false, h]
  have hb : «begin» (LinkedList.mk (moved x :: rest) l.size) = some 0 := rfl
  rw [hb, hcall]
  simp

/-- What `popLast` does on a well-formed list with a last element. -/
theorem popLast_append (moved : α → α) {l : LinkedList α} (hwf : WF l) {y : α}
    {init : List α} (h : l.elems = init ++ [y]) :
    popLast moved l = (Except.ok y, LinkedList.mk init (l.size - 1)) := by
  have hs : l.size = init.length + 1 := by
    rw [hwf, h]
    simp
  have he : l.isEmpty = false := by
    simp [isEmpty, hs]
  have hwf1 : WF (LinkedList.mk (init ++ [moved y]) l.size) := by
    simp [WF, hs]
  have hlen : init.length < (LinkedList.mk (init ++ [moved y]) l.size).elems.length := by
    simp
  have hcall := eraseCall_some hwf1 hlen
  have hprev : prev (LinkedList.mk (init ++ [moved y]) l.size)
      («end» (LinkedList.mk (init ++ [moved y]) l.size)) = Except.ok (some init.length) := by
    have := prev_iteratorAt (LinkedList.mk (init ++ [moved y]) l.size)
      (le_refl (init ++ [moved y]).length)
    rw [iteratorAt_of_ge _ (le_refl _)] at this
    simp only [«end»]
    rw [this]
    simp [iteratorAt]
  have hlast : (init ++ [y]).getLast? = some y := by simp
  simp only [popLast, he, Bool.false_eq_true, if_false, h, hlast, List.dropLast_concat]
  rw [hprev]
  simp only
  rw [hcall]
  simp [eraseIdx_eq_take_append_drop]

/-- A call of `popFirst` that throws leaves the list as it was. -/
theorem popFirst_error (moved : α → α) (l : LinkedList α) (e : Error)
    (h : (popFirst moved l).1 = Except.error e) : (popFirst moved l).2 = l := by
  unfold popFirst at h ⊢
  by_cases he : l.isEmpty = true
  · simp [he]
  · simp only [he, Bool.false_eq_true, if_false] at h ⊢
    cases hl : l.elems with
    | nil => simp
    | cons x rest =>
      simp only [hl] at h ⊢
      have hne : isEmpty (LinkedList.mk (moved x :: rest) l.size) = false := by
        simpa [isEmpty] using he
      have hb : «begin» (LinkedList.mk (moved x :: rest) l.size) = some 0 := rfl
      rw [hb] at h
      exfalso
      revert h
      unfold eraseCall
      simp only [hne, Bool.false_eq_true, if_false]
      split_ifs with h1 <;> simp_all

/-- A call of `popLast` that throws leaves the list as it was. -/
theorem popLast_error (moved : α → α) (l : LinkedList α) (e : Error)
    (h : (popLast moved l).1 = Except.error e) : (popLast moved l).2 = l := by
  unfold popLast at h ⊢
  by_cases he : l.isEmpty = true
  · simp [he]
  · simp only [he, Bool.false_eq_true, if_false] at h ⊢
    cases hl : l.elems.getLast? with
    | none => simp
    | some y =>
      simp only [hl] at h ⊢
      have hne : isEmpty (LinkedList.mk (l.elems.dropLast ++ [moved y]) l.size) = false := by
        simpa [isEmpty] using he
      have hprev : prev (LinkedList.mk (l.elems.dropLast ++ [moved y]) l.size)
          («end» (LinkedList.mk (l.elems.dropLast ++ [moved y]) l.size)) =
          Except.ok (some l.elems.dropLast.length) := by
        have := prev_iteratorAt (LinkedList.mk (l.elems.dropLast ++ [moved y]) l.size)
          (le_refl (l.elems.dropLast ++ [moved y]).length)
        rw [iteratorAt_of_ge _ (le_refl _)] at this
        simp only [«end»]
        rw [this]
        simp [iteratorAt]
      rw [hprev] at h
      exfalso
      revert h
      simp only
      unfold eraseCall
      simp only [hne, Bool.false_eq_true, if_false]
      split_ifs with h1 <;> simp_all

/-! ### erase of a range -/

theorem afterErase_iteratorAt (l : LinkedList α) {t p : Nat} (ht : t < l.elems.length)
    (hp : t < p) (st : Nat) :
    afterErase t (iteratorAt l p) =
      iteratorAt (LinkedList.mk (l.elems.eraseIdx t) st) (p - 1) := by
  have hlen : (l.elems.eraseIdx t).length = l.elems.length - 1 := by
    rw [List.length_eraseIdx]
    simp [ht]
  unfold iteratorAt
  simp only [hlen]
  by_cases h : p < l.elems.length
  · have h2 : p - 1 < l.elems.length - 1 := by omega
    simp [h, h2, afterErase, hp]
  · have h2 : ¬ p - 1 < l.elems.length - 1 := by omega
    simp [h, h2, afterErase]

theorem eraseRangeLoop_succ (n : Nat) (l : LinkedList α) (temp last : Iterator) :
    eraseRangeLoop (n + 1) l temp last =
      if temp = last then some (Except.ok l)
      else
        match temp with
        | none => some (Except.error Error.dangling)
        | some t =>
          if l.elems.length ≤ t then some (Except.error Error.dangling)
          else
            match erase l (some t) with
            | Except.error e => some (Except.error e)
            | Except.ok l1 =>
              eraseRangeLoop n l1 (afterErase t (iteratorAt l (t + 1)))
                (afterErase t last) := by
  rfl

/-- The loop of the range `erase` between two positions of a well-formed list ends
normally and unlinks the nodes from the first position up to the second. -/
theorem eraseRangeLoop_spec (k : Nat) (l : LinkedList α) (hwf : WF l) (i j : Nat)
    (hk : j = i + k) (hj : j ≤ l.elems.length) (n : Nat) :
    eraseRangeLoop (k + (n + 1)) l (iteratorAt l i) (iteratorAt l j) =
      some (Except.ok (LinkedList.mk (l.elems.take i ++ l.elems.drop j)
        (l.elems.length - k))) := by
  induction k generalizing l j with
  | zero =>
    have hij : j = i := by omega
    subst hij
    have hfuel : 0 + (n + 1) = n + 1 := by omega
    rw [hfuel]
    simp only [eraseRangeLoop, if_true, List.take_append_drop, Nat.sub_zero]
    cases l with
    | mk elems size =>
      simp only [WF] at hwf
      simp [hwf]
  | succ k ih =>
    have hi : i < l.elems.length := by omega
    have hne : iteratorAt l i ≠ iteratorAt l j := by
      intro h
      have := iteratorAt_inj l (le_of_lt hi) hj h
      omega
    have hfuel : k + 1 + (n + 1) = (k + (n + 1)) + 1 := by omega
    rw [hfuel]
    have hit : iteratorAt l i = some i := iteratorAt_of_lt l hi
    have hwf1 : WF (LinkedList.mk (l.elems.eraseIdx i) (l.size - 1)) := by
      simp only [WF, List.length_eraseIdx, hi, if_true]
      rw [hwf]
    have hlen1 : (l.elems.eraseIdx i).length = l.elems.length - 1 := by
      rw [List.length_eraseIdx]
      simp [hi]
    rw [hit] at hne ⊢
    rw [eraseRangeLoop_succ]
    simp only [hne, if_false, not_le.mpr hi, erase_some_eq hwf hi]
    rw [afterErase_iteratorAt l hi (show i < j by omega) (l.size - 1)]
    have hj2 : afterErase i (iteratorAt l (i + 1)) =
        iteratorAt (LinkedList.mk (l.elems.eraseIdx i) (l.size - 1)) i := by
      rw [afterErase_iteratorAt l hi (by omega) (l.size - 1)]
      simp
    rw [hj2]
    have := ih (LinkedList.mk (l.elems.eraseIdx i) (l.size - 1)) hwf1 (j - 1) (by omega)
      (by simp only [hlen1]; omega)
    rw [this]
    have hsz : (l.elems.eraseIdx i).length - k = l.elems.length - (k + 1) := by
      rw [hlen1]
      omega
    dsimp only
    rw [hsz]
    simp only [eraseIdx_eq_take_append_drop]
    have h1 : (l.elems.take i ++ l.elems.drop (i + 1)).take i = l.elems.take i := by
      rw [List.take_append_of_le_length (by simp; omega)]
      simp [List.take_take]
    have h2 : (l.elems.take i ++ l.elems.drop (i + 1)).drop (j - 1) = l.elems.drop j := by
      have hl : (l.elems.take i).length = i := by simp; omega
      rw [List.drop_append_eq_append_drop, hl]
      have h3 : (l.elems.take i).drop (j - 1) = [] := by
        apply List.drop_eq_nil_of_le
        rw [hl]
        omega
      rw [h3, List.drop_drop]
      simp only [List.nil_append]
      congr 1
      omega
    rw [h1, h2]

/-! ### negative offsets -/

/-- With a negative offset the loop of `operator+` walks to the end of the chain and
throws there. -/
theorem plusLoop_neg (xs : List α) (j : Nat) (d : Int) (hd : d < 0) :
    plusLoop xs j d = Except.error Error.out_of_range := by
  induction xs generalizing j d with
  | nil =>
    have hn : d ≠ 0 := by omega
    simp only [plusLoop, hn, if_false]
  | cons a as ih =>
    have hn : d ≠ 0 := by omega
    simp only [plusLoop, hn, if_false]
    exact ih (j + 1) (d - 1) (by omega)

/-- With a negative offset the loop of `operator-` walks to the first node and throws
there. -/
theorem minusLoop_neg (p : Nat) (d : Int) (hd : d < 0) :
    minusLoop p d = Except.error Error.out_of_range := by
  induction p generalizing d with
  | zero =>
    have hn : d ≠ 0 := by omega
    simp only [minusLoop, hn, if_false]
  | succ p ih =>
    have hn : d ≠ 0 := by omega
    simp only [minusLoop, hn, if_false]
    exact ih (d - 1) (by omega)

theorem plus_neg (l : LinkedList α) {i : Nat} (_hi : i ≤ l.elems.length) (d : Int)
    (hd : d < 0) : plus l (iteratorAt l i) d = Except.error Error.out_of_range := by
  by_cases h : i < l.elems.length
  · rw [iteratorAt_of_lt l h]
    simp only [plus, not_le.mpr h, if_false]
    exact plusLoop_neg _ _ d hd
  · rw [iteratorAt_of_ge l (not_lt.mp h)]
    simp only [plus]
    exact plusLoop_neg _ _ d hd

theorem minus_neg (l : LinkedList α) {i : Nat} (_hi : i ≤ l.elems.length) (d : Int)
    (hd : d < 0) : minus l (iteratorAt l i) d = Except.error Error.out_of_range := by
  by_cases h : i < l.elems.length
  · rw [iteratorAt_of_lt l h]
    simp only [minus, not_le.mpr h, if_false, minusLoop_neg _ d hd]
  · rw [iteratorAt_of_ge l (not_lt.mp h)]
    simp only [minus, minusLoop_neg _ d hd]

theorem decrWrapped_of_gt {d : Int} (h1 : -(2 ^ 63) < d) (h2 : d < 2 ^ 63) :
    decrWrapped d = d - 1 := by
  unfold decrWrapped
  omega

theorem decrWrapped_least : decrWrapped (-(2 ^ 63)) = 2 ^ 63 - 1 := by
  unfold decrWrapped
  omega

/-- With a counter of 64 bits that is negative, or above the number of nodes left, the
loop of `operator+` throws, provided the chain has less than `2 ^ 63 - 1` nodes. -/
theorem plusLoopWrapped_throws (xs : List α) (j : Nat) (d : Int) (h1 : -(2 ^ 63) ≤ d)
    (h2 : d < 2 ^ 63) (hd : d < 0 ∨ (xs.length : Int) < d)
    (hlen : (xs.length : Int) < 2 ^ 63 - 1) :
    plusLoopWrapped xs j d = Except.error Error.out_of_range := by
  induction xs generalizing j d with
  | nil =>
    have hn : d ≠ 0 := by
      rcases hd with hd | hd
      · omega
      · simp only [List.length_nil, Nat.cast_zero] at hd
        omega
    simp only [plusLoopWrapped, hn, if_false]
  | cons a as ih =>
    simp only [List.length_cons, Nat.cast_add, Nat.cast_one] at hd hlen
    have hn : d ≠ 0 := by omega
    simp only [plusLoopWrapped, hn, if_false]
    by_cases hleast : d = -(2 ^ 63)
    · rw [hleast, decrWrapped_least]
      exact ih (j + 1) _ (by omega) (by omega) (Or.inr (by omega)) (by omega)
    · rw [decrWrapped_of_gt (by omega) h2]
      exact ih (j + 1) _ (by omega) (by omega) (by omega) (by omega)

/-- With a counter of 64 bits that is negative, or above the position, the loop of
`operator-` throws, provided the position is below `2 ^ 63 - 1`. -/
theorem minusLoopWrapped_throws (p : Nat) (d : Int) (h1 : -(2 ^ 63) ≤ d) (h2 : d < 2 ^ 63)
    (hd : d < 0 ∨ (p : Int) < d) (hlen : (p : Int) < 2 ^ 63 - 1) :
    minusLoopWrapped p d = Except.error Error.out_of_range := by
  induction p generalizing d with
  | zero =>
    have hn : d ≠ 0 := by
      rcases hd with hd | hd
      · omega
      · simp only [Nat.cast_zero] at hd
        omega
    simp only [minusLoopWrapped, hn, if_false]
  | succ p ih =>
    simp only [Nat.cast_add, Nat.cast_one] at hd hlen
    have hn : d ≠ 0 := by omega
    simp only [minusLoopWrapped, hn, if_false]
    by_cases hleast : d = -(2 ^ 63)
    · rw [hleast, decrWrapped_least]
      exact ih _ (by omega) (by omega) (Or.inr (by omega)) (by omega)
    · rw [decrWrapped_of_gt (by omega) h2]
      exact ih _ (by omega) (by omega) (by omega) (by omega)

theorem plusWrapped_neg (l : LinkedList α) {i : Nat} (_hi : i ≤ l.elems.length) (d : Int)
    (h1 : -(2 ^ 63) ≤ d) (hd : d < 0) (hlen : (l.elems.length : Int) < 2 ^ 63 - 1) :
    plusWrapped l (iteratorAt l i) d = Except.error Error.out_of_range := by
  by_cases h : i < l.elems.length
  · rw [iteratorAt_of_lt l h]
    simp only [plusWrapped, not_le.mpr h, if_false]
    apply plusLoopWrapped_throws _ _ d h1 (by omega) (Or.inl hd)
    rw [List.length_drop]
    omega
  · rw [iteratorAt_of_ge l (not_lt.mp h)]
    simp only [plusWrapped]
    exact plusLoopWrapped_throws _ _ d h1 (by omega) (Or.inl hd) (by simp)

theorem minusWrapped_neg (l : LinkedList α) {i : Nat} (_hi : i ≤ l.elems.length) (d : Int)
    (h1 : -(2 ^ 63) ≤ d) (hd : d < 0) (hlen : (l.elems.length : Int) < 2 ^ 63 - 1) :
    minusWrapped l (iteratorAt l i) d = Except.error Error.out_of_range := by
  by_cases h : i < l.elems.length
  · rw [iteratorAt_of_lt l h]
    simp only [minusWrapped, not_le.mpr h, if_false,
      minusLoopWrapped_throws i d h1 (by omega) (Or.inl hd) (by omega)]
  · rw [iteratorAt_of_ge l (not_lt.mp h)]
    simp only [minusWrapped,
      minusLoopWrapped_throws l.elems.length d h1 (by omega) (Or.inl hd) hlen]

/-! ### the nodes and their links -/

namespace Raw

theorem ok_bind {β γ : Type} (a : β) (f : β → Except Error γ) :
    (Except.ok a >>= f) = f a := rfl

theorem nodeAt_lt {mem : List (Option (Node α))} {a : Nat} {n : Node α}
    (h : nodeAt mem a = some n) : a < mem.length := by
  by_contra hlt
  simp [nodeAt, List.getD_eq_getElem?_getD, List.getElem?_eq_none (not_lt.mp hlt)] at h

theorem nodeAt_set_eq {mem : List (Option (Node α))} {a : Nat} (h : a < mem.length)
    (x : Option (Node α)) : nodeAt (mem.set a x) a = x := by
  simp [nodeAt, List.getD_eq_getElem?_getD, h]

theorem nodeAt_set_ne {mem : List (Option (Node α))} {a b : Nat} (h : a ≠ b)
    (x : Option (Node α)) : nodeAt (mem.set a x) b = nodeAt mem b := by
  simp [nodeAt, List.getD_eq_getElem?_getD, List.getElem?_set_ne h]

theorem nodeAt_append_left {mem : List (Option (Node α))} {a : Nat} (h : a < mem.length)
    (ys : List (Option (Node α))) : nodeAt (mem ++ ys) a = nodeAt mem a := by
  simp [nodeAt, List.getD_eq_getElem?_getD, List.getElem?_append_left h]

theorem nodeAt_append_length (mem : List (Option (Node α))) (x : Option (Node α)) :
    nodeAt (mem ++ [x]) mem.length = x := by
  simp [nodeAt, List.getD_eq_getElem?_getD]

theorem load_ok {mem : List (Option (Node α))} {a : Nat} {n : Node α}
    (h : nodeAt mem a = some n) : load mem (some a) = Except.ok n := by
  simp only [load, h]

theorem store_ok {mem : List (Option (Node α))} {a : Nat} {n : Node α}
    (h : nodeAt mem a = some n) (f : Node α → Node α) :
    store mem (some a) f = Except.ok (mem.set a (some (f n))) := by
  simp only [store, h]

theorem free_ok {mem : List (Option (Node α))} {a : Nat} {n : Node α}
    (h : nodeAt mem a = some n) : free mem (some a) = Except.ok (mem.set a none) := by
  simp only [free, h]

theorem firstAddr_append (xs ys : List (Nat × α)) (q : Option Nat) :
    firstAddr (xs ++ ys) q = firstAddr xs (firstAddr ys q) := by
  cases xs <;> rfl

theorem lastAddr_nil (p : Option Nat) : lastAddr ([] : List (Nat × α)) p = p := rfl

theorem lastAddr_cons (c : Nat × α) (xs : List (Nat × α)) (p : Option Nat) :
    lastAddr (c :: xs) p = lastAddr xs (some c.1) := rfl

theorem lastAddr_append (xs ys : List (Nat × α)) (p : Option Nat) :
    lastAddr (xs ++ ys) p = lastAddr ys (lastAddr xs p) := by
  induction xs generalizing p with
  | nil => rfl
  | cons c xs ih => rw [List.cons_append, lastAddr_cons, lastAddr_cons, ih]

theorem lastAddr_concat (xs : List (Nat × α)) (c : Nat × α) (p : Option Nat) :
    lastAddr (xs ++ [c]) p = some c.1 := by
  rw [lastAddr_append]
  rfl

/-- A change of the memory outside the cells of a row leaves it a row. -/
theorem Seg_frame {mem mem1 : List (Option (Node α))} {p q : Option Nat}
    {cells : List (Nat × α)} (h : ∀ c ∈ cells, nodeAt mem1 c.1 = nodeAt mem c.1)
    (hs : Seg mem p cells q) : Seg mem1 p cells q := by
  induction cells generalizing p with
  | nil => trivial
  | cons c rest ih =>
    obtain ⟨h1, h2⟩ := hs
    refine ⟨?_, ih (fun d hd => h d (List.mem_cons_of_mem _ hd)) h2⟩
    rw [h c (List.mem_cons_self _ _)]
    exact h1

theorem Seg_lt {mem : List (Option (Node α))} {p q : Option Nat} {cells : List (Nat × α)}
    (hs : Seg mem p cells q) : ∀ c ∈ cells, c.1 < mem.length := by
  induction cells generalizing p with
  | nil => intro c hc; simp at hc
  | cons c rest ih =>
    obtain ⟨h1, h2⟩ := hs
    intro d hd
    rcases List.mem_cons.mp hd with rfl | hd
    · exact nodeAt_lt h1
    · exact ih h2 d hd

theorem Seg_set {mem : List (Option (Node α))} {p q : Option Nat} {cells : List (Nat × α)}
    {a : Nat} (ha : a ∉ cells.map Prod.fst) (x : Option (Node α)) (hs : Seg mem p cells q) :
    Seg (mem.set a x) p cells q := by
  apply Seg_frame _ hs
  intro c hc
  apply nodeAt_set_ne
  rintro rfl
  exact ha (List.mem_map_of_mem _ hc)

theorem Seg_alloc {mem : List (Option (Node α))} {p q : Option Nat} {cells : List (Nat × α)}
    (ys : List (Option (Node α))) (hs : Seg mem p cells q) : Seg (mem ++ ys) p cells q := by
  apply Seg_frame _ hs
  intro c hc
  exact nodeAt_append_left (Seg_lt hs c hc) ys

/-- A row of cells followed by a row of cells is a row, and conversely. -/
theorem Seg_append {mem : List (Option (Node α))} {p q : Option Nat}
    (xs ys : List (Nat × α)) :
    Seg mem p (xs ++ ys) q ↔ Seg mem p xs (firstAddr ys q) ∧ Seg mem (lastAddr xs p) ys q := by
  induction xs generalizing p with
  | nil => simp [Seg, lastAddr_nil]
  | cons c xs ih =>
    show (nodeAt mem c.1 = some { next := firstAddr (xs ++ ys) q, prev := p, data := c.2 } ∧
        Seg mem (some c.1) (xs ++ ys) q) ↔
      ((nodeAt mem c.1 = some { next := firstAddr xs (firstAddr ys q), prev := p, data := c.2 } ∧
        Seg mem (some c.1) xs (firstAddr ys q)) ∧ Seg mem (lastAddr xs (some c.1)) ys q)
    rw [ih, firstAddr_append]
    tauto

theorem Seg_single {mem : List (Option (Node α))} {p q : Option Nat} (c : Nat × α) :
    Seg mem p [c] q ↔ nodeAt mem c.1 = some { next := q, prev := p, data := c.2 } := by
  simp [Seg, firstAddr]

theorem Seg_snoc {mem : List (Option (Node α))} {p q : Option Nat} (xs : List (Nat × α))
    (b : Nat × α) :
    Seg mem p (xs ++ [b]) q ↔
      Seg mem p xs (some b.1) ∧
        nodeAt mem b.1 = some (Node.mk q (lastAddr xs p) b.2) := by
  rw [Seg_append, Seg_single]
  rfl

theorem isEmpty_iff {l : Raw α} {cells : List (Nat × α)} (h : Inv l cells) :
    l.isEmpty = true ↔ cells = [] := by
  simp only [isEmpty, beq_iff_eq, h.2.2.2.2]
  exact List.length_eq_zero

theorem isEmpty_of_ne_nil {l : Raw α} {cells : List (Nat × α)} (h : Inv l cells)
    (hne : cells ≠ []) : l.isEmpty = false := by
  cases he : l.isEmpty with
  | false => rfl
  | true => exact absurd ((isEmpty_iff h).mp he) hne

/-- Method `insert` at `begin()` of a list that is not empty. -/
theorem insert_front {l : Raw α} {d : Nat × α} {post : List (Nat × α)}
    (h : Inv l (d :: post)) (item : α) :
    ∃ l1, insert l (some d.1) item = Except.ok l1 ∧
      Inv l1 ((l.mem.length, item) :: d :: post) := by
  obtain ⟨hnd, hseg, hroot, htail, hsize⟩ := h
  have hne : l.isEmpty = false :=
    isEmpty_of_ne_nil ⟨hnd, hseg, hroot, htail, hsize⟩ (List.cons_ne_nil _ _)
  have hlt := Seg_lt hseg
  obtain ⟨hd, hpost⟩ := hseg
  have hdlt : d.1 < l.mem.length := hlt d (List.mem_cons_self _ _)
  have hr : l.root = some d.1 := hroot
  rw [List.map_cons, List.nodup_cons] at hnd
  have hnew : l.mem.length ∉ (d :: post).map Prod.fst := by
    intro hm
    obtain ⟨c, hc, he⟩ := List.mem_map.mp hm
    have := hlt c hc
    omega
  -- the memory after each statement
  have h0 : nodeAt (l.mem ++ [some (Node.mk none none item)])
      l.mem.length = some (Node.mk none none item) :=
    nodeAt_append_length _ _
  have h1 : nodeAt ((l.mem ++ [some (Node.mk none none item)]).set
      l.mem.length (some (Node.mk (some d.1) none item))) d.1 =
      some (Node.mk (firstAddr post none) none d.2) := by
    rw [nodeAt_set_ne (by omega), nodeAt_append_left hdlt]
    exact hd
  have heq : insert l (some d.1) item = Except.ok (Raw.mk
      (((l.mem ++ [some (Node.mk none none item)]).set l.mem.length
        (some (Node.mk (some d.1) none item))).set d.1
        (some (Node.mk (firstAddr post none) (some l.mem.length) d.2)))
      (some l.mem.length) l.tail (l.size + 1)) := by
    simp only [insert, hne, Bool.false_eq_true, if_false, hr, if_true, store_ok h0, ok_bind,
      store_ok h1]
  refine ⟨_, heq, ?_, ⟨?_, ?_, ?_⟩, rfl, ?_, ?_⟩
  · rw [List.map_cons, List.nodup_cons, List.map_cons, List.nodup_cons]
    exact ⟨hnew, hnd⟩
  · simp only
    rw [nodeAt_set_ne (by omega), nodeAt_set_eq (by simp)]
    rfl
  · simp only
    rw [nodeAt_set_eq (by simp; omega)]
  · exact Seg_set hnd.1 _ (Seg_set (fun hm => hnew (List.mem_cons_of_mem _ hm)) _
      (Seg_alloc _ hpost))
  · exact htail
  · simp only [List.length_cons, hsize]

theorem firstAddr_of_ne_nil {xs : List (Nat × α)} (h : xs ≠ []) (q q1 : Option Nat) :
    firstAddr xs q = firstAddr xs q1 := by
  cases xs with
  | nil => exact absurd rfl h
  | cons c xs => rfl

theorem firstAddr_mem {xs : List (Nat × α)} (h : xs ≠ []) (q : Option Nat) :
    ∃ c ∈ xs, firstAddr xs q = some c.1 := by
  cases xs with
  | nil => exact absurd rfl h
  | cons c xs => exact ⟨c, List.mem_cons_self _ _, rfl⟩

theorem lastAddr_mem {xs : List (Nat × α)} (h : xs ≠ []) (p : Option Nat) :
    ∃ c ∈ xs, lastAddr xs p = some c.1 := by
  rcases List.eq_nil_or_concat xs with rfl | ⟨ys, d, rfl⟩
  · exact absurd rfl h
  · rw [List.concat_eq_append]
    exact ⟨d, by simp, lastAddr_concat ys d p⟩

theorem lastAddr_of_ne_nil {xs : List (Nat × α)} (h : xs ≠ []) (p p1 : Option Nat) :
    lastAddr xs p = lastAddr xs p1 := by
  rcases List.eq_nil_or_concat xs with rfl | ⟨ys, d, rfl⟩
  · exact absurd rfl h
  · rw [List.concat_eq_append, lastAddr_concat, lastAddr_concat]

/-- The address of a cell of the invariant is below the first free address. -/
theorem Inv_lt {l : Raw α} {cells : List (Nat × α)} (h : Inv l cells) :
    ∀ c ∈ cells, c.1 < l.mem.length :=
  Seg_lt h.2.1

theorem Inv_new_not_mem {l : Raw α} {cells : List (Nat × α)} (h : Inv l cells) :
    l.mem.length ∉ cells.map Prod.fst := by
  intro hm
  obtain ⟨c, hc, he⟩ := List.mem_map.mp hm
  have := Inv_lt h c hc
  omega

/-- Method `insert` into the empty list. -/
theorem insert_empty {l : Raw α} (h : Inv l []) (pos : Option Nat) (item : α) :
    ∃ l1, insert l pos item = Except.ok l1 ∧ Inv l1 [(l.mem.length, item)] := by
  have he : l.isEmpty = true := (isEmpty_iff h).mpr rfl
  have heq : insert l pos item = Except.ok (Raw.mk (l.mem ++ [some (Node.mk none none item)])
      (some l.mem.length) (some l.mem.length) (l.size + 1)) := by
    simp only [insert, he, if_true]
  refine ⟨_, heq, by simp, ⟨?_, trivial⟩, rfl, rfl, ?_⟩
  · exact nodeAt_append_length _ _
  · simp only [List.length_singleton, h.2.2.2.2, List.length_nil]

/-- Method `insert` at `end()` of a list that is not empty. -/
theorem insert_back {l : Raw α} {pre : List (Nat × α)} {b : Nat × α}
    (h : Inv l (pre ++ [b])) (item : α) :
    ∃ l1, insert l none item = Except.ok l1 ∧
      Inv l1 (pre ++ [b] ++ [(l.mem.length, item)]) := by
  have hne : l.isEmpty = false := isEmpty_of_ne_nil h (by simp)
  have hlt := Inv_lt h
  have hnew := Inv_new_not_mem h
  obtain ⟨hnd, hseg, hroot, htail, hsize⟩ := h
  rw [Seg_snoc] at hseg
  obtain ⟨hpre, hb⟩ := hseg
  have hblt : b.1 < l.mem.length := hlt b (by simp)
  have ht : l.tail = some b.1 := by rw [htail, lastAddr_concat]
  have hr : ¬ (none = l.root) := by
    obtain ⟨c, -, hc⟩ := firstAddr_mem (show pre ++ [b] ≠ [] by simp) none
    rw [hroot, hc]
    simp
  have hbpre : b.1 ∉ pre.map Prod.fst := by
    rw [List.map_append, List.nodup_append] at hnd
    intro hm
    exact hnd.2.2 hm (by simp) 
  have hnpre : l.mem.length ∉ pre.map Prod.fst := by
    intro hm
    apply hnew
    rw [List.map_append]
    exact List.mem_append_left _ hm
  have h0 : nodeAt (l.mem ++ [some (Node.mk none none item)]) l.mem.length =
      some (Node.mk none none item) := nodeAt_append_length _ _
  have h1 : nodeAt ((l.mem ++ [some (Node.mk none none item)]).set l.mem.length
      (some (Node.mk none (some b.1) item))) b.1 =
      some (Node.mk none (lastAddr pre none) b.2) := by
    rw [nodeAt_set_ne (by omega), nodeAt_append_left hblt]
    exact hb
  have heq : insert l none item = Except.ok (Raw.mk
      (((l.mem ++ [some (Node.mk none none item)]).set l.mem.length
        (some (Node.mk none (some b.1) item))).set b.1
        (some (Node.mk (some l.mem.length) (lastAddr pre none) b.2)))
      l.root (some l.mem.length) (l.size + 1)) := by
    simp only [insert, hne, Bool.false_eq_true, if_false, hr, if_true, ht, store_ok h0,
      ok_bind, store_ok h1]
  refine ⟨_, heq, ?_, ?_, ?_, ?_, ?_⟩
  · rw [List.map_append, List.nodup_append]
    refine ⟨hnd, by simp, ?_⟩
    intro a ha ha2
    simp only [List.map_cons, List.map_nil, List.mem_singleton] at ha2
    exact hnew (ha2 ▸ ha)
  · simp only
    rw [Seg_snoc, Seg_snoc]
    refine ⟨⟨?_, ?_⟩, ?_⟩
    · exact Seg_set hbpre _ (Seg_set hnpre _ (Seg_alloc _ hpre))
    · rw [nodeAt_set_eq (by simp; omega)]
    · rw [nodeAt_set_ne (by omega), nodeAt_set_eq (by simp), lastAddr_concat]
  · simp only
    rw [hroot]
    exact firstAddr_of_ne_nil (by simp) _ _ |>.trans (firstAddr_append _ _ _).symm |>.trans rfl
  · simp only
    rw [lastAddr_concat]
  · simp only [List.length_append, List.length_singleton, hsize]

/-- Method `insert` before a node that is not the first one. -/
theorem insert_middle {l : Raw α} {pre post : List (Nat × α)} {b d : Nat × α}
    (h : Inv l (pre ++ [b] ++ d :: post)) (item : α) :
    ∃ l1, insert l (some d.1) item = Except.ok l1 ∧
      Inv l1 (pre ++ [b] ++ (l.mem.length, item) :: d :: post) := by
  have hne : l.isEmpty = false := isEmpty_of_ne_nil h (by simp)
  have hlt := Inv_lt h
  have hnew := Inv_new_not_mem h
  obtain ⟨hnd, hseg, hroot, htail, hsize⟩ := h
  rw [Seg_append, Seg_snoc, lastAddr_concat] at hseg
  obtain ⟨⟨hpre, hb⟩, hd, hpost⟩ := hseg
  have hblt : b.1 < l.mem.length := hlt b (by simp)
  have hdlt : d.1 < l.mem.length := hlt d (by simp)
  simp only [List.map_append, List.map_cons, List.map_nil, List.nodup_append, List.nodup_cons,
    List.mem_append, List.mem_cons, List.mem_singleton, List.not_mem_nil, or_false,
    not_false_eq_true, List.nodup_nil, and_true, true_and, not_or] at hnd hnew
  obtain ⟨⟨hndpre, hbpre⟩, ⟨hdpost, hndpost⟩, hdisj⟩ := hnd
  have hbd : b.1 ≠ d.1 := fun e =>
    hdisj (show b.1 ∈ pre.map Prod.fst ++ [b.1] by simp) (by rw [e]; simp)
  have hdpre : d.1 ∉ pre.map Prod.fst := fun hm =>
    hdisj (List.mem_append_left _ hm) (by simp)
  have hbpost : b.1 ∉ post.map Prod.fst := fun hm =>
    hdisj (show b.1 ∈ pre.map Prod.fst ++ [b.1] by simp) (List.mem_cons_of_mem _ hm)
  have hbpre1 : b.1 ∉ pre.map Prod.fst := fun hm => hbpre hm (by simp)
  have hr : ¬ (some d.1 = l.root) := by
    obtain ⟨c, hc, hc2⟩ := firstAddr_mem (show pre ++ [b] ≠ [] by simp) (some d.1)
    rw [hroot, firstAddr_append]
    show ¬ (some d.1 = firstAddr (pre ++ [b]) (some d.1))
    rw [hc2]
    intro e
    injection e with e
    rcases List.mem_append.mp hc with hc | hc
    · exact hdpre (e ▸ List.mem_map_of_mem _ hc)
    · simp only [List.mem_singleton] at hc
      exact hbd (by rw [e, hc])
  have h0 : nodeAt (l.mem ++ [some (Node.mk none none item)]) l.mem.length =
      some (Node.mk none none item) := nodeAt_append_length _ _
  have h1 : nodeAt ((l.mem ++ [some (Node.mk none none item)]).set l.mem.length
      (some (Node.mk (some d.1) none item))) d.1 =
      some (Node.mk (firstAddr post none) (some b.1) d.2) := by
    rw [nodeAt_set_ne (by omega), nodeAt_append_left hdlt]
    exact hd
  have h2 : nodeAt ((l.mem ++ [some (Node.mk none none item)]).set l.mem.length
      (some (Node.mk (some d.1) none item))) l.mem.length =
      some (Node.mk (some d.1) none item) := nodeAt_set_eq (by simp) _
  have h3 : nodeAt (((l.mem ++ [some (Node.mk none none item)]).set l.mem.length
      (some (Node.mk (some d.1) none item))).set l.mem.length
      (some (Node.mk (some d.1) (some b.1) item))) d.1 =
      some (Node.mk (firstAddr post none) (some b.1) d.2) := by
    rw [nodeAt_set_ne (by omega)]
    exact h1
  have h4 : nodeAt (((l.mem ++ [some (Node.mk none none item)]).set l.mem.length
      (some (Node.mk (some d.1) none item))).set l.mem.length
      (some (Node.mk (some d.1) (some b.1) item))) b.1 =
      some (Node.mk (some d.1) (lastAddr pre none) b.2) := by
    rw [nodeAt_set_ne (by omega), nodeAt_set_ne (by omega), nodeAt_append_left hblt]
    exact hb
  have h5 : nodeAt ((((l.mem ++ [some (Node.mk none none item)]).set l.mem.length
      (some (Node.mk (some d.1) none item))).set l.mem.length
      (some (Node.mk (some d.1) (some b.1) item))).set b.1
      (some (Node.mk (some l.mem.length) (lastAddr pre none) b.2))) d.1 =
      some (Node.mk (firstAddr post none) (some b.1) d.2) := by
    rw [nodeAt_set_ne hbd]
    exact h3
  have heq : insert l (some d.1) item = Except.ok (Raw.mk
      (((((l.mem ++ [some (Node.mk none none item)]).set l.mem.length
        (some (Node.mk (some d.1) none item))).set l.mem.length
        (some (Node.mk (some d.1) (some b.1) item))).set b.1
        (some (Node.mk (some l.mem.length) (lastAddr pre none) b.2))).set d.1
        (some (Node.mk (firstAddr post none) (some l.mem.length) d.2)))
      l.root l.tail (l.size + 1)) := by
    simp only [insert, hne, Bool.false_eq_true, if_false, hr, store_ok h0, ok_bind,
      load_ok h1, store_ok h2, load_ok h3, store_ok h4, store_ok h5, reduceCtorEq]
  refine ⟨_, heq, ?_, ?_, ?_, ?_, ?_⟩
  · simp only [List.map_append, List.map_cons, List.map_nil, List.nodup_append,
      List.nodup_cons, List.mem_append, List.mem_cons, List.mem_singleton, List.not_mem_nil,
      or_false, not_false_eq_true, List.nodup_nil, and_true, true_and, not_or]
    refine ⟨⟨hndpre, hbpre⟩, ⟨⟨fun e => hnew.2.1 e, hnew.2.2⟩, hdpost, hndpost⟩, ?_⟩
    intro a ha hm
    rcases List.mem_cons.mp hm with rfl | hm
    · rcases List.mem_append.mp ha with ha | ha
      · exact hnew.1.1 ha
      · exact hnew.1.2 (List.mem_singleton.mp ha)
    · exact hdisj ha hm
  · simp only
    rw [Seg_append, Seg_snoc, lastAddr_concat]
    refine ⟨⟨?_, ?_⟩, ?_, ?_, ?_⟩
    · exact Seg_set hdpre _ (Seg_set hbpre1 _ (Seg_set hnew.1.1 _ (Seg_set hnew.1.1 _
        (Seg_alloc _ hpre))))
    · rw [nodeAt_set_ne hbd.symm, nodeAt_set_eq (by simp; omega)]
      rfl
    · rw [nodeAt_set_ne (by omega), nodeAt_set_ne (by omega), nodeAt_set_eq (by simp)]
      rfl
    · rw [nodeAt_set_eq (by simp; omega)]
    · exact Seg_set hdpost _ (Seg_set hbpost _ (Seg_set hnew.2.2 _ (Seg_set hnew.2.2 _
        (Seg_alloc _ hpost))))
  · simp only [hroot, firstAddr_append]
    rfl
  · simp only [htail, lastAddr_append]
    rfl
  · simp only [List.length_append, List.length_cons, List.length_singleton, List.length_nil,
      hsize]
    omega

/-- Method `insert(insertPosition, item)` keeps the invariant: the new node comes before
the node the iterator points to, at the end for `end()`. -/
theorem insert_Inv {l : Raw α} {pre post : List (Nat × α)} (h : Inv l (pre ++ post))
    (item : α) :
    ∃ l1, insert l (firstAddr post none) item = Except.ok l1 ∧
      Inv l1 (pre ++ (l.mem.length, item) :: post) := by
  rcases List.eq_nil_or_concat pre with rfl | ⟨pre1, b, rfl⟩
  · cases post with
    | nil => exact insert_empty h _ item
    | cons d post => exact insert_front h item
  · rw [List.concat_eq_append] at h ⊢
    cases post with
    | nil =>
      rw [List.append_nil] at h
      exact insert_back h item
    | cons d post => exact insert_middle h item

/-- Method `erase` of the only node. -/
theorem erase_single {l : Raw α} {c : Nat × α} (h : Inv l [c]) :
    ∃ l1, erase l (some c.1) = Except.ok l1 ∧ Inv l1 [] := by
  have hne : l.isEmpty = false := isEmpty_of_ne_nil h (by simp)
  obtain ⟨-, hseg, hroot, htail, hsize⟩ := h
  have hc : nodeAt l.mem c.1 = some (Node.mk none none c.2) := hseg.1
  have hr : l.root = some c.1 := hroot
  have ht : l.tail = some c.1 := htail
  have heq : erase l (some c.1) = Except.ok (Raw.mk (l.mem.set c.1 none) none none
      (l.size - 1)) := by
    simp only [erase, hne, Bool.false_eq_true, if_false, hr, ht, if_true, free_ok hc, ok_bind,
      reduceCtorEq]
  refine ⟨_, heq, by simp, trivial, rfl, rfl, ?_⟩
  simp only [hsize, List.length_singleton, List.length_nil]

/-- Method `erase` of the first node of several. -/
theorem erase_front {l : Raw α} {c d : Nat × α} {post : List (Nat × α)}
    (h : Inv l (c :: d :: post)) :
    ∃ l1, erase l (some c.1) = Except.ok l1 ∧ Inv l1 (d :: post) := by
  have hne : l.isEmpty = false := isEmpty_of_ne_nil h (by simp)
  obtain ⟨hnd, hseg, hroot, htail, hsize⟩ := h
  obtain ⟨hc0, hd, hpost⟩ := hseg
  have hc : nodeAt l.mem c.1 = some (Node.mk (some d.1) none c.2) := hc0
  have hr : l.root = some c.1 := hroot
  obtain ⟨t, htm, ht⟩ := lastAddr_mem (List.cons_ne_nil d post) (some c.1)
  have ht2 : l.tail = some t.1 := htail.trans ht
  simp only [List.map_cons, List.nodup_cons, List.mem_cons, not_or] at hnd
  obtain ⟨⟨hcd, hcpost⟩, hdpost, hndpost⟩ := hnd
  have hct : c.1 ≠ t.1 := by
    rcases List.mem_cons.mp htm with rfl | htm
    · exact hcd
    · intro e
      exact hcpost (e ▸ List.mem_map_of_mem _ htm)
  have h1 : nodeAt (l.mem.set d.1 (some (Node.mk (firstAddr post none) none d.2))) c.1 =
      some (Node.mk (some d.1) none c.2) := by
    rw [nodeAt_set_ne (fun e => hcd e.symm)]
    exact hc
  have heq : erase l (some c.1) = Except.ok (Raw.mk
      ((l.mem.set d.1 (some (Node.mk (firstAddr post none) none d.2))).set c.1 none)
      (some d.1) l.tail (l.size - 1)) := by
    simp only [erase, hne, Bool.false_eq_true, if_false, hr, ht2, Option.some.injEq, hct,
      if_true, load_ok hc, ok_bind, store_ok hd, free_ok h1, reduceCtorEq]
  refine ⟨_, heq, ?_, ⟨?_, ?_⟩, rfl, ?_, ?_⟩
  · rw [List.map_cons, List.nodup_cons]
    exact ⟨hdpost, hndpost⟩
  · simp only
    rw [nodeAt_set_ne hcd, nodeAt_set_eq (nodeAt_lt hd)]
  · exact Seg_set hcpost _ (Seg_set hdpost _ hpost)
  · exact htail
  · simp only [hsize, List.length_cons]
    omega

/-- Method `erase` of the last node of several. -/
theorem erase_back {l : Raw α} {pre : List (Nat × α)} {b c : Nat × α}
    (h : Inv l (pre ++ [b] ++ [c])) :
    ∃ l1, erase l (some c.1) = Except.ok l1 ∧ Inv l1 (pre ++ [b]) := by
  have hne : l.isEmpty = false := isEmpty_of_ne_nil h (by simp)
  obtain ⟨hnd, hseg, hroot, htail, hsize⟩ := h
  rw [Seg_snoc, Seg_snoc, lastAddr_concat] at hseg
  obtain ⟨⟨hpre, hb⟩, hc⟩ := hseg
  obtain ⟨r, hrm, hr⟩ := firstAddr_mem (show pre ++ [b] ≠ [] by simp) (some c.1)
  have hr2 : l.root = some r.1 := by
    rw [hroot, firstAddr_append]
    exact hr
  have ht : l.tail = some c.1 := by rw [htail, lastAddr_concat]
  simp only [List.map_append, List.map_cons, List.map_nil, List.nodup_append, List.nodup_cons,
    List.not_mem_nil, not_false_eq_true, List.nodup_nil, and_true, true_and] at hnd
  obtain ⟨⟨hndpre, hbpre⟩, hdisj⟩ := hnd
  have hbc : b.1 ≠ c.1 := fun e =>
    hdisj (show b.1 ∈ pre.map Prod.fst ++ [b.1] by simp) (by rw [e]; simp)
  have hcpre : c.1 ∉ pre.map Prod.fst := fun hm =>
    hdisj (List.mem_append_left _ hm) (by simp)
  have hbpre1 : b.1 ∉ pre.map Prod.fst := fun hm => hbpre hm (by simp)
  have hrc : r.1 ≠ c.1 := by
    rcases List.mem_append.mp hrm with hrm | hrm
    · intro e
      exact hcpre (e ▸ List.mem_map_of_mem _ hrm)
    · rw [List.mem_singleton.mp hrm]
      exact hbc
  have h1 : nodeAt (l.mem.set b.1 (some (Node.mk none (lastAddr pre none) b.2))) c.1 =
      some (Node.mk none (some b.1) c.2) := by
    rw [nodeAt_set_ne hbc]
    exact hc
  have heq : erase l (some c.1) = Except.ok (Raw.mk
      ((l.mem.set b.1 (some (Node.mk none (lastAddr pre none) b.2))).set c.1 none)
      l.root (some b.1) (l.size - 1)) := by
    simp only [erase, hne, Bool.false_eq_true, if_false, hr2, ht, Option.some.injEq, hrc,
      hrc.symm, if_true, load_ok hc, ok_bind, store_ok hb, free_ok h1, reduceCtorEq]
  refine ⟨_, heq, ?_, ?_, ?_, ?_, ?_⟩
  · rw [List.map_append, List.nodup_append]
    exact ⟨hndpre, by simp, hbpre⟩
  · simp only
    rw [Seg_snoc]
    refine ⟨Seg_set hcpre _ (Seg_set hbpre1 _ hpre), ?_⟩
    rw [nodeAt_set_ne hbc.symm, nodeAt_set_eq (nodeAt_lt hb)]
  · simp only [hroot, firstAddr_append]
    rfl
  · simp only [lastAddr_concat]
  · simp only [hsize, List.length_append, List.length_singleton]
    omega

/-- Method `erase` of a node between two nodes. -/
theorem erase_middle {l : Raw α} {pre post : List (Nat × α)} {b c d : Nat × α}
    (h : Inv l (pre ++ [b] ++ c :: d :: post)) :
    ∃ l1, erase l (some c.1) = Except.ok l1 ∧ Inv l1 (pre ++ [b] ++ d :: post) := by
  have hne : l.isEmpty = false := isEmpty_of_ne_nil h (by simp)
  obtain ⟨hnd, hseg, hroot, htail, hsize⟩ := h
  rw [Seg_append, Seg_snoc, lastAddr_concat] at hseg
  obtain ⟨⟨hpre, hb0⟩, hc0, hd, hpost⟩ := hseg
  have hb : nodeAt l.mem b.1 = some (Node.mk (some c.1) (lastAddr pre none) b.2) := hb0
  have hc : nodeAt l.mem c.1 = some (Node.mk (some d.1) (some b.1) c.2) := hc0
  obtain ⟨r, hrm, hr⟩ := firstAddr_mem (show pre ++ [b] ≠ [] by simp)
    (firstAddr (c :: d :: post) none)
  have hr2 : l.root = some r.1 := by
    rw [hroot, firstAddr_append]
    exact hr
  obtain ⟨t, htm, ht⟩ := lastAddr_mem (List.cons_ne_nil d post) (some c.1)
  have ht2 : l.tail = some t.1 := by
    rw [htail, lastAddr_append]
    exact ht
  simp only [List.map_append, List.map_cons, List.map_nil, List.nodup_append, List.nodup_cons,
    List.mem_cons, List.not_mem_nil, not_false_eq_true, List.nodup_nil, and_true, true_and,
    not_or] at hnd
  obtain ⟨⟨hndpre, hbpre⟩, ⟨⟨hcd, hcpost⟩, hdpost, hndpost⟩, hdisj⟩ := hnd
  have hbc : b.1 ≠ c.1 := fun e =>
    hdisj (show b.1 ∈ pre.map Prod.fst ++ [b.1] by simp) (by rw [e]; simp)
  have hbd : b.1 ≠ d.1 := fun e =>
    hdisj (show b.1 ∈ pre.map Prod.fst ++ [b.1] by simp) (by rw [e]; simp)
  have hbpost : b.1 ∉ post.map Prod.fst := fun hm =>
    hdisj (show b.1 ∈ pre.map Prod.fst ++ [b.1] by simp)
      (List.mem_cons_of_mem _ (List.mem_cons_of_mem _ hm))
  have hcpre : c.1 ∉ pre.map Prod.fst := fun hm =>
    hdisj (List.mem_append_left _ hm) (by simp)
  have hdpre : d.1 ∉ pre.map Prod.fst := fun hm =>
    hdisj (List.mem_append_left _ hm) (by simp)
  have hbpre1 : b.1 ∉ pre.map Prod.fst := fun hm => hbpre hm (by simp)
  have hrc : r.1 ≠ c.1 := by
    rcases List.mem_append.mp hrm with hrm | hrm
    · intro e
      exact hcpre (e ▸ List.mem_map_of_mem _ hrm)
    · rw [List.mem_singleton.mp hrm]
      exact hbc
  have hct : c.1 ≠ t.1 := by
    rcases List.mem_cons.mp htm with rfl | htm
    · exact hcd
    · intro e
      exact hcpost (e ▸ List.mem_map_of_mem _ htm)
  have hrt : r.1 ≠ t.1 := by
    intro e
    have hrm2 := List.mem_map_of_mem Prod.fst hrm
    rw [List.map_append] at hrm2
    exact hdisj hrm2 (List.mem_cons_of_mem _ (e ▸ List.mem_map_of_mem Prod.fst htm))
  have h1 : nodeAt (l.mem.set b.1 (some (Node.mk (some d.1) (lastAddr pre none) b.2))) c.1 =
      some (Node.mk (some d.1) (some b.1) c.2) := by
    rw [nodeAt_set_ne hbc]
    exact hc
  have h2 : nodeAt (l.mem.set b.1 (some (Node.mk (some d.1) (lastAddr pre none) b.2))) d.1 =
      some (Node.mk (firstAddr post none) (some c.1) d.2) := by
    rw [nodeAt_set_ne hbd]
    exact hd
  have h3 : nodeAt ((l.mem.set b.1 (some (Node.mk (some d.1) (lastAddr pre none) b.2))).set d.1
      (some (Node.mk (firstAddr post none) (some b.1) d.2))) c.1 =
      some (Node.mk (some d.1) (some b.1) c.2) := by
    rw [nodeAt_set_ne (fun e => hcd e.symm)]
    exact h1
  have heq : erase l (some c.1) = Except.ok (Raw.mk
      (((l.mem.set b.1 (some (Node.mk (some d.1) (lastAddr pre none) b.2))).set d.1
        (some (Node.mk (firstAddr post none) (some b.1) d.2))).set c.1 none)
      l.root l.tail (l.size - 1)) := by
    simp only [erase, hne, Bool.false_eq_true, if_false, hr2, ht2, Option.some.injEq, hrc,
      hrc.symm, hct, hrt, load_ok hc, ok_bind, store_ok hb, load_ok h1, store_ok h2,
      free_ok h3, reduceCtorEq]
  refine ⟨_, heq, ?_, ?_, ?_, ?_, ?_⟩
  · simp only [List.map_append, List.map_cons, List.map_nil, List.nodup_append,
      List.nodup_cons, List.not_mem_nil, not_false_eq_true, List.nodup_nil, and_true,
      true_and]
    refine ⟨⟨hndpre, hbpre⟩, ⟨hdpost, hndpost⟩, ?_⟩
    intro a ha hm
    exact hdisj ha (List.mem_cons_of_mem _ hm)
  · simp only
    rw [Seg_append, Seg_snoc, lastAddr_concat]
    refine ⟨⟨?_, ?_⟩, ?_, ?_⟩
    · exact Seg_set hcpre _ (Seg_set hdpre _ (Seg_set hbpre1 _ hpre))
    · rw [nodeAt_set_ne (fun e => hbc e.symm), nodeAt_set_ne hbd.symm,
        nodeAt_set_eq (nodeAt_lt hb)]
      rfl
    · rw [nodeAt_set_ne hcd, nodeAt_set_eq (by simp only [List.length_set]; exact nodeAt_lt hd)]
    · exact Seg_set hcpost _ (Seg_set hdpost _ (Seg_set hbpost _ hpost))
  · simp only [hroot, firstAddr_append]
    rfl
  · simp only [htail, lastAddr_append]
    rfl
  · simp only [hsize, List.length_append, List.length_cons, List.length_singleton,
      List.length_nil]
    omega

/-- Method `erase(possition)` keeps the invariant: the node the iterator points to leaves
the sequence of nodes. -/
theorem erase_Inv {l : Raw α} {pre post : List (Nat × α)} {c : Nat × α}
    (h : Inv l (pre ++ c :: post)) :
    ∃ l1, erase l (some c.1) = Except.ok l1 ∧ Inv l1 (pre ++ post) := by
  rcases List.eq_nil_or_concat pre with rfl | ⟨pre1, b, rfl⟩
  · cases post with
    | nil => exact erase_single h
    | cons d post => exact erase_front h
  · rw [List.concat_eq_append] at h ⊢
    cases post with
    | nil =>
      rw [List.append_nil]
      exact erase_back h
    | cons d post => exact erase_middle h

theorem eraseRangeLoop_step (n : Nat) (l : Raw α) (temp last : Option Nat) :
    eraseRangeLoop (n + 1) l temp last =
      if temp = last then some (Except.ok l)
      else
        match load l.mem temp with
        | Except.error e => some (Except.error e)
        | Except.ok node =>
          match erase l temp with
          | Except.error e => some (Except.error e)
          | Except.ok l1 => eraseRangeLoop n l1 node.next last := rfl

/-- The loop of the range erase unlinks the nodes from `temp` up to the node before
`lastExcluded`, one in each round, and ends normally. -/
theorem eraseRangeLoop_Inv (mid : List (Nat × α)) {l : Raw α} {pre post : List (Nat × α)}
    (h : Inv l (pre ++ (mid ++ post))) (n : Nat) :
    ∃ l1, eraseRangeLoop (mid.length + (n + 1)) l (firstAddr (mid ++ post) none)
        (firstAddr post none) = some (Except.ok l1) ∧ Inv l1 (pre ++ post) := by
  induction mid generalizing l with
  | nil =>
    refine ⟨l, ?_, h⟩
    simp only [List.length_nil, Nat.zero_add, List.nil_append, eraseRangeLoop_step, if_true]
  | cons c mid ih =>
    have hseg := h.2.1
    rw [List.cons_append, Seg_append] at hseg
    have hc : nodeAt l.mem c.1 =
        some (Node.mk (firstAddr (mid ++ post) none) (lastAddr pre none) c.2) := hseg.2.1
    have hne : ¬ (some c.1 = firstAddr post none) := by
      cases post with
      | nil => simp [firstAddr]
      | cons d post =>
        simp only [firstAddr, Option.some.injEq]
        intro e
        have hnd := h.1
        rw [List.map_append] at hnd
        have h2 := hnd.of_append_right
        rw [List.cons_append, List.map_cons, List.nodup_cons] at h2
        have hd : d.1 ∈ (mid ++ d :: post).map Prod.fst := List.mem_map_of_mem _ (by simp)
        rw [← e] at hd
        exact h2.1 hd
    obtain ⟨l1, he, hinv⟩ := erase_Inv (show Inv l (pre ++ c :: (mid ++ post)) from h)
    obtain ⟨l2, hl, hinv2⟩ := ih hinv
    refine ⟨l2, ?_, hinv2⟩
    have hlen : (c :: mid).length + (n + 1) = (mid.length + (n + 1)) + 1 := by
      simp only [List.length_cons]
      omega
    have hfa : firstAddr (c :: mid ++ post) none = some c.1 := rfl
    rw [hlen, eraseRangeLoop_step, hfa]
    simp only [hne, if_false, load_ok hc, he]
    exact hl

/-- Writing the field `data` of a node of the list keeps the invariant. -/
theorem Inv_store_data {l : Raw α} {pre post : List (Nat × α)} {c : Nat × α}
    (h : Inv l (pre ++ c :: post)) (x : α) :
    nodeAt l.mem c.1 = some (Node.mk (firstAddr post none) (lastAddr pre none) c.2) ∧
      Inv (Raw.mk (l.mem.set c.1 (some (Node.mk (firstAddr post none) (lastAddr pre none) x)))
        l.root l.tail l.size) (pre ++ (c.1, x) :: post) := by
  obtain ⟨hnd, hseg, hroot, htail, hsize⟩ := h
  rw [Seg_append] at hseg
  obtain ⟨hpre, hc, hpost⟩ := hseg
  simp only [List.map_append, List.map_cons, List.nodup_append, List.nodup_cons] at hnd
  obtain ⟨hndpre, ⟨hcpost, hndpost⟩, hdisj⟩ := hnd
  have hcpre : c.1 ∉ pre.map Prod.fst := fun hm => hdisj hm (List.mem_cons_self _ _)
  refine ⟨hc, ?_, ?_, ?_, ?_, ?_⟩
  · simp only [List.map_append, List.map_cons, List.nodup_append, List.nodup_cons]
    exact ⟨hndpre, ⟨hcpost, hndpost⟩, hdisj⟩
  · simp only
    rw [Seg_append]
    refine ⟨Seg_set hcpre _ hpre, ?_, Seg_set hcpost _ hpost⟩
    exact nodeAt_set_eq (nodeAt_lt hc) _
  · simp only [hroot, firstAddr_append]
    rfl
  · simp only [htail, lastAddr_append]
    rfl
  · simp only [hsize, List.length_append, List.length_cons]

/-- Method `popFirst()` keeps the invariant: it returns the data of the first node, which
leaves the sequence of nodes. -/
theorem popFirst_Inv (moved : α → α) {l : Raw α} {c : Nat × α} {rest : List (Nat × α)}
    (h : Inv l (c :: rest)) :
    ∃ l1, popFirst moved l = Except.ok (c.2, l1) ∧ Inv l1 rest := by
  have hne : l.isEmpty = false := isEmpty_of_ne_nil h (by simp)
  have hr : l.root = some c.1 := h.2.2.1
  obtain ⟨hc, hinv⟩ := Inv_store_data (show Inv l ([] ++ c :: rest) from h) (moved c.2)
  obtain ⟨l1, he, hinv1⟩ := erase_Inv hinv
  refine ⟨l1, ?_, hinv1⟩
  simp only [popFirst, hne, Bool.false_eq_true, if_false, hr, load_ok hc, ok_bind,
    store_ok hc]
  simp only at he
  rw [hr] at he
  rw [he]
  rfl

/-- Method `popLast()` keeps the invariant: it returns the data of the last node, which
leaves the sequence of nodes. -/
theorem popLast_Inv (moved : α → α) {l : Raw α} {init : List (Nat × α)} {c : Nat × α}
    (h : Inv l (init ++ [c])) :
    ∃ l1, popLast moved l = Except.ok (c.2, l1) ∧ Inv l1 init := by
  have hne : l.isEmpty = false := isEmpty_of_ne_nil h (by simp)
  have ht : l.tail = some c.1 := by rw [h.2.2.2.1, lastAddr_concat]
  obtain ⟨r, -, hr⟩ := firstAddr_mem (show init ++ [c] ≠ [] by simp) none
  have hr2 : l.root = some r.1 := h.2.2.1.trans hr
  obtain ⟨hc, hinv⟩ := Inv_store_data h (moved c.2)
  obtain ⟨l1, he, hinv1⟩ := erase_Inv hinv
  rw [List.append_nil] at hinv1
  refine ⟨l1, ?_, hinv1⟩
  simp only [popLast, hne, Bool.false_eq_true, if_false, ht, load_ok hc, ok_bind,
    store_ok hc, prev, hr2, reduceCtorEq, if_true]
  simp only at he
  rw [hr2, ht] at he
  rw [he]
  rfl

theorem firstAddr_drop (cells : List (Nat × α)) (i : Nat) :
    firstAddr (cells.drop i) none = ptrAt cells i := by
  induction cells generalizing i with
  | nil => simp [firstAddr, ptrAt]
  | cons c cells ih =>
    cases i with
    | zero => simp [firstAddr, ptrAt]
    | succ i =>
      rw [List.drop_succ_cons, ih i]
      simp [ptrAt]

/-! ### the elements of the nodes -/

theorem view_WF {l : Raw α} {cells : List (Nat × α)} (h : Inv l cells) :
    LinkedList.WF (view l cells) := by
  simp only [LinkedList.WF, view, List.length_map]
  exact h.2.2.2.2

theorem view_of_Inv {l : Raw α} {cells : List (Nat × α)} (h : Inv l cells) :
    view l cells = LinkedList.mk (cells.map Prod.snd) cells.length := by
  simp only [view, h.2.2.2.2]

/-- The methods on the nodes do to the elements what the methods on the list of elements
do: `insert`, `erase`, the range erase, `popFirst` and `popLast` at the same positions
give the same elements, the same counter and the same return value. -/
theorem view_refines (l : Raw α) (cells : List (Nat × α)) (h : Inv l cells) (item : α)
    (moved : α → α) :
    (∀ i, i ≤ cells.length →
      ∃ l1 cells1, insert l (ptrAt cells i) item = Except.ok l1 ∧ Inv l1 cells1 ∧
        LinkedList.insert (view l cells) (iteratorAt (view l cells) i) item =
          view l1 cells1) ∧
    (∀ i, i < cells.length →
      ∃ l1 cells1, erase l (ptrAt cells i) = Except.ok l1 ∧ Inv l1 cells1 ∧
        LinkedList.erase (view l cells) (iteratorAt (view l cells) i) =
          Except.ok (view l1 cells1)) ∧
    (∀ i j n, i ≤ j → j ≤ cells.length →
      ∃ l1 cells1, eraseRange (j - i + (n + 1)) l (ptrAt cells i) (ptrAt cells j) =
          some (Except.ok l1) ∧ Inv l1 cells1 ∧
        LinkedList.eraseRange (j - i + (n + 1)) (view l cells)
          (iteratorAt (view l cells) i) (iteratorAt (view l cells) j) =
            some (Except.ok (view l1 cells1))) ∧
    (∀ c rest, cells = c :: rest →
      ∃ l1, popFirst moved l = Except.ok (c.2, l1) ∧ Inv l1 rest ∧
        LinkedList.popFirst moved (view l cells) = (Except.ok c.2, view l1 rest)) ∧
    (∀ init c, cells = init ++ [c] →
      ∃ l1, popLast moved l = Except.ok (c.2, l1) ∧ Inv l1 init ∧
        LinkedList.popLast moved (view l cells) = (Except.ok c.2, view l1 init)) := by
  have hwf := view_WF h
  have hlen : (view l cells).elems.length = cells.length := by simp [view]
  refine ⟨fun i hi => ?_, fun i hi => ?_, fun i j n hij hj => ?_, fun c rest hc => ?_,
    fun init c hc => ?_⟩
  · have h1 : Inv l (cells.take i ++ cells.drop i) := by
      rw [List.take_append_drop]
      exact h
    obtain ⟨l1, he, hinv⟩ := insert_Inv h1 item
    rw [firstAddr_drop] at he
    refine ⟨l1, _, he, hinv, ?_⟩
    rw [LinkedList.insert_iteratorAt hwf (by rw [hlen]; exact hi), view_of_Inv hinv]
    simp [view, List.map_take, List.map_drop]
    omega
  · have hsplit : cells = cells.take i ++ cells[i] :: cells.drop (i + 1) := by
      rw [← List.drop_eq_getElem_cons hi, List.take_append_drop]
    have h1 : Inv l (cells.take i ++ cells[i] :: cells.drop (i + 1)) := by
      rw [← hsplit]
      exact h
    have hp : ptrAt cells i = some (cells[i]).1 := by
      simp [ptrAt, List.getElem?_eq_getElem hi]
    obtain ⟨l1, he, hinv⟩ := erase_Inv h1
    rw [← hp] at he
    refine ⟨l1, _, he, hinv, ?_⟩
    have hi2 : i < (view l cells).elems.length := by rw [hlen]; exact hi
    rw [LinkedList.iteratorAt_of_lt _ hi2, LinkedList.erase_some_eq hwf hi2,
      view_of_Inv hinv]
    simp only [view, LinkedList.eraseIdx_eq_take_append_drop, List.map_append, List.map_take,
      List.map_drop, List.length_append, List.length_take, List.length_drop, h.2.2.2.2]
    congr 2
    omega
  · have hdrop : cells.drop i = (cells.drop i).take (j - i) ++ cells.drop j := by
      have h2 := (List.take_append_drop (j - i) (cells.drop i)).symm
      rw [List.drop_drop] at h2
      have h3 : i + (j - i) = j := by omega
      rw [h3] at h2
      exact h2
    have hlen2 : ((cells.drop i).take (j - i)).length = j - i := by
      rw [List.length_take, List.length_drop]
      omega
    have h1 : Inv l (cells.take i ++ ((cells.drop i).take (j - i) ++ cells.drop j)) := by
      rw [← hdrop, List.take_append_drop]
      exact h
    obtain ⟨l1, he, hinv⟩ := eraseRangeLoop_Inv ((cells.drop i).take (j - i)) h1 n
    rw [← hdrop, firstAddr_drop, firstAddr_drop, hlen2] at he
    refine ⟨l1, _, he, hinv, ?_⟩
    rw [LinkedList.eraseRange, LinkedList.eraseRangeLoop_spec (j - i) _ hwf i j (by omega)
      (by rw [hlen]; exact hj) n, view_of_Inv hinv]
    simp only [view, List.map_append, List.map_take, List.map_drop, List.length_append,
      List.length_take, List.length_drop, List.length_map]
    congr 3
    omega
  · subst hc
    obtain ⟨l1, he, hinv⟩ := popFirst_Inv moved h
    refine ⟨l1, he, hinv, ?_⟩
    rw [LinkedList.popFirst_cons moved hwf (show (view l (c :: rest)).elems =
      c.2 :: rest.map Prod.snd from rfl), view_of_Inv hinv]
    simp only [view, h.2.2.2.2, List.length_cons, Nat.add_sub_cancel]
  · subst hc
    obtain ⟨l1, he, hinv⟩ := popLast_Inv moved h
    refine ⟨l1, he, hinv, ?_⟩
    rw [LinkedList.popLast_append moved hwf (show (view l (init ++ [c])).elems =
      init.map Prod.snd ++ [c.2] by simp [view]), view_of_Inv hinv]
    simp only [view, h.2.2.2.2, List.length_append, List.length_singleton,
      Nat.add_sub_cancel]

end Raw

end LinkedList

/-! ## HashMap: lemmas -/

namespace HashMap

variable {K V : Type}

theorem chainFind_shift [DecidableEq K] (key : K) (l : List (K × V)) (s : Nat) :
    chainFind key l s = (chainFind key l 0).map (· + s) := by
  induction l generalizing s with
  | nil => rfl
  | cons kv rest ih =>
    simp only [chainFind]
    by_cases h : kv.1 = key
    · simp [h]
    · simp only [h, if_false]
      rw [ih (s + 1), ih (0 + 1)]
      cases chainFind key rest 0 with
      | none => rfl
      | some j =>
        simp only [Option.map_some', Option.some.injEq]
        omega

theorem chainFind_eq_none_iff [DecidableEq K] (key : K) (l : List (K × V)) (s : Nat) :
    chainFind key l s = none ↔ key ∉ l.map Prod.fst := by
  induction l generalizing s with
  | nil => simp [chainFind]
  | cons kv rest ih =>
    simp only [chainFind, List.map_cons, List.mem_cons, not_or]
    by_cases h : kv.1 = key
    · simp [h]
    · simp only [h, if_false, ih]
      constructor
      · intro h1
        exact ⟨fun h2 => h h2.symm, h1⟩
      · intro h1
        exact h1.2

/-- The loop stops at a node that holds the key. -/
theorem chainFind_some [DecidableEq K] {key : K} {l : List (K × V)} {j : Nat}
    (h : chainFind key l 0 = some j) : ∃ v, l[j]? = some (key, v) := by
  induction l generalizing j with
  | nil => simp [chainFind] at h
  | cons kv rest ih =>
    simp only [chainFind] at h
    by_cases h1 : kv.1 = key
    · simp only [h1, if_true, Option.some.injEq] at h
      subst h
      exact ⟨kv.2, by simp [← h1]⟩
    · simp only [h1, if_false] at h
      rw [chainFind_shift] at h
      simp only [Option.map_eq_some'] at h
      obtain ⟨i, hi, rfl⟩ := h
      obtain ⟨v, hv⟩ := ih hi
      exact ⟨v, by simpa using hv⟩

theorem value_unique_of_nodup {l : List (K × V)} (hnd : (l.map Prod.fst).Nodup) {k : K}
    {v w : V} (hv : (k, v) ∈ l) (hw : (k, w) ∈ l) : v = w := by
  induction l with
  | nil => simp at hv
  | cons kv rest ih =>
    simp only [List.map_cons, List.nodup_cons, List.mem_map, not_exists, not_and] at hnd
    simp only [List.mem_cons] at hv hw
    rcases hv with rfl | hv
    · rcases hw with hw | hw
      · exact (Prod.mk.inj hw).2.symm
      · exact absurd rfl (hnd.1 (k, w) hw)
    · rcases hw with rfl | hw
      · exact absurd rfl (hnd.1 (k, v) hv)
      · exact ih hnd.2 hv hw

/-- In a chain without repeated keys the loop stops at the entry of the key. -/
theorem chainFind_of_mem [DecidableEq K] {l : List (K × V)} (hnd : (l.map Prod.fst).Nodup)
    {key : K} {v : V} (h : (key, v) ∈ l) :
    ∃ j, chainFind key l 0 = some j ∧ l[j]? = some (key, v) := by
  cases hf : chainFind key l 0 with
  | none =>
    rw [chainFind_eq_none_iff] at hf
    exact absurd (List.mem_map.mpr ⟨(key, v), h, rfl⟩) hf
  | some j =>
    obtain ⟨w, hw⟩ := chainFind_some hf
    have hmem : (key, w) ∈ l := List.getElem?_mem hw
    rw [value_unique_of_nodup hnd hmem h] at hw
    exact ⟨j, rfl, hw⟩

theorem bucketAt_set (m : HashMap K V) {b : Nat} (hb : b < m.data.length)
    (c : LinkedList (K × V)) (sz : Nat) (j : Nat) :
    bucketAt { data := m.data.set b c, size := sz } j = if j = b then c else m.bucketAt j := by
  simp only [bucketAt, List.getD_eq_getElem?_getD, List.getElem?_set]
  by_cases h : j = b
  · subst h
    simp [hb]
  · have h2 : ¬ b = j := fun e => h e.symm
    simp [h, h2]

/-- Changing one summand changes the sum by the difference. -/
theorem length_flatMap_range_update (B : Nat) (f g : Nat → List (K × V)) {b : Nat} (hb : b < B)
    (h : ∀ j, j ≠ b → g j = f j) :
    ((List.range B).flatMap g).length + (f b).length =
      ((List.range B).flatMap f).length + (g b).length := by
  induction B with
  | zero => omega
  | succ n ih =>
    simp only [List.range_succ, List.flatMap_append, List.length_append, List.flatMap_cons,
      List.flatMap_nil, List.append_nil]
    by_cases hbn : b = n
    · subst hbn
      have : (List.range b).flatMap g = (List.range b).flatMap f := by
        apply List.flatMap_congr
        intro j hj
        exact h j (ne_of_lt (List.mem_range.mp hj))
      rw [this]
      omega
    · have := ih (by omega)
      rw [h n (fun e => hbn e.symm)]
      omega

theorem mem_entries_iff (B : Nat) (m : HashMap K V) (x : K × V) :
    x ∈ entries B m ↔ ∃ i < B, x ∈ (m.bucketAt i).elems := by
  simp [entries, List.mem_flatMap, List.mem_range]

/-- In a map that satisfies its invariant an entry is stored exactly when the bucket of
its key holds it. -/
theorem mem_entries_iff_bucket {B : Nat} {hash : K → Nat} {m : HashMap K V}
    (hwf : WF B hash m) (k : K) (v : V) :
    (k, v) ∈ entries B m ↔ (k, v) ∈ (m.bucketAt (hash k % B)).elems := by
  rw [mem_entries_iff]
  constructor
  · rintro ⟨i, hi, hx⟩
    have := hwf.2.2.2.2.1 i hi (k, v) hx
    simp only at this
    rw [this]
    exact hx
  · intro hx
    exact ⟨hash k % B, Nat.mod_lt _ hwf.1, hx⟩

theorem mem_keys_iff_bucket {B : Nat} {hash : K → Nat} {m : HashMap K V}
    (hwf : WF B hash m) (k : K) :
    k ∈ (entries B m).map Prod.fst ↔ k ∈ (m.bucketAt (hash k % B)).elems.map Prod.fst := by
  simp only [List.mem_map, Prod.exists, exists_and_right, exists_eq_right]
  constructor
  · rintro ⟨v, hv⟩
    exact ⟨v, (mem_entries_iff_bucket hwf k v).mp hv⟩
  · rintro ⟨v, hv⟩
    exact ⟨v, (mem_entries_iff_bucket hwf k v).mpr hv⟩

/-- Iterator `operator*` at a position of a chain reads the entry there. -/
theorem deref_of_getElem? {B : Nat} {hash : K → Nat} {m : HashMap K V} (hwf : WF B hash m)
    {it : Iterator} (hb : it.bucket < B) {x : K × V}
    (h : (m.bucketAt it.bucket).elems[it.index]? = some x) : deref m it = Except.ok x := by
  have hlen : it.index < (m.bucketAt it.bucket).elems.length := by
    rw [List.getElem?_eq_some] at h
    exact h.1
  have hsz : (m.bucketAt it.bucket).getSize = (m.bucketAt it.bucket).elems.length :=
    hwf.2.2.1 it.bucket hb
  obtain ⟨h1, h2⟩ := LinkedList.deref_plus_begin (m.bucketAt it.bucket) h
  have hn : ¬ it.index ≥ (m.bucketAt it.bucket).getSize := by
    rw [hsz]
    omega
  simp only [deref, hn, if_false, h1, h2]

/-- What `find` and `valueOf` return for a key whose bucket holds an entry of it. -/
theorem find_of_mem [DecidableEq K] {B : Nat} {hash : K → Nat} {m : HashMap K V}
    (hwf : WF B hash m) {key : K} {v : V}
    (h : (key, v) ∈ (m.bucketAt (hash key % B)).elems) :
    ∃ i, chainFind key (m.bucketAt (hash key % B)).elems 0 = some i ∧
      (m.bucketAt (hash key % B)).elems[i]? = some (key, v) ∧
      find B hash m key = { bucket := hash key % B, index := i } ∧
      find B hash m key ≠ «end» B m ∧
      valueOf B hash m key = Except.ok v := by
  have hb : hash key % B < B := Nat.mod_lt _ hwf.1
  obtain ⟨i, hi, hget⟩ := chainFind_of_mem (hwf.2.2.2.2.2 _ hb) h
  have hfind : find B hash m key = { bucket := hash key % B, index := i } := by
    simp [find, getBucket, hi]
  have hlen : i < (m.bucketAt (hash key % B)).elems.length := by
    rw [List.getElem?_eq_some] at hget
    exact hget.1
  have hne : find B hash m key ≠ «end» B m := by
    rw [hfind]
    intro he
    simp only [«end», Iterator.mk.injEq] at he
    obtain ⟨he1, he2⟩ := he
    rw [← he1] at he2
    have := hwf.2.2.1 _ hb
    unfold LinkedList.WF at this
    simp only [LinkedList.getSize] at he2
    omega
  refine ⟨i, hi, hget, hfind, hne, ?_⟩
  have hd : deref m { bucket := hash key % B, index := i } = Except.ok (key, v) :=
    deref_of_getElem? hwf hb hget
  simp only [valueOf, hne, if_false]
  rw [hfind, hd]

/-- What `find` and `valueOf` return for a key whose bucket holds no entry of it. -/
theorem find_of_not_mem [DecidableEq K] (B : Nat) (hash : K → Nat) (m : HashMap K V)
    {key : K} (h : key ∉ (m.bucketAt (hash key % B)).elems.map Prod.fst) :
    chainFind key (m.bucketAt (hash key % B)).elems 0 = none ∧
      find B hash m key = «end» B m ∧
      valueOf B hash m key = Except.error Error.out_of_range := by
  have hc := (chainFind_eq_none_iff key _ 0).mpr h
  have hf : find B hash m key = «end» B m := by
    simp [find, getBucket, hc]
  exact ⟨hc, hf, by simp [valueOf, hf]⟩

/-- Replacing the chain of one bucket by a well-formed chain of keys of that bucket,
and adjusting the counter by the change of length, keeps the invariant. -/
theorem WF_set {B : Nat} {hash : K → Nat} {m : HashMap K V} (hwf : WF B hash m) {b : Nat}
    (hb : b < B) (c : LinkedList (K × V)) (sz : Nat) (hc : LinkedList.WF c)
    (hsz : sz + (m.bucketAt b).elems.length = m.size + c.elems.length)
    (hh : ∀ kv ∈ c.elems, hash kv.1 % B = b) (hnd : (c.elems.map Prod.fst).Nodup) :
    WF B hash { data := m.data.set b c, size := sz } := by
  obtain ⟨h1, h2, h3, h4, h5, h6⟩ := hwf
  have hbl : b < m.data.length := by rw [h2]; exact hb
  refine ⟨h1, by simp [h2], ?_, ?_, ?_, ?_⟩
  · intro i hi
    rw [bucketAt_set m hbl]
    by_cases h : i = b
    · simp [h, hc]
    · simp [h, h3 i hi]
  · have := length_flatMap_range_update B (fun i => (m.bucketAt i).elems)
      (fun i => (bucketAt { data := m.data.set b c, size := sz } i).elems) hb
      (by
        intro j hj
        simp only
        rw [bucketAt_set m hbl]
        simp [hj])
    simp only [bucketAt_set m hbl c sz b, if_true] at this
    simp only [entries] at h4 ⊢
    omega
  · intro i hi kv hkv
    rw [bucketAt_set m hbl] at hkv
    by_cases h : i = b
    · simp only [h, if_true] at hkv
      rw [h]
      exact hh kv hkv
    · simp only [h, if_false] at hkv
      exact h5 i hi kv hkv
  · intro i hi
    rw [bucketAt_set m hbl]
    by_cases h : i = b
    · simp [h, hnd]
    · simp [h, h6 i hi]

theorem WF_empty_buckets {B : Nat} (hB : 0 < B) (hash : K → Nat) :
    WF B hash (empty B : HashMap K V) := by
  have hb : ∀ i, bucketAt (empty B : HashMap K V) i = LinkedList.empty := by
    intro i
    simp only [bucketAt, empty, List.getD_eq_getElem?_getD, List.getElem?_replicate]
    split <;> rfl
  refine ⟨hB, by simp [empty], ?_, ?_, ?_, ?_⟩
  · intro i _
    rw [hb]
    rfl
  · have h0 : ∀ n : Nat,
        (List.range n).flatMap (fun _ => (LinkedList.empty : LinkedList (K × V)).elems) = [] := by
      intro n
      induction n with
      | zero => rfl
      | succ n ih => simp [List.range_succ, ih, LinkedList.empty]
    simp only [entries, hb, h0]
    rfl
  · intro i _ kv hkv
    rw [hb] at hkv
    simp [LinkedList.empty] at hkv
  · intro i _
    rw [hb]
    simp [LinkedList.empty]

theorem map_fst_setSecond (l : List (K × V)) (i : Nat) (x : V) :
    (setSecond l i x).map Prod.fst = l.map Prod.fst := by
  induction l generalizing i with
  | nil => rfl
  | cons kv rest ih =>
    cases i with
    | zero => rfl
    | succ i => simp [setSecond, ih]

theorem length_setSecond (l : List (K × V)) (i : Nat) (x : V) :
    (setSecond l i x).length = l.length := by
  have := congrArg List.length (map_fst_setSecond l i x)
  simpa using this

theorem getElem?_setSecond {l : List (K × V)} {i : Nat} {k : K} {v : V}
    (h : l[i]? = some (k, v)) (x : V) : (setSecond l i x)[i]? = some (k, x) := by
  induction l generalizing i with
  | nil => simp at h
  | cons kv rest ih =>
    cases i with
    | zero =>
      simp only [List.getElem?_cons_zero, Option.some.injEq] at h
      simp [setSecond, h]
    | succ i =>
      simp only [List.getElem?_cons_succ] at h
      simpa [setSecond] using ih h

theorem setSecond_append_length (l : List (K × V)) (k : K) (d x : V) :
    setSecond (l ++ [(k, d)]) l.length x = l ++ [(k, x)] := by
  induction l with
  | nil => rfl
  | cons kv rest ih => simp [setSecond, ih]

/-! ### operator[], remove and operator== -/

/-- What `m[key] = value` does when the bucket of the key holds an entry of it: the value
of that entry is overwritten in place. -/
theorem assign_of_mem [DecidableEq K] [Inhabited V] {B : Nat} {hash : K → Nat}
    {m : HashMap K V} (hwf : WF B hash m) {key : K} {v0 : V}
    (h : (key, v0) ∈ (m.bucketAt (hash key % B)).elems) (value : V) :
    ∃ i, (m.bucketAt (hash key % B)).elems[i]? = some (key, v0) ∧
      assign B hash m key value =
        Except.ok (HashMap.mk (m.data.set (hash key % B)
          (LinkedList.mk (setSecond (m.bucketAt (hash key % B)).elems i value)
            (m.bucketAt (hash key % B)).size)) m.size) := by
  have hb : hash key % B < B := Nat.mod_lt _ hwf.1
  obtain ⟨i, -, hget, hfind, hne, -⟩ := find_of_mem hwf h
  refine ⟨i, hget, ?_⟩
  have hins : insert B hash m key default = (m, Iterator.mk (hash key % B) i) := by
    simp only [insert, hne, ne_eq, not_false_eq_true, if_true]
    rw [hfind]
  have hd : deref m (Iterator.mk (hash key % B) i) = Except.ok (key, v0) :=
    deref_of_getElem? hwf hb hget
  simp only [assign, index, hins, hd, setValueAt]

/-- What `m[key] = value` does when the bucket of the key holds no entry of it: the pair
is linked at the end of the chain. -/
theorem assign_of_not_mem [DecidableEq K] [Inhabited V] {B : Nat} {hash : K → Nat}
    {m : HashMap K V} (hwf : WF B hash m) {key : K}
    (h : key ∉ (m.bucketAt (hash key % B)).elems.map Prod.fst) (value : V) :
    assign B hash m key value =
      Except.ok (HashMap.mk (m.data.set (hash key % B)
        (LinkedList.mk ((m.bucketAt (hash key % B)).elems ++ [(key, value)])
          ((m.bucketAt (hash key % B)).size + 1))) (m.size + 1)) := by
  have hb : hash key % B < B := Nat.mod_lt _ hwf.1
  have hbl : hash key % B < m.data.length := by rw [hwf.2.1]; exact hb
  have hcw : LinkedList.WF (m.bucketAt (hash key % B)) := hwf.2.2.1 _ hb
  obtain ⟨-, hfind, -⟩ := find_of_not_mem B hash m h
  have happ := LinkedList.append_eq hcw (key, (default : V))
  have hwf1 : WF B hash (HashMap.mk (m.data.set (hash key % B)
      (LinkedList.mk ((m.bucketAt (hash key % B)).elems ++ [(key, default)])
        ((m.bucketAt (hash key % B)).size + 1))) (m.size + 1)) := by
    apply WF_set hwf hb
    · simp only [LinkedList.WF, List.length_append, List.length_singleton]
      rw [hcw]
    · simp only [List.length_append, List.length_singleton]
      omega
    · intro kv hkv
      simp only [List.mem_append, List.mem_singleton] at hkv
      rcases hkv with hkv | rfl
      · exact hwf.2.2.2.2.1 _ hb kv hkv
      · rfl
    · rw [List.map_append, List.nodup_append]
      refine ⟨hwf.2.2.2.2.2 _ hb, by simp, ?_⟩
      intro x hx hx2
      simp only [List.map_cons, List.map_nil, List.mem_singleton] at hx2
      subst hx2
      exact h hx
  have hins : insert B hash m key default =
      (HashMap.mk (m.data.set (hash key % B)
          (LinkedList.mk ((m.bucketAt (hash key % B)).elems ++ [(key, default)])
            ((m.bucketAt (hash key % B)).size + 1))) (m.size + 1),
        Iterator.mk (hash key % B) (m.bucketAt (hash key % B)).elems.length) := by
    simp only [insert, hfind, ne_eq, not_true_eq_false, if_false, getBucket, happ,
      bucketAt_set m hbl, if_true, LinkedList.getSize]
    rw [hcw]
    simp
  have hget : (bucketAt (HashMap.mk (m.data.set (hash key % B)
      (LinkedList.mk ((m.bucketAt (hash key % B)).elems ++ [(key, default)])
        ((m.bucketAt (hash key % B)).size + 1))) (m.size + 1))
      (hash key % B)).elems[(m.bucketAt (hash key % B)).elems.length]? =
        some (key, default) := by
    rw [bucketAt_set m hbl]
    simp
  have hd : deref (HashMap.mk (m.data.set (hash key % B)
      (LinkedList.mk ((m.bucketAt (hash key % B)).elems ++ [(key, default)])
        ((m.bucketAt (hash key % B)).size + 1))) (m.size + 1))
      (Iterator.mk (hash key % B) (m.bucketAt (hash key % B)).elems.length) =
        Except.ok (key, default) :=
    deref_of_getElem? hwf1 hb hget
  simp only [assign, index, hins, hd, setValueAt, bucketAt_set m hbl, if_true,
    setSecond_append_length, List.set_set]

/-- What `remove(key)` does when the bucket of the key holds an entry of it. -/
theorem remove_of_mem [DecidableEq K] {B : Nat} {hash : K → Nat} {m : HashMap K V}
    (hwf : WF B hash m) {key : K} {v : V}
    (h : (key, v) ∈ (m.bucketAt (hash key % B)).elems) :
    ∃ i, (m.bucketAt (hash key % B)).elems[i]? = some (key, v) ∧ 0 < m.size ∧
      remove B hash m key =
        Except.ok (HashMap.mk (m.data.set (hash key % B)
          (LinkedList.mk ((m.bucketAt (hash key % B)).elems.eraseIdx i)
            ((m.bucketAt (hash key % B)).size - 1))) (m.size - 1)) := by
  have hb : hash key % B < B := Nat.mod_lt _ hwf.1
  obtain ⟨i, hi, hget, -, -, -⟩ := find_of_mem hwf h
  have hlen : i < (m.bucketAt (hash key % B)).elems.length := by
    rw [List.getElem?_eq_some] at hget
    exact hget.1
  have hpos : 0 < m.size := by
    rw [hwf.2.2.2.1]
    exact List.length_pos_of_mem ((mem_entries_iff_bucket hwf key v).mpr h)
  have he : m.isEmpty = false := by
    simp only [isEmpty, beq_eq_false_iff_ne]
    omega
  refine ⟨i, hget, hpos, ?_⟩
  simp only [remove, he, Bool.false_eq_true, if_false, getBucket, hi,
    LinkedList.erase_some_eq (hwf.2.2.1 _ hb) hlen]

theorem remove_of_not_mem [DecidableEq K] (B : Nat) (hash : K → Nat) (m : HashMap K V)
    {key : K} (h : key ∉ (m.bucketAt (hash key % B)).elems.map Prod.fst) :
    remove B hash m key = Except.error Error.out_of_range := by
  obtain ⟨hc, -, -⟩ := find_of_not_mem B hash m h
  simp only [remove, getBucket, hc]
  split <;> rfl

theorem mem_eraseIdx_of_nodup {l : List (K × V)} (hnd : (l.map Prod.fst).Nodup) {i : Nat}
    {key : K} {v : V} (h : l[i]? = some (key, v)) (x : K × V) :
    x ∈ l.eraseIdx i ↔ x ∈ l ∧ x.1 ≠ key := by
  induction l generalizing i with
  | nil => simp at h
  | cons a rest ih =>
    simp only [List.map_cons, List.nodup_cons, List.mem_map, not_exists, not_and] at hnd
    cases i with
    | zero =>
      simp only [List.getElem?_cons_zero, Option.some.injEq] at h
      subst h
      simp only [List.eraseIdx_cons_zero, List.mem_cons]
      constructor
      · intro hx
        exact ⟨Or.inr hx, fun he => hnd.1 x hx he⟩
      · rintro ⟨rfl | hx, hne⟩
        · exact absurd rfl hne
        · exact hx
    | succ i =>
      simp only [List.getElem?_cons_succ] at h
      have hmem : (key, v) ∈ rest := List.getElem?_mem h
      have hak : a.1 ≠ key := fun he => hnd.1 (key, v) hmem he.symm
      simp only [List.eraseIdx_cons_succ, List.mem_cons, ih hnd.2 h]
      constructor
      · rintro (rfl | ⟨hx, hne⟩)
        · exact ⟨Or.inl rfl, hak⟩
        · exact ⟨Or.inr hx, hne⟩
      · rintro ⟨rfl | hx, hne⟩
        · exact Or.inl rfl
        · exact Or.inr ⟨hx, hne⟩

/-- The inner loop of `operator==` on chains of equal length. -/
theorem chainEqLoop_eq [DecidableEq K] [DecidableEq V] (xs ys : List (K × V))
    (h : xs.length = ys.length) : chainEqLoop xs ys = Except.ok (decide (xs = ys)) := by
  induction xs generalizing ys with
  | nil =>
    cases ys with
    | nil => simp [chainEqLoop]
    | cons y ys => simp at h
  | cons x xs ih =>
    cases ys with
    | nil => simp at h
    | cons y ys =>
      simp only [chainEqLoop]
      by_cases hxy : x = y
      · subst hxy
        simp only [ne_eq, not_true_eq_false, if_false]
        rw [ih ys (by simpa using h)]
        simp
      · simp [hxy]

/-- The outer loop of `operator==` from bucket `i` on, on maps with well-formed buckets. -/
theorem eqLoop_eq [DecidableEq K] [DecidableEq V] (a b : HashMap K V) (n i : Nat)
    (ha : ∀ j, i ≤ j → j < i + n → LinkedList.WF (a.bucketAt j))
    (hb : ∀ j, i ≤ j → j < i + n → LinkedList.WF (b.bucketAt j)) :
    eqLoop a b n i =
      Except.ok (decide (∀ j, i ≤ j → j < i + n → (a.bucketAt j).elems = (b.bucketAt j).elems)) := by
  induction n generalizing i with
  | zero =>
    simp only [eqLoop, Nat.add_zero]
    congr 1
    symm
    simp only [decide_eq_true_eq]
    intro j h1 h2
    omega
  | succ n ih =>
    have hai := ha i (le_refl i) (by omega)
    have hbi := hb i (le_refl i) (by omega)
    unfold LinkedList.WF at hai hbi
    simp only [eqLoop, LinkedList.getSize, hai, hbi]
    by_cases hlen : (a.bucketAt i).elems.length = (b.bucketAt i).elems.length
    · simp only [hlen, ne_eq, not_true_eq_false, if_false, chainEqLoop_eq _ _ hlen]
      by_cases heq : (a.bucketAt i).elems = (b.bucketAt i).elems
      · simp only [heq, decide_True]
        rw [ih (i + 1) (fun j h1 h2 => ha j (by omega) (by omega))
          (fun j h1 h2 => hb j (by omega) (by omega))]
        congr 1
        simp only [decide_eq_decide]
        constructor
        · intro h j h1 h2
          by_cases hji : j = i
          · rw [hji, heq]
          · exact h j (by omega) (by omega)
        · intro h j h1 h2
          exact h j (by omega) (by omega)
      · simp only [heq, decide_False]
        congr 1
        symm
        simp only [decide_eq_false_iff_not]
        intro h
        exact heq (h i (le_refl i) (by omega))
    · simp only [ne_eq, hlen, not_false_eq_true, if_true]
      congr 1
      symm
      simp only [decide_eq_false_iff_not]
      intro h
      exact hlen (by rw [h i (le_refl i) (by omega)])

/-- Assigning to a key that is not stored keeps the invariant, links the pair at the end
of the chain of its bucket and leaves the other buckets as they were. -/
theorem assign_absent_spec [DecidableEq K] [Inhabited V] {B : Nat} {hash : K → Nat}
    {m : HashMap K V} (hwf : WF B hash m) {key : K}
    (h : key ∉ (m.bucketAt (hash key % B)).elems.map Prod.fst) (value : V) :
    ∃ m1, assign B hash m key value = Except.ok m1 ∧ WF B hash m1 ∧
      m1.size = m.size + 1 ∧
      (m1.bucketAt (hash key % B)).elems =
        (m.bucketAt (hash key % B)).elems ++ [(key, value)] ∧
      ∀ j, j ≠ hash key % B → m1.bucketAt j = m.bucketAt j := by
  have hb : hash key % B < B := Nat.mod_lt _ hwf.1
  have hbl : hash key % B < m.data.length := by rw [hwf.2.1]; exact hb
  have hcw : LinkedList.WF (m.bucketAt (hash key % B)) := hwf.2.2.1 _ hb
  refine ⟨_, assign_of_not_mem hwf h value, ?_, rfl, ?_, ?_⟩
  · apply WF_set hwf hb
    · simp only [LinkedList.WF, List.length_append, List.length_singleton]
      rw [hcw]
    · simp only [List.length_append, List.length_singleton]
      omega
    · intro kv hkv
      simp only [List.mem_append, List.mem_singleton] at hkv
      rcases hkv with hkv | rfl
      · exact hwf.2.2.2.2.1 _ hb kv hkv
      · rfl
    · rw [List.map_append, List.nodup_append]
      refine ⟨hwf.2.2.2.2.2 _ hb, by simp, ?_⟩
      intro x hx hx2
      simp only [List.map_cons, List.map_nil, List.mem_singleton] at hx2
      subst hx2
      exact h hx
  · rw [bucketAt_set m hbl]
    simp
  · intro j hj
    rw [bucketAt_set m hbl]
    simp [hj]

theorem bucketAt_empty (B : Nat) (i : Nat) :
    bucketAt (empty B : HashMap K V) i = LinkedList.empty := by
  simp only [bucketAt, empty, List.getD_eq_getElem?_getD, List.getElem?_replicate]
  split <;> rfl

/-- Two distinct keys of one bucket assigned to an empty map are chained in the order of
the assignments. -/
theorem run_two_assigns [DecidableEq K] [Inhabited V] {B : Nat} (hB : 0 < B) (hash : K → Nat)
    (p q : K) (x y : V) (hpq : p ≠ q) (hb2 : hash p % B = hash q % B) :
    WF B hash (run B hash (empty B) [Op.assign p x, Op.assign q y]) ∧
      (bucketAt (run B hash (empty B) [Op.assign p x, Op.assign q y]) (hash p % B)).elems =
        [(p, x), (q, y)] := by
  have hw0 : WF B hash (empty B : HashMap K V) := WF_empty_buckets hB hash
  have hp : p ∉ (bucketAt (empty B : HashMap K V) (hash p % B)).elems.map Prod.fst := by
    rw [bucketAt_empty]
    simp [LinkedList.empty]
  obtain ⟨m1, hm1, hw1, -, hc1, -⟩ := assign_absent_spec hw0 hp x
  rw [bucketAt_empty] at hc1
  have hq : q ∉ (m1.bucketAt (hash q % B)).elems.map Prod.fst := by
    rw [← hb2, hc1]
    simpa [LinkedList.empty] using fun h => hpq h.symm
  obtain ⟨m2, hm2, hw2, -, hc2, -⟩ := assign_absent_spec hw1 hq y
  have hrun : run B hash (empty B) [Op.assign p x, Op.assign q y] = m2 := by
    simp only [run, List.foldl_cons, List.foldl_nil, applyOp, step, hm1, hm2]
  rw [hrun]
  refine ⟨hw2, ?_⟩
  rw [hb2, hc2, ← hb2, hc1]
  rfl

/-! ### the caller's view of remove -/

theorem set_bucketAt_self (m : HashMap K V) (b : Nat) : m.data.set b (m.bucketAt b) = m.data := by
  apply List.ext_getElem
  · simp
  · intro i h1 h2
    simp only [List.length_set] at h1
    simp only [List.getElem_set, bucketAt, List.getD_eq_getElem?_getD]
    split
    · next hbi =>
      subst hbi
      simp [h2]
    · rfl

/-- The plain and the caller's view of `remove(key)` agree. -/
theorem removeCall_fst [DecidableEq K] (B : Nat) (hash : K → Nat) (m : HashMap K V) (key : K) :
    remove B hash m key =
      match (removeCall B hash m key).1 with
      | Except.error e => Except.error e
      | Except.ok _ => Except.ok (removeCall B hash m key).2 := by
  unfold remove removeCall
  by_cases he : m.isEmpty = true
  · simp [he]
  · simp only [he, Bool.false_eq_true, if_false]
    cases hc : chainFind key (m.bucketAt (getBucket B hash key)).elems 0 with
    | none => rfl
    | some i =>
      simp only
      rw [LinkedList.eraseCall_fst]
      cases hr : ((m.bucketAt (getBucket B hash key)).eraseCall (some i)).1 <;> simp

/-- A call of `remove(key)` that throws leaves the map as it was. -/
theorem removeCall_error [DecidableEq K] (B : Nat) (hash : K → Nat) (m : HashMap K V) (key : K)
    (e : Error) (h : (removeCall B hash m key).1 = Except.error e) :
    (removeCall B hash m key).2 = m := by
  unfold removeCall at h ⊢
  by_cases he : m.isEmpty = true
  · simp [he]
  · simp only [he, Bool.false_eq_true, if_false] at h ⊢
    cases hc : chainFind key (m.bucketAt (getBucket B hash key)).elems 0 with
    | none => rfl
    | some i =>
      simp only [hc] at h ⊢
      cases hr : ((m.bucketAt (getBucket B hash key)).eraseCall (some i)).1 with
      | error e1 =>
        simp only [hr]
        rw [LinkedList.eraseCall_error _ _ e1 hr, set_bucketAt_self]
      | ok u =>
        simp [hr] at h

/-- A call of `remove(iterator)` that throws leaves the map as it was. -/
theorem hashRemoveAtCall_error [DecidableEq K] (B : Nat) (hash : K → Nat) (m : HashMap K V)
    (it : Iterator) (e : Error) (h : (removeAtCall B hash m it).1 = Except.error e) :
    (removeAtCall B hash m it).2 = m := by
  unfold removeAtCall at h ⊢
  cases hd : deref m it with
  | error e1 => rfl
  | ok kv =>
    simp only [hd] at h ⊢
    exact removeCall_error B hash m kv.1 e h

/-! ### iteration -/

theorem nextScan_some {m : HashMap K V} {n i j : Nat} (h : nextScan m n i = some j) :
    i ≤ j ∧ j < i + n ∧ (m.bucketAt j).getSize ≠ 0 ∧
      ∀ k, i ≤ k → k < j → (m.bucketAt k).getSize = 0 := by
  induction n generalizing i with
  | zero => simp [nextScan] at h
  | succ n ih =>
    simp only [nextScan] at h
    split_ifs at h with h1
    · cases h
      exact ⟨le_refl _, by omega, h1, fun k h2 h3 => by omega⟩
    · obtain ⟨a, b, c, d⟩ := ih h
      refine ⟨by omega, by omega, c, fun k h2 h3 => ?_⟩
      by_cases hk : k = i
      · subst hk
        simpa using h1
      · exact d k (by omega) h3

theorem nextScan_none {m : HashMap K V} {n i : Nat} (h : nextScan m n i = none) :
    ∀ k, i ≤ k → k < i + n → (m.bucketAt k).getSize = 0 := by
  induction n generalizing i with
  | zero =>
    intro k h1 h2
    omega
  | succ n ih =>
    simp only [nextScan] at h
    split_ifs at h with h1
    intro k h2 h3
    by_cases hk : k = i
    · subst hk
      simpa using h1
    · exact ih h k (by omega) (by omega)

/-- The forward scan finds the first bucket that is not empty. -/
theorem nextScan_of {m : HashMap K V} {n i j : Nat} (h1 : i ≤ j) (h2 : j < i + n)
    (hne : (m.bucketAt j).getSize ≠ 0)
    (hz : ∀ k, i ≤ k → k < j → (m.bucketAt k).getSize = 0) : nextScan m n i = some j := by
  cases h : nextScan m n i with
  | none => exact absurd (nextScan_none h j h1 h2) hne
  | some j1 =>
    obtain ⟨a, b, c, d⟩ := nextScan_some h
    rcases Nat.lt_trichotomy j1 j with h3 | h3 | h3
    · exact absurd (hz j1 a h3) c
    · rw [h3]
    · exact absurd (d j h1 h3) hne

theorem nextScan_eq_none {m : HashMap K V} {n i : Nat}
    (hz : ∀ k, i ≤ k → k < i + n → (m.bucketAt k).getSize = 0) : nextScan m n i = none := by
  cases h : nextScan m n i with
  | none => rfl
  | some j =>
    obtain ⟨a, b, c, -⟩ := nextScan_some h
    exact absurd (hz j a b) c

/-- The backward scan finds the last bucket below its start that is not empty. -/
theorem prevScan_of {m : HashMap K V} {s j : Nat} (hj : j < s)
    (hne : (m.bucketAt j).getSize ≠ 0)
    (hz : ∀ k, j < k → k < s → (m.bucketAt k).getSize = 0) :
    prevScan m s = Except.ok { bucket := j, index := (m.bucketAt j).getSize - 1 } := by
  induction s with
  | zero => omega
  | succ s ih =>
    simp only [prevScan]
    by_cases hs : j = s
    · subst hs
      simp [hne]
    · have h0 : (m.bucketAt s).getSize = 0 := hz s (by omega) (by omega)
      simp only [h0, ne_eq, not_true_eq_false, if_false]
      exact ih (by omega) (fun k a b => hz k a (by omega))

theorem begin_of_first {B : Nat} {m : HashMap K V} {b : Nat} (hb : b < B)
    (hne : (m.bucketAt b).getSize ≠ 0) (hz : ∀ k, k < b → (m.bucketAt k).getSize = 0) :
    «begin» B m = { bucket := b, index := 0 } := by
  have h : nextScan m B 0 = some b :=
    nextScan_of (Nat.zero_le _) (by omega) hne (fun k _ h2 => hz k h2)
  simp only [«begin», h]

theorem begin_of_all_empty {B : Nat} {m : HashMap K V} (hB : 0 < B)
    (hz : ∀ k, k < B → (m.bucketAt k).getSize = 0) : «begin» B m = «end» B m := by
  have h : nextScan m B 0 = none := nextScan_eq_none (fun k _ h2 => hz k (by omega))
  simp only [«begin», h, «end», hz (B - 1) (by omega)]

/-- The iterator `begin()` is at index 0 of a bucket that is not above any non-empty
bucket. -/
theorem begin_le {B : Nat} {m : HashMap K V} {b : Nat} (hb : b < B)
    (hne : (m.bucketAt b).getSize ≠ 0) :
    ∃ b0, b0 ≤ b ∧ «begin» B m = { bucket := b0, index := 0 } := by
  cases h : nextScan m B 0 with
  | none => exact absurd (nextScan_none h b (Nat.zero_le _) (by omega)) hne
  | some j =>
    obtain ⟨-, -, c, d⟩ := nextScan_some h
    refine ⟨j, ?_, by simp only [«begin», h]⟩
    by_contra hlt
    exact hne (d b (Nat.zero_le _) (by omega))

theorem begin_index (B : Nat) (m : HashMap K V) : («begin» B m).index = 0 := by
  simp only [«begin»]
  split <;> rfl

theorem ne_end_of_valid {B : Nat} {m : HashMap K V} {it : Iterator}
    (hi : it.index < (m.bucketAt it.bucket).getSize) : it ≠ «end» B m := by
  intro h
  rw [h] at hi
  simp [«end»] at hi

/-- Incrementing an iterator at a stored entry and decrementing the result returns to
the entry. -/
theorem prev_next_of_valid {B : Nat} {m : HashMap K V} {it : Iterator} (hb : it.bucket < B)
    (hi : it.index < (m.bucketAt it.bucket).getSize) :
    ∃ q, next B m it = Except.ok q ∧ prev B m q = Except.ok it := by
  obtain ⟨b, i⟩ := it
  simp only at hb hi
  have hne : (m.bucketAt b).getSize ≠ 0 := by omega
  obtain ⟨b0, hb0, hbegin⟩ := begin_le hb hne
  have hend : (Iterator.mk b i) ≠ «end» B m := ne_end_of_valid hi
  by_cases h1 : i + 1 = (m.bucketAt b).getSize
  · cases hs : nextScan m (B - (b + 1)) (b + 1) with
    | some j =>
      obtain ⟨a1, a2, a3, a4⟩ := nextScan_some hs
      refine ⟨{ bucket := j, index := 0 }, ?_, ?_⟩
      · simp [next, hend, h1, hs]
      · have hnb : (Iterator.mk j 0) ≠ «begin» B m := by
          rw [hbegin]
          intro h
          injection h with h2 h3
          omega
        have hp := prevScan_of (show b < j by omega) hne (fun k c d => a4 k (by omega) d)
        simp only [prev, hnb, if_false, ne_eq, not_true_eq_false]
        rw [hp]
        congr 2
        omega
    | none =>
      have hz := nextScan_none hs
      refine ⟨{ bucket := B - 1, index := (m.bucketAt (B - 1)).getSize }, ?_, ?_⟩
      · simp [next, hend, h1, hs]
      · by_cases hlast : b = B - 1
        · subst hlast
          have hnb : (Iterator.mk (B - 1) (m.bucketAt (B - 1)).getSize) ≠ «begin» B m := by
            intro h
            have := begin_index B m
            rw [← h] at this
            exact hne this
          simp only [prev, hnb, if_false, ne_eq, hne, not_false_eq_true, if_true]
          congr 2
          omega
        · have h0 : (m.bucketAt (B - 1)).getSize = 0 := hz (B - 1) (by omega) (by omega)
          have hnb : (Iterator.mk (B - 1) 0) ≠ «begin» B m := by
            rw [hbegin]
            intro h
            injection h with h2 h3
            omega
          have hp := prevScan_of (show b < B - 1 by omega) hne
            (fun k c d => hz k (by omega) (by omega))
          simp only [h0, prev, hnb, if_false, ne_eq, not_true_eq_false]
          rw [hp]
          congr 2
          omega
  · refine ⟨{ bucket := b, index := i + 1 }, ?_, ?_⟩
    · simp [next, hend, h1]
    · have hnb : (Iterator.mk b (i + 1)) ≠ «begin» B m := by
        intro h
        have := begin_index B m
        rw [← h] at this
        simp at this
      simp [prev, hnb]

/-- The first iterator of the positions of the buckets `i, …, i + n - 1` is where the
forward scan from bucket `i` stops. -/
theorem firstOr_positions {B : Nat} {m : HashMap K V}
    (hsz : ∀ i, i < B → (m.bucketAt i).getSize = (m.bucketAt i).elems.length) (n i : Nat)
    (hn : i + n = B) :
    Walk.firstOr ((List.range' i n).flatMap (bucketPositions m)) («end» B m) =
      match nextScan m n i with
      | some j => { bucket := j, index := 0 }
      | none => «end» B m := by
  induction n generalizing i with
  | zero => simp [nextScan, Walk.firstOr]
  | succ n ih =>
    rw [List.range'_succ, List.flatMap_cons, Walk.firstOr_append, ih (i + 1) (by omega)]
    simp only [nextScan]
    by_cases h0 : (m.bucketAt i).getSize = 0
    · have hl : (m.bucketAt i).elems.length = 0 := by
        rw [← hsz i (by omega)]
        exact h0
      simp [h0, bucketPositions, hl, Walk.firstOr]
    · have hl : (m.bucketAt i).elems.length ≠ 0 := by
        rw [← hsz i (by omega)]
        exact h0
      obtain ⟨k, hk⟩ := Nat.exists_eq_succ_of_ne_zero hl
      simp [h0, bucketPositions, hk, List.range_succ_eq_map, Walk.firstOr]

/-- The iterators at the entries of a bucket from index `j` on are linked by `++`, the
last one to the iterator where the forward scan from the next bucket stops. -/
theorem linked_chain {B : Nat} {m : HashMap K V} (b : Nat) (e : Iterator)
    (he : e = match nextScan m (B - (b + 1)) (b + 1) with
      | some j => { bucket := j, index := 0 }
      | none => «end» B m) (k j : Nat) (hjk : j + k = (m.bucketAt b).getSize) :
    Walk.LinkedBy (next B m)
      ((List.range' j k).map (fun x => ({ bucket := b, index := x } : Iterator))) e := by
  induction k generalizing j with
  | zero => simp [Walk.LinkedBy]
  | succ k ih =>
    rw [List.range'_succ, List.map_cons]
    refine ⟨?_, ih (j + 1) (by omega)⟩
    have hend : (Iterator.mk b j) ≠ «end» B m := ne_end_of_valid (by simp only; omega)
    cases k with
    | zero =>
      have h1 : j + 1 = (m.bucketAt b).getSize := by omega
      simp only [List.range'_zero, List.map_nil, Walk.firstOr, next, hend, if_false, h1,
        ne_eq, not_true_eq_false, he]
      cases nextScan m (B - (b + 1)) (b + 1) <;> rfl
    | succ k =>
      have h1 : j + 1 ≠ (m.bucketAt b).getSize := by omega
      simp [List.range'_succ, Walk.firstOr, next, hend, h1]

/-- The iterators at the entries of the buckets `i, …, i + n - 1` are linked by `++`,
the last one to `end()`. -/
theorem linked_positions {B : Nat} {m : HashMap K V}
    (hsz : ∀ i, i < B → (m.bucketAt i).getSize = (m.bucketAt i).elems.length) (n i : Nat)
    (hn : i + n = B) :
    Walk.LinkedBy (next B m) ((List.range' i n).flatMap (bucketPositions m)) («end» B m) := by
  induction n generalizing i with
  | zero => simp [Walk.LinkedBy]
  | succ n ih =>
    rw [List.range'_succ, List.flatMap_cons, Walk.LinkedBy_append]
    refine ⟨?_, ih (i + 1) (by omega)⟩
    rw [firstOr_positions hsz n (i + 1) (by omega)]
    have hnB : B - (i + 1) = n := by omega
    have := linked_chain (B := B) (m := m) i _ (by rw [hnB]) (m.bucketAt i).elems.length 0
      (by rw [hsz i (by omega)]; omega)
    rw [bucketPositions, List.range_eq_range']
    exact this

theorem positions_eq_range' (B : Nat) (m : HashMap K V) :
    positions B m = (List.range' 0 B).flatMap (bucketPositions m) := by
  rw [positions, List.range_eq_range']

theorem begin_eq_firstOr {B : Nat} {m : HashMap K V} (hB : 0 < B)
    (hsz : ∀ i, i < B → (m.bucketAt i).getSize = (m.bucketAt i).elems.length) :
    «begin» B m = Walk.firstOr (positions B m) («end» B m) := by
  rw [positions_eq_range', firstOr_positions hsz B 0 (by omega)]
  cases h : nextScan m B 0 with
  | some j => simp only [«begin», h]
  | none =>
    have := nextScan_none h (B - 1) (Nat.zero_le _) (by omega)
    simp only [«begin», h, «end», this]

theorem mem_bucketPositions {m : HashMap K V} {b : Nat} {p : Iterator} :
    p ∈ bucketPositions m b ↔ p.bucket = b ∧ p.index < (m.bucketAt b).elems.length := by
  obtain ⟨pb, pi⟩ := p
  simp only [bucketPositions, List.mem_map, List.mem_range, Iterator.mk.injEq]
  constructor
  · rintro ⟨a, h1, h2, h3⟩
    exact ⟨h2.symm, h3 ▸ h1⟩
  · rintro ⟨h1, h2⟩
    exact ⟨pi, h2, h1.symm, rfl⟩

/-- The positions are the iterators at the stored entries. -/
theorem mem_positions {B : Nat} {m : HashMap K V} {p : Iterator} :
    p ∈ positions B m ↔ p.bucket < B ∧ p.index < (m.bucketAt p.bucket).elems.length := by
  simp only [positions, List.mem_flatMap, List.mem_range, mem_bucketPositions]
  constructor
  · rintro ⟨a, h1, h2, h3⟩
    subst h2
    exact ⟨h1, h3⟩
  · rintro ⟨h1, h2⟩
    exact ⟨p.bucket, h1, rfl, h2⟩

theorem nodup_positions (B : Nat) (m : HashMap K V) : (positions B m).Nodup := by
  rw [positions, List.nodup_flatMap]
  refine ⟨fun b _ => ?_, ?_⟩
  · rw [bucketPositions]
    apply (List.nodup_range _).map
    intro x y h
    injection h
  · apply (List.nodup_range B).pairwise_of_forall_ne
    intro a _ b _ hab
    intro p hp1 hp2
    rw [mem_bucketPositions] at hp1 hp2
    exact hab (hp1.1.symm.trans hp2.1)

theorem map_deref_bucketPositions {B : Nat} {hash : K → Nat} {m : HashMap K V}
    (hwf : WF B hash m) {b : Nat} (hb : b < B) :
    (bucketPositions m b).map (deref m) = (m.bucketAt b).elems.map Except.ok := by
  apply List.ext_getElem
  · simp [bucketPositions]
  · intro n h1 h2
    simp only [List.length_map] at h2
    simp only [bucketPositions, List.map_map, List.getElem_map, List.getElem_range,
      Function.comp]
    exact deref_of_getElem? hwf hb (List.getElem?_eq_getElem h2)

/-- Reading through the positions gives the entries. -/
theorem map_deref_positions {B : Nat} {hash : K → Nat} {m : HashMap K V} (hwf : WF B hash m) :
    (positions B m).map (deref m) = (entries B m).map Except.ok := by
  have key : ∀ bs : List Nat, (∀ b ∈ bs, b < B) →
      (bs.flatMap (bucketPositions m)).map (deref m) =
        (bs.flatMap (fun i => (m.bucketAt i).elems)).map Except.ok := by
    intro bs
    induction bs with
    | nil => intro _; rfl
    | cons b bs ih =>
      intro h
      rw [List.flatMap_cons, List.flatMap_cons, List.map_append, List.map_append,
        ih (fun x hx => h x (List.mem_cons_of_mem _ hx)),
        map_deref_bucketPositions hwf (h b (List.mem_cons_self _ _))]
  exact key (List.range B) (fun b hb => List.mem_range.mp hb)

theorem length_positions {B : Nat} {hash : K → Nat} {m : HashMap K V} (hwf : WF B hash m) :
    (positions B m).length = m.getSize := by
  have := congrArg List.length (map_deref_positions hwf)
  simp only [List.length_map] at this
  rw [this, getSize, hwf.2.2.2.1]

theorem forwardLoop_succ (B : Nat) (m : HashMap K V) (n : Nat) (it : Iterator) :
    forwardLoop B m (n + 1) it =
      if it = «end» B m then some (Except.ok [])
      else
        match deref m it with
        | Except.error e => some (Except.error e)
        | Except.ok kv =>
          match next B m it with
          | Except.error e => some (Except.error e)
          | Except.ok it1 =>
            match forwardLoop B m n it1 with
            | none => none
            | some (Except.error e) => some (Except.error e)
            | some (Except.ok rest) => some (Except.ok (kv :: rest)) := rfl

/-- The loop of the forward iteration over a linked sequence of iterators reads their
entries and ends normally. -/
theorem forwardLoop_positions {B : Nat} {m : HashMap K V} (ps : List Iterator)
    (es : List (K × V)) (hl : Walk.LinkedBy (next B m) ps («end» B m))
    (hd : ps.map (deref m) = es.map Except.ok) (hne : ∀ p ∈ ps, p ≠ «end» B m) (n : Nat) :
    forwardLoop B m (ps.length + (n + 1)) (Walk.firstOr ps («end» B m)) =
      some (Except.ok es) := by
  induction ps generalizing es with
  | nil =>
    cases es with
    | nil => simp [forwardLoop, Walk.firstOr]
    | cons e es => simp at hd
  | cons p ps ih =>
    cases es with
    | nil => simp at hd
    | cons e es =>
      simp only [List.map_cons, List.cons.injEq] at hd
      obtain ⟨hl1, hl2⟩ := hl
      have hp : p ≠ «end» B m := hne p (List.mem_cons_self _ _)
      have := ih es hl2 hd.2 (fun q hq => hne q (List.mem_cons_of_mem _ hq))
      have hlen : (p :: ps).length + (n + 1) = (ps.length + (n + 1)) + 1 := by
        simp only [List.length_cons]
        omega
      rw [hlen]
      show forwardLoop B m (ps.length + (n + 1) + 1) p = _
      rw [forwardLoop_succ]
      simp only [hp, if_false, hd.1, hl1, this]

theorem WF_getSize {B : Nat} {hash : K → Nat} {m : HashMap K V} (hwf : WF B hash m) :
    ∀ i, i < B → (m.bucketAt i).getSize = (m.bucketAt i).elems.length :=
  fun i hi => hwf.2.2.1 i hi

theorem positions_ne_end {B : Nat} {hash : K → Nat} {m : HashMap K V} (hwf : WF B hash m) :
    ∀ p ∈ positions B m, p ≠ «end» B m := by
  intro p hp
  rw [mem_positions] at hp
  apply ne_end_of_valid
  rw [WF_getSize hwf _ hp.1]
  exact hp.2

/-- In a map that satisfies its invariant the forward iteration ends normally and
visits the entries in bucket order and chain order. -/
theorem traverse_entries {B : Nat} {hash : K → Nat} {m : HashMap K V} (hwf : WF B hash m)
    (n : Nat) : traverse B m (m.getSize + (n + 1)) = some (Except.ok (entries B m)) := by
  have hl := linked_positions (WF_getSize hwf) B 0 (by omega)
  rw [← positions_eq_range'] at hl
  rw [traverse, begin_eq_firstOr hwf.1 (WF_getSize hwf), ← length_positions hwf]
  exact forwardLoop_positions _ _ hl (map_deref_positions hwf) (positions_ne_end hwf) n

/-! ### copies -/

/-- What `insert(key, value)` does when the bucket of the key holds no entry of it. -/
theorem insert_absent_spec [DecidableEq K] {B : Nat} {hash : K → Nat} {m : HashMap K V}
    (hwf : WF B hash m) {key : K}
    (h : key ∉ (m.bucketAt (hash key % B)).elems.map Prod.fst) (value : V) :
    WF B hash (insert B hash m key value).1 ∧
      ((insert B hash m key value).1.bucketAt (hash key % B)).elems =
        (m.bucketAt (hash key % B)).elems ++ [(key, value)] ∧
      ∀ j, j ≠ hash key % B → (insert B hash m key value).1.bucketAt j = m.bucketAt j := by
  have hb : hash key % B < B := Nat.mod_lt _ hwf.1
  have hbl : hash key % B < m.data.length := by rw [hwf.2.1]; exact hb
  have hcw : LinkedList.WF (m.bucketAt (hash key % B)) := hwf.2.2.1 _ hb
  obtain ⟨-, hfind, -⟩ := find_of_not_mem B hash m h
  have happ := LinkedList.append_eq hcw (key, value)
  have hins : (insert B hash m key value).1 =
      HashMap.mk (m.data.set (hash key % B)
          (LinkedList.mk ((m.bucketAt (hash key % B)).elems ++ [(key, value)])
            ((m.bucketAt (hash key % B)).size + 1))) (m.size + 1) := by
    simp only [insert, hfind, ne_eq, not_true_eq_false, if_false, getBucket, happ]
  rw [hins]
  refine ⟨?_, ?_, ?_⟩
  · apply WF_set hwf hb
    · simp only [LinkedList.WF, List.length_append, List.length_singleton]
      rw [hcw]
    · simp only [List.length_append, List.length_singleton]
      omega
    · intro kv hkv
      simp only [List.mem_append, List.mem_singleton] at hkv
      rcases hkv with hkv | rfl
      · exact hwf.2.2.2.2.1 _ hb kv hkv
      · rfl
    · rw [List.map_append, List.nodup_append]
      refine ⟨hwf.2.2.2.2.2 _ hb, by simp, ?_⟩
      intro x hx hx2
      simp only [List.map_cons, List.map_nil, List.mem_singleton] at hx2
      subst hx2
      exact h hx
  · rw [bucketAt_set m hbl]
    simp
  · intro j hj
    rw [bucketAt_set m hbl]
    simp [hj]

/-- Inserting entries with distinct keys, none of them stored yet, appends each entry to
the chain of its bucket, in the order of the insertions. -/
theorem foldl_insert_spec [DecidableEq K] {B : Nat} {hash : K → Nat} (es : List (K × V))
    (acc : HashMap K V) (hwf : WF B hash acc) (hnd : (es.map Prod.fst).Nodup)
    (hfresh : ∀ kv ∈ es, kv.1 ∉ (acc.bucketAt (hash kv.1 % B)).elems.map Prod.fst) :
    WF B hash (es.foldl (fun a kv => (insert B hash a kv.1 kv.2).1) acc) ∧
      ∀ i, i < B →
        ((es.foldl (fun a kv => (insert B hash a kv.1 kv.2).1) acc).bucketAt i).elems =
          (acc.bucketAt i).elems ++ es.filter (fun kv => decide (hash kv.1 % B = i)) := by
  induction es generalizing acc with
  | nil => exact ⟨hwf, fun i _ => by simp⟩
  | cons kv es ih =>
    obtain ⟨h1, h2, h3⟩ := insert_absent_spec hwf (hfresh kv (List.mem_cons_self _ _)) kv.2
    rw [List.map_cons, List.nodup_cons] at hnd
    have hfresh1 : ∀ x ∈ es,
        x.1 ∉ ((insert B hash acc kv.1 kv.2).1.bucketAt (hash x.1 % B)).elems.map Prod.fst := by
      intro x hx
      have hx0 := hfresh x (List.mem_cons_of_mem _ hx)
      by_cases hbk : hash x.1 % B = hash kv.1 % B
      · rw [hbk, h2, List.map_append, List.mem_append]
        rw [hbk] at hx0
        rintro (hm | hm)
        · exact hx0 hm
        · simp only [List.map_cons, List.map_nil, List.mem_singleton] at hm
          exact hnd.1 (hm ▸ List.mem_map_of_mem _ hx)
      · rw [h3 _ hbk]
        exact hx0
    obtain ⟨h4, h5⟩ := ih _ h1 hnd.2 hfresh1
    refine ⟨h4, fun i hi => ?_⟩
    rw [List.foldl_cons, h5 i hi]
    by_cases hbk : hash kv.1 % B = i
    · subst hbk
      rw [h2]
      simp
    · rw [h3 i (fun h => hbk h.symm)]
      simp [hbk]

/-- In a map that satisfies its invariant the entries whose keys hash to bucket `i` are
the chain of bucket `i`, in chain order. -/
theorem filter_entries {B : Nat} {hash : K → Nat} {m : HashMap K V} (hwf : WF B hash m)
    {i : Nat} (hi : i < B) :
    (entries B m).filter (fun kv => decide (hash kv.1 % B = i)) = (m.bucketAt i).elems := by
  have key : ∀ bs : List Nat, bs.Nodup → (∀ b ∈ bs, b < B) →
      (bs.flatMap (fun j => (m.bucketAt j).elems)).filter
          (fun kv => decide (hash kv.1 % B = i)) =
        if i ∈ bs then (m.bucketAt i).elems else [] := by
    intro bs
    induction bs with
    | nil => intro _ _; rfl
    | cons b bs ih =>
      intro hnd hlt
      rw [List.nodup_cons] at hnd
      rw [List.flatMap_cons, List.filter_append,
        ih hnd.2 (fun x hx => hlt x (List.mem_cons_of_mem _ hx))]
      have hbB : b < B := hlt b (List.mem_cons_self _ _)
      by_cases hbi : b = i
      · subst hbi
        have hall : (m.bucketAt b).elems.filter (fun kv => decide (hash kv.1 % B = b)) =
            (m.bucketAt b).elems := by
          rw [List.filter_eq_self]
          intro kv hkv
          simpa using hwf.2.2.2.2.1 b hbB kv hkv
        simp [hall, hnd.1]
      · have hnone : (m.bucketAt b).elems.filter (fun kv => decide (hash kv.1 % B = i)) =
            [] := by
          rw [List.filter_eq_nil_iff]
          intro kv hkv
          have := hwf.2.2.2.2.1 b hbB kv hkv
          simp only [decide_eq_true_eq]
          omega
        have hne : ¬ i = b := fun h => hbi h.symm
        simp [hnone, hne]
  have := key (List.range B) (List.nodup_range B) (fun b hb => List.mem_range.mp hb)
  rw [entries, this]
  simp [hi]

/-- In a map that satisfies its invariant no key is stored twice. -/
theorem nodup_keys_entries {B : Nat} {hash : K → Nat} {m : HashMap K V} (hwf : WF B hash m) :
    ((entries B m).map Prod.fst).Nodup := by
  rw [entries, List.map_flatMap, List.nodup_flatMap]
  refine ⟨fun b hb => hwf.2.2.2.2.2 b (List.mem_range.mp hb), ?_⟩
  apply (List.nodup_range B).pairwise_of_forall_ne
  intro a ha b hb hab
  intro k hk1 hk2
  obtain ⟨x, hx, rfl⟩ := List.mem_map.mp hk1
  obtain ⟨y, hy, hxy⟩ := List.mem_map.mp hk2
  have h1 := hwf.2.2.2.2.1 a (List.mem_range.mp ha) x hx
  have h2 := hwf.2.2.2.2.1 b (List.mem_range.mp hb) y hy
  rw [hxy] at h2
  exact hab (h1.symm.trans h2)

/-- Two maps that satisfy the invariant and have the same chain in every bucket are the
same map. -/
theorem eq_of_buckets {B : Nat} {hash : K → Nat} {a b : HashMap K V} (ha : WF B hash a)
    (hb : WF B hash b) (h : ∀ i, i < B → (a.bucketAt i).elems = (b.bucketAt i).elems) :
    a = b := by
  have hsize : a.size = b.size := by
    rw [ha.2.2.2.1, hb.2.2.2.1, entries, entries]
    congr 1
    apply List.flatMap_congr
    intro i hi
    exact h i (List.mem_range.mp hi)
  have hbucket : ∀ i, i < B → a.bucketAt i = b.bucketAt i := by
    intro i hi
    have h1 : (a.bucketAt i).size = (a.bucketAt i).elems.length := ha.2.2.1 i hi
    have h2 : (b.bucketAt i).size = (b.bucketAt i).elems.length := hb.2.2.1 i hi
    have h3 := h i hi
    cases hx : a.bucketAt i with
    | mk ea sa =>
      cases hy : b.bucketAt i with
      | mk eb sb =>
        rw [hx] at h1 h3
        rw [hy] at h2 h3
        simp only at h1 h2 h3
        rw [h1, h2, h3]
  have hdata : a.data = b.data := by
    apply List.ext_getElem
    · rw [ha.2.1, hb.2.1]
    · intro i h1 h2
      have := hbucket i (by rw [← ha.2.1]; exact h1)
      simp only [bucketAt, List.getD_eq_getElem?_getD, List.getElem?_eq_getElem h1,
        List.getElem?_eq_getElem h2, Option.getD_some] at this
      exact this
  cases a
  cases b
  simp only at hsize hdata
  rw [hsize, hdata]

theorem copyLoop_succ [DecidableEq K] (B : Nat) (hash : K → Nat) (other : HashMap K V) (n : Nat)
    (it : Iterator) (self : HashMap K V) :
    copyLoop B hash other (n + 1) it self =
      if it = «end» B other then some (Except.ok self)
      else
        match deref other it with
        | Except.error e => some (Except.error e)
        | Except.ok kv =>
          match next B other it with
          | Except.error e => some (Except.error e)
          | Except.ok it1 => copyLoop B hash other n it1 (insert B hash self kv.1 kv.2).1 :=
  rfl

/-- The loop of the copy constructor over a linked sequence of iterators inserts their
entries in order and ends normally. -/
theorem copyLoop_positions [DecidableEq K] {B : Nat} {hash : K → Nat} {other : HashMap K V}
    (ps : List Iterator) (es : List (K × V))
    (hl : Walk.LinkedBy (next B other) ps («end» B other))
    (hd : ps.map (deref other) = es.map Except.ok) (hne : ∀ p ∈ ps, p ≠ «end» B other)
    (n : Nat) (self : HashMap K V) :
    copyLoop B hash other (ps.length + (n + 1)) (Walk.firstOr ps («end» B other)) self =
      some (Except.ok (es.foldl (fun a kv => (insert B hash a kv.1 kv.2).1) self)) := by
  induction ps generalizing es self with
  | nil =>
    cases es with
    | nil => simp [copyLoop, Walk.firstOr]
    | cons e es => simp at hd
  | cons p ps ih =>
    cases es with
    | nil => simp at hd
    | cons e es =>
      simp only [List.map_cons, List.cons.injEq] at hd
      obtain ⟨hl1, hl2⟩ := hl
      have hp : p ≠ «end» B other := hne p (List.mem_cons_self _ _)
      have := ih es hl2 hd.2 (fun q hq => hne q (List.mem_cons_of_mem _ hq))
        (insert B hash self e.1 e.2).1
      have hlen : (p :: ps).length + (n + 1) = (ps.length + (n + 1)) + 1 := by
        simp only [List.length_cons]
        omega
      rw [hlen]
      show copyLoop B hash other (ps.length + (n + 1) + 1) p self = _
      rw [copyLoop_succ]
      simp only [hp, if_false, hd.1, hl1, this, List.foldl_cons]

/-- The copy constructor applied to a map that satisfies its invariant ends normally
with the same map: the same buckets with the same chains in the same order, and the same
size. -/
theorem copy_eq [DecidableEq K] {B : Nat} {hash : K → Nat} {m : HashMap K V}
    (hwf : WF B hash m) (n : Nat) :
    copy B hash (m.getSize + (n + 1)) m = some (Except.ok m) := by
  have hl := linked_positions (WF_getSize hwf) B 0 (by omega)
  rw [← positions_eq_range'] at hl
  rw [copy, begin_eq_firstOr hwf.1 (WF_getSize hwf), ← length_positions hwf,
    copyLoop_positions _ _ hl (map_deref_positions hwf) (positions_ne_end hwf) n]
  have hfresh : ∀ kv ∈ entries B m,
      kv.1 ∉ ((empty B : HashMap K V).bucketAt (hash kv.1 % B)).elems.map Prod.fst := by
    intro kv _
    rw [bucketAt_empty]
    simp [LinkedList.empty]
  obtain ⟨h1, h2⟩ := foldl_insert_spec (entries B m) (empty B) (WF_empty_buckets hwf.1 hash)
    (nodup_keys_entries hwf) hfresh
  congr 2
  apply eq_of_buckets h1 hwf
  intro i hi
  rw [h2 i hi, bucketAt_empty, filter_entries hwf hi]
  simp [LinkedList.empty]

/-- On a map that satisfies its invariant `m == m` ends normally with `true`. -/
theorem eq_self_of_WF [DecidableEq K] [DecidableEq V] {B : Nat} {hash : K → Nat}
    {m : HashMap K V} (hwf : WF B hash m) : eq B m m = Except.ok true := by
  have h := eqLoop_eq m m B 0 (fun j _ hj => hwf.2.2.1 j (by omega))
    (fun j _ hj => hwf.2.2.1 j (by omega))
  simp only [eq, ne_eq, not_true_eq_false, if_false, h]
  simp

/-! ### the invariant along sequences of calls -/

theorem WF_insert [DecidableEq K] {B : Nat} {hash : K → Nat} {m : HashMap K V}
    (hwf : WF B hash m) (key : K) (value : V) : WF B hash (insert B hash m key value).1 := by
  by_cases h : key ∈ (m.bucketAt (hash key % B)).elems.map Prod.fst
  · obtain ⟨⟨k, v0⟩, hkv, hk⟩ := List.mem_map.mp h
    simp only at hk
    subst hk
    obtain ⟨i, -, -, -, hne, -⟩ := find_of_mem hwf hkv
    have hins : (insert B hash m k value).1 = m := by
      simp only [insert, ne_eq, hne, not_false_eq_true, if_true]
    rw [hins]
    exact hwf
  · exact (insert_absent_spec hwf h value).1

theorem WF_setValueAt {B : Nat} {hash : K → Nat} {m : HashMap K V} (hwf : WF B hash m)
    (it : Iterator) (x : V) : WF B hash (setValueAt m it x) := by
  by_cases hb : it.bucket < B
  · apply WF_set hwf hb
    · simp only [LinkedList.WF, length_setSecond]
      exact hwf.2.2.1 _ hb
    · simp only [length_setSecond]
    · intro kv hkv
      have : kv.1 ∈ (m.bucketAt it.bucket).elems.map Prod.fst := by
        rw [← map_fst_setSecond _ it.index x]
        exact List.mem_map.mpr ⟨kv, hkv, rfl⟩
      obtain ⟨kv3, hkv3, he⟩ := List.mem_map.mp this
      rw [← he]
      exact hwf.2.2.2.2.1 _ hb kv3 hkv3
    · simp only [map_fst_setSecond]
      exact hwf.2.2.2.2.2 _ hb
  · have hlen : m.data.length ≤ it.bucket := by
      rw [hwf.2.1]
      omega
    have : setValueAt m it x = m := by
      cases m
      simp only [setValueAt]
      rw [List.set_eq_of_length_le hlen]
    rw [this]
    exact hwf

theorem WF_hashAssign [DecidableEq K] [Inhabited V] {B : Nat} {hash : K → Nat}
    {m m1 : HashMap K V} (hwf : WF B hash m) {key : K} {value : V}
    (h : assign B hash m key value = Except.ok m1) : WF B hash m1 := by
  simp only [assign, index] at h
  split at h
  · cases h
  · rename_i res hres
    split at hres
    · cases hres
    · cases hres
      cases h
      exact WF_setValueAt (WF_insert hwf key default) _ value

theorem WF_hashAccess [DecidableEq K] [Inhabited V] {B : Nat} {hash : K → Nat}
    {m : HashMap K V} {res : HashMap K V × V} (hwf : WF B hash m) {key : K}
    (h : access B hash m key = Except.ok res) : WF B hash res.1 := by
  simp only [access, index] at h
  split at h
  · cases h
  · rename_i r hres
    split at hres
    · cases hres
    · cases hres
      split at h
      · cases h
      · cases h
        exact WF_insert hwf key default

theorem WF_hashRemove [DecidableEq K] {B : Nat} {hash : K → Nat} {m m1 : HashMap K V}
    (hwf : WF B hash m) {key : K} (h : remove B hash m key = Except.ok m1) :
    WF B hash m1 := by
  have hb : hash key % B < B := Nat.mod_lt _ hwf.1
  have hcw : LinkedList.WF (m.bucketAt (hash key % B)) := hwf.2.2.1 _ hb
  by_cases hmem : key ∈ (m.bucketAt (hash key % B)).elems.map Prod.fst
  · obtain ⟨⟨k0, v0⟩, hkv, hk⟩ := List.mem_map.mp hmem
    simp only at hk
    subst hk
    obtain ⟨i, hget, hpos, hrem⟩ := remove_of_mem hwf hkv
    have hlen : i < (m.bucketAt (hash k0 % B)).elems.length := by
      rw [List.getElem?_eq_some] at hget
      exact hget.1
    have hnd := hwf.2.2.2.2.2 _ hb
    have hmemE := mem_eraseIdx_of_nodup hnd hget
    rw [hrem] at h
    cases h
    apply WF_set hwf hb
    · simp only [LinkedList.WF, List.length_eraseIdx, hlen, if_true]
      rw [hcw]
    · simp only [List.length_eraseIdx, hlen, if_true]
      omega
    · intro kv hkv2
      exact hwf.2.2.2.2.1 _ hb kv ((hmemE kv).mp hkv2).1
    · exact hnd.sublist ((List.eraseIdx_sublist _ _).map Prod.fst)
  · rw [remove_of_not_mem B hash m hmem] at h
    cases h

theorem WF_hashApplyOp [DecidableEq K] [Inhabited V] {B : Nat} {hash : K → Nat}
    {m : HashMap K V} (hwf : WF B hash m) (op : Op K V) : WF B hash (applyOp B hash m op) := by
  cases op with
  | access k =>
    simp only [applyOp, step]
    cases h : access B hash m k with
    | error e => exact hwf
    | ok res => exact WF_hashAccess hwf h
  | assign k v =>
    simp only [applyOp, step]
    cases h : assign B hash m k v with
    | error e => exact hwf
    | ok m1 => exact WF_hashAssign hwf h
  | remove k =>
    simp only [applyOp, step]
    cases h : remove B hash m k with
    | error e => exact hwf
    | ok m1 => exact WF_hashRemove hwf h

/-- Every sequence of calls keeps the invariant. -/
theorem WF_hashRun [DecidableEq K] [Inhabited V] {B : Nat} {hash : K → Nat}
    {m : HashMap K V} (hwf : WF B hash m) (ops : List (Op K V)) :
    WF B hash (run B hash m ops) := by
  induction ops generalizing m with
  | nil => exact hwf
  | cons op ops ih => exact ih (WF_hashApplyOp hwf op)

/-- Three distinct keys of one bucket assigned to an empty map are chained in the order
of the assignments. -/
theorem run_three_assigns [DecidableEq K] [Inhabited V] {B : Nat} (hB : 0 < B)
    (hash : K → Nat) (k1 k2 k3 : K) (v1 v2 v3 : V) (h12 : k1 ≠ k2) (h13 : k1 ≠ k3)
    (h23 : k2 ≠ k3) (hb2 : hash k2 % B = hash k1 % B) (hb3 : hash k3 % B = hash k1 % B) :
    WF B hash (run B hash (empty B) [Op.assign k1 v1, Op.assign k2 v2, Op.assign k3 v3]) ∧
      (bucketAt (run B hash (empty B) [Op.assign k1 v1, Op.assign k2 v2, Op.assign k3 v3])
        (hash k1 % B)).elems = [(k1, v1), (k2, v2), (k3, v3)] := by
  obtain ⟨hw2, hc2⟩ := run_two_assigns hB hash k1 k2 v1 v2 h12 hb2.symm
  have hk3 : k3 ∉ ((run B hash (empty B) [Op.assign k1 v1, Op.assign k2 v2]).bucketAt
      (hash k3 % B)).elems.map Prod.fst := by
    rw [hb3, hc2]
    simp only [List.map_cons, List.map_nil, List.mem_cons, List.mem_singleton, not_or]
    exact ⟨fun h => h13 h.symm, fun h => h23 h.symm, List.not_mem_nil _⟩
  obtain ⟨m3, hm3, hw3, -, hc3, -⟩ := assign_absent_spec hw2 hk3 v3
  have hrun : run B hash (empty B) [Op.assign k1 v1, Op.assign k2 v2, Op.assign k3 v3] =
      m3 := by
    have h2 : run B hash (empty B) [Op.assign k1 v1, Op.assign k2 v2, Op.assign k3 v3] =
        applyOp B hash (run B hash (empty B) [Op.assign k1 v1, Op.assign k2 v2])
          (Op.assign k3 v3) := by
      simp only [run, List.foldl_cons, List.foldl_nil]
    rw [h2]
    simp only [applyOp, step, hm3]
  rw [hrun]
  refine ⟨hw3, ?_⟩
  rw [← hb3, hc3, hb3, hc2]
  rfl

end HashMap

/-! ## TreeMap in memory: lemmas -/

namespace TreeMap

open Tree

namespace Raw

open LinkedList.Raw (ok_bind)

variable {K V : Type}

theorem cell_lt {mem : List (Option (Node K V))} {a : Nat} {n : Node K V}
    (h : nodeAt mem a = some n) : a < mem.length := by
  by_contra hlt
  simp [nodeAt, List.getD_eq_getElem?_getD, List.getElem?_eq_none (not_lt.mp hlt)] at h

theorem cell_set_eq {mem : List (Option (Node K V))} {a : Nat} (h : a < mem.length)
    (x : Option (Node K V)) : nodeAt (mem.set a x) a = x := by
  simp [nodeAt, List.getD_eq_getElem?_getD, h]

theorem cell_set_ne {mem : List (Option (Node K V))} {a b : Nat} (h : a ≠ b)
    (x : Option (Node K V)) : nodeAt (mem.set a x) b = nodeAt mem b := by
  simp [nodeAt, List.getD_eq_getElem?_getD, List.getElem?_set_ne h]

theorem cell_append_left {mem : List (Option (Node K V))} {a : Nat} (h : a < mem.length)
    (ys : List (Option (Node K V))) : nodeAt (mem ++ ys) a = nodeAt mem a := by
  simp [nodeAt, List.getD_eq_getElem?_getD, List.getElem?_append_left h]

theorem cell_append_length (mem : List (Option (Node K V))) (x : Option (Node K V)) :
    nodeAt (mem ++ [x]) mem.length = x := by
  simp [nodeAt, List.getD_eq_getElem?_getD]

theorem load_cell {mem : List (Option (Node K V))} {a : Nat} {n : Node K V}
    (h : nodeAt mem a = some n) : load mem (some a) = Except.ok n := by
  simp only [load, h]

theorem store_cell {mem : List (Option (Node K V))} {a : Nat} {n : Node K V}
    (h : nodeAt mem a = some n) (f : Node K V → Node K V) :
    store mem (some a) f = Except.ok (mem.set a (some (f n))) := by
  simp only [store, h]

theorem free_cell {mem : List (Option (Node K V))} {a : Nat} {n : Node K V}
    (h : nodeAt mem a = some n) : free mem (some a) = Except.ok (mem.set a none) := by
  simp only [free, h]

/-! ### the tree held by the memory -/

theorem Frame_refl (mem : List (Option (Node K V))) (s : List Nat) : Frame mem mem s :=
  ⟨le_refl _, fun _ _ _ => rfl⟩

theorem Frame_set {mem : List (Option (Node K V))} {s : List Nat} {a : Nat} (ha : a ∈ s)
    (x : Option (Node K V)) : Frame mem (mem.set a x) s := by
  refine ⟨by simp, fun b _ hb => cell_set_ne ?_ x⟩
  rintro rfl
  exact hb ha

theorem Frame_alloc (mem : List (Option (Node K V))) (ys : List (Option (Node K V)))
    (s : List Nat) : Frame mem (mem ++ ys) s :=
  ⟨by simp, fun _ ha _ => cell_append_left ha ys⟩

/-- Two changes in a row: the second may also touch what was allocated by the first. -/
theorem Frame_trans {mem mem1 mem2 : List (Option (Node K V))} {s s1 : List Nat}
    (h1 : Frame mem mem1 s) (h2 : Frame mem1 mem2 s1)
    (hs : ∀ a ∈ s1, a ∈ s ∨ mem.length ≤ a) : Frame mem mem2 s := by
  refine ⟨le_trans h1.1 h2.1, fun a ha hna => ?_⟩
  rw [h2.2 a (lt_of_lt_of_le ha h1.1) ?_, h1.2 a ha hna]
  intro hmem
  rcases hs a hmem with h | h
  · exact hna h
  · omega

theorem Frame_mono {mem mem1 : List (Option (Node K V))} {s s1 : List Nat}
    (h : Frame mem mem1 s) (hs : ∀ a ∈ s, a ∈ s1) : Frame mem mem1 s1 :=
  ⟨h.1, fun a ha hna => h.2 a ha (fun hmem => hna (hs a hmem))⟩

/-- A change of the memory outside the nodes of a tree leaves it the tree. -/
theorem Shape_congr {mem mem1 : List (Option (Node K V))} {parent : Option Nat}
    {t : Tree (Nat × K) V} (h : ∀ a ∈ addrs t, nodeAt mem1 a = nodeAt mem a)
    (hs : Shape mem parent t) : Shape mem1 parent t := by
  induction t generalizing parent with
  | null => trivial
  | node l ak v r ihl ihr =>
    obtain ⟨h1, h2, h3⟩ := hs
    refine ⟨?_, ihl (fun a ha => h a ?_) h2, ihr (fun a ha => h a ?_) h3⟩
    · rw [h ak.1 (by simp [addrs])]
      exact h1
    · simp [addrs, ha]
    · simp [addrs, ha]

theorem Shape_lt {mem : List (Option (Node K V))} {parent : Option Nat}
    {t : Tree (Nat × K) V} (hs : Shape mem parent t) : ∀ a ∈ addrs t, a < mem.length := by
  induction t generalizing parent with
  | null => intro a ha; simp [addrs] at ha
  | node l ak v r ihl ihr =>
    obtain ⟨h1, h2, h3⟩ := hs
    intro a ha
    simp only [addrs, List.mem_cons, List.mem_append] at ha
    rcases ha with rfl | ha | ha
    · exact cell_lt h1
    · exact ihl h2 a ha
    · exact ihr h3 a ha

theorem Shape_frame {mem mem1 : List (Option (Node K V))} {parent : Option Nat}
    {t : Tree (Nat × K) V} {s : List Nat} (hf : Frame mem mem1 s)
    (hd : ∀ a ∈ addrs t, a ∉ s) (hs : Shape mem parent t) : Shape mem1 parent t :=
  Shape_congr (fun a ha => hf.2 a (Shape_lt hs a ha) (hd a ha)) hs

theorem rootPtr_null : rootPtr (null : Tree (Nat × K) V) = none := rfl

theorem rootPtr_node (l r : Tree (Nat × K) V) (ak : Nat × K) (v : V) :
    rootPtr (node l ak v r) = some ak.1 := rfl

theorem rootPtr_mem {t : Tree (Nat × K) V} {a : Nat} (h : rootPtr t = some a) :
    a ∈ addrs t := by
  cases t with
  | null => simp [rootPtr] at h
  | node l ak v r =>
    simp only [rootPtr, Option.some.injEq] at h
    simp [addrs, h]

theorem rootPtr_eq_none {t : Tree (Nat × K) V} : rootPtr t = none ↔ t = null := by
  cases t <;> simp [rootPtr]

theorem isNull_strip (t : Tree (Nat × K) V) : (strip t).isNull = t.isNull := by
  cases t <;> rfl

theorem isNull_iff_rootPtr (t : Tree (Nat × K) V) : t.isNull = true ↔ rootPtr t = none := by
  cases t <;> simp [rootPtr, isNull]

theorem numNodes_strip (t : Tree (Nat × K) V) : (strip t).numNodes = t.numNodes := by
  induction t with
  | null => rfl
  | node l ak v r ihl ihr => simp [strip, numNodes, ihl, ihr]

theorem length_addrs (t : Tree (Nat × K) V) : (addrs t).length = t.numNodes := by
  induction t with
  | null => rfl
  | node l ak v r ihl ihr => simp [addrs, numNodes, ihl, ihr]; omega

theorem strip_subtreeAt (t : Tree (Nat × K) V) (p : List Dir) :
    strip (subtreeAt t p) = subtreeAt (strip t) p := by
  induction p generalizing t with
  | nil => simp [subtreeAt]
  | cons d p ih =>
    cases t with
    | null => simp [subtreeAt, strip]
    | node l ak v r => cases d <;> simp [subtreeAt, strip, ih]

theorem strip_setSlot (t : Tree (Nat × K) V) (p : List Dir) (s : Tree (Nat × K) V) :
    strip (setSlot t p s) = setSlot (strip t) p (strip s) := by
  induction p generalizing t with
  | nil => simp [setSlot]
  | cons d p ih =>
    cases t with
    | null => simp [setSlot, strip]
    | node l ak v r => cases d <;> simp [setSlot, strip, ih]

theorem strip_setValueAt (t : Tree (Nat × K) V) (p : List Dir) (x : V) :
    strip (setValueAt t p x) = setValueAt (strip t) p x := by
  induction t generalizing p with
  | null => simp [setValueAt, strip]
  | node l ak v r ihl ihr =>
    cases p with
    | nil => simp [setValueAt, strip]
    | cons d p => cases d <;> simp [setValueAt, strip, ihl, ihr]

theorem addrs_subtreeAt {t : Tree (Nat × K) V} {p : List Dir} :
    ∀ a ∈ addrs (subtreeAt t p), a ∈ addrs t := by
  induction p generalizing t with
  | nil => intro a ha; simpa [subtreeAt] using ha
  | cons d p ih =>
    cases t with
    | null => intro a ha; simp [subtreeAt, addrs] at ha
    | node l ak v r =>
      intro a ha
      cases d with
      | left =>
        simp only [subtreeAt] at ha
        simp [addrs, ih a ha]
      | right =>
        simp only [subtreeAt] at ha
        simp [addrs, ih a ha]

theorem nodup_subtreeAt {t : Tree (Nat × K) V} (h : (addrs t).Nodup) (p : List Dir) :
    (addrs (subtreeAt t p)).Nodup := by
  induction p generalizing t with
  | nil => simpa [subtreeAt] using h
  | cons d p ih =>
    cases t with
    | null => simp [subtreeAt, addrs]
    | node l ak v r =>
      simp only [addrs, List.nodup_cons, List.nodup_append] at h
      cases d with
      | left => exact ih h.2.1
      | right => exact ih h.2.2.1

/-! ### find -/

theorem ptrAt_left (l r : Tree (Nat × K) V) (ak : Nat × K) (v : V) (it : TreeMap.Iterator) :
    ptrAt (node l ak v r) (it.map (Dir.left :: ·)) = ptrAt l it := by
  cases it <;> simp [ptrAt, subtreeAt]

theorem ptrAt_right (l r : Tree (Nat × K) V) (ak : Nat × K) (v : V) (it : TreeMap.Iterator) :
    ptrAt (node l ak v r) (it.map (Dir.right :: ·)) = ptrAt r it := by
  cases it <;> simp [ptrAt, subtreeAt]

/-- The loop of `find` on the nodes returns, with the pointer to the node that the loop
on the tree of keys finds. -/
theorem findLoop_refines [LinearOrder K] {mem : List (Option (Node K V))}
    {parent : Option Nat} {t : Tree (Nat × K) V} (hs : Shape mem parent t) (key : K)
    {n : Nat} (hn : t.numNodes < n) :
    findLoop n mem (rootPtr t) key =
      some (Except.ok (ptrAt t (TreeMap.findLoop (strip t) [] key))) := by
  induction t generalizing parent n with
  | null =>
    obtain ⟨n, rfl⟩ : ∃ k, n = k + 1 := ⟨n - 1, by omega⟩
    simp [findLoop, rootPtr_null, strip, TreeMap.findLoop, ptrAt]
  | node l ak v r ihl ihr =>
    obtain ⟨n, rfl⟩ : ∃ k, n = k + 1 := ⟨n - 1, by omega⟩
    obtain ⟨h1, h2, h3⟩ := hs
    simp only [numNodes] at hn
    simp only [findLoop, rootPtr_node, load_cell h1, strip, findLoop_node, reduceCtorEq, if_false]
    by_cases hk : ak.2 = key
    · simp [hk, ptrAt, subtreeAt, rootPtr_node]
    · simp only [hk, if_false]
      by_cases hgt : key > ak.2
      · simp only [hgt, if_true]
        rw [ihr h3 (by omega), ptrAt_right]
      · simp only [hgt, if_false]
        rw [ihl h2 (by omega), ptrAt_left]

/-- A pointer returned by `find` on the tree of keys points to a node. -/
theorem find_some_node [LinearOrder K] {t : Tree (Nat × K) V} {key : K} {p : List Dir}
    (h : TreeMap.findLoop (strip t) [] key = some p) :
    ∃ l a v r, subtreeAt t p = node l (a, key) v r := by
  obtain ⟨l, v, r, hsub⟩ := findLoop_some h
  rw [← strip_subtreeAt] at hsub
  cases hq : subtreeAt t p with
  | null => rw [hq] at hsub; simp [strip] at hsub
  | node l1 ak v1 r1 =>
    rw [hq] at hsub
    simp only [strip, Tree.node.injEq] at hsub
    obtain ⟨a, k⟩ := ak
    have hk : k = key := hsub.2.1
    exact ⟨l1, a, v1, r1, by rw [hk]⟩

/-! ### insert -/

/-- The descent loop of `insert` on the nodes returns, and the memory then holds the tree
that the loop on the tree of keys builds, the new node in the place of the new entry. -/
theorem insertLoop_refines [LinearOrder K] {mem : List (Option (Node K V))}
    {parent : Option Nat} {t : Tree (Nat × K) V} {a n : Nat}
    (hs : Shape mem parent t) (hnd : (addrs t).Nodup) (hroot : rootPtr t = some a)
    {key : K} {value : V} {x : Option Nat}
    (hn : nodeAt mem n = some (Node.mk key value x none none)) (hfresh : n ∉ addrs t)
    (fuel : Nat) (hfuel : t.numNodes ≤ fuel) :
    ∃ mem1 t1, insertLoop fuel mem (some a) (some n) key = some (Except.ok mem1) ∧
      Shape mem1 parent t1 ∧ rootPtr t1 = some a ∧
      strip t1 = (TreeMap.insertLoop (strip t) [] key value).1 ∧
      subtreeAt t1 (TreeMap.insertLoop (strip t) [] key value).2 =
        node null (n, key) value null ∧
      (∀ b, b ∈ addrs t1 ↔ b = n ∨ b ∈ addrs t) ∧ (addrs t1).Nodup ∧
      mem1.length = mem.length ∧
      (∀ b, b ∉ addrs t → b ≠ n → nodeAt mem1 b = nodeAt mem b) ∧
      t1.numNodes = t.numNodes + 1 := by
  induction t generalizing parent fuel a with
  | null => simp [rootPtr_null] at hroot
  | node l ak v r ihl ihr =>
    obtain ⟨h1, h2, h3⟩ := hs
    simp only [rootPtr_node, Option.some.injEq] at hroot
    subst hroot
    simp only [numNodes] at hfuel
    obtain ⟨fuel, rfl⟩ : ∃ k, fuel = k + 1 := ⟨fuel - 1, by omega⟩
    simp only [addrs, List.nodup_cons, List.nodup_append, List.mem_append, not_or] at hnd
    obtain ⟨⟨hal, har⟩, hndl, hndr, hdisj⟩ := hnd
    simp only [addrs, List.mem_cons, List.mem_append, not_or] at hfresh
    obtain ⟨hna, hnl, hnr⟩ := hfresh
    have hlen : ak.1 < mem.length := cell_lt h1
    have hnlen : n < mem.length := cell_lt hn
    rw [show strip (node l ak v r) = node (strip l) ak.2 v (strip r) from rfl,
      insertLoop_node, insertLoop_here (strip l), insertLoop_here (strip r)]
    simp only [insertLoop, load_cell h1]
    by_cases hlt : key < ak.2
    · simp only [hlt, if_true, List.nil_append]
      by_cases hl : rootPtr l = none
      · have hl0 : l = null := rootPtr_eq_none.mp hl
        subst hl0
        have hn1 : nodeAt (mem.set ak.1 (some (Node.mk ak.2 v parent (some n) (rootPtr r)))) n =
            some (Node.mk key value x none none) := by
          rw [cell_set_ne (Ne.symm hna)]
          exact hn
        refine ⟨(mem.set ak.1 (some (Node.mk ak.2 v parent (some n) (rootPtr r)))).set n
            (some (Node.mk key value (some ak.1) none none)),
          node (node null (n, key) value null) ak v r, ?_, ?_, rfl, ?_, ?_, ?_, ?_, ?_, ?_, ?_⟩
        · simp only [rootPtr_null, if_true, store_cell h1, ok_bind, store_cell hn1]
        · refine ⟨?_, ⟨?_, trivial, trivial⟩, ?_⟩
          · rw [cell_set_ne hna, cell_set_eq hlen]
            rfl
          · rw [cell_set_eq (by simpa using hnlen)]
            rfl
          · apply Shape_congr _ h3
            intro b hb
            rw [cell_set_ne (ne_of_mem_of_not_mem hb hnr).symm,
              cell_set_ne (ne_of_mem_of_not_mem hb har).symm]
        · simp [strip, TreeMap.insertLoop]
        · simp [strip, TreeMap.insertLoop, subtreeAt]
        · intro b
          simp only [addrs, List.mem_cons, List.mem_append, List.nil_append, List.not_mem_nil,
            false_or]
          tauto
        · simp only [addrs, List.nodup_cons, List.mem_cons, List.mem_append, List.nil_append,
            List.not_mem_nil, false_or, not_or, List.append_nil, not_false_eq_true, and_true,
            List.nodup_nil, List.singleton_append]
          exact ⟨⟨Ne.symm hna, har⟩, hnr, hndr⟩
        · simp
        · intro b hb hbn
          simp only [addrs, List.mem_cons, List.mem_append, not_or] at hb
          rw [cell_set_ne (Ne.symm hbn), cell_set_ne (Ne.symm hb.1)]
        · simp only [numNodes]
          omega
      · obtain ⟨b, hb⟩ := Option.ne_none_iff_exists'.mp hl
        obtain ⟨mem1, l1, he, hs1, hr1, hst, hsub, hmem, hnd1, hlen1, hfr, hnum⟩ :=
          ihl h2 hndl hb hnl fuel
            (by
              have : 0 < l.numNodes := by
                cases l with
                | null => simp [rootPtr_null] at hb
                | node _ _ _ _ => simp only [numNodes]; omega
              omega)
        refine ⟨mem1, node l1 ak v r, ?_, ?_, rfl, ?_, ?_, ?_, ?_, hlen1, ?_, ?_⟩
        · simp only [hb, reduceCtorEq, if_false, he]
        · refine ⟨?_, hs1, ?_⟩
          · rw [hfr ak.1 hal (Ne.symm hna), hr1, ← hb]
            exact h1
          · apply Shape_congr _ h3
            intro c hc
            exact hfr c (fun h => hdisj h hc) (ne_of_mem_of_not_mem hc hnr)
        · simp only [strip, hst]
        · simpa [subtreeAt] using hsub
        · intro c
          simp only [addrs, List.mem_cons, List.mem_append, hmem]
          tauto
        · simp only [addrs, List.nodup_cons, List.nodup_append, List.mem_append, hmem, not_or]
          refine ⟨⟨⟨Ne.symm hna, hal⟩, har⟩, hnd1, hndr, ?_⟩
          intro c hc hcr
          rcases (hmem c).mp hc with rfl | hc
          · exact hnr hcr
          · exact hdisj hc hcr
        · intro c hc hcn
          simp only [addrs, List.mem_cons, List.mem_append, not_or] at hc
          exact hfr c hc.2.1 hcn
        · simp only [numNodes, hnum]
          omega
    · simp only [hlt, if_false, List.nil_append]
      by_cases hr : rootPtr r = none
      · have hr0 : r = null := rootPtr_eq_none.mp hr
        subst hr0
        have hn1 : nodeAt (mem.set ak.1 (some (Node.mk ak.2 v parent (rootPtr l) (some n)))) n =
            some (Node.mk key value x none none) := by
          rw [cell_set_ne (Ne.symm hna)]
          exact hn
        refine ⟨(mem.set ak.1 (some (Node.mk ak.2 v parent (rootPtr l) (some n)))).set n
            (some (Node.mk key value (some ak.1) none none)),
          node l ak v (node null (n, key) value null), ?_, ?_, rfl, ?_, ?_, ?_, ?_, ?_, ?_, ?_⟩
        · simp only [rootPtr_null, if_true, store_cell h1, ok_bind, store_cell hn1]
        · refine ⟨?_, ?_, ⟨?_, trivial, trivial⟩⟩
          · rw [cell_set_ne hna, cell_set_eq hlen]
            rfl
          · apply Shape_congr _ h2
            intro b hb
            rw [cell_set_ne (ne_of_mem_of_not_mem hb hnl).symm,
              cell_set_ne (ne_of_mem_of_not_mem hb hal).symm]
          · rw [cell_set_eq (by simpa using hnlen)]
            rfl
        · simp [strip, TreeMap.insertLoop]
        · simp [strip, TreeMap.insertLoop, subtreeAt]
        · intro b
          simp only [addrs, List.mem_cons, List.mem_append, List.nil_append, List.not_mem_nil,
            false_or, or_false]
          tauto
        · simp only [addrs, List.nodup_cons, List.nodup_append, List.mem_cons, List.mem_append,
            List.nil_append, List.not_mem_nil, false_or, not_or, List.append_nil, or_false,
            List.nodup_nil, and_true, not_false_eq_true, true_and]
          refine ⟨⟨hal, Ne.symm hna⟩, hndl, ?_⟩
          intro b hb hbn
          rw [List.mem_singleton] at hbn
          exact hnl (hbn ▸ hb)
        · simp
        · intro b hb hbn
          simp only [addrs, List.mem_cons, List.mem_append, not_or] at hb
          rw [cell_set_ne (Ne.symm hbn), cell_set_ne (Ne.symm hb.1)]
        · simp only [numNodes]
      · obtain ⟨b, hb⟩ := Option.ne_none_iff_exists'.mp hr
        obtain ⟨mem1, r1, he, hs1, hr1, hst, hsub, hmem, hnd1, hlen1, hfr, hnum⟩ :=
          ihr h3 hndr hb hnr fuel
            (by
              have : 0 < r.numNodes := by
                cases r with
                | null => simp [rootPtr_null] at hb
                | node _ _ _ _ => simp only [numNodes]; omega
              omega)
        refine ⟨mem1, node l ak v r1, ?_, ?_, rfl, ?_, ?_, ?_, ?_, hlen1, ?_, ?_⟩
        · simp only [hb, reduceCtorEq, if_false, he]
        · refine ⟨?_, ?_, hs1⟩
          · rw [hfr ak.1 har (Ne.symm hna), hr1, ← hb]
            exact h1
          · apply Shape_congr _ h2
            intro c hc
            exact hfr c (fun h => hdisj hc h) (ne_of_mem_of_not_mem hc hnl)
        · simp only [strip, hst]
        · simpa [subtreeAt] using hsub
        · intro c
          simp only [addrs, List.mem_cons, List.mem_append, hmem]
          tauto
        · simp only [addrs, List.nodup_cons, List.nodup_append, List.mem_append, hmem, not_or]
          refine ⟨⟨hal, Ne.symm hna, har⟩, hndl, hnd1, ?_⟩
          intro c hc hcr
          rcases (hmem c).mp hcr with rfl | hcr
          · exact hnl hc
          · exact hdisj hc hcr
        · intro c hc hcn
          simp only [addrs, List.mem_cons, List.mem_append, not_or] at hc
          exact hfr c hc.2.2 hcn
        · simp only [numNodes, hnum]
          omega

theorem Inv_alloc {mem : List (Option (Node K V))} {self : Raw} {t : Tree (Nat × K) V}
    (h : Inv mem self t) (ys : List (Option (Node K V))) : Inv (mem ++ ys) self t :=
  ⟨h.1, Shape_congr (fun a ha => cell_append_left (Shape_lt h.2.1 a ha) ys) h.2.1, h.2.2⟩

/-- Private method `insert` on the nodes returns, with the outcome of `insert` on the
tree of keys: the same tree of keys and counter, and the pointer to the node at the path
returned there; it writes to no node of the memory other than those of the map. -/
theorem insert_refines [LinearOrder K] {mem : List (Option (Node K V))} {self : Raw}
    {t : Tree (Nat × K) V} (h : Inv mem self t) (key : K) (value : V) {fuel : Nat}
    (hfuel : t.numNodes < fuel) :
    ∃ mem1 self1 t1 p a,
      insert fuel mem self key value = some (Except.ok (mem1, self1, some a)) ∧
      TreeMap.insert (view self t) key value = (view self1 t1, some p) ∧
      Inv mem1 self1 t1 ∧ (∃ l v r, subtreeAt t1 p = node l (a, key) v r) ∧
      Frame mem mem1 (addrs t) ∧ (∀ b ∈ addrs t1, b ∈ addrs t ∨ mem.length ≤ b) ∧
      t1.numNodes ≤ t.numNodes + 1 := by
  obtain ⟨hnd, hs, hroot⟩ := h
  have hfind := findLoop_refines hs key hfuel
  simp only [insert, find, hroot, hfind, TreeMap.insert, TreeMap.find, view]
  cases hf : TreeMap.findLoop (strip t) [] key with
  | some p =>
    obtain ⟨l, a, v, r, hsub⟩ := find_some_node hf
    refine ⟨mem, self, t, p, a, ?_, rfl, ⟨hnd, hs, hroot⟩, ⟨l, v, r, hsub⟩, Frame_refl _ _,
      fun b hb => Or.inl hb, by omega⟩
    simp [ptrAt, hsub, rootPtr_node]
  | none =>
    simp only [ptrAt, ne_eq, not_true_eq_false, if_false, isNull_strip]
    by_cases ht : rootPtr t = none
    · have ht0 : t = null := rootPtr_eq_none.mp ht
      subst ht0
      refine ⟨mem ++ [some (Node.mk key value none none none)], ⟨some mem.length, self.size + 1⟩,
        node null (mem.length, key) value null, [], mem.length, ?_, ?_, ?_, ?_, ?_, ?_, ?_⟩
      · simp [rootPtr_null]
      · simp [isNull, strip]
      · refine ⟨by simp [addrs], ⟨?_, trivial, trivial⟩, rfl⟩
        rw [cell_append_length]
        rfl
      · exact ⟨null, value, null, by simp [subtreeAt]⟩
      · exact Frame_alloc _ _ _
      · intro b hb
        simp only [addrs, List.mem_cons, List.nil_append, List.not_mem_nil, or_false] at hb
        exact Or.inr (le_of_eq hb.symm)
      · simp [numNodes]
    · obtain ⟨a0, ha0⟩ := Option.ne_none_iff_exists'.mp ht
      have hnull : t.isNull = false := by
        cases t with
        | null => simp [rootPtr_null] at ha0
        | node _ _ _ _ => rfl
      have hfresh : mem.length ∉ addrs t := fun hmem => lt_irrefl _ (Shape_lt hs _ hmem)
      have hs0 : Shape (mem ++ [some (Node.mk key value none none none)]) none t :=
        Shape_congr (fun a ha => cell_append_left (Shape_lt hs a ha) _) hs
      obtain ⟨mem1, t1, he, hs1, hr1, hst, hsub, hmem, hnd1, hlen1, hfr, hnum⟩ :=
        insertLoop_refines hs0 hnd ha0
          (cell_append_length mem (some (Node.mk key value none none none))) hfresh fuel
          (by omega)
      refine ⟨mem1, ⟨self.root, self.size + 1⟩, t1, (TreeMap.insertLoop (strip t) [] key value).2,
        mem.length, ?_, ?_, ?_, ?_, ?_, ?_, ?_⟩
      · simp only [ha0, reduceCtorEq, if_false, he, hroot]
      · simp only [hnull, Bool.false_eq_true, if_false, hst]
      · exact ⟨hnd1, hs1, by rw [hr1, hroot, ha0]⟩
      · exact ⟨null, value, null, hsub⟩
      · refine ⟨by rw [hlen1]; simp, fun b hb hbt => ?_⟩
        rw [hfr b hbt (Nat.ne_of_lt hb), cell_append_left hb]
      · intro b hb
        rcases (hmem b).mp hb with rfl | hb
        · exact Or.inr (le_refl _)
        · exact Or.inl hb
      · omega

/-! ### writing through a reference -/

theorem rootPtr_setValueAt (t : Tree (Nat × K) V) (p : List Dir) (x : V) :
    rootPtr (setValueAt t p x) = rootPtr t := by
  cases t with
  | null => simp [setValueAt]
  | node l ak v r =>
    cases p with
    | nil => rfl
    | cons d p => cases d <;> rfl

theorem addrs_setValueAt (t : Tree (Nat × K) V) (p : List Dir) (x : V) :
    addrs (setValueAt t p x) = addrs t := by
  induction t generalizing p with
  | null => simp [setValueAt]
  | node l ak v r ihl ihr =>
    cases p with
    | nil => rfl
    | cons d p => cases d <;> simp [setValueAt, addrs, ihl, ihr]

theorem mem_addrs_of_subtreeAt {t : Tree (Nat × K) V} {p : List Dir}
    {l r : Tree (Nat × K) V} {a : Nat} {k : K} {v : V}
    (h : subtreeAt t p = node l (a, k) v r) : a ∈ addrs t :=
  addrs_subtreeAt a (by rw [h]; simp [addrs])

/-- The node at a path of the tree held by the memory. -/
theorem cell_of_subtreeAt {mem : List (Option (Node K V))} {parent : Option Nat}
    {t : Tree (Nat × K) V} (hs : Shape mem parent t) {p : List Dir}
    {l r : Tree (Nat × K) V} {a : Nat} {k : K} {v : V}
    (h : subtreeAt t p = node l (a, k) v r) :
    ∃ q, nodeAt mem a = some (Node.mk k v q (rootPtr l) (rootPtr r)) ∧
      Shape mem (some a) l ∧ Shape mem (some a) r := by
  induction p generalizing t parent with
  | nil =>
    simp only [subtreeAt] at h
    subst h
    exact ⟨parent, hs.1, hs.2.1, hs.2.2⟩
  | cons d p ih =>
    cases t with
    | null => simp [subtreeAt] at h
    | node l0 ak0 v0 r0 =>
      cases d with
      | left => exact ih hs.2.1 (by simpa [subtreeAt] using h)
      | right => exact ih hs.2.2 (by simpa [subtreeAt] using h)

/-- A write to the value of the node at a path gives the tree with that value there. -/
theorem Shape_setValueAt {mem : List (Option (Node K V))} {parent : Option Nat}
    {t : Tree (Nat × K) V} (hs : Shape mem parent t) (hnd : (addrs t).Nodup) {p : List Dir}
    {l r : Tree (Nat × K) V} {a : Nat} {k : K} {v : V}
    (hsub : subtreeAt t p = node l (a, k) v r) (x : V) {nd : Node K V}
    (hnode : nodeAt mem a = some nd) :
    Shape (mem.set a (some { nd with value := x })) parent (setValueAt t p x) := by
  induction t generalizing p parent with
  | null => simp [subtreeAt_null] at hsub
  | node l0 ak0 v0 r0 ihl ihr =>
    obtain ⟨h1, h2, h3⟩ := hs
    simp only [addrs, List.nodup_cons, List.nodup_append, List.mem_append, not_or] at hnd
    obtain ⟨⟨hal, har⟩, hndl, hndr, hdisj⟩ := hnd
    cases p with
    | nil =>
      simp only [subtreeAt, Tree.node.injEq] at hsub
      obtain ⟨rfl, rfl, rfl, rfl⟩ := hsub
      rw [h1] at hnode
      simp only [Option.some.injEq] at hnode
      subst hnode
      refine ⟨?_, Shape_congr (fun b hb => cell_set_ne (ne_of_mem_of_not_mem hb hal).symm _) h2,
        Shape_congr (fun b hb => cell_set_ne (ne_of_mem_of_not_mem hb har).symm _) h3⟩
      rw [cell_set_eq (cell_lt h1)]
    | cons d p =>
      cases d with
      | left =>
        have hsub1 : subtreeAt l0 p = node l (a, k) v r := by simpa [subtreeAt] using hsub
        have hmem : a ∈ addrs l0 := mem_addrs_of_subtreeAt hsub1
        refine ⟨?_, ihl h2 hndl hsub1,
          Shape_congr (fun b hb => cell_set_ne (fun h => hdisj hmem (by rw [h]; exact hb)) _) h3⟩
        rw [cell_set_ne (ne_of_mem_of_not_mem hmem hal), rootPtr_setValueAt]
        exact h1
      | right =>
        have hsub1 : subtreeAt r0 p = node l (a, k) v r := by simpa [subtreeAt] using hsub
        have hmem : a ∈ addrs r0 := mem_addrs_of_subtreeAt hsub1
        refine ⟨?_, Shape_congr (fun b hb => cell_set_ne (fun h => hdisj (by rw [h]; exact hb) hmem) _) h2,
          ihr h3 hndr hsub1⟩
        rw [cell_set_ne (ne_of_mem_of_not_mem hmem har), rootPtr_setValueAt]
        exact h1

/-- Method `operator[]` on the nodes returns, with the outcome of `operator[]` on the
tree of keys. -/
theorem index_refines [LinearOrder K] [Inhabited V] {mem : List (Option (Node K V))}
    {self : Raw} {t : Tree (Nat × K) V} (h : Inv mem self t) (key : K) {fuel : Nat}
    (hfuel : t.numNodes < fuel) :
    ∃ mem1 self1 t1 p a,
      index fuel mem self key = some (Except.ok (mem1, self1, a)) ∧
      TreeMap.index (view self t) key = Except.ok (view self1 t1, p) ∧
      Inv mem1 self1 t1 ∧ (∃ l v r, subtreeAt t1 p = node l (a, key) v r) ∧
      Frame mem mem1 (addrs t) ∧ (∀ b ∈ addrs t1, b ∈ addrs t ∨ mem.length ≤ b) ∧
      t1.numNodes ≤ t.numNodes + 1 := by
  obtain ⟨mem1, self1, t1, p, a, he, ha, hinv, ⟨l, v, r, hsub⟩, hfr, hsubset, hnum⟩ :=
    insert_refines h key default hfuel
  obtain ⟨q, hcell, -, -⟩ := cell_of_subtreeAt hinv.2.1 hsub
  refine ⟨mem1, self1, t1, p, a, ?_, ?_, hinv, ⟨l, v, r, hsub⟩, hfr, hsubset, hnum⟩
  · simp only [index, he, hcell]
  · have hsub1 : subtreeAt (strip t1) p = node (strip l) key v (strip r) := by
      rw [← strip_subtreeAt, hsub]
      rfl
    simp only [TreeMap.index, ha]
    simp only [view, hsub1]

/-- The statement `m[key] = value` on the nodes returns, with the outcome of the
statement on the tree of keys. -/
theorem assign_refines [LinearOrder K] [Inhabited V] {mem : List (Option (Node K V))}
    {self : Raw} {t : Tree (Nat × K) V} (h : Inv mem self t) (key : K) (value : V)
    {fuel : Nat} (hfuel : t.numNodes < fuel) :
    ∃ mem1 self1 t1,
      assign fuel mem self key value = some (Except.ok (mem1, self1)) ∧
      TreeMap.assign (view self t) key value = Except.ok (view self1 t1) ∧
      Inv mem1 self1 t1 ∧
      Frame mem mem1 (addrs t) ∧ (∀ b ∈ addrs t1, b ∈ addrs t ∨ mem.length ≤ b) ∧
      t1.numNodes ≤ t.numNodes + 1 := by
  obtain ⟨mem1, self1, t1, p, a, he, ha, hinv, ⟨l, v, r, hsub⟩, hfr, hsubset, hnum⟩ :=
    index_refines h key hfuel
  obtain ⟨q, hcell, -, -⟩ := cell_of_subtreeAt hinv.2.1 hsub
  have hmem : a ∈ addrs t1 := mem_addrs_of_subtreeAt hsub
  refine ⟨mem1.set a (some (Node.mk key value q (rootPtr l) (rootPtr r))), self1,
    setValueAt t1 p value, ?_, ?_, ?_, ?_, ?_, ?_⟩
  · simp only [assign, he, store_cell hcell]
  · rw [TreeMap.assign, ha]
    simp only [view, strip_setValueAt]
  · refine ⟨by rw [addrs_setValueAt]; exact hinv.1, ?_, by rw [rootPtr_setValueAt]; exact hinv.2.2⟩
    exact Shape_setValueAt hinv.2.1 hinv.1 hsub value hcell
  · refine Frame_trans hfr (Frame_set hmem _) hsubset
  · rw [addrs_setValueAt]
    exact hsubset
  · rw [← length_addrs, addrs_setValueAt, length_addrs]
    exact hnum

/-- The expression `m[key]` on the nodes returns, with the outcome of the expression on
the tree of keys and the same value. -/
theorem access_refines [LinearOrder K] [Inhabited V] {mem : List (Option (Node K V))}
    {self : Raw} {t : Tree (Nat × K) V} (h : Inv mem self t) (key : K)
    {fuel : Nat} (hfuel : t.numNodes < fuel) :
    ∃ mem1 self1 t1 x,
      access fuel mem self key = some (Except.ok (mem1, self1, x)) ∧
      TreeMap.access (view self t) key = Except.ok (view self1 t1, x) ∧
      Inv mem1 self1 t1 ∧
      Frame mem mem1 (addrs t) ∧ (∀ b ∈ addrs t1, b ∈ addrs t ∨ mem.length ≤ b) ∧
      t1.numNodes ≤ t.numNodes + 1 := by
  obtain ⟨mem1, self1, t1, p, a, he, ha, hinv, ⟨l, v, r, hsub⟩, hfr, hsubset, hnum⟩ :=
    index_refines h key hfuel
  obtain ⟨q, hcell, -, -⟩ := cell_of_subtreeAt hinv.2.1 hsub
  have hsub1 : subtreeAt (strip t1) p = node (strip l) key v (strip r) := by
    rw [← strip_subtreeAt, hsub]
    rfl
  refine ⟨mem1, self1, t1, v, ?_, ?_, hinv, hfr, hsubset, hnum⟩
  · simp only [access, he, load_cell hcell]
  · simp only [TreeMap.access, ha, TreeMap.deref]
    simp only [view, hsub1]

/-! ### erase -/

theorem relink_root {mem : List (Option (Node K V))} (self : Raw) {a : Nat} {nd : Node K V}
    (h : nodeAt mem a = some nd) (hp : nd.parent = none) (c : Option Nat) :
    relink mem self (some a) c = Except.ok (mem, { self with root := c }) := by
  simp only [relink, load_cell h, ok_bind, hp, ne_eq, not_true_eq_false, if_false]

theorem relink_left {mem : List (Option (Node K V))} (self : Raw) {a b : Nat}
    {nd nb : Node K V} (h : nodeAt mem a = some nd) (hp : nd.parent = some b)
    (hb : nodeAt mem b = some nb) (hl : nb.left = some a) (c : Option Nat) :
    relink mem self (some a) c =
      Except.ok (mem.set b (some { nb with left := c }), self) := by
  simp only [relink, load_cell h, ok_bind, hp, ne_eq, reduceCtorEq, not_false_eq_true, if_true,
    load_cell hb, hl, store_cell hb]

theorem relink_right {mem : List (Option (Node K V))} (self : Raw) {a b : Nat}
    {nd nb : Node K V} (h : nodeAt mem a = some nd) (hp : nd.parent = some b)
    (hb : nodeAt mem b = some nb) (hl : nb.left ≠ some a) (c : Option Nat) :
    relink mem self (some a) c =
      Except.ok (mem.set b (some { nb with right := c }), self) := by
  have hl1 : ¬ some a = nb.left := fun h => hl h.symm
  simp only [relink, load_cell h, ok_bind, hp, ne_eq, reduceCtorEq, not_false_eq_true, if_true,
    load_cell hb, hl1, if_false, store_cell hb]

/-- Private method `erase(node)` at a node of the tree, given what its relinking
statements do: it returns, and the memory then holds, under the parent of the node, its
left subtree, or its right subtree when it has no left one. -/
theorem erase_local {mem : List (Option (Node K V))} (self : Raw) {a : Nat} {k : K} {v : V}
    {parent : Option Nat} {l r : Tree (Nat × K) V}
    (h1 : nodeAt mem a = some (Node.mk k v parent (rootPtr l) (rootPtr r)))
    (h2 : Shape mem (some a) l) (h3 : Shape mem (some a) r)
    (hnd : (a :: (addrs l ++ addrs r)).Nodup)
    {memR : List (Option (Node K V))} {selfR : Raw}
    (hrel : relink mem self (some a) (rootPtr (if l.isNull then r else l)) =
      Except.ok (memR, selfR))
    (hsame : ∀ x ∈ a :: (addrs l ++ addrs r), nodeAt memR x = nodeAt mem x) (fuel : Nat) :
    ∃ mem1, erase (fuel + 1) mem self (some a) = some (Except.ok (mem1, selfR)) ∧
      Shape mem1 parent (if l.isNull then r else l) ∧ mem1.length = memR.length ∧
      (∀ x, x ∉ a :: (addrs l ++ addrs r) → nodeAt mem1 x = nodeAt memR x) := by
  simp only [List.nodup_cons, List.nodup_append, List.mem_append, not_or] at hnd
  obtain ⟨⟨hal, har⟩, hndl, hndr, hdisj⟩ := hnd
  have haR : nodeAt memR a = some (Node.mk k v parent (rootPtr l) (rootPtr r)) := by
    rw [hsame a (List.mem_cons_self _ _)]
    exact h1
  cases l with
  | null =>
    cases r with
    | null =>
      simp only [isNull, if_true] at hrel ⊢
      rw [rootPtr_null] at hrel
      refine ⟨memR.set a none, ?_, trivial, by simp, fun x hx => ?_⟩
      · simp only [erase, load_cell h1, rootPtr_null, and_self, if_true, hrel, ok_bind,
          free_cell haR]
      · simp only [addrs, List.append_nil, List.mem_singleton] at hx
        exact cell_set_ne (Ne.symm hx) _
    | node rl rak rv rr =>
      simp only [isNull, if_true] at hrel ⊢
      rw [rootPtr_node] at hrel
      obtain ⟨h31, h32, h33⟩ := h3
      have hne : rak.1 ≠ a := fun h => har (by rw [← h]; simp [addrs])
      have hcR : nodeAt memR rak.1 =
          some (Node.mk rak.2 rv (some a) (rootPtr rl) (rootPtr rr)) := by
        rw [hsame rak.1 (by simp [addrs])]
        exact h31
      have haR2 : nodeAt (memR.set rak.1
          (some (Node.mk rak.2 rv parent (rootPtr rl) (rootPtr rr)))) a =
          some (Node.mk k v parent none (some rak.1)) := by
        rw [cell_set_ne hne]
        exact haR
      simp only [addrs, List.nodup_cons, List.nodup_append, List.mem_append, not_or,
        List.mem_cons] at hndr har
      refine ⟨(memR.set rak.1 (some (Node.mk rak.2 rv parent (rootPtr rl) (rootPtr rr)))).set a
        none, ?_, ⟨?_, ?_, ?_⟩, by simp, fun x hx => ?_⟩
      · simp only [erase, load_cell h1, rootPtr_null, rootPtr_node, reduceCtorEq, and_false,
          if_false, ne_eq, not_true_eq_false, not_false_eq_true, or_true, if_true, hrel, ok_bind,
          load_cell haR, store_cell hcR, free_cell haR2]
      · rw [cell_set_ne (Ne.symm hne), cell_set_eq (cell_lt hcR)]
      · apply Shape_congr _ h32
        intro x hx
        rw [cell_set_ne (fun h => har.2.1 (by rw [h]; exact hx)),
          cell_set_ne (fun h => hndr.1.1 (by rw [h]; exact hx)),
          hsame x (by simp [addrs, hx])]
      · apply Shape_congr _ h33
        intro x hx
        rw [cell_set_ne (fun h => har.2.2 (by rw [h]; exact hx)),
          cell_set_ne (fun h => hndr.1.2 (by rw [h]; exact hx)),
          hsame x (by simp [addrs, hx])]
      · simp only [addrs, List.nil_append, List.mem_cons, List.mem_append, not_or] at hx
        rw [cell_set_ne (Ne.symm hx.1), cell_set_ne (Ne.symm hx.2.1)]
  | node ll lak lv lr =>
    simp only [isNull, Bool.false_eq_true, if_false] at hrel ⊢
    rw [rootPtr_node] at hrel
    obtain ⟨h21, h22, h23⟩ := h2
    have hne : lak.1 ≠ a := fun h => hal (by rw [← h]; simp [addrs])
    have hcR : nodeAt memR lak.1 =
        some (Node.mk lak.2 lv (some a) (rootPtr ll) (rootPtr lr)) := by
      rw [hsame lak.1 (by simp [addrs])]
      exact h21
    have haR2 : nodeAt (memR.set lak.1
        (some (Node.mk lak.2 lv parent (rootPtr ll) (rootPtr lr)))) a =
        some (Node.mk k v parent (some lak.1) (rootPtr r)) := by
      rw [cell_set_ne hne]
      exact haR
    simp only [addrs, List.nodup_cons, List.nodup_append, List.mem_append, not_or,
      List.mem_cons] at hndl hal
    refine ⟨(memR.set lak.1 (some (Node.mk lak.2 lv parent (rootPtr ll) (rootPtr lr)))).set a
      none, ?_, ⟨?_, ?_, ?_⟩, by simp, fun x hx => ?_⟩
    · simp only [erase, load_cell h1, rootPtr_node, reduceCtorEq, false_and,
        if_false, ne_eq, not_true_eq_false, not_false_eq_true, true_or, if_true, hrel, ok_bind,
        load_cell haR, store_cell hcR, free_cell haR2]
    · rw [cell_set_ne (Ne.symm hne), cell_set_eq (cell_lt hcR)]
    · apply Shape_congr _ h22
      intro x hx
      rw [cell_set_ne (fun h => hal.2.1 (by rw [h]; exact hx)),
        cell_set_ne (fun h => hndl.1.1 (by rw [h]; exact hx)),
        hsame x (by simp [addrs, hx])]
    · apply Shape_congr _ h23
      intro x hx
      rw [cell_set_ne (fun h => hal.2.2 (by rw [h]; exact hx)),
        cell_set_ne (fun h => hndl.1.2 (by rw [h]; exact hx)),
        hsame x (by simp [addrs, hx])]
    · simp only [addrs, List.mem_cons, List.mem_append, not_or] at hx
      rw [cell_set_ne (Ne.symm hx.1), cell_set_ne (Ne.symm hx.2.1.1)]

theorem rootPtr_setSlot (t s : Tree (Nat × K) V) (d : Dir) (p : List Dir)
    (h : t ≠ null) : rootPtr (setSlot t (d :: p) s) = rootPtr t := by
  cases t with
  | null => exact absurd rfl h
  | node l ak v r => cases d <;> rfl

theorem setSlot_root (t s : Tree (Nat × K) V) : setSlot t [] s = s := by
  cases t <;> rfl

theorem rootPtr_setSlot_concat (t s : Tree (Nat × K) V) (q : List Dir) (d : Dir)
    (h : t ≠ null) : rootPtr (setSlot t (q ++ [d]) s) = rootPtr t := by
  cases q with
  | nil => exact rootPtr_setSlot t s d [] h
  | cons e q => exact rootPtr_setSlot t s e (q ++ [d]) h

/-- The nodes of a tree in which a subtree is replaced by part of it. -/
theorem addrs_setSlot {t : Tree (Nat × K) V} (hnd : (addrs t).Nodup) (p : List Dir)
    {s : Tree (Nat × K) V} (hs : (addrs s).Nodup)
    (hsub : ∀ c ∈ addrs s, c ∈ addrs (subtreeAt t p)) :
    (addrs (setSlot t p s)).Nodup ∧ ∀ c ∈ addrs (setSlot t p s), c ∈ addrs t := by
  induction p generalizing t with
  | nil =>
    rw [setSlot_root]
    exact ⟨hs, fun c hc => by simpa [subtreeAt] using hsub c hc⟩
  | cons d p ih =>
    cases t with
    | null => exact ⟨by simp [setSlot, addrs], fun c hc => by simp [setSlot, addrs] at hc⟩
    | node l ak v r =>
      simp only [addrs, List.nodup_cons, List.nodup_append, List.mem_append, not_or] at hnd
      obtain ⟨⟨hal, har⟩, hndl, hndr, hdisj⟩ := hnd
      cases d with
      | left =>
        obtain ⟨h1, h2⟩ := ih hndl (by simpa [subtreeAt] using hsub)
        simp only [setSlot, addrs, List.nodup_cons, List.nodup_append, List.mem_append, not_or,
          List.mem_cons]
        refine ⟨⟨⟨fun h => hal (h2 _ h), har⟩, h1, hndr, fun c hc hcr => hdisj (h2 c hc) hcr⟩, ?_⟩
        rintro c (rfl | hc | hc)
        · exact Or.inl rfl
        · exact Or.inr (Or.inl (h2 c hc))
        · exact Or.inr (Or.inr hc)
      | right =>
        obtain ⟨h1, h2⟩ := ih hndr (by simpa [subtreeAt] using hsub)
        simp only [setSlot, addrs, List.nodup_cons, List.nodup_append, List.mem_append, not_or,
          List.mem_cons]
        refine ⟨⟨⟨hal, fun h => har (h2 _ h)⟩, hndl, h1, fun c hc hcr => hdisj hc (h2 c hcr)⟩, ?_⟩
        rintro c (rfl | hc | hc)
        · exact Or.inl rfl
        · exact Or.inr (Or.inl hc)
        · exact Or.inr (Or.inr (h2 c hc))

/-- The tree held by the memory once a child pointer of the node at path `q` points to
the tree `s` held under that node. -/
theorem Shape_setSlot {mem mem1 : List (Option (Node K V))} {parent : Option Nat}
    {t : Tree (Nat × K) V} (hs : Shape mem parent t) (hnd : (addrs t).Nodup)
    {q : List Dir} {d : Dir} {lq rq : Tree (Nat × K) V} {b : Nat} {kb : K} {vb : V}
    (hq : subtreeAt t q = node lq (b, kb) vb rq) {s : Tree (Nat × K) V}
    (hb : ∀ nb, nodeAt mem b = some nb → nodeAt mem1 b = some
      (match d with
        | Dir.left => { nb with left := rootPtr s }
        | Dir.right => { nb with right := rootPtr s }))
    (hs1 : Shape mem1 (some b) s)
    (hfr : ∀ c ∈ addrs t, c ≠ b → c ∉ addrs (subtreeAt t (q ++ [d])) →
      nodeAt mem1 c = nodeAt mem c) :
    Shape mem1 parent (setSlot t (q ++ [d]) s) := by
  induction q generalizing t parent with
  | nil =>
    simp only [subtreeAt] at hq
    subst hq
    obtain ⟨h1, h2, h3⟩ := hs
    simp only [addrs, List.nodup_cons, List.nodup_append, List.mem_append, not_or] at hnd
    obtain ⟨⟨hal, har⟩, hndl, hndr, hdisj⟩ := hnd
    cases d with
    | left =>
      simp only [List.nil_append, setSlot, setSlot_root]
      refine ⟨?_, hs1, Shape_congr (fun c hc => hfr c (by simp [addrs, hc])
        (ne_of_mem_of_not_mem hc har) ?_) h3⟩
      · rw [hb _ h1]
      · simp only [List.nil_append, subtreeAt]
        exact fun h => hdisj h hc
    | right =>
      simp only [List.nil_append, setSlot, setSlot_root]
      refine ⟨?_, Shape_congr (fun c hc => hfr c (by simp [addrs, hc])
        (ne_of_mem_of_not_mem hc hal) ?_) h2, hs1⟩
      · rw [hb _ h1]
      · simp only [List.nil_append, subtreeAt]
        exact fun h => hdisj hc h
  | cons e q ih =>
    cases t with
    | null => simp [subtreeAt] at hq
    | node l0 ak0 v0 r0 =>
      obtain ⟨h1, h2, h3⟩ := hs
      simp only [addrs, List.nodup_cons, List.nodup_append, List.mem_append, not_or] at hnd
      obtain ⟨⟨hal, har⟩, hndl, hndr, hdisj⟩ := hnd
      cases e with
      | left =>
        have hq1 : subtreeAt l0 q = node lq (b, kb) vb rq := by simpa [subtreeAt] using hq
        have hbl : b ∈ addrs l0 := mem_addrs_of_subtreeAt hq1
        have hl0 : l0 ≠ null := by
          rintro rfl
          simp [addrs] at hbl
        have hsubl : ∀ c ∈ addrs (subtreeAt l0 (q ++ [d])), c ∈ addrs l0 :=
          fun c hc => addrs_subtreeAt c hc
        show Shape mem1 parent (node (setSlot l0 (q ++ [d]) s) ak0 v0 r0)
        refine ⟨?_, ih h2 hndl hq1 (fun c hc hcb hcs => hfr c (by simp [addrs, hc]) hcb
          (by simpa [subtreeAt] using hcs)), Shape_congr (fun c hc => hfr c (by simp [addrs, hc])
            (fun h => hdisj hbl (by rw [← h]; exact hc)) ?_) h3⟩
        · rw [hfr ak0.1 (by simp [addrs]) (fun h => hal (by rw [h]; exact hbl))
            (fun h => hal (hsubl _ (by simpa [subtreeAt] using h)))]
          rw [rootPtr_setSlot_concat _ _ _ _ hl0]
          exact h1
        · simp only [List.cons_append, subtreeAt]
          exact fun h => hdisj (hsubl c h) hc
      | right =>
        have hq1 : subtreeAt r0 q = node lq (b, kb) vb rq := by simpa [subtreeAt] using hq
        have hbr : b ∈ addrs r0 := mem_addrs_of_subtreeAt hq1
        have hr0 : r0 ≠ null := by
          rintro rfl
          simp [addrs] at hbr
        have hsubr : ∀ c ∈ addrs (subtreeAt r0 (q ++ [d])), c ∈ addrs r0 :=
          fun c hc => addrs_subtreeAt c hc
        show Shape mem1 parent (node l0 ak0 v0 (setSlot r0 (q ++ [d]) s))
        refine ⟨?_, Shape_congr (fun c hc => hfr c (by simp [addrs, hc])
            (fun h => hdisj (by rw [← h]; exact hc) hbr) ?_) h2,
          ih h3 hndr hq1 (fun c hc hcb hcs => hfr c (by simp [addrs, hc]) hcb
          (by simpa [subtreeAt] using hcs))⟩
        · rw [hfr ak0.1 (by simp [addrs]) (fun h => har (by rw [h]; exact hbr))
            (fun h => har (hsubr _ (by simpa [subtreeAt] using h)))]
          rw [rootPtr_setSlot_concat _ _ _ _ hr0]
          exact h1
        · simp only [List.cons_append, subtreeAt]
          exact fun h => hdisj hc (hsubr c h)

theorem strip_erase (t : Tree (Nat × K) V) {p : List Dir} {l r : Tree (Nat × K) V}
    {ak : Nat × K} {v : V} (hsub : subtreeAt t p = node l ak v r) :
    TreeMap.erase (strip t) p = strip (setSlot t p (if l.isNull then r else l)) := by
  have h : subtreeAt (strip t) p = node (strip l) ak.2 v (strip r) := by
    rw [← strip_subtreeAt, hsub]
    rfl
  rw [erase_eq, h, strip_setSlot]
  cases l <;> cases r <;> simp [isNull, strip]

/-- Private method `erase(node)` on the nodes, at the node of the tree at a path,
returns, and the memory then holds the tree that `erase` on the tree of keys gives; it
writes to no node other than those of the map. -/
theorem erase_refines {mem : List (Option (Node K V))} {self : Raw} {t : Tree (Nat × K) V}
    (h : Inv mem self t) {p : List Dir} {l r : Tree (Nat × K) V} {a : Nat} {k : K} {v : V}
    (hsub : subtreeAt t p = node l (a, k) v r) (fuel : Nat) :
    ∃ mem1 self1 t1, erase (fuel + 1) mem self (some a) = some (Except.ok (mem1, self1)) ∧
      Inv mem1 self1 t1 ∧ strip t1 = TreeMap.erase (strip t) p ∧ self1.size = self.size ∧
      Frame mem mem1 (addrs t) ∧ (∀ b ∈ addrs t1, b ∈ addrs t) ∧
      t1.numNodes ≤ t.numNodes := by
  obtain ⟨hnd, hs, hroot⟩ := h
  have hnds : (addrs (subtreeAt t p)).Nodup := nodup_subtreeAt hnd p
  rw [hsub] at hnds
  have hsubs : ∀ c ∈ addrs (if l.isNull then r else l), c ∈ addrs (subtreeAt t p) := by
    intro c hc
    rw [hsub]
    cases l with
    | null =>
      simp only [isNull, if_true] at hc
      simp [addrs, hc]
    | node _ _ _ _ =>
      simp only [isNull, Bool.false_eq_true, if_false] at hc
      simp only [addrs, List.mem_cons, List.mem_append] at hc ⊢
      tauto
  have hnd2 : (addrs (if l.isNull then r else l)).Nodup := by
    simp only [addrs, List.nodup_cons, List.nodup_append] at hnds
    cases l with
    | null => simpa [isNull] using hnds.2.2.1
    | node _ _ _ _ => simpa [isNull] using hnds.2.1
  obtain ⟨hnd1, hsub1⟩ := addrs_setSlot hnd p hnd2 hsubs
  have hnum : (setSlot t p (if l.isNull then r else l)).numNodes ≤ t.numNodes := by
    rw [← length_addrs, ← length_addrs]
    exact (List.subperm_of_subset hnd1 hsub1).length_le
  rw [strip_erase t hsub]
  rcases List.eq_nil_or_concat p with rfl | ⟨q, d, rfl⟩
  · simp only [subtreeAt] at hsub
    subst hsub
    obtain ⟨h1, h2, h3⟩ := hs
    obtain ⟨mem1, he, hs1, hlen, hfr⟩ :=
      erase_local self h1 h2 h3 hnds (relink_root self h1 rfl _) (fun _ _ => rfl) fuel
    rw [setSlot_root] at hnd1 hsub1 hnum ⊢
    exact ⟨mem1, _, _, he, ⟨hnd1, hs1, rfl⟩, rfl, rfl, ⟨le_of_eq hlen.symm,
      fun x _ hx => hfr x hx⟩, hsub1, hnum⟩
  · rw [List.concat_eq_append] at hsub hnd1 hsub1 hnum hsubs ⊢
    rw [subtreeAt_append] at hsub
    cases hu : subtreeAt t q with
    | null => rw [hu] at hsub; simp [subtreeAt] at hsub
    | node lq bk vb rq =>
      obtain ⟨b, kb⟩ := bk
      rw [hu] at hsub
      obtain ⟨qb, hcb, hsl, hsr⟩ := cell_of_subtreeAt hs hu
      have hndu : (addrs (subtreeAt t q)).Nodup := nodup_subtreeAt hnd q
      rw [hu] at hndu
      simp only [addrs, List.nodup_cons, List.nodup_append, List.mem_append, not_or] at hndu
      obtain ⟨⟨hbl, hbr⟩, -, -, hdisj⟩ := hndu
      have hbt : b ∈ addrs t := mem_addrs_of_subtreeAt hu
      have hsubt : ∀ c ∈ a :: (addrs l ++ addrs r), c ∈ addrs t := by
        intro c hc
        have : c ∈ addrs (subtreeAt t (q ++ [d])) := by
          rw [subtreeAt_append, hu, hsub]
          exact hc
        exact addrs_subtreeAt c this
      have hstq : addrs (subtreeAt t (q ++ [d])) = a :: (addrs l ++ addrs r) := by
        rw [subtreeAt_append, hu, hsub]
        rfl
      cases d with
      | left =>
        simp only [subtreeAt] at hsub
        subst hsub
        obtain ⟨h1, h2, h3⟩ := hsl
        have hab : b ∉ a :: (addrs l ++ addrs r) := hbl
        obtain ⟨mem1, he, hs1, hlen, hfr⟩ :=
          erase_local self h1 h2 h3 hnds (relink_left self h1 rfl hcb rfl _)
            (fun x hx => cell_set_ne (ne_of_mem_of_not_mem hx hab).symm _) fuel
        refine ⟨mem1, self, _, he, ⟨hnd1, ?_, ?_⟩, rfl, rfl, ⟨?_, ?_⟩, hsub1, hnum⟩
        · refine Shape_setSlot hs hnd hu ?_ hs1 ?_
          · intro nb hnb
            rw [hcb] at hnb
            simp only [Option.some.injEq] at hnb
            subst hnb
            rw [hfr b hab, cell_set_eq (cell_lt hcb)]
          · intro c _ hcb1 hcs
            rw [hstq] at hcs
            rw [hfr c hcs, cell_set_ne (Ne.symm hcb1)]
        · rw [hroot, rootPtr_setSlot_concat]
          rintro rfl
          simp [addrs] at hbt
        · rw [hlen]
          simp
        · intro x _ hx
          rw [hfr x (fun h => hx (hsubt x h)), cell_set_ne (ne_of_mem_of_not_mem hbt hx)]
      | right =>
        simp only [subtreeAt] at hsub
        subst hsub
        obtain ⟨h1, h2, h3⟩ := hsr
        have hab : b ∉ a :: (addrs l ++ addrs r) := hbr
        have hleft : rootPtr lq ≠ some a := fun h =>
          hdisj (rootPtr_mem h) (List.mem_cons_self _ _)
        obtain ⟨mem1, he, hs1, hlen, hfr⟩ :=
          erase_local self h1 h2 h3 hnds (relink_right self h1 rfl hcb hleft _)
            (fun x hx => cell_set_ne (ne_of_mem_of_not_mem hx hab).symm _) fuel
        refine ⟨mem1, self, _, he, ⟨hnd1, ?_, ?_⟩, rfl, rfl, ⟨?_, ?_⟩, hsub1, hnum⟩
        · refine Shape_setSlot hs hnd hu ?_ hs1 ?_
          · intro nb hnb
            rw [hcb] at hnb
            simp only [Option.some.injEq] at hnb
            subst hnb
            rw [hfr b hab, cell_set_eq (cell_lt hcb)]
          · intro c _ hcb1 hcs
            rw [hstq] at hcs
            rw [hfr c hcs, cell_set_ne (Ne.symm hcb1)]
        · rw [hroot, rootPtr_setSlot_concat]
          rintro rfl
          simp [addrs] at hbt
        · rw [hlen]
          simp
        · intro x _ hx
          rw [hfr x (fun h => hx (hsubt x h)), cell_set_ne (ne_of_mem_of_not_mem hbt hx)]

/-- Method `remove(key)` on the nodes returns or throws as `remove` on the tree of keys
does, with the same tree of keys and counter afterwards. -/
theorem remove_refines [LinearOrder K] {mem : List (Option (Node K V))} {self : Raw}
    {t : Tree (Nat × K) V} (h : Inv mem self t) (key : K) {fuel : Nat}
    (hfuel : t.numNodes < fuel) :
    (∀ e, TreeMap.remove (view self t) key = Except.error e →
      remove fuel mem self key = some (Except.error e)) ∧
    (∀ m1, TreeMap.remove (view self t) key = Except.ok m1 →
      ∃ mem1 self1 t1, remove fuel mem self key = some (Except.ok (mem1, self1)) ∧
        view self1 t1 = m1 ∧ Inv mem1 self1 t1 ∧ Frame mem mem1 (addrs t) ∧
        (∀ b ∈ addrs t1, b ∈ addrs t) ∧ t1.numNodes ≤ t.numNodes) := by
  have hfind := findLoop_refines h.2.1 key hfuel
  obtain ⟨fuel, rfl⟩ : ∃ n, fuel = n + 1 := ⟨fuel - 1, by omega⟩
  simp only [remove, find, h.2.2, hfind, TreeMap.remove, TreeMap.removeAt, TreeMap.find]
  have hemp : (view self t).isEmpty = self.isEmpty := rfl
  rw [hemp]
  have hvr : (view self t).root = strip t := rfl
  rw [hvr]
  cases hise : self.isEmpty with
  | true => simp
  | false =>
    simp only [Bool.false_eq_true, if_false]
    cases hf : TreeMap.findLoop (strip t) [] key with
    | none => simp [ptrAt]
    | some p =>
      obtain ⟨l, a, v, r, hsub⟩ := find_some_node hf
      obtain ⟨mem1, self1, t1, he, hinv, hst, hsz, hfr, hsubset, hnum⟩ :=
        erase_refines h hsub fuel
      have hptr : ptrAt t (some p) = some a := by simp [ptrAt, hsub, rootPtr_node]
      refine ⟨by simp, ?_⟩
      intro m1 hm1
      simp only [Except.ok.injEq] at hm1
      refine ⟨mem1, { self1 with size := self1.size - 1 }, t1, ?_, ?_, ?_, hfr, hsubset, hnum⟩
      · simp only [hptr, reduceCtorEq, if_false, he]
      · rw [← hm1]
        simp only [view, hst, hsz]
      · exact ⟨hinv.1, hinv.2.1, hinv.2.2⟩

/-! ### sequences of calls -/

/-- One call on the nodes, exceptions caught, returns, with the tree of keys and the
counter that the call on the tree of keys gives; it writes to no node other than those of
the map, and allocates its new node past the memory in use. -/
theorem applyOp_refines [LinearOrder K] [Inhabited V] {mem : List (Option (Node K V))}
    {self : Raw} {t : Tree (Nat × K) V} (h : Inv mem self t) (op : Op K V) (fuel : Nat)
    (hfuel : t.numNodes < fuel) :
    ∃ mem1 self1 t1, applyOp fuel (mem, self) op = some (mem1, self1) ∧
      view self1 t1 = TreeMap.applyOp (view self t) op ∧ Inv mem1 self1 t1 ∧
      Frame mem mem1 (addrs t) ∧ (∀ b ∈ addrs t1, b ∈ addrs t ∨ mem.length ≤ b) ∧
      t1.numNodes ≤ t.numNodes + 1 := by
  cases op with
  | access key =>
    obtain ⟨mem1, self1, t1, x, he, ha, hinv, hfr, hsubset, hnum⟩ := access_refines h key hfuel
    exact ⟨mem1, self1, t1, by simp [applyOp, step, he],
      by simp [TreeMap.applyOp, TreeMap.step, ha], hinv, hfr, hsubset, hnum⟩
  | assign key value =>
    obtain ⟨mem1, self1, t1, he, ha, hinv, hfr, hsubset, hnum⟩ :=
      assign_refines h key value hfuel
    exact ⟨mem1, self1, t1, by simp [applyOp, step, he],
      by simp [TreeMap.applyOp, TreeMap.step, ha], hinv, hfr, hsubset, hnum⟩
  | remove key =>
    obtain ⟨herr, hok⟩ := remove_refines h key hfuel
    cases hr : TreeMap.remove (view self t) key with
    | error e =>
      exact ⟨mem, self, t, by simp [applyOp, step, herr e hr],
        by simp [TreeMap.applyOp, TreeMap.step, hr], h, Frame_refl _ _,
        fun b hb => Or.inl hb, by omega⟩
    | ok m1 =>
      obtain ⟨mem1, self1, t1, he, hv, hinv, hfr, hsubset, hnum⟩ := hok m1 hr
      exact ⟨mem1, self1, t1, by simp [applyOp, step, he],
        by simp [TreeMap.applyOp, TreeMap.step, hr, hv], hinv, hfr,
        fun b hb => Or.inl (hsubset b hb), by omega⟩

/-- A sequence of calls on the nodes of a map returns, with the tree of keys and the
counter that the calls on the tree of keys give, and leaves every node of the memory that
was not a node of the map as it was. -/
theorem run_refines [LinearOrder K] [Inhabited V] (ops : List (Op K V))
    {mem : List (Option (Node K V))} {self : Raw} {t : Tree (Nat × K) V}
    (h : Inv mem self t) (fuel : Nat) (hfuel : t.numNodes + ops.length < fuel) :
    ∃ mem1 self1 t1, run fuel (mem, self) ops = some (mem1, self1) ∧
      view self1 t1 = TreeMap.run (view self t) ops ∧ Inv mem1 self1 t1 ∧
      Frame mem mem1 (addrs t) ∧ (∀ b ∈ addrs t1, b ∈ addrs t ∨ mem.length ≤ b) := by
  induction ops generalizing mem self t with
  | nil =>
    exact ⟨mem, self, t, rfl, rfl, h, Frame_refl _ _, fun b hb => Or.inl hb⟩
  | cons op ops ih =>
    simp only [List.length_cons] at hfuel
    obtain ⟨mem1, self1, t1, he, hv, hinv, hfr, hsubset, hnum⟩ :=
      applyOp_refines h op fuel (by omega)
    obtain ⟨mem2, self2, t2, he2, hv2, hinv2, hfr2, hsubset2⟩ :=
      ih hinv (by omega)
    refine ⟨mem2, self2, t2, ?_, ?_, hinv2, Frame_trans hfr hfr2 hsubset, ?_⟩
    · simp only [run, he, he2]
    · rw [hv2, hv]
      rfl
    · intro b hb
      rcases hsubset2 b hb with h1 | h1
      · exact hsubset b h1
      · exact Or.inr (le_trans hfr.1 h1)

/-! ### copies -/

/-- Private method `copyTreeStructure` on the nodes returns, and the memory then holds,
at addresses that were not in use, a tree with the keys and values of the tree copied,
every node of the memory before the call being as it was. -/
theorem copyTreeStructure_spec {mem : List (Option (Node K V))} {par0 : Option Nat}
    {t : Tree (Nat × K) V} (hs : Shape mem par0 t) (parent : Option Nat) (fuel : Nat)
    (hfuel : t.numNodes < fuel) :
    ∃ mem1 t1, copyTreeStructure fuel mem parent (rootPtr t) =
        some (Except.ok (mem1, rootPtr t1)) ∧
      strip t1 = strip t ∧ Shape mem1 parent t1 ∧ (addrs t1).Nodup ∧
      (∀ a ∈ addrs t1, mem.length ≤ a) ∧ Frame mem mem1 [] := by
  induction t generalizing mem par0 parent fuel with
  | null =>
    obtain ⟨fuel, rfl⟩ : ∃ n, fuel = n + 1 := ⟨fuel - 1, by omega⟩
    exact ⟨mem, null, by simp [copyTreeStructure, rootPtr_null], rfl, trivial, by simp [addrs],
      by simp [addrs], Frame_refl _ _⟩
  | node l ak v r ihl ihr =>
    obtain ⟨fuel, rfl⟩ : ∃ n, fuel = n + 1 := ⟨fuel - 1, by omega⟩
    obtain ⟨h1, h2, h3⟩ := hs
    simp only [numNodes] at hfuel
    have hlt : ak.1 < mem.length := cell_lt h1
    have hne : mem.length ≠ ak.1 := Nat.ne_of_gt hlt
    have h10 : nodeAt (mem ++ [some (Node.mk ak.2 v parent none none)]) ak.1 =
        some (Node.mk ak.2 v par0 (rootPtr l) (rootPtr r)) := by
      rw [cell_append_left hlt]
      exact h1
    have h20 : Shape (mem ++ [some (Node.mk ak.2 v parent none none)]) (some ak.1) l :=
      Shape_congr (fun a ha => cell_append_left (Shape_lt h2 a ha) _) h2
    obtain ⟨mem1, l1, he1, hst1, hs1, hnd1, hge1, hfr1⟩ :=
      ihl h20 (some mem.length) fuel (by omega)
    have hlen0 : (mem ++ [some (Node.mk ak.2 v parent none none)]).length = mem.length + 1 := by
      simp
    have hn1 : nodeAt mem1 mem.length = some (Node.mk ak.2 v parent none none) := by
      rw [hfr1.2 mem.length (by rw [hlen0]; omega) (by simp), cell_append_length]
    have hlen1 : mem.length < mem1.length := by
      have := hfr1.1
      rw [hlen0] at this
      omega
    have h12 : nodeAt (mem1.set mem.length (some (Node.mk ak.2 v parent (rootPtr l1) none))) ak.1 =
        some (Node.mk ak.2 v par0 (rootPtr l) (rootPtr r)) := by
      rw [cell_set_ne hne, hfr1.2 ak.1 (by rw [hlen0]; omega) (by simp)]
      exact h10
    have h30 : Shape (mem1.set mem.length (some (Node.mk ak.2 v parent (rootPtr l1) none)))
        (some ak.1) r := by
      apply Shape_congr _ h3
      intro a ha
      have halt : a < mem.length := Shape_lt h3 a ha
      rw [cell_set_ne (Nat.ne_of_gt halt), hfr1.2 a (by rw [hlen0]; omega) (by simp),
        cell_append_left halt]
    obtain ⟨mem3, r1, he3, hst3, hs3, hnd3, hge3, hfr3⟩ :=
      ihr h30 (some mem.length) fuel (by omega)
    have hlen2 : (mem1.set mem.length (some (Node.mk ak.2 v parent (rootPtr l1) none))).length =
        mem1.length := by simp
    have hn3 : nodeAt mem3 mem.length = some (Node.mk ak.2 v parent (rootPtr l1) none) := by
      rw [hfr3.2 mem.length (by rw [hlen2]; exact hlen1) (by simp), cell_set_eq hlen1]
    have hlen3 : mem1.length ≤ mem3.length := by
      have := hfr3.1
      rw [hlen2] at this
      exact this
    refine ⟨mem3.set mem.length (some (Node.mk ak.2 v parent (rootPtr l1) (rootPtr r1))),
      node l1 (mem.length, ak.2) v r1, ?_, ?_, ⟨?_, ?_, ?_⟩, ?_, ?_, ⟨?_, ?_⟩⟩
    · simp only [copyTreeStructure, rootPtr_node, reduceCtorEq, if_false, load_cell h1,
        load_cell h10, he1, store_cell hn1, load_cell h12, he3, store_cell hn3]
    · simp only [strip, hst1, hst3]
    · rw [cell_set_eq (lt_of_lt_of_le hlen1 hlen3)]
    · apply Shape_congr _ hs1
      intro a ha
      have h1a : mem.length + 1 ≤ a := by
        have := hge1 a ha
        rw [hlen0] at this
        exact this
      have h2a : a < mem1.length := Shape_lt hs1 a ha
      rw [cell_set_ne (by omega), hfr3.2 a (by rw [hlen2]; exact h2a) (by simp),
        cell_set_ne (by omega)]
    · apply Shape_congr _ hs3
      intro a ha
      have h1a : mem1.length ≤ a := by
        have := hge3 a ha
        rw [hlen2] at this
        exact this
      rw [cell_set_ne (by omega)]
    · simp only [addrs, List.nodup_cons, List.nodup_append, List.mem_append, not_or]
      refine ⟨⟨?_, ?_⟩, hnd1, hnd3, ?_⟩
      · intro h
        have := hge1 _ h
        rw [hlen0] at this
        omega
      · intro h
        have := hge3 _ h
        rw [hlen2] at this
        omega
      · intro a ha har
        have h2a : a < mem1.length := Shape_lt hs1 a ha
        have := hge3 a har
        rw [hlen2] at this
        omega
    · intro a ha
      simp only [addrs, List.mem_cons, List.mem_append] at ha
      rcases ha with rfl | ha | ha
      · exact le_refl _
      · have := hge1 a ha
        rw [hlen0] at this
        omega
      · have := hge3 a ha
        rw [hlen2] at this
        omega
    · simp only [List.length_set]
      omega
    · intro a ha _
      rw [cell_set_ne (by omega), hfr3.2 a (by rw [hlen2]; omega) (by simp),
        cell_set_ne (by omega), hfr1.2 a (by rw [hlen0]; omega) (by simp),
        cell_append_left ha]

/-- Private method `clear` on the nodes of a tree returns, having deleted these nodes and
written to no other. -/
theorem clear_returns {mem : List (Option (Node K V))} {parent : Option Nat}
    {t : Tree (Nat × K) V} (hs : Shape mem parent t) (hnd : (addrs t).Nodup) (fuel : Nat)
    (hfuel : t.numNodes < fuel) :
    ∃ mem1, clear fuel mem (rootPtr t) = some (Except.ok mem1) ∧ mem1.length = mem.length ∧
      (∀ a, a ∉ addrs t → nodeAt mem1 a = nodeAt mem a) ∧
      (∀ a ∈ addrs t, nodeAt mem1 a = none) := by
  induction t generalizing mem parent fuel with
  | null =>
    obtain ⟨fuel, rfl⟩ : ∃ n, fuel = n + 1 := ⟨fuel - 1, by omega⟩
    exact ⟨mem, by simp [clear, rootPtr_null], rfl, fun _ _ => rfl, by simp [addrs]⟩
  | node l ak v r ihl ihr =>
    obtain ⟨fuel, rfl⟩ : ∃ n, fuel = n + 1 := ⟨fuel - 1, by omega⟩
    obtain ⟨h1, h2, h3⟩ := hs
    simp only [numNodes] at hfuel
    simp only [addrs, List.nodup_cons, List.nodup_append, List.mem_append, not_or] at hnd
    obtain ⟨⟨hal, har⟩, hndl, hndr, hdisj⟩ := hnd
    obtain ⟨mem1, he1, hlen1, hfr1, hdel1⟩ := ihl h2 hndl fuel (by omega)
    have h11 : nodeAt mem1 ak.1 = some (Node.mk ak.2 v parent (rootPtr l) (rootPtr r)) := by
      rw [hfr1 ak.1 hal]
      exact h1
    have h31 : Shape mem1 (some ak.1) r :=
      Shape_congr (fun a ha => hfr1 a (fun h => hdisj h ha)) h3
    obtain ⟨mem2, he2, hlen2, hfr2, hdel2⟩ := ihr h31 hndr fuel (by omega)
    have h12 : nodeAt mem2 ak.1 = some (Node.mk ak.2 v parent (rootPtr l) (rootPtr r)) := by
      rw [hfr2 ak.1 har]
      exact h11
    refine ⟨mem2.set ak.1 none, ?_, by simp [hlen2, hlen1], ?_, ?_⟩
    · simp only [clear, rootPtr_node, reduceCtorEq, if_false, load_cell h1, he1, load_cell h11,
        he2, free_cell h12]
    · intro a ha
      simp only [addrs, List.mem_cons, List.mem_append, not_or] at ha
      rw [cell_set_ne (Ne.symm ha.1), hfr2 a ha.2.2, hfr1 a ha.2.1]
    · intro a ha
      simp only [addrs, List.mem_cons, List.mem_append] at ha
      by_cases hak : a = ak.1
      · rw [hak, cell_set_eq (cell_lt h12)]
      · rw [cell_set_ne (Ne.symm hak)]
        rcases ha with ha | ha | ha
        · exact absurd ha hak
        · rw [hfr2 a (fun h => hdisj ha h)]
          exact hdel1 a ha
        · exact hdel2 a ha

/-- The copy constructor on the nodes returns, and the memory then holds the new map at
addresses that were not in use, with the tree of keys, the values and the counter of the
source, every node of the memory before the call being as it was. -/
theorem copy_refines {mem : List (Option (Node K V))} {other : Raw} {t : Tree (Nat × K) V}
    (h : Inv mem other t) (fuel : Nat) (hfuel : t.numNodes < fuel) :
    ∃ mem1 c tc, copy fuel mem other = some (Except.ok (mem1, c)) ∧ Inv mem1 c tc ∧
      view c tc = TreeMap.copy (view other t) ∧ (∀ a ∈ addrs tc, mem.length ≤ a) ∧
      Frame mem mem1 [] := by
  obtain ⟨mem1, t1, he, hst, hs1, hnd1, hge, hfr⟩ :=
    copyTreeStructure_spec h.2.1 none fuel hfuel
  refine ⟨mem1, ⟨rootPtr t1, other.size⟩, t1, ?_, ⟨hnd1, hs1, rfl⟩, ?_, hge, hfr⟩
  · simp only [copy, h.2.2, he]
  · simp only [view, TreeMap.copy, copyTreeStructure_eq, hst]

/-- The copy assignment from another map on the nodes returns: the nodes that the map
had are deleted, and the memory then holds the map at addresses that were not in use,
with the tree of keys, the values and the counter of the source, every node of the memory
that was not a node of the map being as it was. -/
theorem copyAssign_refines {mem : List (Option (Node K V))} {self other : Raw}
    {ts t : Tree (Nat × K) V} (hself : Inv mem self ts) (h : Inv mem other t)
    (hdisj : ∀ a ∈ addrs ts, a ∉ addrs t) (fuel : Nat) (hfuel1 : ts.numNodes < fuel)
    (hfuel : t.numNodes < fuel) :
    ∃ mem1 c tc, copyAssign fuel false mem self other = some (Except.ok (mem1, c)) ∧
      Inv mem1 c tc ∧ view c tc = TreeMap.copyAssign false (view self ts) (view other t) ∧
      (∀ a ∈ addrs tc, mem.length ≤ a) ∧ Frame mem mem1 (addrs ts) := by
  obtain ⟨mem0, he0, hlen0, hfr0, -⟩ := clear_returns hself.2.1 hself.1 fuel hfuel1
  have hs0 : Shape mem0 none t :=
    Shape_congr (fun a ha => hfr0 a (fun hmem => hdisj a hmem ha)) h.2.1
  obtain ⟨mem1, t1, he, hst, hs1, hnd1, hge, hfr⟩ := copyTreeStructure_spec hs0 none fuel hfuel
  refine ⟨mem1, ⟨rootPtr t1, other.size⟩, t1, ?_, ⟨hnd1, hs1, rfl⟩, ?_, ?_, ?_⟩
  · simp only [copyAssign, Bool.false_eq_true, if_false, hself.2.2, he0, h.2.2, he]
  · simp only [view, TreeMap.copyAssign, Bool.false_eq_true, if_false, copyTreeStructure_eq, hst]
  · intro a ha
    rw [← hlen0]
    exact hge a ha
  · refine ⟨by rw [← hlen0]; exact hfr.1, fun a ha hna => ?_⟩
    rw [hfr.2 a (by rw [hlen0]; exact ha) (by simp), hfr0 a hna]

/-- A map of the memory is as it was after any change of the memory outside its nodes. -/
theorem Inv_frame {mem mem1 : List (Option (Node K V))} {self : Raw} {t : Tree (Nat × K) V}
    {s : List Nat} (h : Inv mem self t) (hf : Frame mem mem1 s)
    (hd : ∀ a ∈ addrs t, a ∉ s) : Inv mem1 self t :=
  ⟨h.1, Shape_frame hf hd h.2.1, h.2.2⟩

/-- Calls on a map whose nodes are none of the nodes of a second map with the same tree
and counter return, give what the calls on the second map would have given, and leave
the second map as it was. -/
theorem run_isolated [LinearOrder K] [Inhabited V] {mem1 : List (Option (Node K V))}
    {c m : Raw} {tc tm : Tree (Nat × K) V} (hc : Inv mem1 c tc) (hm : Inv mem1 m tm)
    (hdisj : ∀ a ∈ addrs tc, a ∉ addrs tm) (hv : view c tc = view m tm)
    (ops : List (Op K V)) (fuel : Nat) (hfuel : tm.numNodes + ops.length < fuel) :
    ∃ mem2 c2 t2, run fuel (mem1, c) ops = some (mem2, c2) ∧ Inv mem2 c2 t2 ∧
      view c2 t2 = TreeMap.run (view m tm) ops ∧ Inv mem2 m tm := by
  have hnum : tc.numNodes = tm.numNodes := by
    rw [← numNodes_strip tc, ← numNodes_strip tm]
    exact congrArg (fun x => numNodes x.root) hv
  obtain ⟨mem2, c2, t2, he, hv2, hinv2, hfr, -⟩ := run_refines ops hc fuel (by omega)
  exact ⟨mem2, c2, t2, he, hinv2, by rw [hv2, hv],
    Inv_frame hm hfr (fun a ha hmem => hdisj a hmem ha)⟩

end Raw

end TreeMap

/-! ## HashMap in memory: lemmas -/

namespace LinkedList

namespace Raw

variable {α : Type}

theorem bind_eq_ok {β γ : Type} {x : Except Error β} {f : β → Except Error γ} {c : γ}
    (h : (x >>= f) = Except.ok c) : ∃ b, x = Except.ok b ∧ f b = Except.ok c := by
  cases x with
  | error e => cases h
  | ok b => exact ⟨b, rfl, h⟩

theorem store_touches {mem mem1 : List (Option (Node α))} {p : Option Nat}
    {f : Node α → Node α} (h : store mem p f = Except.ok mem1) :
    mem1.length = mem.length ∧ ∀ a, some a ≠ p → nodeAt mem1 a = nodeAt mem a := by
  cases p with
  | none => simp [store] at h
  | some b =>
    simp only [store] at h
    cases hb : nodeAt mem b with
    | none => simp [hb] at h
    | some n =>
      simp only [hb, Except.ok.injEq] at h
      subst h
      exact ⟨by simp, fun a ha => nodeAt_set_ne (fun e => ha (by rw [e])) _⟩

theorem free_touches {mem mem1 : List (Option (Node α))} {p : Option Nat}
    (h : free mem p = Except.ok mem1) :
    mem1.length = mem.length ∧ ∀ a, some a ≠ p → nodeAt mem1 a = nodeAt mem a := by
  cases p with
  | none =>
    simp only [free, Except.ok.injEq] at h
    subst h
    exact ⟨rfl, fun _ _ => rfl⟩
  | some b =>
    simp only [free] at h
    cases hb : nodeAt mem b with
    | none => simp [hb] at h
    | some n =>
      simp only [hb, Except.ok.injEq] at h
      subst h
      exact ⟨by simp, fun a ha => nodeAt_set_ne (fun e => ha (by rw [e])) _⟩

/-- Method `append` writes to the new node and to the node `tail` only. -/
theorem append_touches {l l1 : Raw α} {item : α} (h : insert l none item = Except.ok l1) :
    l1.mem.length = l.mem.length + 1 ∧
      ∀ a, a < l.mem.length → some a ≠ l.tail → nodeAt l1.mem a = nodeAt l.mem a := by
  simp only [insert] at h
  by_cases he : l.isEmpty = true
  · simp only [he, if_true, Except.ok.injEq] at h
    subst h
    exact ⟨by simp, fun a ha _ => nodeAt_append_left ha _⟩
  · simp only [he, Bool.false_eq_true, if_false] at h
    by_cases hr : none = l.root
    · simp only [hr, if_true] at h
      obtain ⟨mem1, -, h2⟩ := bind_eq_ok h
      obtain ⟨mem2, h3, -⟩ := bind_eq_ok h2
      rw [← hr] at h3
      simp [store] at h3
    · simp only [hr, if_false, if_true] at h
      obtain ⟨mem1, h1, h2⟩ := bind_eq_ok h
      obtain ⟨mem2, h3, h4⟩ := bind_eq_ok h2
      simp only [Except.ok.injEq] at h4
      subst h4
      obtain ⟨hl1, hf1⟩ := store_touches h1
      obtain ⟨hl2, hf2⟩ := store_touches h3
      refine ⟨by simp only [hl2, hl1, List.length_append, List.length_singleton], ?_⟩
      intro a ha hat
      simp only
      rw [hf2 a hat, hf1 a (by simp only [ne_eq, Option.some.injEq]; omega),
        nodeAt_append_left ha]

/-- Method `erase` writes to the node erased and to the nodes its links point to only. -/
theorem erase_touches {l l1 : Raw α} {pos : Option Nat} {n : Node α}
    (hn : load l.mem pos = Except.ok n) (hself : n.prev ≠ pos)
    (h : erase l pos = Except.ok l1) :
    l1.mem.length = l.mem.length ∧
      ∀ a, some a ≠ pos → some a ≠ n.prev → some a ≠ n.next →
        nodeAt l1.mem a = nodeAt l.mem a := by
  simp only [erase] at h
  by_cases he : l.isEmpty = true
  · simp [he] at h
  · simp only [he, Bool.false_eq_true, if_false] at h
    by_cases hp : pos = none
    · simp [hp] at h
    · simp only [hp, if_false] at h
      by_cases hrt : l.root = l.tail
      · simp only [hrt, if_true] at h
        obtain ⟨mem1, h1, h2⟩ := bind_eq_ok h
        simp only [Except.ok.injEq] at h2
        subst h2
        obtain ⟨hl1, hf1⟩ := free_touches h1
        exact ⟨hl1, fun a ha _ _ => hf1 a ha⟩
      · simp only [hrt, if_false] at h
        by_cases hpr : pos = l.root
        · simp only [hpr, if_true] at h
          rw [hpr] at hn
          obtain ⟨r, h0, h1⟩ := bind_eq_ok h
          rw [hn] at h0
          simp only [Except.ok.injEq] at h0
          subst h0
          obtain ⟨mem1, h2, h3⟩ := bind_eq_ok h1
          obtain ⟨mem2, h4, h5⟩ := bind_eq_ok h3
          simp only [Except.ok.injEq] at h5
          subst h5
          obtain ⟨hl1, hf1⟩ := store_touches h2
          obtain ⟨hl2, hf2⟩ := free_touches h4
          refine ⟨by simp only [hl2, hl1], fun a ha _ han => ?_⟩
          simp only
          rw [hf2 a (by rw [← hpr]; exact ha), hf1 a han]
        · simp only [hpr, if_false] at h
          by_cases hpt : pos = l.tail
          · simp only [hpt, if_true] at h
            rw [hpt] at hn
            obtain ⟨t, h0, h1⟩ := bind_eq_ok h
            rw [hn] at h0
            simp only [Except.ok.injEq] at h0
            subst h0
            obtain ⟨mem1, h2, h3⟩ := bind_eq_ok h1
            obtain ⟨mem2, h4, h5⟩ := bind_eq_ok h3
            simp only [Except.ok.injEq] at h5
            subst h5
            obtain ⟨hl1, hf1⟩ := store_touches h2
            obtain ⟨hl2, hf2⟩ := free_touches h4
            refine ⟨by simp only [hl2, hl1], fun a ha hap _ => ?_⟩
            simp only
            rw [hf2 a (by rw [← hpt]; exact ha), hf1 a hap]
          · simp only [hpt, if_false] at h
            obtain ⟨n0, h0, h1⟩ := bind_eq_ok h
            rw [hn] at h0
            simp only [Except.ok.injEq] at h0
            subst h0
            obtain ⟨mem1, h2, h3⟩ := bind_eq_ok h1
            obtain ⟨n1, h4, h5⟩ := bind_eq_ok h3
            obtain ⟨mem2, h6, h7⟩ := bind_eq_ok h5
            obtain ⟨mem3, h8, h9⟩ := bind_eq_ok h7
            simp only [Except.ok.injEq] at h9
            subst h9
            obtain ⟨hl1, hf1⟩ := store_touches h2
            obtain ⟨hl2, hf2⟩ := store_touches h6
            obtain ⟨hl3, hf3⟩ := free_touches h8
            have hn1 : n1 = n := by
              cases pos with
              | none => exact absurd rfl hp
              | some b =>
                simp only [load] at h4 hn
                rw [hf1 b (fun e => hself e.symm)] at h4
                cases hb : nodeAt l.mem b with
                | none => simp [hb] at hn
                | some x =>
                  simp only [hb, Except.ok.injEq] at h4 hn
                  rw [← h4, ← hn]
            subst hn1
            refine ⟨by simp only [hl3, hl2, hl1], fun a ha hap han => ?_⟩
            simp only
            rw [hf3 a ha, hf2 a han, hf1 a hap]

/-- The node of a cell of the list, with its links. -/
theorem Inv_cell {l : Raw α} {pre post : List (Nat × α)} {c : Nat × α}
    (h : Inv l (pre ++ c :: post)) :
    nodeAt l.mem c.1 = some (Node.mk (firstAddr post none) (lastAddr pre none) c.2) :=
  (Inv_store_data h c.2).1

/-- Method `append` on a list keeps every node of the memory that is not a node of the
list. -/
theorem append_frame {l l1 : Raw α} {cells : List (Nat × α)} (hinv : Inv l cells) {item : α}
    (h : insert l none item = Except.ok l1) :
    l1.mem.length = l.mem.length + 1 ∧
      ∀ a, a < l.mem.length → a ∉ cells.map Prod.fst → nodeAt l1.mem a = nodeAt l.mem a := by
  obtain ⟨h1, h2⟩ := append_touches h
  refine ⟨h1, fun a ha hna => h2 a ha ?_⟩
  intro heq
  apply hna
  by_cases hc : cells = []
  · subst hc
    have := hinv.2.2.2.1
    rw [← heq] at this
    simp [lastAddr] at this
  · obtain ⟨c, hc1, hc2⟩ := lastAddr_mem hc none
    rw [hinv.2.2.2.1, hc2] at heq
    simp only [Option.some.injEq] at heq
    rw [heq]
    exact List.mem_map_of_mem _ hc1

/-- Method `erase` on a list keeps every node of the memory that is not a node of the
list. -/
theorem erase_frame {l l1 : Raw α} {pre post : List (Nat × α)} {c : Nat × α}
    (hinv : Inv l (pre ++ c :: post)) (h : erase l (some c.1) = Except.ok l1) :
    l1.mem.length = l.mem.length ∧
      ∀ a, a ∉ (pre ++ c :: post).map Prod.fst → nodeAt l1.mem a = nodeAt l.mem a := by
  have hcell := Inv_cell hinv
  have hnd := hinv.1
  simp only [List.map_append, List.map_cons, List.nodup_append, List.nodup_cons] at hnd
  obtain ⟨-, ⟨-, -⟩, hdisj⟩ := hnd
  have hself : (Node.mk (firstAddr post none) (lastAddr pre none) c.2).prev ≠ some c.1 := by
    simp only
    intro heq
    by_cases hp : pre = []
    · subst hp
      simp [lastAddr] at heq
    · obtain ⟨b, hb1, hb2⟩ := lastAddr_mem hp none
      rw [hb2] at heq
      simp only [Option.some.injEq] at heq
      exact hdisj (List.mem_map_of_mem _ hb1) (by rw [heq]; exact List.mem_cons_self _ _)
  obtain ⟨h1, h2⟩ := erase_touches (load_ok hcell) hself h
  refine ⟨h1, fun a hna => h2 a ?_ ?_ ?_⟩
  · intro heq
    simp only [Option.some.injEq] at heq
    exact hna (by rw [heq]; simp)
  · simp only
    intro heq
    by_cases hp : pre = []
    · subst hp
      simp [lastAddr] at heq
    · obtain ⟨b, hb1, hb2⟩ := lastAddr_mem hp none
      rw [hb2] at heq
      simp only [Option.some.injEq] at heq
      apply hna
      rw [heq, List.map_append]
      exact List.mem_append_left _ (List.mem_map_of_mem _ hb1)
  · simp only
    intro heq
    by_cases hp : post = []
    · subst hp
      simp [firstAddr] at heq
    · obtain ⟨b, hb1, hb2⟩ := firstAddr_mem hp none
      rw [hb2] at heq
      simp only [Option.some.injEq] at heq
      apply hna
      rw [heq, List.map_append, List.map_cons]
      exact List.mem_append_right _ (List.mem_cons_of_mem _ (List.mem_map_of_mem _ hb1))

/-- A change of the memory outside the nodes of a list leaves it the list. -/
theorem Inv_congr {mem mem1 : List (Option (Node α))} {root tail : Option Nat} {size : Nat}
    {cells : List (Nat × α)} (h : Inv (Raw.mk mem root tail size) cells)
    (hf : ∀ c ∈ cells, nodeAt mem1 c.1 = nodeAt mem c.1) :
    Inv (Raw.mk mem1 root tail size) cells :=
  ⟨h.1, Seg_frame hf h.2.1, h.2.2.1, h.2.2.2.1, h.2.2.2.2⟩

end Raw

end LinkedList

namespace LinkedList

namespace Raw

variable {α : Type}

theorem firstAddr_nil (q : Option Nat) : firstAddr ([] : List (Nat × α)) q = q := rfl

theorem firstAddr_cons (c : Nat × α) (rest : List (Nat × α)) (q : Option Nat) :
    firstAddr (c :: rest) q = some c.1 := rfl

/-- The loop of `clear()` over the nodes of a list returns, having deleted these nodes
and written to no other. -/
theorem clearLoop_seg {mem : List (Option (Node α))} {p : Option Nat} {cells : List (Nat × α)}
    (hs : Seg mem p cells none) (hnd : (cells.map Prod.fst).Nodup) (fuel : Nat)
    (hfuel : cells.length < fuel) :
    ∃ mem1, clearLoop fuel mem (firstAddr cells none) = some (Except.ok mem1) ∧
      mem1.length = mem.length ∧
      ∀ a, a ∉ cells.map Prod.fst → nodeAt mem1 a = nodeAt mem a := by
  induction cells generalizing mem p fuel with
  | nil =>
    obtain ⟨fuel, rfl⟩ : ∃ n, fuel = n + 1 := ⟨fuel - 1, by simp at hfuel; omega⟩
    exact ⟨mem, by simp [clearLoop, firstAddr_nil], rfl, fun _ _ => rfl⟩
  | cons c rest ih =>
    obtain ⟨fuel, rfl⟩ : ∃ n, fuel = n + 1 := ⟨fuel - 1, by simp at hfuel; omega⟩
    obtain ⟨h1, h2⟩ := hs
    rw [List.map_cons, List.nodup_cons] at hnd
    obtain ⟨mem1, he, hlen, hfr⟩ := ih (Seg_set hnd.1 none h2) hnd.2 fuel
      (by simp only [List.length_cons] at hfuel; omega)
    refine ⟨mem1, ?_, by rw [hlen]; simp, fun a ha => ?_⟩
    · simp only [clearLoop, firstAddr_cons, reduceCtorEq, if_false, load_ok h1, free_ok h1, he]
    · simp only [List.map_cons, List.mem_cons, not_or] at ha
      rw [hfr a ha.2, nodeAt_set_ne (Ne.symm ha.1)]

/-- Private method `clear()` returns, having deleted the nodes of the list and written
to no other node. -/
theorem clear_spec {l : Raw α} {cells : List (Nat × α)} (h : Inv l cells) (fuel : Nat)
    (hfuel : cells.length < fuel) :
    ∃ l1, clear fuel l = some (Except.ok l1) ∧ Inv l1 [] ∧ l1.mem.length = l.mem.length ∧
      ∀ a, a ∉ cells.map Prod.fst → nodeAt l1.mem a = nodeAt l.mem a := by
  obtain ⟨mem1, he, hlen, hfr⟩ := clearLoop_seg h.2.1 h.1 fuel hfuel
  refine ⟨Raw.mk mem1 none none 0, ?_, ⟨by simp, trivial, rfl, rfl, rfl⟩, hlen, hfr⟩
  simp only [clear, h.2.2.1, he]

theorem ptrAt_zero (cells : List (Nat × α)) : ptrAt cells 0 = firstAddr cells none := by
  cases cells <;> simp [ptrAt, firstAddr]

theorem ptrAt_succ (c : Nat × α) (cells : List (Nat × α)) (i : Nat) :
    ptrAt (c :: cells) (i + 1) = ptrAt cells i := by
  simp [ptrAt]

end Raw

end LinkedList

namespace HashMap

namespace Raw

open LinkedList.Raw (nodeAt load store Seg firstAddr lastAddr ptrAt load_ok store_ok
  firstAddr_nil firstAddr_cons)

variable {K V : Type}

/-! ### the loops over a chain -/

theorem findLoop_seg [DecidableEq K] {mem : List (Option (LinkedList.Node (K × V)))}
    {p : Option Nat} {cells : List (Nat × (K × V))} (hs : Seg mem p cells none) (i : Nat)
    (key : K) (fuel : Nat) (hfuel : cells.length < fuel) :
    findLoop fuel mem (firstAddr cells none) i key =
      some (Except.ok (chainFind key (cells.map Prod.snd) i)) := by
  induction cells generalizing p i fuel with
  | nil =>
    obtain ⟨fuel, rfl⟩ : ∃ n, fuel = n + 1 := ⟨fuel - 1, by simp at hfuel; omega⟩
    simp [findLoop, firstAddr_nil, chainFind]
  | cons c rest ih =>
    obtain ⟨fuel, rfl⟩ : ∃ n, fuel = n + 1 := ⟨fuel - 1, by simp at hfuel; omega⟩
    obtain ⟨h1, h2⟩ := hs
    simp only [findLoop, firstAddr_cons, reduceCtorEq, if_false, load_ok h1, List.map_cons,
      chainFind]
    by_cases hk : c.2.1 = key
    · simp [hk]
    · simp only [hk, if_false]
      exact ih h2 (i + 1) fuel (by simp only [List.length_cons] at hfuel; omega)

theorem removeLoop_seg [DecidableEq K] {mem : List (Option (LinkedList.Node (K × V)))}
    {p : Option Nat} {cells : List (Nat × (K × V))} (hs : Seg mem p cells none)
    (key : K) (fuel : Nat) (hfuel : cells.length < fuel) :
    removeLoop fuel mem (firstAddr cells none) key =
      some (Except.ok ((chainFind key (cells.map Prod.snd) 0).bind (ptrAt cells))) := by
  induction cells generalizing p fuel with
  | nil =>
    obtain ⟨fuel, rfl⟩ : ∃ n, fuel = n + 1 := ⟨fuel - 1, by simp at hfuel; omega⟩
    simp [removeLoop, firstAddr_nil, chainFind]
  | cons c rest ih =>
    obtain ⟨fuel, rfl⟩ : ∃ n, fuel = n + 1 := ⟨fuel - 1, by simp at hfuel; omega⟩
    obtain ⟨h1, h2⟩ := hs
    simp only [removeLoop, firstAddr_cons, reduceCtorEq, if_false, load_ok h1, List.map_cons,
      chainFind]
    by_cases hk : c.2.1 = key
    · simp [hk, ptrAt]
    · simp only [hk, if_false]
      rw [ih h2 fuel (by simp only [List.length_cons] at hfuel; omega),
        chainFind_shift key (rest.map Prod.snd) (0 + 1)]
      cases chainFind key (rest.map Prod.snd) 0 with
      | none => rfl
      | some j => simp [LinkedList.Raw.ptrAt_succ]

theorem plusLoop_seg {mem : List (Option (LinkedList.Node (K × V)))}
    {p : Option Nat} {cells : List (Nat × (K × V))} (hs : Seg mem p cells none)
    (j : Nat) (hj : j ≤ cells.length) (fuel : Nat) (hfuel : j < fuel) :
    plusLoop fuel mem (firstAddr cells none) (j : Int) = some (Except.ok (ptrAt cells j)) := by
  induction j generalizing p cells fuel with
  | zero =>
    obtain ⟨fuel, rfl⟩ : ∃ n, fuel = n + 1 := ⟨fuel - 1, by omega⟩
    simp [plusLoop, LinkedList.Raw.ptrAt_zero]
  | succ j ih =>
    obtain ⟨fuel, rfl⟩ : ∃ n, fuel = n + 1 := ⟨fuel - 1, by omega⟩
    cases cells with
    | nil => simp at hj
    | cons c rest =>
      obtain ⟨h1, h2⟩ := hs
      have hd : ((j + 1 : Nat) : Int) ≠ 0 := by omega
      have hd1 : ((j + 1 : Nat) : Int) - 1 = (j : Int) := by omega
      simp only [plusLoop, hd, if_false, firstAddr_cons, reduceCtorEq, load_ok h1, hd1]
      rw [ih h2 (by simpa using hj) fuel (by omega), LinkedList.Raw.ptrAt_succ]

/-! ### the buckets of a map in memory -/

theorem bucketOf_set_eq {arr : List Bucket} {b : Nat} (hb : b < arr.length) (x : Bucket) :
    bucketOf (arr.set b x) b = x := by
  simp [bucketOf, List.getD_eq_getElem?_getD, hb]

theorem bucketOf_set_ne (arr : List Bucket) {b i : Nat} (h : i ≠ b) (x : Bucket) :
    bucketOf (arr.set b x) i = bucketOf arr i := by
  simp [bucketOf, List.getD_eq_getElem?_getD, List.getElem?_set_ne (Ne.symm h)]

theorem chain_set_eq {chains : List (List (Nat × (K × V)))} {b : Nat} (hb : b < chains.length)
    (x : List (Nat × (K × V))) : (chains.set b x).getD b [] = x := by
  simp [List.getD_eq_getElem?_getD, hb]

theorem chain_set_ne (chains : List (List (Nat × (K × V)))) {b i : Nat} (h : i ≠ b)
    (x : List (Nat × (K × V))) : (chains.set b x).getD i [] = chains.getD i [] := by
  simp [List.getD_eq_getElem?_getD, List.getElem?_set_ne (Ne.symm h)]

theorem mem_addrs {chains : List (List (Nat × (K × V)))} {a : Nat} :
    a ∈ addrs chains ↔ ∃ i, i < chains.length ∧ a ∈ (chains.getD i []).map Prod.fst := by
  simp only [addrs, List.mem_map, List.mem_flatten]
  constructor
  · rintro ⟨c, ⟨cells, hcells, hc⟩, rfl⟩
    obtain ⟨i, hi, rfl⟩ := List.getElem_of_mem hcells
    exact ⟨i, hi, c, by simpa [List.getD_eq_getElem?_getD, hi] using hc, rfl⟩
  · rintro ⟨i, hi, c, hc, rfl⟩
    refine ⟨c, ⟨chains[i], List.getElem_mem _, ?_⟩, rfl⟩
    simpa [List.getD_eq_getElem?_getD, hi] using hc

theorem length_chain_le (chains : List (List (Nat × (K × V)))) (i : Nat) :
    (chains.getD i []).length ≤ chains.flatten.length := by
  induction chains generalizing i with
  | nil => simp
  | cons c cs ih =>
    cases i with
    | zero => simp
    | succ i =>
      have := ih i
      simp only [List.getD_cons_succ, List.flatten_cons, List.length_append]
      omega

theorem length_flatten_set (chains : List (List (Nat × (K × V)))) {b : Nat}
    (hb : b < chains.length) (x : List (Nat × (K × V))) :
    (chains.set b x).flatten.length + (chains.getD b []).length =
      chains.flatten.length + x.length := by
  induction chains generalizing b with
  | nil => simp at hb
  | cons c cs ih =>
    cases b with
    | zero => simp; omega
    | succ b =>
      have := ih (by simpa using hb)
      simp only [List.set_cons_succ, List.flatten_cons, List.length_append, List.getD_cons_succ]
      omega

theorem bucketAt_view (self : Raw) (chains : List (List (Nat × (K × V)))) (i : Nat) :
    (view self chains).bucketAt i =
      LinkedList.mk ((chains.getD i []).map Prod.snd) (chains.getD i []).length := by
  simp only [view, bucketAt, List.getD_eq_getElem?_getD, List.getElem?_map]
  cases chains[i]? <;> rfl

theorem view_set (self : Raw) (chains : List (List (Nat × (K × V)))) (b : Nat)
    (x : List (Nat × (K × V))) (sz : Nat) :
    view (Raw.mk self.data sz) (chains.set b x) =
      HashMap.mk ((view self chains).data.set b (LinkedList.mk (x.map Prod.snd) x.length)) sz := by
  simp only [view, List.map_set]

theorem listAt_of_Inv {B : Nat} {hp : Heap K V} {self : Raw} {arr : List Bucket}
    {chains : List (List (Nat × (K × V)))} (h : Inv B hp self arr chains) {i : Nat}
    (hi : i < B) :
    listAt hp self.data i = Except.ok (LinkedList.Raw.mk hp.nodes (bucketOf arr i).root
      (bucketOf arr i).tail (bucketOf arr i).size) := by
  have hlt : i < arr.length := by rw [h.2.1]; exact hi
  simp only [listAt, h.1, List.getElem?_eq_getElem hlt, bucketOf, List.getD_eq_getElem?_getD,
    Option.getD_some]

theorem size_of_Inv {B : Nat} {hp : Heap K V} {self : Raw} {arr : List Bucket}
    {chains : List (List (Nat × (K × V)))} (h : Inv B hp self arr chains) {i : Nat}
    (hi : i < B) : (bucketOf arr i).size = (chains.getD i []).length :=
  (h.2.2.2.1 i hi).2.2.2.2

theorem root_of_Inv {B : Nat} {hp : Heap K V} {self : Raw} {arr : List Bucket}
    {chains : List (List (Nat × (K × V)))} (h : Inv B hp self arr chains) {i : Nat}
    (hi : i < B) : (bucketOf arr i).root = firstAddr (chains.getD i []) none :=
  (h.2.2.2.1 i hi).2.2.1

theorem end_simulates {B : Nat} {hp : Heap K V} {self : Raw} {arr : List Bucket}
    {chains : List (List (Nat × (K × V)))} (h : Inv B hp self arr chains) (hB : 0 < B) :
    «end» B hp self = Except.ok (HashMap.end B (view self chains)) := by
  have hlt : B - 1 < B := by omega
  simp only [«end», listAt_of_Inv h hlt, HashMap.end, bucketAt_view, LinkedList.getSize,
    size_of_Inv h hlt]

/-- The nodes of a chain are below the first free address. -/
theorem chain_lt {B : Nat} {hp : Heap K V} {self : Raw} {arr : List Bucket}
    {chains : List (List (Nat × (K × V)))} (h : Inv B hp self arr chains) {i : Nat}
    (hi : i < B) : ∀ c ∈ chains.getD i [], c.1 < hp.nodes.length :=
  LinkedList.Raw.Inv_lt (h.2.2.2.1 i hi)

theorem addrs_lt {B : Nat} {hp : Heap K V} {self : Raw} {arr : List Bucket}
    {chains : List (List (Nat × (K × V)))} (h : Inv B hp self arr chains) :
    ∀ a ∈ addrs chains, a < hp.nodes.length := by
  intro a ha
  obtain ⟨i, hi, hmem⟩ := mem_addrs.mp ha
  obtain ⟨c, hc, rfl⟩ := List.mem_map.mp hmem
  exact chain_lt h (by rw [← h.2.2.1]; exact hi) c hc

/-! ### find -/

theorem find_simulates [DecidableEq K] {B : Nat} {hp : Heap K V} {self : Raw} {arr : List Bucket}
    {chains : List (List (Nat × (K × V)))} (h : Inv B hp self arr chains) (hB : 0 < B)
    (hash : K → Nat) (key : K) (fuel : Nat) (hfuel : chains.flatten.length < fuel) :
    find B hash fuel hp self key =
      some (Except.ok (HashMap.find B hash (view self chains) key)) := by
  have hb : getBucket B hash key < B := Nat.mod_lt _ hB
  have hseg := (h.2.2.2.1 _ hb).2.1
  have hlen := length_chain_le chains (getBucket B hash key)
  simp only [find, listAt_of_Inv h hb, root_of_Inv h hb,
    findLoop_seg hseg 0 key fuel (by omega), HashMap.find, bucketAt_view]
  cases chainFind key ((chains.getD (getBucket B hash key) []).map Prod.snd) 0 with
  | none => simp only [end_simulates h hB]
  | some i => rfl

theorem find_bucket_lt [DecidableEq K] {B : Nat} (hB : 0 < B) (hash : K → Nat)
    (m : HashMap K V) (key : K) : (HashMap.find B hash m key).bucket < B := by
  simp only [HashMap.find]
  cases chainFind key (m.bucketAt (getBucket B hash key)).elems 0 with
  | none => simp only [HashMap.end]; omega
  | some i => exact Nat.mod_lt _ hB

/-! ### a change of one chain -/

/-- The map is in memory again after a change of the fields of one list and of the
memory of nodes, when the list is then made of nodes that were its own or were not in
use, and the nodes of the other lists are as they were. -/
theorem Inv_replace {B : Nat} {hp hp1 : Heap K V} {self : Raw} {arr arr1 : List Bucket}
    {chains : List (List (Nat × (K × V)))} (h : Inv B hp self arr chains) {b : Nat}
    (hb : b < B) (self1 : Raw) (hdata : arrayAt hp1 self1.data = Except.ok arr1)
    (hlen : arr1.length = B)
    (harr : ∀ i, i < B → i ≠ b → bucketOf arr1 i = bucketOf arr i)
    {cells1 : List (Nat × (K × V))}
    (hinv : LinkedList.Raw.Inv (LinkedList.Raw.mk hp1.nodes (bucketOf arr1 b).root
      (bucketOf arr1 b).tail (bucketOf arr1 b).size) cells1)
    (hfr : ∀ a, a < hp.nodes.length → a ∉ (chains.getD b []).map Prod.fst →
      nodeAt hp1.nodes a = nodeAt hp.nodes a)
    (hnew : ∀ c ∈ cells1, c.1 ∈ (chains.getD b []).map Prod.fst ∨ hp.nodes.length ≤ c.1) :
    Inv B hp1 self1 arr1 (chains.set b cells1) := by
  have hbl : b < chains.length := by rw [h.2.2.1]; exact hb
  have hother : ∀ i, i < B → i ≠ b → ∀ c ∈ chains.getD i [],
      c.1 < hp.nodes.length ∧ c.1 ∉ (chains.getD b []).map Prod.fst := by
    intro i hi hib c hc
    refine ⟨chain_lt h hi c hc, fun hmem => ?_⟩
    obtain ⟨d, hd, hdc⟩ := List.mem_map.mp hmem
    exact h.2.2.2.2 i hi b hb hib c hc d hd hdc.symm
  refine ⟨hdata, hlen, by simp [h.2.2.1], fun i hi => ?_, fun i hi j hj hij c hc d hd => ?_⟩
  · by_cases hib : i = b
    · subst hib
      rw [chain_set_eq hbl]
      exact hinv
    · rw [chain_set_ne chains hib, harr i hi hib]
      exact LinkedList.Raw.Inv_congr (h.2.2.2.1 i hi)
        (fun c hc => hfr c.1 (hother i hi hib c hc).1 (hother i hi hib c hc).2)
  · by_cases hib : i = b
    · subst hib
      rw [chain_set_eq hbl] at hc
      rw [chain_set_ne chains (Ne.symm hij)] at hd
      obtain ⟨h1, h2⟩ := hother j hj (Ne.symm hij) d hd
      rcases hnew c hc with h3 | h3
      · exact fun e => h2 (e ▸ h3)
      · omega
    · rw [chain_set_ne chains hib] at hc
      by_cases hjb : j = b
      · subst hjb
        rw [chain_set_eq hbl] at hd
        obtain ⟨h1, h2⟩ := hother i hi hib c hc
        rcases hnew d hd with h3 | h3
        · exact fun e => h2 (e ▸ h3)
        · omega
      · rw [chain_set_ne chains hjb] at hd
        exact h.2.2.2.2 i hi j hj hij c hc d hd

/-- The nodes of the map after a change of one chain. -/
theorem addrs_set {chains : List (List (Nat × (K × V)))} {b : Nat}
    {cells1 : List (Nat × (K × V))} {a : Nat}
    (ha : a ∈ addrs (chains.set b cells1)) :
    a ∈ cells1.map Prod.fst ∨ a ∈ addrs chains := by
  obtain ⟨i, hi, hmem⟩ := mem_addrs.mp ha
  rw [List.length_set] at hi
  by_cases hib : i = b
  · subst hib
    rw [chain_set_eq hi] at hmem
    exact Or.inl hmem
  · rw [chain_set_ne chains hib] at hmem
    exact Or.inr (mem_addrs.mpr ⟨i, hi, hmem⟩)

theorem chain_sub_addrs {chains : List (List (Nat × (K × V)))} {b : Nat}
    (hb : b < chains.length) : ∀ a ∈ (chains.getD b []).map Prod.fst, a ∈ addrs chains :=
  fun _ ha => mem_addrs.mpr ⟨b, hb, ha⟩

theorem putList_of_Inv {B : Nat} {hp : Heap K V} {self : Raw} {arr : List Bucket}
    {chains : List (List (Nat × (K × V)))} (h : Inv B hp self arr chains) {b : Nat}
    (hb : b < B) (l1 : LinkedList.Raw (K × V)) :
    ∃ d, self.data = some d ∧ d < hp.arrays.length ∧
      putList hp self.data b l1 = Except.ok (Heap.mk l1.mem
        (hp.arrays.set d (some (arr.set b (Bucket.mk l1.root l1.tail l1.size))))) := by
  have h1 := h.1
  cases hd : self.data with
  | none => simp [arrayAt, hd] at h1
  | some d =>
    have hlt : d < hp.arrays.length := by
      by_contra hge
      simp [arrayAt, hd, List.getD_eq_getElem?_getD, List.getElem?_eq_none (not_lt.mp hge)] at h1
    refine ⟨d, rfl, hlt, ?_⟩
    rw [hd] at h1
    simp only [putList, h1, h.2.1, hb, if_true]

/-! ### insert -/

theorem arrayAt_set {hp : Heap K V} {d : Nat} (hd : d < hp.arrays.length)
    (nodes : List (Option (LinkedList.Node (K × V)))) (arr1 : List Bucket) :
    arrayAt (Heap.mk nodes (hp.arrays.set d (some arr1))) (some d) = Except.ok arr1 := by
  simp [arrayAt, List.getD_eq_getElem?_getD, hd]

theorem Frame_rfl (hp : Heap K V) (s : List Nat) (d : Option Nat) : Frame hp hp s d :=
  ⟨le_refl _, le_refl _, fun _ _ _ => rfl, fun _ _ _ => rfl⟩

theorem Frame_chain {hp hp1 hp2 : Heap K V} {s s1 : List Nat} {d : Option Nat}
    (h1 : Frame hp hp1 s d) (h2 : Frame hp1 hp2 s1 d)
    (hs : ∀ a ∈ s1, a ∈ s ∨ hp.nodes.length ≤ a) : Frame hp hp2 s d := by
  refine ⟨le_trans h1.1 h2.1, le_trans h1.2.1 h2.2.1, fun a ha hna => ?_, fun a ha hna => ?_⟩
  · rw [h2.2.2.1 a (lt_of_lt_of_le ha h1.1) ?_, h1.2.2.1 a ha hna]
    intro hmem
    rcases hs a hmem with h | h
    · exact hna h
    · omega
  · rw [h2.2.2.2 a (lt_of_lt_of_le ha h1.2.1) hna, h1.2.2.2 a ha hna]

/-- The memory after a method of the list of one bucket has run. -/
theorem Frame_putList {B : Nat} {hp : Heap K V} {self : Raw} {arr : List Bucket}
    {chains : List (List (Nat × (K × V)))} (h : Inv B hp self arr chains) {b : Nat}
    (hb : b < B) {d : Nat} (hd : self.data = some d)
    (nodes : List (Option (LinkedList.Node (K × V)))) (arr1 : List Bucket)
    (hlen : hp.nodes.length ≤ nodes.length)
    (hfr : ∀ a, a < hp.nodes.length → a ∉ (chains.getD b []).map Prod.fst →
      nodeAt nodes a = nodeAt hp.nodes a) :
    Frame hp (Heap.mk nodes (hp.arrays.set d (some arr1))) (addrs chains) self.data := by
  refine ⟨hlen, by simp, fun a ha hna => hfr a ha (fun hmem => hna ?_), fun a _ hna => ?_⟩
  · exact chain_sub_addrs (by rw [h.2.2.1]; exact hb) a hmem
  · have : d ≠ a := fun e => hna (by rw [hd, e])
    simp [List.getD_eq_getElem?_getD, List.getElem?_set_ne this]

/-- Private method `insert` on the nodes returns, with the outcome of `insert` on the
chains of entries: the same chains and counter and the same iterator, which is at an
entry of the key; it writes to no node and to no array other than those of the map. -/
theorem insert_simulates [DecidableEq K] {B : Nat} {hp : Heap K V} {self : Raw}
    {arr : List Bucket} {chains : List (List (Nat × (K × V)))}
    (h : Inv B hp self arr chains) (hB : 0 < B) (hash : K → Nat) (key : K) (value : V)
    (fuel : Nat) (hfuel : chains.flatten.length < fuel) :
    ∃ hp1 self1 arr1 chains1 it,
      insert B hash fuel hp self key value = some (Except.ok (hp1, self1, it)) ∧
      HashMap.insert B hash (view self chains) key value = (view self1 chains1, it) ∧
      Inv B hp1 self1 arr1 chains1 ∧ self1.data = self.data ∧ it.bucket < B ∧
      (∃ c, (chains1.getD it.bucket [])[it.index]? = some c ∧ c.2.1 = key) ∧
      Frame hp hp1 (addrs chains) self.data ∧
      (∀ a ∈ addrs chains1, a ∈ addrs chains ∨ hp.nodes.length ≤ a) ∧
      chains1.flatten.length ≤ chains.flatten.length + 1 := by
  have hb : getBucket B hash key < B := Nat.mod_lt _ hB
  have hbl : getBucket B hash key < chains.length := by rw [h.2.2.1]; exact hb
  have hfind := find_simulates h hB hash key fuel hfuel
  simp only [insert, hfind, end_simulates h hB, HashMap.insert]
  by_cases hs : HashMap.find B hash (view self chains) key = HashMap.end B (view self chains)
  swap
  · simp only [ne_eq, hs, not_false_eq_true, if_true]
    refine ⟨hp, self, arr, chains, _, rfl, rfl, h, rfl, find_bucket_lt hB hash _ key, ?_,
      Frame_rfl _ _ _, fun a ha => Or.inl ha, by omega⟩
    simp only [HashMap.find, bucketAt_view] at hs ⊢
    cases hc : chainFind key ((chains.getD (getBucket B hash key) []).map Prod.snd) 0 with
    | none =>
      rw [hc] at hs
      exact absurd rfl hs
    | some j =>
      obtain ⟨v, hv⟩ := chainFind_some hc
      simp only [List.getElem?_map, Option.map_eq_some'] at hv
      obtain ⟨c, hc1, hc2⟩ := hv
      exact ⟨c, hc1, by rw [hc2]⟩
  · simp only [ne_eq, hs, not_true_eq_false, if_false]
    have hinv0 := h.2.2.2.1 _ hb
    obtain ⟨l1, he, hinv1⟩ := LinkedList.Raw.insert_Inv
      (show LinkedList.Raw.Inv _ (chains.getD (getBucket B hash key) [] ++ []) by
        rw [List.append_nil]; exact hinv0) (key, value)
    have he1 : LinkedList.Raw.insert (LinkedList.Raw.mk hp.nodes
        (bucketOf arr (getBucket B hash key)).root (bucketOf arr (getBucket B hash key)).tail
        (bucketOf arr (getBucket B hash key)).size) none (key, value) = Except.ok l1 := he
    obtain ⟨hlen0, hfr1⟩ := LinkedList.Raw.append_frame hinv0 he1
    have hlen1 : l1.mem.length = hp.nodes.length + 1 := hlen0
    obtain ⟨d, hd, hdlt, hput⟩ := putList_of_Inv h hb l1
    have hsz : l1.size = (chains.getD (getBucket B hash key) []).length + 1 := by
      rw [hinv1.2.2.2.2]
      simp
    have hinv2 : Inv B (Heap.mk l1.mem (hp.arrays.set d (some (arr.set (getBucket B hash key)
        (Bucket.mk l1.root l1.tail l1.size))))) (Raw.mk self.data (self.size + 1))
        (arr.set (getBucket B hash key) (Bucket.mk l1.root l1.tail l1.size))
        (chains.set (getBucket B hash key)
          (chains.getD (getBucket B hash key) [] ++ [(hp.nodes.length, (key, value))])) := by
      apply Inv_replace h hb
      · rw [hd]
        exact arrayAt_set hdlt _ _
      · simp [h.2.1]
      · intro i _ hib
        exact bucketOf_set_ne arr hib _
      · rw [bucketOf_set_eq (by rw [h.2.1]; exact hb)]
        exact hinv1
      · exact hfr1
      · intro c hc
        simp only [List.mem_append, List.mem_singleton] at hc
        rcases hc with hc | rfl
        · exact Or.inl (List.mem_map_of_mem _ hc)
        · exact Or.inr (le_refl _)
    refine ⟨_, _, _, _, Iterator.mk (getBucket B hash key) (l1.size - 1), ?_, ?_, hinv2, rfl, hb,
      ?_, ?_, ?_, ?_⟩
    · simp only [listAt_of_Inv h hb, LinkedList.Raw.append, LinkedList.Raw.ok_bind, he1, hput]
    · have hwf : LinkedList.WF ((view self chains).bucketAt (getBucket B hash key)) := by
        rw [bucketAt_view]
        simp [LinkedList.WF]
      rw [view_set, LinkedList.append_eq hwf]
      simp only [bucketAt_view, List.map_append, List.map_cons, List.map_nil,
        List.length_append, List.length_singleton, Prod.mk.injEq, HashMap.mk.injEq, true_and]
      refine ⟨rfl, ?_⟩
      rw [bucketAt_set _ (by simpa [view] using hbl)]
      simp only [if_true, LinkedList.getSize, hsz]
    · refine ⟨(hp.nodes.length, (key, value)), ?_, rfl⟩
      simp only [hsz, Nat.add_sub_cancel, chain_set_eq hbl]
      simp
    · exact Frame_putList h hb hd _ _ (by rw [hlen1]; omega) hfr1
    · intro a ha
      rcases addrs_set ha with h1 | h1
      · simp only [List.map_append, List.map_cons, List.map_nil, List.mem_append,
          List.mem_singleton] at h1
        rcases h1 with h1 | rfl
        · exact Or.inl (chain_sub_addrs hbl a h1)
        · exact Or.inr (le_refl _)
      · exact Or.inl h1
    · have := length_flatten_set chains hbl
        (chains.getD (getBucket B hash key) [] ++ [(hp.nodes.length, (key, value))])
      simp only [List.length_append, List.length_singleton] at this
      omega

/-! ### operator[] and remove -/

theorem split_at {α : Type} {cells : List α} {i : Nat} {c : α} (hc : cells[i]? = some c) :
    cells = cells.take i ++ c :: cells.drop (i + 1) ∧ (cells.take i).length = i := by
  obtain ⟨hi, rfl⟩ := List.getElem?_eq_some.mp hc
  refine ⟨?_, by simp; omega⟩
  rw [← List.drop_eq_getElem_cons hi, List.take_append_drop]

theorem setSecond_split (pre post : List (K × V)) (kv : K × V) (x : V) :
    setSecond (pre ++ kv :: post) pre.length x = pre ++ (kv.1, x) :: post := by
  induction pre with
  | nil => rfl
  | cons p pre ih => simp [setSecond, ih]

theorem eraseIdx_split {α : Type} (pre post : List α) (c : α) :
    (pre ++ c :: post).eraseIdx pre.length = pre ++ post := by
  induction pre with
  | nil => rfl
  | cons p pre ih => simp [ih]

theorem setSecond_cells (cells : List (Nat × (K × V))) (i : Nat) {c : Nat × (K × V)}
    (hc : cells[i]? = some c) (x : V) :
    setSecond (cells.map Prod.snd) i x =
      (cells.take i ++ (c.1, (c.2.1, x)) :: cells.drop (i + 1)).map Prod.snd ∧
    (cells.take i ++ (c.1, (c.2.1, x)) :: cells.drop (i + 1)).length = cells.length := by
  obtain ⟨hsplit, hpre⟩ := split_at hc
  constructor
  · have := setSecond_split ((cells.take i).map Prod.snd) ((cells.drop (i + 1)).map Prod.snd)
      c.2 x
    rw [List.length_map, hpre] at this
    rw [List.map_append, List.map_cons, ← this, ← List.map_cons, ← List.map_append, ← hsplit]
  · have h2 := congrArg List.length hsplit
    simp only [List.length_append, List.length_cons] at h2 ⊢
    omega

theorem eraseIdx_cells (cells : List (Nat × (K × V))) (i : Nat) {c : Nat × (K × V)}
    (hc : cells[i]? = some c) :
    (cells.map Prod.snd).eraseIdx i = (cells.take i ++ cells.drop (i + 1)).map Prod.snd ∧
    (cells.take i ++ cells.drop (i + 1)).length = cells.length - 1 := by
  obtain ⟨hsplit, hpre⟩ := split_at hc
  constructor
  · have := eraseIdx_split ((cells.take i).map Prod.snd) ((cells.drop (i + 1)).map Prod.snd) c.2
    rw [List.length_map, hpre] at this
    rw [List.map_append, ← this, ← List.map_cons, ← List.map_append, ← hsplit]
  · have h2 := congrArg List.length hsplit
    simp only [List.length_append, List.length_cons] at h2 ⊢
    omega

/-- Iterator `operator*` on the nodes, at an iterator at a node of a chain, returns the
node, and `operator*` on the chains of entries returns its entry. -/
theorem deref_simulates {B : Nat} {hp : Heap K V} {self : Raw} {arr : List Bucket}
    {chains : List (List (Nat × (K × V)))} (h : Inv B hp self arr chains) {it : Iterator}
    (hb : it.bucket < B) {c : Nat × (K × V)}
    (hc : (chains.getD it.bucket [])[it.index]? = some c) (fuel : Nat)
    (hfuel : chains.flatten.length < fuel) :
    deref fuel hp self it = some (Except.ok c.1) ∧
      HashMap.deref (view self chains) it = Except.ok c.2 ∧
      LinkedList.Raw.load hp.nodes (some c.1) = Except.ok (LinkedList.Node.mk
        (firstAddr ((chains.getD it.bucket []).drop (it.index + 1)) none)
        (lastAddr ((chains.getD it.bucket []).take it.index) none) c.2) := by
  have hi : it.index < (chains.getD it.bucket []).length := (List.getElem?_eq_some.mp hc).1
  have hlen := length_chain_le chains it.bucket
  have hinv := h.2.2.2.1 _ hb
  obtain ⟨hsplit, -⟩ := split_at hc
  have hcell : nodeAt hp.nodes c.1 = some (LinkedList.Node.mk
      (firstAddr ((chains.getD it.bucket []).drop (it.index + 1)) none)
      (lastAddr ((chains.getD it.bucket []).take it.index) none) c.2) := by
    rw [hsplit] at hinv
    exact LinkedList.Raw.Inv_cell hinv
  have hptr : ptrAt (chains.getD it.bucket []) it.index = some c.1 := by
    simp only [ptrAt, hc, Option.map_some']
  refine ⟨?_, ?_, load_ok hcell⟩
  · simp only [deref, listAt_of_Inv h hb, size_of_Inv h hb, ge_iff_le, not_le.mpr hi, if_false,
      root_of_Inv h hb, plusLoop_seg hinv.2.1 it.index (le_of_lt hi) fuel (by omega), hptr,
      hcell]
  · have hel : ((view self chains).bucketAt it.bucket).elems[it.index]? = some c.2 := by
      rw [bucketAt_view]
      simp only [List.getElem?_map, hc, Option.map_some']
    obtain ⟨h1, h2⟩ := LinkedList.deref_plus_begin _ hel
    have hn : ¬ it.index ≥ ((view self chains).bucketAt it.bucket).getSize := by
      rw [bucketAt_view]
      simp only [LinkedList.getSize, ge_iff_le, not_le]
      exact hi
    simp only [HashMap.deref, hn, if_false, h1, h2]

/-- Method `operator[]` on the nodes returns, with the outcome of `operator[]` on the
chains of entries, and the node whose entry the iterator there is at. -/
theorem index_simulates [DecidableEq K] [Inhabited V] {B : Nat} {hp : Heap K V} {self : Raw}
    {arr : List Bucket} {chains : List (List (Nat × (K × V)))}
    (h : Inv B hp self arr chains) (hB : 0 < B) (hash : K → Nat) (key : K)
    (fuel : Nat) (hfuel : chains.flatten.length + 1 < fuel) :
    ∃ hp1 self1 arr1 chains1 it c,
      index B hash fuel hp self key = some (Except.ok (hp1, self1, c.1)) ∧
      HashMap.index B hash (view self chains) key = Except.ok (view self1 chains1, it) ∧
      Inv B hp1 self1 arr1 chains1 ∧ self1.data = self.data ∧ it.bucket < B ∧
      (chains1.getD it.bucket [])[it.index]? = some c ∧
      Frame hp hp1 (addrs chains) self.data ∧
      (∀ a ∈ addrs chains1, a ∈ addrs chains ∨ hp.nodes.length ≤ a) ∧
      chains1.flatten.length ≤ chains.flatten.length + 1 := by
  obtain ⟨hp1, self1, arr1, chains1, it, he, hv, hinv, hdata, hb, ⟨c, hc, -⟩, hfr, hsub, hlen⟩ :=
    insert_simulates h hB hash key default fuel (by omega)
  obtain ⟨hd1, hd2, -⟩ := deref_simulates hinv hb hc fuel (by omega)
  refine ⟨hp1, self1, arr1, chains1, it, c, ?_, ?_, hinv, hdata, hb, hc, hfr, hsub, hlen⟩
  · simp only [index, he, hd1]
  · simp only [HashMap.index, hv, hd2]

/-- The statement `m[key] = value` on the nodes returns, with the outcome of the
statement on the chains of entries. -/
theorem assign_simulates [DecidableEq K] [Inhabited V] {B : Nat} {hp : Heap K V} {self : Raw}
    {arr : List Bucket} {chains : List (List (Nat × (K × V)))}
    (h : Inv B hp self arr chains) (hB : 0 < B) (hash : K → Nat) (key : K) (value : V)
    (fuel : Nat) (hfuel : chains.flatten.length + 1 < fuel) :
    ∃ hp1 self1 arr1 chains1,
      assign B hash fuel hp self key value = some (Except.ok (hp1, self1)) ∧
      HashMap.assign B hash (view self chains) key value = Except.ok (view self1 chains1) ∧
      Inv B hp1 self1 arr1 chains1 ∧ self1.data = self.data ∧
      Frame hp hp1 (addrs chains) self.data ∧
      (∀ a ∈ addrs chains1, a ∈ addrs chains ∨ hp.nodes.length ≤ a) ∧
      chains1.flatten.length ≤ chains.flatten.length + 1 := by
  obtain ⟨hp1, self1, arr1, chains1, it, c, he, hv, hinv, hdata, hb, hc, hfr, hsub, hlen⟩ :=
    index_simulates h hB hash key fuel hfuel
  obtain ⟨-, -, hload⟩ := deref_simulates hinv hb hc fuel (by omega)
  obtain ⟨hsplit, hpre⟩ := split_at hc
  have hbl : it.bucket < chains1.length := by rw [hinv.2.2.1]; exact hb
  have hinvb := hinv.2.2.2.1 _ hb
  rw [hsplit] at hinvb
  obtain ⟨hcell, hinv2⟩ := LinkedList.Raw.Inv_store_data hinvb (c.2.1, value)
  have hinv3 : Inv B (Heap.mk (hp1.nodes.set c.1 (some (LinkedList.Node.mk
      (firstAddr ((chains1.getD it.bucket []).drop (it.index + 1)) none)
      (lastAddr ((chains1.getD it.bucket []).take it.index) none) (c.2.1, value)))) hp1.arrays)
      self1 arr1 (chains1.set it.bucket ((chains1.getD it.bucket []).take it.index ++
        (c.1, (c.2.1, value)) :: (chains1.getD it.bucket []).drop (it.index + 1))) := by
    have hdata2 : arrayAt (Heap.mk (hp1.nodes.set c.1 (some (LinkedList.Node.mk
        (firstAddr ((chains1.getD it.bucket []).drop (it.index + 1)) none)
        (lastAddr ((chains1.getD it.bucket []).take it.index) none) (c.2.1, value))))
        hp1.arrays) self1.data = Except.ok arr1 := hinv.1
    apply Inv_replace hinv hb self1 hdata2 hinv.2.1 (fun _ _ _ => rfl) hinv2
    · intro a _ ha
      apply LinkedList.Raw.nodeAt_set_ne
      rintro rfl
      apply ha
      rw [hsplit]
      simp
    · intro d hd
      left
      rw [hsplit]
      simp only [List.mem_append, List.mem_cons] at hd
      simp only [List.map_append, List.map_cons, List.mem_append, List.mem_cons, List.mem_map]
      rcases hd with hd | rfl | hd
      · exact Or.inl ⟨d, hd, rfl⟩
      · exact Or.inr (Or.inl rfl)
      · exact Or.inr (Or.inr ⟨d, hd, rfl⟩)
  have hmem : c.1 ∈ addrs chains1 := by
    apply chain_sub_addrs hbl
    rw [hsplit]
    simp
  refine ⟨_, self1, arr1, _, ?_, ?_, hinv3, hdata, ?_, ?_, ?_⟩
  · simp only [assign, he, store_ok hcell]
  · obtain ⟨hk1, hk2⟩ := setSecond_cells (chains1.getD it.bucket []) it.index hc value
    rw [HashMap.assign, hv, show self1 = Raw.mk self1.data self1.size from rfl, view_set]
    simp only [HashMap.setValueAt, bucketAt_view, hk1, hk2]
    rfl
  · refine Frame_chain hfr ⟨by simp, le_refl _, fun a _ ha => ?_, fun _ _ _ => rfl⟩ hsub
    exact LinkedList.Raw.nodeAt_set_ne (fun e => ha (by rw [← e]; exact hmem)) _
  · intro a ha
    rcases addrs_set ha with h1 | h1
    · apply hsub
      apply chain_sub_addrs hbl
      rw [hsplit]
      simpa using h1
    · exact hsub a h1
  · have := length_flatten_set chains1 hbl ((chains1.getD it.bucket []).take it.index ++
        (c.1, (c.2.1, value)) :: (chains1.getD it.bucket []).drop (it.index + 1))
    have h2 := congrArg List.length hsplit
    simp only [List.length_append, List.length_cons] at this h2
    omega

/-- The expression `m[key]` on the nodes returns, with the outcome of the expression on
the chains of entries and the same value. -/
theorem access_simulates [DecidableEq K] [Inhabited V] {B : Nat} {hp : Heap K V} {self : Raw}
    {arr : List Bucket} {chains : List (List (Nat × (K × V)))}
    (h : Inv B hp self arr chains) (hB : 0 < B) (hash : K → Nat) (key : K)
    (fuel : Nat) (hfuel : chains.flatten.length + 1 < fuel) :
    ∃ hp1 self1 arr1 chains1 x,
      access B hash fuel hp self key = some (Except.ok (hp1, self1, x)) ∧
      HashMap.access B hash (view self chains) key = Except.ok (view self1 chains1, x) ∧
      Inv B hp1 self1 arr1 chains1 ∧ self1.data = self.data ∧
      Frame hp hp1 (addrs chains) self.data ∧
      (∀ a ∈ addrs chains1, a ∈ addrs chains ∨ hp.nodes.length ≤ a) ∧
      chains1.flatten.length ≤ chains.flatten.length + 1 := by
  obtain ⟨hp1, self1, arr1, chains1, it, c, he, hv, hinv, hdata, hb, hc, hfr, hsub, hlen⟩ :=
    index_simulates h hB hash key fuel hfuel
  obtain ⟨-, hd2, hload⟩ := deref_simulates hinv hb hc fuel (by omega)
  refine ⟨hp1, self1, arr1, chains1, c.2.2, ?_, ?_, hinv, hdata, hfr, hsub, hlen⟩
  · simp only [access, he, hload]
  · simp only [HashMap.access, hv, hd2]

/-- Method `remove(key)` on the nodes returns or throws as `remove` on the chains of
entries does, with the same chains and counter afterwards. -/
theorem remove_simulates [DecidableEq K] {B : Nat} {hp : Heap K V} {self : Raw}
    {arr : List Bucket} {chains : List (List (Nat × (K × V)))}
    (h : Inv B hp self arr chains) (hB : 0 < B) (hash : K → Nat) (key : K)
    (fuel : Nat) (hfuel : chains.flatten.length < fuel) :
    (∀ e, HashMap.remove B hash (view self chains) key = Except.error e →
      remove B hash fuel hp self key = some (Except.error e)) ∧
    (∀ m1, HashMap.remove B hash (view self chains) key = Except.ok m1 →
      ∃ hp1 self1 arr1 chains1,
        remove B hash fuel hp self key = some (Except.ok (hp1, self1)) ∧
        view self1 chains1 = m1 ∧ Inv B hp1 self1 arr1 chains1 ∧ self1.data = self.data ∧
        Frame hp hp1 (addrs chains) self.data ∧ (∀ a ∈ addrs chains1, a ∈ addrs chains) ∧
        chains1.flatten.length ≤ chains.flatten.length) := by
  have hb : getBucket B hash key < B := Nat.mod_lt _ hB
  have hbl : getBucket B hash key < chains.length := by rw [h.2.2.1]; exact hb
  have hinv := h.2.2.2.1 _ hb
  have hlen := length_chain_le chains (getBucket B hash key)
  have hemp : (view self chains).isEmpty = self.isEmpty := rfl
  have hrl := removeLoop_seg hinv.2.1 key fuel (by omega)
  rw [← root_of_Inv h hb] at hrl
  simp only [remove, HashMap.remove, hemp, listAt_of_Inv h hb, hrl, bucketAt_view]
  cases hise : self.isEmpty with
  | true => simp
  | false =>
    simp only [Bool.false_eq_true, if_false]
    cases hc : chainFind key ((chains.getD (getBucket B hash key) []).map Prod.snd) 0 with
    | none => simp
    | some j =>
      obtain ⟨v, hv⟩ := chainFind_some hc
      simp only [List.getElem?_map, Option.map_eq_some'] at hv
      obtain ⟨c, hc1, hc2⟩ := hv
      obtain ⟨hsplit, hpre⟩ := split_at hc1
      have hj : j < (chains.getD (getBucket B hash key) []).length :=
        (List.getElem?_eq_some.mp hc1).1
      have hinv0 := hinv
      rw [hsplit] at hinv0
      obtain ⟨l1, he, hinv1⟩ := LinkedList.Raw.erase_Inv hinv0
      obtain ⟨hlen1, hfr1⟩ := LinkedList.Raw.erase_frame hinv0 he
      rw [← hsplit] at hfr1
      have hlen2 : l1.mem.length = hp.nodes.length := hlen1
      obtain ⟨d, hd, hdlt, hput⟩ := putList_of_Inv h hb l1
      have hinv2 : Inv B (Heap.mk l1.mem (hp.arrays.set d (some (arr.set (getBucket B hash key)
          (Bucket.mk l1.root l1.tail l1.size))))) (Raw.mk self.data (self.size - 1))
          (arr.set (getBucket B hash key) (Bucket.mk l1.root l1.tail l1.size))
          (chains.set (getBucket B hash key)
            ((chains.getD (getBucket B hash key) []).take j ++
              (chains.getD (getBucket B hash key) []).drop (j + 1))) := by
        apply Inv_replace h hb
        · rw [hd]
          exact arrayAt_set hdlt _ _
        · simp [h.2.1]
        · intro i _ hib
          exact bucketOf_set_ne arr hib _
        · rw [bucketOf_set_eq (by rw [h.2.1]; exact hb)]
          exact hinv1
        · exact fun a _ ha => hfr1 a ha
        · intro x hx
          left
          apply List.mem_map_of_mem
          rw [List.mem_append] at hx
          rcases hx with hx | hx
          · exact List.mem_of_mem_take hx
          · exact List.mem_of_mem_drop hx
      have hptr : ptrAt (chains.getD (getBucket B hash key) []) j = some c.1 := by
        simp only [ptrAt, hc1, Option.map_some']
      have hwf : LinkedList.WF (LinkedList.mk
          ((chains.getD (getBucket B hash key) []).map Prod.snd)
          (chains.getD (getBucket B hash key) []).length) := by
        simp [LinkedList.WF]
      have her : LinkedList.erase (LinkedList.mk
          ((chains.getD (getBucket B hash key) []).map Prod.snd)
          (chains.getD (getBucket B hash key) []).length) (some j) =
          Except.ok (LinkedList.mk
            (((chains.getD (getBucket B hash key) []).map Prod.snd).eraseIdx j)
            ((chains.getD (getBucket B hash key) []).length - 1)) :=
        LinkedList.erase_some_eq hwf (by simpa using hj)
      refine ⟨fun e he1 => ?_, ?_⟩
      · simp only [her, reduceCtorEq] at he1
      intro m1 hm1
      simp only [her, Except.ok.injEq] at hm1
      refine ⟨_, _, _, _, ?_, ?_, hinv2, rfl, ?_, ?_, ?_⟩
      · simp only [Option.some_bind, hptr, he, LinkedList.Raw.ok_bind, hput]
      · obtain ⟨hk1, hk2⟩ := eraseIdx_cells (chains.getD (getBucket B hash key) []) j hc1
        rw [← hm1, view_set, hk1, hk2]
        rfl
      · exact Frame_putList h hb hd _ _ (by rw [hlen2]) (fun a _ ha => hfr1 a ha)
      · intro a ha
        rcases addrs_set ha with h1 | h1
        · apply chain_sub_addrs hbl
          rw [List.map_append, List.mem_append] at h1
          rcases h1 with h1 | h1
          · obtain ⟨x, hx, rfl⟩ := List.mem_map.mp h1
            exact List.mem_map_of_mem _ (List.mem_of_mem_take hx)
          · obtain ⟨x, hx, rfl⟩ := List.mem_map.mp h1
            exact List.mem_map_of_mem _ (List.mem_of_mem_drop hx)
        · exact h1
      · have := length_flatten_set chains hbl ((chains.getD (getBucket B hash key) []).take j ++
            (chains.getD (getBucket B hash key) []).drop (j + 1))
        have h2 := congrArg List.length hsplit
        simp only [List.length_append, List.length_cons] at this h2
        omega

/-! ### sequences of calls -/

/-- One call on the nodes, exceptions caught, returns, with the chains of entries and
the counter that the call on the chains of entries gives; it writes to no node and to no
array other than those of the map, and allocates its new node past the memory in use. -/
theorem applyOp_simulates [DecidableEq K] [Inhabited V] {B : Nat} {hp : Heap K V} {self : Raw}
    {arr : List Bucket} {chains : List (List (Nat × (K × V)))}
    (h : Inv B hp self arr chains) (hB : 0 < B) (hash : K → Nat) (op : Op K V)
    (fuel : Nat) (hfuel : chains.flatten.length + 1 < fuel) :
    ∃ hp1 self1 arr1 chains1, applyOp B hash fuel (hp, self) op = some (hp1, self1) ∧
      view self1 chains1 = HashMap.applyOp B hash (view self chains) op ∧
      Inv B hp1 self1 arr1 chains1 ∧ self1.data = self.data ∧
      Frame hp hp1 (addrs chains) self.data ∧
      (∀ a ∈ addrs chains1, a ∈ addrs chains ∨ hp.nodes.length ≤ a) ∧
      chains1.flatten.length ≤ chains.flatten.length + 1 := by
  cases op with
  | access key =>
    obtain ⟨hp1, self1, arr1, chains1, x, he, hv, hinv, hdata, hfr, hsub, hlen⟩ :=
      access_simulates h hB hash key fuel hfuel
    exact ⟨hp1, self1, arr1, chains1, by simp [applyOp, step, he],
      by simp [HashMap.applyOp, HashMap.step, hv], hinv, hdata, hfr, hsub, hlen⟩
  | assign key value =>
    obtain ⟨hp1, self1, arr1, chains1, he, hv, hinv, hdata, hfr, hsub, hlen⟩ :=
      assign_simulates h hB hash key value fuel hfuel
    exact ⟨hp1, self1, arr1, chains1, by simp [applyOp, step, he],
      by simp [HashMap.applyOp, HashMap.step, hv], hinv, hdata, hfr, hsub, hlen⟩
  | remove key =>
    obtain ⟨herr, hok⟩ := remove_simulates h hB hash key fuel (by omega)
    cases hr : HashMap.remove B hash (view self chains) key with
    | error e =>
      exact ⟨hp, self, arr, chains, by simp [applyOp, step, herr e hr],
        by simp [HashMap.applyOp, HashMap.step, hr], h, rfl, Frame_rfl _ _ _,
        fun a ha => Or.inl ha, by omega⟩
    | ok m1 =>
      obtain ⟨hp1, self1, arr1, chains1, he, hv, hinv, hdata, hfr, hsub, hlen⟩ := hok m1 hr
      exact ⟨hp1, self1, arr1, chains1, by simp [applyOp, step, he],
        by simp [HashMap.applyOp, HashMap.step, hr, hv], hinv, hdata, hfr,
        fun a ha => Or.inl (hsub a ha), by omega⟩

/-- A sequence of calls on the nodes of a map returns, with the chains of entries and the
counter that the calls on the chains of entries give, and leaves every node and every
array of the memory that was not of the map as it was. -/
theorem run_simulates [DecidableEq K] [Inhabited V] {B : Nat} (hB : 0 < B) (hash : K → Nat)
    (ops : List (Op K V)) (fuel : Nat) {hp : Heap K V} {self : Raw} {arr : List Bucket}
    {chains : List (List (Nat × (K × V)))} (h : Inv B hp self arr chains)
    (hfuel : chains.flatten.length + ops.length < fuel) :
    ∃ hp1 self1 arr1 chains1, run B hash fuel (hp, self) ops = some (hp1, self1) ∧
      view self1 chains1 = HashMap.run B hash (view self chains) ops ∧
      Inv B hp1 self1 arr1 chains1 ∧ self1.data = self.data ∧
      Frame hp hp1 (addrs chains) self.data ∧
      (∀ a ∈ addrs chains1, a ∈ addrs chains ∨ hp.nodes.length ≤ a) := by
  induction ops generalizing hp self arr chains with
  | nil =>
    exact ⟨hp, self, arr, chains, rfl, rfl, h, rfl, Frame_rfl _ _ _, fun a ha => Or.inl ha⟩
  | cons op ops ih =>
    simp only [List.length_cons] at hfuel
    obtain ⟨hp1, self1, arr1, chains1, he, hv, hinv, hdata, hfr, hsub, hlen⟩ :=
      applyOp_simulates h hB hash op fuel (by omega)
    obtain ⟨hp2, self2, arr2, chains2, he2, hv2, hinv2, hdata2, hfr2, hsub2⟩ :=
      ih hinv (by omega)
    rw [hdata] at hfr2
    refine ⟨hp2, self2, arr2, chains2, ?_, ?_, hinv2, by rw [hdata2, hdata],
      Frame_chain hfr hfr2 hsub, ?_⟩
    · simp only [run, he, he2]
    · rw [hv2, hv]
      rfl
    · intro a ha
      rcases hsub2 a ha with h1 | h1
      · exact hsub a h1
      · exact Or.inr (le_trans hfr.1 h1)

/-- A map of the memory is as it was after any change of the memory outside its nodes
and its array. -/
theorem Inv_of_Frame {B : Nat} {hp hp1 : Heap K V} {self : Raw} {arr : List Bucket}
    {chains : List (List (Nat × (K × V)))} (h : Inv B hp self arr chains)
    {s : List Nat} {d : Option Nat} (hf : Frame hp hp1 s d)
    (hs : ∀ a ∈ addrs chains, a ∉ s) (hd : self.data ≠ d) : Inv B hp1 self arr chains := by
  have hB : chains.length = B := h.2.2.1
  refine ⟨?_, h.2.1, h.2.2.1, fun i hi => ?_, h.2.2.2.2⟩
  · have h1 := h.1
    cases hdata : self.data with
    | none => simp [arrayAt, hdata] at h1
    | some a =>
      rw [hdata] at h1 hd
      have hlt : a < hp.arrays.length := by
        by_contra hge
        simp [arrayAt, List.getD_eq_getElem?_getD, List.getElem?_eq_none (not_lt.mp hge)] at h1
      simp only [arrayAt] at h1 ⊢
      rw [hf.2.2.2 a hlt hd]
      exact h1
  · apply LinkedList.Raw.Inv_congr (h.2.2.2.1 i hi)
    intro c hc
    have hmem : c.1 ∈ addrs chains :=
      chain_sub_addrs (by rw [hB]; exact hi) c.1 (List.mem_map_of_mem _ hc)
    exact hf.2.2.1 c.1 (chain_lt h hi c hc) (hs c.1 hmem)

/-! ### iteration -/

theorem nextScan_simulates {B : Nat} {hp : Heap K V} {self : Raw} {arr : List Bucket}
    {chains : List (List (Nat × (K × V)))} (h : Inv B hp self arr chains) (n i : Nat)
    (hn : i + n ≤ B) :
    nextScan hp self.data n i = Except.ok (HashMap.nextScan (view self chains) n i) := by
  induction n generalizing i with
  | zero => rfl
  | succ n ih =>
    have hi : i < B := by omega
    simp only [nextScan, listAt_of_Inv h hi, size_of_Inv h hi, HashMap.nextScan, bucketAt_view,
      LinkedList.getSize]
    by_cases hz : (chains.getD i []).length = 0
    · simp only [hz, ne_eq, not_true_eq_false, if_false]
      exact ih (i + 1) (by omega)
    · simp only [ne_eq, hz, not_false_eq_true, if_true]

theorem begin_simulates {B : Nat} {hp : Heap K V} {self : Raw} {arr : List Bucket}
    {chains : List (List (Nat × (K × V)))} (h : Inv B hp self arr chains) :
    «begin» B hp self = Except.ok (HashMap.begin B (view self chains)) := by
  simp only [«begin», nextScan_simulates h B 0 (by omega), HashMap.begin]
  cases HashMap.nextScan (view self chains) B 0 <;> rfl

theorem next_simulates {B : Nat} {hp : Heap K V} {self : Raw} {arr : List Bucket}
    {chains : List (List (Nat × (K × V)))} (h : Inv B hp self arr chains) (hB : 0 < B)
    {it : Iterator} (hb : it.bucket < B) :
    next B hp self it = HashMap.next B (view self chains) it := by
  simp only [next, end_simulates h hB, listAt_of_Inv h hb, size_of_Inv h hb, HashMap.next,
    nextScan_simulates h (B - (it.bucket + 1)) (it.bucket + 1) (by omega), bucketAt_view,
    LinkedList.getSize]
  by_cases he : it = HashMap.end B (view self chains)
  · simp only [he, if_true]
  · simp only [he, if_false]
    by_cases hi : it.index + 1 = (chains.getD it.bucket []).length
    · simp only [hi, ne_eq, not_true_eq_false, if_false]
      cases HashMap.nextScan (view self chains) (B - (it.bucket + 1)) (it.bucket + 1) with
      | none => simp only [HashMap.end, bucketAt_view, LinkedList.getSize]
      | some j => rfl
    · simp only [ne_eq, hi, not_false_eq_true, if_true]

/-! ### copies -/

theorem flatMap_range_getD {α : Type} (L : List (List α)) :
    (List.range L.length).flatMap (fun i => L.getD i []) = L.flatten := by
  induction L with
  | nil => rfl
  | cons c L ih =>
    rw [List.length_cons, List.range_succ_eq_map, List.flatMap_cons, List.flatMap_map,
      List.flatten_cons, ← ih]
    rfl

theorem entries_view {B : Nat} (self : Raw) {chains : List (List (Nat × (K × V)))}
    (hB : chains.length = B) :
    entries B (view self chains) = chains.flatten.map Prod.snd := by
  rw [← flatMap_range_getD chains, hB, List.map_flatMap, entries]
  simp only [bucketAt_view]

theorem addrs_replicate (B : Nat) : addrs (List.replicate B ([] : List (Nat × (K × V)))) = [] := by
  simp [addrs]

theorem view_create (B : Nat) (hp : Heap K V) :
    view (create B hp).2 (List.replicate B ([] : List (Nat × (K × V)))) = HashMap.empty B := by
  simp [view, create, HashMap.empty, LinkedList.empty]

/-- The expression `new LinkedList<value_type>[BUCKET_COUNT]` gives a map of empty chains
in an array of its own, and a map of the memory is as it was. -/
theorem create_spec {B : Nat} {hp : Heap K V} {other : Raw} {arro : List Bucket}
    {co : List (List (Nat × (K × V)))} (ho : Inv B hp other arro co) :
    Inv B (create B hp).1 (create B hp).2 (List.replicate B (Bucket.mk none none 0))
        (List.replicate B []) ∧
      Inv B (create B hp).1 other arro co ∧ (create B hp).2.data ≠ other.data ∧
      Frame hp (create B hp).1 [] none := by
  have hfr : Frame hp (create B hp).1 [] none := by
    refine ⟨le_refl _, by simp [create], fun _ _ _ => rfl, fun a ha _ => ?_⟩
    simp [create, List.getD_eq_getElem?_getD, List.getElem?_append_left ha]
  have hdo : ∃ d, other.data = some d ∧ d < hp.arrays.length := by
    have h1 := ho.1
    cases hdata : other.data with
    | none => simp [arrayAt, hdata] at h1
    | some a =>
      rw [hdata] at h1
      refine ⟨a, rfl, ?_⟩
      by_contra hge
      simp [arrayAt, List.getD_eq_getElem?_getD, List.getElem?_eq_none (not_lt.mp hge)] at h1
  obtain ⟨d, hd, hlt⟩ := hdo
  have hne : (create B hp).2.data ≠ other.data := by
    rw [hd]
    simp only [create, ne_eq, Option.some.injEq]
    omega
  refine ⟨⟨?_, by simp, by simp, fun i hi => ?_, fun i hi j hj _ c hc => ?_⟩,
    Inv_of_Frame ho hfr (fun _ _ => List.not_mem_nil _) (by rw [hd]; simp), hne, hfr⟩
  · simp [arrayAt, create, List.getD_eq_getElem?_getD]
  · have h1 : bucketOf (List.replicate B (Bucket.mk none none 0)) i = Bucket.mk none none 0 := by
      simp [bucketOf, List.getD_eq_getElem?_getD, List.getElem?_replicate, hi]
    have h2 : (List.replicate B ([] : List (Nat × (K × V)))).getD i [] = [] := by
      simp [List.getD_eq_getElem?_getD, List.getElem?_replicate, hi]
    rw [h1, h2]
    exact ⟨by simp, trivial, rfl, rfl, rfl⟩
  · have h2 : (List.replicate B ([] : List (Nat × (K × V)))).getD i [] = [] := by
      simp [List.getD_eq_getElem?_getD, List.getElem?_replicate, hi]
    rw [h2] at hc
    exact absurd hc (List.not_mem_nil _)

theorem copyLoop_step [DecidableEq K] (B : Nat) (hash : K → Nat) (fuel : Nat) (other : Raw)
    (last : Iterator) (n : Nat) (hp : Heap K V) (it : Iterator) (self : Raw) :
    copyLoop B hash fuel other last (n + 1) hp it self =
      if it = last then some (Except.ok (hp, self))
      else
        match deref fuel hp other it with
        | none => none
        | some (Except.error e) => some (Except.error e)
        | some (Except.ok a) =>
          match LinkedList.Raw.load hp.nodes (some a) with
          | Except.error e => some (Except.error e)
          | Except.ok nd =>
            match insert B hash fuel hp self nd.data.1 nd.data.2 with
            | none => none
            | some (Except.error e) => some (Except.error e)
            | some (Except.ok (hp1, self1, _)) =>
              match next B hp1 other it with
              | Except.error e => some (Except.error e)
              | Except.ok it1 => copyLoop B hash fuel other last n hp1 it1 self1 := rfl

/-- The loop of the copy constructor over the nodes of `other`, from a sequence of
iterators that `operator++` links up to `end()`: it returns, the map being built gets
the entries of these iterators inserted in order, its new nodes are none of `other`,
and `other` is as it was. -/
theorem copyLoop_simulates [DecidableEq K] {B : Nat} (hB : 0 < B) (hash : K → Nat) {other : Raw}
    {arro : List Bucket} {co : List (List (Nat × (K × V)))}
    (ps : List Iterator) (es : List (K × V))
    (hl : Walk.LinkedBy (HashMap.next B (view other co)) ps (HashMap.end B (view other co)))
    (hd : ps.map (HashMap.deref (view other co)) = es.map Except.ok)
    (hne : ∀ p ∈ ps, p ≠ HashMap.end B (view other co))
    (hpos : ∀ p ∈ ps, p.bucket < B ∧ p.index < (co.getD p.bucket []).length)
    (fuel n : Nat) {hp : Heap K V} {self : Raw} {arrs : List Bucket}
    {cs : List (List (Nat × (K × V)))}
    (ho : Inv B hp other arro co) (hs : Inv B hp self arrs cs)
    (hdata : self.data ≠ other.data) (hdisj : ∀ a ∈ addrs cs, a ∉ addrs co)
    (hfo : co.flatten.length < fuel) (hfs : cs.flatten.length + ps.length < fuel) :
    ∃ hp1 self1 arr1 c1,
      copyLoop B hash fuel other (HashMap.end B (view other co)) (ps.length + (n + 1)) hp
        (Walk.firstOr ps (HashMap.end B (view other co))) self = some (Except.ok (hp1, self1)) ∧
      view self1 c1 = es.foldl (fun a kv => (HashMap.insert B hash a kv.1 kv.2).1) (view self cs) ∧
      Inv B hp1 self1 arr1 c1 ∧ Inv B hp1 other arro co ∧ self1.data = self.data ∧
      (∀ a ∈ addrs c1, a ∉ addrs co) ∧ Frame hp hp1 (addrs cs) self.data ∧
      (∀ a ∈ addrs c1, a ∈ addrs cs ∨ hp.nodes.length ≤ a) := by
  induction ps generalizing es hp self arrs cs with
  | nil =>
    cases es with
    | cons e es => simp at hd
    | nil =>
      refine ⟨hp, self, arrs, cs, ?_, rfl, hs, ho, rfl, hdisj, Frame_rfl _ _ _,
        fun a ha => Or.inl ha⟩
      simp [copyLoop_step, Walk.firstOr]
  | cons p ps ih =>
    cases es with
    | nil => simp at hd
    | cons e es =>
      simp only [List.map_cons, List.cons.injEq] at hd
      simp only [List.length_cons] at hfs
      obtain ⟨hl1, hl2⟩ := hl
      have hp0 : p ≠ HashMap.end B (view other co) := hne p (List.mem_cons_self _ _)
      obtain ⟨hpb, hpi⟩ := hpos p (List.mem_cons_self _ _)
      obtain ⟨c, hc⟩ : ∃ c, (co.getD p.bucket [])[p.index]? = some c :=
        ⟨_, List.getElem?_eq_getElem hpi⟩
      obtain ⟨hde, hdv, hload⟩ := deref_simulates ho hpb hc fuel hfo
      have hce : c.2 = e := by
        have := hd.1
        rw [hdv] at this
        exact Except.ok.inj this
      obtain ⟨hp1, self1, arr1, c1, it, hins, hiv, hinv1, hdata1, -, -, hfr1, hsub1, hlen1⟩ :=
        insert_simulates hs hB hash c.2.1 c.2.2 fuel (by omega)
      have ho1 : Inv B hp1 other arro co := Inv_of_Frame ho hfr1 (fun a ha hm => hdisj a hm ha)
        (Ne.symm hdata)
      have hdisj1 : ∀ a ∈ addrs c1, a ∉ addrs co := by
        intro a ha hm
        rcases hsub1 a ha with h1 | h1
        · exact hdisj a h1 hm
        · exact absurd (addrs_lt ho a hm) (by omega)
      have hnext : next B hp1 other p =
          Except.ok (Walk.firstOr ps (HashMap.end B (view other co))) := by
        rw [next_simulates ho1 hB hpb, hl1]
      obtain ⟨hp2, self2, arr2, c2, he2, hv2, hinv2, ho2, hdata2, hdisj2, hfr2, hsub2⟩ :=
        ih es hl2 hd.2 (fun q hq => hne q (List.mem_cons_of_mem _ hq))
          (fun q hq => hpos q (List.mem_cons_of_mem _ hq)) ho1 hinv1 (by rw [hdata1]; exact hdata)
          hdisj1 (by omega)
      rw [hdata1] at hfr2
      have hlen : (p :: ps).length + (n + 1) = (ps.length + (n + 1)) + 1 := by
        simp only [List.length_cons]
        omega
      refine ⟨hp2, self2, arr2, c2, ?_, ?_, hinv2, ho2, by rw [hdata2, hdata1], hdisj2,
        Frame_chain hfr1 hfr2 hsub1, ?_⟩
      · rw [hlen]
        show copyLoop B hash fuel other _ (ps.length + (n + 1) + 1) hp p self = _
        rw [copyLoop_step]
        simp only [hp0, if_false, hde, hload, hins, hnext, he2]
      · rw [hv2, List.foldl_cons, ← hce]
        have : (HashMap.insert B hash (view self cs) c.2.1 c.2.2).1 = view self1 c1 := by
          rw [hiv]
        rw [this]
      · intro a ha
        rcases hsub2 a ha with h1 | h1
        · exact hsub1 a h1
        · exact Or.inr (le_trans hfr1.1 h1)

/-- The statements of the copy constructor after the member initialisers, on a new map
of empty chains: they return, the new map gets the chains of entries and the counter of
`other`, its nodes are new, none of them a node of `other`, and `other` is as it was. -/
theorem copyInto_simulates [DecidableEq K] {B : Nat} {hash : K → Nat} {hp : Heap K V}
    {self other : Raw} {arrs arro : List Bucket} {co : List (List (Nat × (K × V)))}
    (ho : Inv B hp other arro co) (hs : Inv B hp self arrs (List.replicate B []))
    (hsize : self.size = 0) (hdata : self.data ≠ other.data)
    (hwf : HashMap.WF B hash (view other co)) (fuel : Nat) (hfuel : co.flatten.length < fuel) :
    ∃ hp1 c arr1 c1, copyInto B hash fuel hp self other = some (Except.ok (hp1, c)) ∧
      view c c1 = view other co ∧ Inv B hp1 c arr1 c1 ∧ Inv B hp1 other arro co ∧
      c.data = self.data ∧ (∀ a ∈ addrs c1, a ∉ addrs co) ∧
      Frame hp hp1 [] self.data ∧ (∀ a ∈ addrs c1, hp.nodes.length ≤ a) := by
  have hB : 0 < B := hwf.1
  have hl := linked_positions (WF_getSize hwf) B 0 (by omega)
  rw [← positions_eq_range'] at hl
  have hlenp : (positions B (view other co)).length = co.flatten.length := by
    have h1 := congrArg List.length (map_deref_positions hwf)
    simp only [List.length_map] at h1
    rw [h1, entries_view other ho.2.2.1, List.length_map]
  have hpos : ∀ p ∈ positions B (view other co),
      p.bucket < B ∧ p.index < (co.getD p.bucket []).length := by
    intro p hp0
    have := mem_positions.mp hp0
    simpa [bucketAt_view] using this
  obtain ⟨n, hn⟩ : ∃ n, fuel = (positions B (view other co)).length + (n + 1) :=
    ⟨fuel - co.flatten.length - 1, by omega⟩
  have hsv : view self (List.replicate B ([] : List (Nat × (K × V)))) = HashMap.empty B := by
    simp [view, hsize, HashMap.empty, LinkedList.empty]
  obtain ⟨hp1, c, arr1, c1, he, hv, hinv, ho1, hd1, hdisj, hfr, hsub⟩ :=
    copyLoop_simulates hB hash (positions B (view other co)) (entries B (view other co)) hl
      (map_deref_positions hwf) (positions_ne_end hwf) hpos fuel n ho hs hdata
      (by rw [addrs_replicate]; exact fun _ h => absurd h (List.not_mem_nil _)) hfuel
      (by simp only [List.flatten_replicate_nil, List.length_nil]; omega)
  rw [addrs_replicate] at hfr hsub
  refine ⟨hp1, c, arr1, c1, ?_, ?_, hinv, ho1, hd1, hdisj, hfr, fun a ha => ?_⟩
  · simp only [copyInto, begin_simulates ho, end_simulates ho hB]
    rw [begin_eq_firstOr hwf.1 (WF_getSize hwf)]
    rw [hn] at he ⊢
    exact he
  · rw [hv, hsv]
    have h1 := copy_eq hwf 0
    rw [HashMap.copy, begin_eq_firstOr hwf.1 (WF_getSize hwf), ← length_positions hwf,
      copyLoop_positions _ _ hl (map_deref_positions hwf) (positions_ne_end hwf) 0] at h1
    exact Except.ok.inj (Option.some.inj h1)
  · rcases hsub a ha with h1 | h1
    · exact absurd h1 (List.not_mem_nil _)
    · exact h1

/-- The copy constructor on the nodes returns: the new map has the chains of entries and
the counter of the map copied, in nodes and an array that are new, and the map copied is
as it was. -/
theorem copy_simulates [DecidableEq K] {B : Nat} {hash : K → Nat} {hp : Heap K V}
    {other : Raw} {arro : List Bucket} {co : List (List (Nat × (K × V)))}
    (ho : Inv B hp other arro co) (hwf : HashMap.WF B hash (view other co)) (fuel : Nat)
    (hfuel : co.flatten.length < fuel) :
    ∃ hp1 c arr1 c1, copy B hash fuel hp other = some (Except.ok (hp1, c)) ∧
      view c c1 = view other co ∧ Inv B hp1 c arr1 c1 ∧ Inv B hp1 other arro co ∧
      c.data ≠ other.data ∧ (∀ a ∈ addrs c1, a ∉ addrs co) ∧
      Frame hp hp1 [] none ∧ (∀ a ∈ addrs c1, hp.nodes.length ≤ a) := by
  obtain ⟨hs0, ho0, hd0, hfr0⟩ := create_spec ho
  obtain ⟨hp1, c, arr1, c1, he, hv, hinv, ho1, hd1, hdisj, hfr, hsub⟩ :=
    copyInto_simulates ho0 hs0 rfl hd0 hwf fuel hfuel
  refine ⟨hp1, c, arr1, c1, he, hv, hinv, ho1, by rw [hd1]; exact hd0, hdisj, ?_, hsub⟩
  refine ⟨le_trans hfr0.1 hfr.1, le_trans hfr0.2.1 hfr.2.1, fun a ha hna => ?_,
    fun a ha hna => ?_⟩
  · rw [hfr.2.2.1 a (lt_of_lt_of_le ha hfr0.1) hna, hfr0.2.2.1 a ha hna]
  · rw [hfr.2.2.2 a (lt_of_lt_of_le ha hfr0.2.1) ?_, hfr0.2.2.2 a ha hna]
    simp only [create, ne_eq, Option.some.injEq]
    omega

/-- The destructors that `delete[] data` runs return: they delete nodes of the map only,
and the array is left with the lists that remain. -/
theorem destroyLoop_spec {B : Nat} (fuel i : Nat) {hp : Heap K V} {self : Raw}
    {arr : List Bucket} {chains : List (List (Nat × (K × V)))}
    (h : Inv B hp self arr chains) (hi : i ≤ B) (hfuel : chains.flatten.length < fuel) :
    ∃ hp1 arr1 chains1, destroyLoop fuel self.data i hp = some (Except.ok hp1) ∧
      Inv B hp1 self arr1 chains1 ∧ Frame hp hp1 (addrs chains) self.data := by
  induction i generalizing hp arr chains with
  | zero => exact ⟨hp, arr, chains, rfl, h, Frame_rfl _ _ _⟩
  | succ i ih =>
    have hb : i < B := by omega
    have hbl : i < chains.length := by rw [h.2.2.1]; exact hb
    have hinv0 := h.2.2.2.1 _ hb
    have hle := length_chain_le chains i
    obtain ⟨l1, he, hinv1, hlen1, hfr1⟩ := LinkedList.Raw.clear_spec hinv0 fuel (by omega)
    have hlen2 : l1.mem.length = hp.nodes.length := hlen1
    obtain ⟨d, hd, hdlt, hput⟩ := putList_of_Inv h hb l1
    have hinv2 : Inv B (Heap.mk l1.mem (hp.arrays.set d (some (arr.set i
        (Bucket.mk l1.root l1.tail l1.size))))) self
        (arr.set i (Bucket.mk l1.root l1.tail l1.size)) (chains.set i []) := by
      apply Inv_replace h hb
      · rw [hd]
        exact arrayAt_set hdlt _ _
      · simp [h.2.1]
      · intro j _ hjb
        exact bucketOf_set_ne arr hjb _
      · rw [bucketOf_set_eq (by rw [h.2.1]; exact hb)]
        exact hinv1
      · exact fun a _ hna => hfr1 a hna
      · exact fun c hc => absurd hc (List.not_mem_nil _)
    have hfrA : Frame hp (Heap.mk l1.mem (hp.arrays.set d (some (arr.set i
        (Bucket.mk l1.root l1.tail l1.size))))) (addrs chains) self.data :=
      Frame_putList h hb hd _ _ (by rw [hlen2]) (fun a _ hna => hfr1 a hna)
    have hlenset := length_flatten_set chains hbl []
    simp only [List.length_nil] at hlenset
    obtain ⟨hp2, arr2, chains2, he2, hinv3, hfr2⟩ := ih hinv2 (by omega) (by omega)
    refine ⟨hp2, arr2, chains2, ?_, hinv3, Frame_chain hfrA hfr2 ?_⟩
    · simp only [destroyLoop, listAt_of_Inv h hb, he, hput, he2]
    · intro a ha
      rcases addrs_set ha with h1 | h1
      · simp at h1
      · exact Or.inl h1

/-- The expression `delete[] data` on the array of a map returns, and writes to no node
and to no array other than those of the map. -/
theorem deleteArray_spec {B : Nat} (fuel : Nat) {hp : Heap K V} {self : Raw}
    {arr : List Bucket} {chains : List (List (Nat × (K × V)))}
    (h : Inv B hp self arr chains) (hfuel : chains.flatten.length < fuel) :
    ∃ hp1, deleteArray B fuel hp self.data = some (Except.ok hp1) ∧
      Frame hp hp1 (addrs chains) self.data := by
  obtain ⟨hp1, arr1, chains1, he, -, hfr⟩ := destroyLoop_spec fuel B h (le_refl _) hfuel
  cases hd : self.data with
  | none =>
    have h1 := h.1
    simp [arrayAt, hd] at h1
  | some d =>
    rw [hd] at he hfr
    refine ⟨Heap.mk hp1.nodes (hp1.arrays.set d none), ?_, hfr.1, ?_, hfr.2.2.1, ?_⟩
    · simp only [deleteArray, he]
    · simp only [List.length_set]
      exact hfr.2.1
    · intro a ha hna
      have hne : d ≠ a := fun e => hna (by rw [e])
      simp only [List.getD_eq_getElem?_getD, List.getElem?_set_ne hne]
      simpa only [List.getD_eq_getElem?_getD] using hfr.2.2.2 a ha hna

/-- Copy assignment from another object returns: the map assigned to has the chains of
entries and the counter of the map copied, in nodes and an array that are new, the map
copied is as it was, and no node or array of a third map is written to. -/
theorem copyAssign_simulates [DecidableEq K] {B : Nat} {hash : K → Nat} {hp : Heap K V}
    {self other : Raw} {arrs arro : List Bucket} {cs co : List (List (Nat × (K × V)))}
    (hs : Inv B hp self arrs cs) (ho : Inv B hp other arro co)
    (hdata : self.data ≠ other.data) (hdisj : ∀ a ∈ addrs cs, a ∉ addrs co)
    (hwf : HashMap.WF B hash (view other co)) (fuel : Nat)
    (hfs : cs.flatten.length < fuel) (hfo : co.flatten.length < fuel) :
    ∃ hp1 c arr1 c1, copyAssign B hash fuel false hp self other = some (Except.ok (hp1, c)) ∧
      view c c1 = view other co ∧ Inv B hp1 c arr1 c1 ∧ Inv B hp1 other arro co ∧
      c.data ≠ other.data ∧ (∀ a ∈ addrs c1, a ∉ addrs co) ∧
      Frame hp hp1 (addrs cs) self.data ∧ (∀ a ∈ addrs c1, hp.nodes.length ≤ a) := by
  obtain ⟨hpd, hed, hfrd⟩ := deleteArray_spec fuel hs hfs
  have hod : Inv B hpd other arro co :=
    Inv_of_Frame ho hfrd (fun a ha hm => hdisj a hm ha) (Ne.symm hdata)
  obtain ⟨hs0, ho0, hd0, hfr0⟩ := create_spec hod
  obtain ⟨hp1, c, arr1, c1, he, hv, hinv, ho1, hd1, hdisj1, hfr, hsub⟩ :=
    copyInto_simulates ho0 hs0 rfl hd0 hwf fuel hfo
  refine ⟨hp1, c, arr1, c1, ?_, hv, hinv, ho1, by rw [hd1]; exact hd0, hdisj1, ?_,
    fun a ha => le_trans hfrd.1 (le_trans hfr0.1 (hsub a ha))⟩
  · simp only [copyAssign, Bool.false_eq_true, if_false, hed, he]
  · refine ⟨le_trans hfrd.1 (le_trans hfr0.1 hfr.1), le_trans hfrd.2.1 (le_trans hfr0.2.1 hfr.2.1),
      fun a ha hna => ?_, fun a ha hna => ?_⟩
    · rw [hfr.2.2.1 a (lt_of_lt_of_le ha (le_trans hfrd.1 hfr0.1)) (List.not_mem_nil _),
        hfr0.2.2.1 a (lt_of_lt_of_le ha hfrd.1) (List.not_mem_nil _), hfrd.2.2.1 a ha hna]
    · rw [hfr.2.2.2 a (lt_of_lt_of_le ha (le_trans hfrd.2.1 hfr0.2.1)) ?_,
        hfr0.2.2.2 a (lt_of_lt_of_le ha hfrd.2.1) (by simp), hfrd.2.2.2 a ha hna]
      have := hfrd.2.1
      simp only [create, ne_eq, Option.some.injEq]
      omega

/-- Calls on a map whose nodes and array are none of those of a second map with the same
chains of entries and counter return, give what the calls on the second map would have
given, and leave the second map as it was. -/
theorem run_apart [DecidableEq K] [Inhabited V] {B : Nat} (hB : 0 < B) (hash : K → Nat)
    {hp1 : Heap K V} {c h : Raw} {arr1 arr : List Bucket}
    {c1 ch : List (List (Nat × (K × V)))} (hc : Inv B hp1 c arr1 c1)
    (hh : Inv B hp1 h arr ch) (hdata : c.data ≠ h.data)
    (hdisj : ∀ a ∈ addrs c1, a ∉ addrs ch) (hv : view c c1 = view h ch)
    (ops : List (Op K V)) (fuel : Nat) (hfuel : ch.flatten.length + ops.length < fuel) :
    ∃ hp2 c2 arr2 ch2, run B hash fuel (hp1, c) ops = some (hp2, c2) ∧
      Inv B hp2 c2 arr2 ch2 ∧ view c2 ch2 = HashMap.run B hash (view h ch) ops ∧
      Inv B hp2 h arr ch := by
  have hnum : c1.flatten.length = ch.flatten.length := by
    have h1 := congrArg List.length (entries_view c hc.2.2.1)
    rw [hv, entries_view h hh.2.2.1] at h1
    simp only [List.length_map] at h1
    exact h1.symm
  obtain ⟨hp2, c2, arr2, ch2, he, hv2, hinv2, -, hfr, -⟩ :=
    run_simulates hB hash ops fuel hc (by omega)
  exact ⟨hp2, c2, arr2, ch2, he, hinv2, by rw [hv2, hv],
    Inv_of_Frame hh hfr (fun a ha hmem => hdisj a hmem ha) (Ne.symm hdata)⟩

end Raw

end HashMap

/-! ## Claims: TreeMap -/

namespace TreeMap

open Tree

variable {K V : Type}

/-- C1, the code at the failing input. The map built by `m[2] = 20`, `m[1] = 10`,
`m[3] = 30` has key 2 in a node with both children and finds key 3 with value 30;
`remove(2)` succeeds and leaves the tree of the single key 1 (the left child spliced
into the place of the removed node, the successor 3 lost with the right subtree), after
which `find(3)` is `end()` and `valueOf(3)` throws. -/
theorem remove_two_children_loses_successor :
    run (empty : TreeMap Nat Nat) [Op.assign 2 20, Op.assign 1 10, Op.assign 3 30] =
        ⟨node (node null 1 10 null) 2 20 (node null 3 30 null), 3⟩ ∧
      valueOf (⟨node (node null 1 10 null) 2 20 (node null 3 30 null), 3⟩ : TreeMap Nat Nat) 3 =
        Except.ok 30 ∧
      remove (⟨node (node null 1 10 null) 2 20 (node null 3 30 null), 3⟩ : TreeMap Nat Nat) 2 =
        Except.ok ⟨node null 1 10 null, 2⟩ ∧
      find (⟨node null 1 10 null, 2⟩ : TreeMap Nat Nat) 3 = none ∧
      valueOf (⟨node null 1 10 null, 2⟩ : TreeMap Nat Nat) 3 = Except.error Error.out_of_range := by
  refine ⟨by decide, by decide, ?_, by decide, by decide⟩
  simp [remove, removeAt, find, findLoop, erase_eq, isEmpty, subtreeAt, isNull, setSlot]

/-- C2, the code at the failing input. After `m[2] = 20`, `m[1] = 10`, `m[3] = 30` and
`remove(2)`, `getSize()` is 2 while one node is reachable from the root and a forward
iteration visits one entry. -/
theorem getSize_exceeds_nodes_after_remove :
    (run (empty : TreeMap Nat Nat)
        [Op.assign 2 20, Op.assign 1 10, Op.assign 3 30, Op.remove 2]).getSize = 2 ∧
      numNodes (run (empty : TreeMap Nat Nat)
        [Op.assign 2 20, Op.assign 1 10, Op.assign 3 30, Op.remove 2]).root = 1 ∧
      traverse (run (empty : TreeMap Nat Nat)
        [Op.assign 2 20, Op.assign 1 10, Op.assign 3 30, Op.remove 2]) 3 =
        some (Except.ok [(1, 10)]) := by
  have h1 : run (empty : TreeMap Nat Nat) [Op.assign 2 20, Op.assign 1 10, Op.assign 3 30] =
      ⟨node (node null 1 10 null) 2 20 (node null 3 30 null), 3⟩ := by decide
  have h2 : remove (⟨node (node null 1 10 null) 2 20 (node null 3 30 null), 3⟩ :
      TreeMap Nat Nat) 2 = Except.ok ⟨node null 1 10 null, 2⟩ := by
    simp [remove, removeAt, find, findLoop, erase_eq, isEmpty, subtreeAt, isNull, setSlot]
  have h3 : run (empty : TreeMap Nat Nat)
      [Op.assign 2 20, Op.assign 1 10, Op.assign 3 30, Op.remove 2] =
      ⟨node null 1 10 null, 2⟩ := by
    have : run (empty : TreeMap Nat Nat)
        [Op.assign 2 20, Op.assign 1 10, Op.assign 3 30, Op.remove 2] =
        applyOp (run (empty : TreeMap Nat Nat)
          [Op.assign 2 20, Op.assign 1 10, Op.assign 3 30]) (Op.remove 2) := by
      simp only [run, List.foldl]
    rw [this, h1]
    simp only [applyOp, step, h2]
  rw [h3]
  decide

/-- C3. On a map that satisfies its invariant (ordered tree, counter not below the
number of nodes): `remove(key)` of a stored key succeeds, afterwards `find(key)` is
`end()` and `getSize()` is exactly one less; `remove(key)` of a key that is not stored
throws `out_of_range`, as does any `remove` on a map that `isEmpty()`. -/
theorem remove_spec [LinearOrder K] (m : TreeMap K V) (hwf : WF m) (key : K) :
    (key ∈ keys m.root →
      ∃ m1, remove m key = Except.ok m1 ∧ find m1 key = m1.end ∧
        m1.getSize + 1 = m.getSize) ∧
    (key ∉ keys m.root → remove m key = Except.error Error.out_of_range) ∧
    (m.isEmpty = true → remove m key = Except.error Error.out_of_range) := by
  refine ⟨fun hmem => ?_, fun hmem => remove_absent hwf.1 hmem, fun he => ?_⟩
  · obtain ⟨p, l, v, r, hp, -, hr, hsz⟩ := remove_ok hwf hmem
    refine ⟨_, hr, ?_, ?_⟩
    · exact (findLoop_eq_none_iff (BST_erase hwf.1 hp) key).mpr (not_mem_keys_erase hwf.1 hp)
    · simp only [getSize]
      omega
  · simp [remove, removeAt, he]

theorem remove_spec_witness :
    WF (⟨node (node null 1 10 null) 2 20 (node null 3 30 null), 3⟩ : TreeMap Nat Nat) ∧
    ((1 ∈ keys (node (node null 1 10 null) 2 20 (node null 3 30 null) : Tree Nat Nat) →
      ∃ m1, remove (⟨node (node null 1 10 null) 2 20 (node null 3 30 null), 3⟩ :
          TreeMap Nat Nat) 1 = Except.ok m1 ∧ find m1 1 = m1.end ∧
        m1.getSize + 1 = 3) ∧
    (1 ∉ keys (node (node null 1 10 null) 2 20 (node null 3 30 null) : Tree Nat Nat) →
      remove (⟨node (node null 1 10 null) 2 20 (node null 3 30 null), 3⟩ :
        TreeMap Nat Nat) 1 = Except.error Error.out_of_range) ∧
    (isEmpty (⟨node (node null 1 10 null) 2 20 (node null 3 30 null), 3⟩ :
        TreeMap Nat Nat) = true →
      remove (⟨node (node null 1 10 null) 2 20 (node null 3 30 null), 3⟩ :
        TreeMap Nat Nat) 1 = Except.error Error.out_of_range)) :=
  ⟨by decide, remove_spec ⟨node (node null 1 10 null) 2 20 (node null 3 30 null), 3⟩
    (by decide) 1⟩

/-- C4. On a map whose tree is ordered, `m[key] = value` succeeds, afterwards
`find(key)` is not `end()` and `valueOf(key)` returns `value`; `getSize()` grows by
exactly one when the key was not stored and is unchanged when it was; and a bare
`m[key]` on a stored key returns the stored value and leaves the map as it was. -/
theorem assign_spec [LinearOrder K] [Inhabited V] (m : TreeMap K V) (hb : BST m.root)
    (key : K) (value : V) :
    (∃ m1, assign m key value = Except.ok m1 ∧ find m1 key ≠ m1.end ∧
        valueOf m1 key = Except.ok value ∧
        (key ∉ keys m.root → m1.getSize = m.getSize + 1) ∧
        (key ∈ keys m.root → m1.getSize = m.getSize)) ∧
    (∀ v, (key, v) ∈ toList m.root → access m key = Except.ok (m, v)) := by
  constructor
  · obtain ⟨m1, p, l, r, h1, h2, h3, -, h5, h6⟩ := assign_ok hb key value
    have hf : find m1 key = some p := findLoop_of_subtreeAt h2 h3
    refine ⟨m1, h1, ?_, ?_, fun hn => (h6 hn).1, fun hmem => (h5 hmem).1⟩
    · rw [hf]
      simp [«end»]
    · simp [valueOf, hf, deref, h3]
  · intro v hv
    have hmem : key ∈ keys m.root := by
      rw [keys_eq_map_toList]
      exact List.mem_map.mpr ⟨(key, v), hv, rfl⟩
    obtain ⟨m1, w, h1, -, -, h4, -⟩ := access_ok hb key
    obtain ⟨h5, h6⟩ := h4 hmem
    rw [h1, h5, value_unique_of_BST hb h6 hv]

theorem assign_spec_witness :
    BST (node (node null 1 10 null) 2 20 null : Tree Nat Nat) ∧
    ((∃ m1, assign (⟨node (node null 1 10 null) 2 20 null, 2⟩ : TreeMap Nat Nat) 3 30 =
          Except.ok m1 ∧ find m1 3 ≠ m1.end ∧ valueOf m1 3 = Except.ok 30 ∧
        (3 ∉ keys (node (node null 1 10 null) 2 20 null : Tree Nat Nat) →
          m1.getSize = getSize (⟨node (node null 1 10 null) 2 20 null, 2⟩ : TreeMap Nat Nat) + 1) ∧
        (3 ∈ keys (node (node null 1 10 null) 2 20 null : Tree Nat Nat) →
          m1.getSize = getSize (⟨node (node null 1 10 null) 2 20 null, 2⟩ : TreeMap Nat Nat))) ∧
    (∀ v, (3, v) ∈ toList (node (node null 1 10 null) 2 20 null : Tree Nat Nat) →
      access (⟨node (node null 1 10 null) 2 20 null, 2⟩ : TreeMap Nat Nat) 3 =
        Except.ok (⟨node (node null 1 10 null) 2 20 null, 2⟩, v))) :=
  ⟨by decide, assign_spec ⟨node (node null 1 10 null) 2 20 null, 2⟩ (by decide) 3 30⟩

/-- C5. After any list of `operator[]` insertions (`m[k]` or `m[k] = v`) into an empty
map, the forward iteration from `begin()` to `end()` ends normally and the keys it
visits are the distinct keys inserted, each once, in ascending order. -/
theorem traverse_insertions [LinearOrder K] [Inhabited V] (ops : List (Op K V))
    (hins : ∀ op ∈ ops, op.isInsertion = true) (n : Nat) :
    ∃ es, traverse (run empty ops) ((run empty ops).getSize + (n + 1)) = some (Except.ok es) ∧
      es.map Prod.fst = (ops.map Op.key).toFinset.sort (· ≤ ·) := by
  obtain ⟨h1, h2, h3⟩ := run_insertions (empty : TreeMap K V) (by simp [empty, BST])
    (by simp [empty, numNodes]) ops hins
  refine ⟨toList (run empty ops).root, ?_, ?_⟩
  · rw [getSize, h2]
    exact traverse_eq _ h1 n
  · rw [← keys_eq_map_toList]
    apply eq_sort_of_sorted ((BST_iff_sorted _).mp h1)
    intro x
    rw [h3 x]
    simp [empty, keys]

theorem traverse_insertions_witness :
    (∀ op ∈ [Op.assign 5 50, Op.access 3, Op.assign 8 80, Op.access 1, Op.assign 4 40],
      Op.isInsertion (op : Op Nat Nat) = true) ∧
    (∃ es, traverse (run (empty : TreeMap Nat Nat)
        [Op.assign 5 50, Op.access 3, Op.assign 8 80, Op.access 1, Op.assign 4 40])
        ((run (empty : TreeMap Nat Nat)
          [Op.assign 5 50, Op.access 3, Op.assign 8 80, Op.access 1, Op.assign 4 40]).getSize
          + (0 + 1)) = some (Except.ok es) ∧
      es.map Prod.fst =
        (([Op.assign 5 50, Op.access 3, Op.assign 8 80, Op.access 1, Op.assign 4 40] :
          List (Op Nat Nat)).map Op.key).toFinset.sort (· ≤ ·)) ∧
    traverse (run (empty : TreeMap Nat Nat)
        [Op.assign 5 50, Op.access 3, Op.assign 8 80, Op.access 1, Op.assign 4 40]) 6 =
      some (Except.ok [(1, 0), (3, 0), (4, 40), (5, 50), (8, 80)]) :=
  ⟨by decide, traverse_insertions _ (by decide) 0, by decide⟩

/-- C6. After any sequence of `operator[]` insertions and `remove` calls on an empty
map (a `remove` that throws leaving the map as it was), the tree is ordered, its keys
are unique, and the forward iteration from `begin()` to `end()` ends normally and
visits the entries in strictly ascending order of their keys. -/
theorem run_keeps_order [LinearOrder K] [Inhabited V] (ops : List (Op K V)) (n : Nat) :
    BST (run empty ops).root ∧ (keys (run empty ops).root).Nodup ∧
      ∃ es, traverse (run empty ops) ((run empty ops).getSize + (n + 1)) =
          some (Except.ok es) ∧
        (es.map Prod.fst).Pairwise (· < ·) := by
  have hwf : WF (run (empty : TreeMap K V) ops) := WF_run WF_empty ops
  refine ⟨hwf.1, hwf.1.nodup_keys, toList (run empty ops).root, ?_, ?_⟩
  · have hle := hwf.2
    have hfuel : (run (empty : TreeMap K V) ops).getSize + (n + 1) =
        numNodes (run (empty : TreeMap K V) ops).root +
          (((run (empty : TreeMap K V) ops).size -
            numNodes (run (empty : TreeMap K V) ops).root + n) + 1) := by
      simp only [getSize]
      omega
    rw [hfuel]
    exact traverse_eq _ hwf.1 _
  · rw [← keys_eq_map_toList]
    exact (BST_iff_sorted _).mp hwf.1

/-- C10. For two maps built from the empty map by `operator[]` insertions, `a == b`
ends normally and is true exactly when the two sequences of key/value pairs in
ascending key order are equal; in particular the same pairs (with distinct keys)
assigned in two different orders give maps that compare equal, whatever the shapes of
the two trees. -/
theorem eq_spec [LinearOrder K] [Inhabited V] [DecidableEq V] (opsA opsB : List (Op K V))
    (hA : ∀ op ∈ opsA, op.isInsertion = true) (hB : ∀ op ∈ opsB, op.isInsertion = true)
    (n : Nat) :
    eq ((run empty opsA).getSize + (n + 1)) (run empty opsA) (run empty opsB) =
        some (Except.ok (decide (toList (run empty opsA).root = toList (run empty opsB).root))) ∧
      ((toList (run empty opsA).root).map Prod.fst).Pairwise (· < ·) ∧
      ((toList (run empty opsB).root).map Prod.fst).Pairwise (· < ·) ∧
      (∀ xs ys : List (K × V), (xs.map Prod.fst).Nodup → xs.Perm ys →
        opsA = xs.map (fun kv => Op.assign kv.1 kv.2) →
        opsB = ys.map (fun kv => Op.assign kv.1 kv.2) →
        eq ((run empty opsA).getSize + (n + 1)) (run empty opsA) (run empty opsB) =
          some (Except.ok true)) := by
  have he : BST (empty : TreeMap K V).root := by simp [empty, BST]
  obtain ⟨a1, a2, -⟩ := run_insertions (empty : TreeMap K V) he
    (by simp [empty, numNodes]) opsA hA
  obtain ⟨b1, b2, -⟩ := run_insertions (empty : TreeMap K V) he
    (by simp [empty, numNodes]) opsB hB
  have hsa : ((toList (run empty opsA).root).map Prod.fst).Pairwise (· < ·) := by
    rw [← keys_eq_map_toList]
    exact (BST_iff_sorted _).mp a1
  have hsb : ((toList (run empty opsB).root).map Prod.fst).Pairwise (· < ·) := by
    rw [← keys_eq_map_toList]
    exact (BST_iff_sorted _).mp b1
  have hmain := eq_of_BST _ _ a1 b1 a2 b2 n
  refine ⟨hmain, hsa, hsb, ?_⟩
  intro xs ys hnd hperm hxs hys
  have hnd2 : (ys.map Prod.fst).Nodup := (hperm.map Prod.fst).nodup_iff.mp hnd
  have hl : toList (run (empty : TreeMap K V) opsA).root = toList (run empty opsB).root := by
    apply eq_of_sorted_of_mem hsa hsb
    intro x
    rw [hxs, hys, toList_run_assigns empty he xs hnd (by simp [empty, keys]),
      toList_run_assigns empty he ys hnd2 (by simp [empty, keys])]
    simp [empty, toList, hperm.mem_iff]
  rw [getSize, hmain, hl]
  simp

theorem eq_spec_witness :
    (∀ op ∈ [Op.assign 1 10, Op.assign 2 20], Op.isInsertion (op : Op Nat Nat) = true) ∧
    (∀ op ∈ [Op.assign 2 20, Op.assign 1 10], Op.isInsertion (op : Op Nat Nat) = true) ∧
    (run (empty : TreeMap Nat Nat) [Op.assign 1 10, Op.assign 2 20]).root =
      node null 1 10 (node null 2 20 null) ∧
    (run (empty : TreeMap Nat Nat) [Op.assign 2 20, Op.assign 1 10]).root =
      node (node null 1 10 null) 2 20 null ∧
    eq 3 (run (empty : TreeMap Nat Nat) [Op.assign 1 10, Op.assign 2 20])
      (run (empty : TreeMap Nat Nat) [Op.assign 2 20, Op.assign 1 10]) =
      some (Except.ok true) ∧
    eq ((run (empty : TreeMap Nat Nat) [Op.assign 1 10, Op.assign 2 20]).getSize + (0 + 1))
        (run (empty : TreeMap Nat Nat) [Op.assign 1 10, Op.assign 2 20])
        (run (empty : TreeMap Nat Nat) [Op.assign 2 20, Op.assign 1 10]) =
      some (Except.ok (decide (
        toList (run (empty : TreeMap Nat Nat) [Op.assign 1 10, Op.assign 2 20]).root =
        toList (run (empty : TreeMap Nat Nat) [Op.assign 2 20, Op.assign 1 10]).root))) :=
  ⟨by decide, by decide, by decide, by decide, by decide,
    (eq_spec [Op.assign 1 10, Op.assign 2 20] [Op.assign 2 20, Op.assign 1 10]
      (by decide) (by decide) 0).1⟩

end TreeMap

/-! ## Claims: HashMap -/

namespace HashMap

variable {K V : Type}

/-- C7. On a map that satisfies its invariant, `m[key] = value` succeeds, afterwards
`find(key)` is not `end()` and `valueOf(key)` returns `value`; when the key was not
stored `getSize()` grows by exactly one and the pair is the new last entry of the chain
of bucket `hash(key) % B`; when the key was stored `getSize()` is unchanged. -/
theorem assign_bucket_spec [DecidableEq K] [Inhabited V] (B : Nat) (hash : K → Nat)
    (m : HashMap K V) (hwf : WF B hash m) (key : K) (value : V) :
    ∃ m1, assign B hash m key value = Except.ok m1 ∧
      find B hash m1 key ≠ «end» B m1 ∧
      valueOf B hash m1 key = Except.ok value ∧
      (key ∉ (entries B m).map Prod.fst →
        m1.getSize = m.getSize + 1 ∧
        (m1.bucketAt (hash key % B)).elems =
          (m.bucketAt (hash key % B)).elems ++ [(key, value)]) ∧
      (key ∈ (entries B m).map Prod.fst → m1.getSize = m.getSize) := by
  have hb : hash key % B < B := Nat.mod_lt _ hwf.1
  have hbl : hash key % B < m.data.length := by rw [hwf.2.1]; exact hb
  have hcw : LinkedList.WF (m.bucketAt (hash key % B)) := hwf.2.2.1 _ hb
  by_cases hmem : key ∈ (entries B m).map Prod.fst
  · have hmem2 := (mem_keys_iff_bucket hwf key).mp hmem
    obtain ⟨⟨k, v0⟩, hkv, hk⟩ := List.mem_map.mp hmem2
    simp only at hk
    subst hk
    obtain ⟨i, hget, hass⟩ := assign_of_mem hwf hkv value
    have hwf1 : WF B hash (HashMap.mk (m.data.set (hash k % B)
        (LinkedList.mk (setSecond (m.bucketAt (hash k % B)).elems i value)
          (m.bucketAt (hash k % B)).size)) m.size) := by
      apply WF_set hwf hb
      · simp only [LinkedList.WF, length_setSecond]
        exact hcw
      · simp only [length_setSecond]
      · intro kv hkv2
        have : kv.1 ∈ (m.bucketAt (hash k % B)).elems.map Prod.fst := by
          rw [← map_fst_setSecond _ i value]
          exact List.mem_map.mpr ⟨kv, hkv2, rfl⟩
        obtain ⟨kv3, hkv3, he⟩ := List.mem_map.mp this
        rw [← he]
        exact hwf.2.2.2.2.1 _ hb kv3 hkv3
      · simp only [map_fst_setSecond]
        exact hwf.2.2.2.2.2 _ hb
    have hin : (k, value) ∈ (bucketAt (HashMap.mk (m.data.set (hash k % B)
        (LinkedList.mk (setSecond (m.bucketAt (hash k % B)).elems i value)
          (m.bucketAt (hash k % B)).size)) m.size) (hash k % B)).elems := by
      rw [bucketAt_set m hbl]
      simp only [if_true]
      exact List.getElem?_mem (getElem?_setSecond hget value)
    obtain ⟨-, -, -, -, hne, hval⟩ := find_of_mem hwf1 hin
    exact ⟨_, hass, hne, hval, fun hn => absurd hmem hn, fun _ => rfl⟩
  · have hmem2 : key ∉ (m.bucketAt (hash key % B)).elems.map Prod.fst :=
      fun h => hmem ((mem_keys_iff_bucket hwf key).mpr h)
    obtain ⟨m1, hass, hwf1, hsz, hel, -⟩ := assign_absent_spec hwf hmem2 value
    have hin : (key, value) ∈ (m1.bucketAt (hash key % B)).elems := by
      rw [hel]
      simp
    obtain ⟨-, -, -, -, hne, hval⟩ := find_of_mem hwf1 hin
    exact ⟨m1, hass, hne, hval, fun _ => ⟨hsz, hel⟩, fun h => absurd h hmem⟩

theorem assign_bucket_spec_witness :
    WF 4 id (⟨[⟨[(0, 5), (4, 6)], 2⟩, ⟨[(1, 7)], 1⟩, ⟨[], 0⟩, ⟨[], 0⟩], 3⟩ : HashMap Nat Nat) ∧
    ∃ m1, assign 4 id (⟨[⟨[(0, 5), (4, 6)], 2⟩, ⟨[(1, 7)], 1⟩, ⟨[], 0⟩, ⟨[], 0⟩], 3⟩ :
        HashMap Nat Nat) 8 9 = Except.ok m1 ∧
      find 4 id m1 8 ≠ «end» 4 m1 ∧
      valueOf 4 id m1 8 = Except.ok 9 ∧
      (8 ∉ (entries 4 (⟨[⟨[(0, 5), (4, 6)], 2⟩, ⟨[(1, 7)], 1⟩, ⟨[], 0⟩, ⟨[], 0⟩], 3⟩ :
          HashMap Nat Nat)).map Prod.fst →
        m1.getSize = getSize (⟨[⟨[(0, 5), (4, 6)], 2⟩, ⟨[(1, 7)], 1⟩, ⟨[], 0⟩, ⟨[], 0⟩], 3⟩ :
          HashMap Nat Nat) + 1 ∧
        (m1.bucketAt (id 8 % 4)).elems =
          (bucketAt (⟨[⟨[(0, 5), (4, 6)], 2⟩, ⟨[(1, 7)], 1⟩, ⟨[], 0⟩, ⟨[], 0⟩], 3⟩ :
            HashMap Nat Nat) (id 8 % 4)).elems ++ [(8, 9)]) ∧
      (8 ∈ (entries 4 (⟨[⟨[(0, 5), (4, 6)], 2⟩, ⟨[(1, 7)], 1⟩, ⟨[], 0⟩, ⟨[], 0⟩], 3⟩ :
          HashMap Nat Nat)).map Prod.fst →
        m1.getSize = getSize (⟨[⟨[(0, 5), (4, 6)], 2⟩, ⟨[(1, 7)], 1⟩, ⟨[], 0⟩, ⟨[], 0⟩], 3⟩ :
          HashMap Nat Nat)) :=
  ⟨by decide, assign_bucket_spec 4 id _ (by decide) 8 9⟩

/-- C8. On a map that satisfies its invariant, `remove(key)` of a stored key succeeds
and removes exactly that key: afterwards `find(key)` is `end()`, `getSize()` is one
less, and every other stored key (of the same bucket or of another) is still found with
its value; `remove(key)` of a key that is not stored throws `out_of_range`, as does any
`remove` on a map that `isEmpty()`. -/
theorem remove_bucket_spec [DecidableEq K] (B : Nat) (hash : K → Nat) (m : HashMap K V)
    (hwf : WF B hash m) (key : K) :
    (key ∈ (entries B m).map Prod.fst →
      ∃ m1, remove B hash m key = Except.ok m1 ∧
        find B hash m1 key = «end» B m1 ∧
        m1.getSize + 1 = m.getSize ∧
        ∀ k v, k ≠ key → (k, v) ∈ entries B m →
          find B hash m1 k ≠ «end» B m1 ∧ valueOf B hash m1 k = Except.ok v) ∧
    (key ∉ (entries B m).map Prod.fst →
      remove B hash m key = Except.error Error.out_of_range) ∧
    (m.isEmpty = true → remove B hash m key = Except.error Error.out_of_range) := by
  have hb : hash key % B < B := Nat.mod_lt _ hwf.1
  have hbl : hash key % B < m.data.length := by rw [hwf.2.1]; exact hb
  have hcw : LinkedList.WF (m.bucketAt (hash key % B)) := hwf.2.2.1 _ hb
  refine ⟨fun hmem => ?_, fun hmem => ?_, fun he => ?_⟩
  · have hmem2 := (mem_keys_iff_bucket hwf key).mp hmem
    obtain ⟨⟨k0, v0⟩, hkv, hk⟩ := List.mem_map.mp hmem2
    simp only at hk
    subst hk
    obtain ⟨i, hget, hpos, hrem⟩ := remove_of_mem hwf hkv
    have hlen : i < (m.bucketAt (hash k0 % B)).elems.length := by
      rw [List.getElem?_eq_some] at hget
      exact hget.1
    have hnd := hwf.2.2.2.2.2 _ hb
    have hmemE := mem_eraseIdx_of_nodup hnd hget
    have hwf1 : WF B hash (HashMap.mk (m.data.set (hash k0 % B)
        (LinkedList.mk ((m.bucketAt (hash k0 % B)).elems.eraseIdx i)
          ((m.bucketAt (hash k0 % B)).size - 1))) (m.size - 1)) := by
      apply WF_set hwf hb
      · simp only [LinkedList.WF, List.length_eraseIdx, hlen, if_true]
        rw [hcw]
      · simp only [List.length_eraseIdx, hlen, if_true]
        omega
      · intro kv hkv2
        exact hwf.2.2.2.2.1 _ hb kv ((hmemE kv).mp hkv2).1
      · exact hnd.sublist ((List.eraseIdx_sublist _ _).map Prod.fst)
    refine ⟨_, hrem, ?_, ?_, ?_⟩
    · apply (find_of_not_mem B hash _ _).2.1
      rw [bucketAt_set m hbl]
      simp only [if_true]
      intro hin
      obtain ⟨kv, hkv2, he⟩ := List.mem_map.mp hin
      exact ((hmemE kv).mp hkv2).2 he
    · simp only [getSize]
      omega
    · intro k v hne hkv2
      have hkv3 := (mem_entries_iff_bucket hwf k v).mp hkv2
      have hin : (k, v) ∈ (bucketAt (HashMap.mk (m.data.set (hash k0 % B)
          (LinkedList.mk ((m.bucketAt (hash k0 % B)).elems.eraseIdx i)
            ((m.bucketAt (hash k0 % B)).size - 1))) (m.size - 1)) (hash k % B)).elems := by
        rw [bucketAt_set m hbl]
        by_cases hbk : hash k % B = hash k0 % B
        · simp only [hbk, if_true]
          rw [hbk] at hkv3
          exact (hmemE (k, v)).mpr ⟨hkv3, hne⟩
        · simp only [hbk, if_false]
          exact hkv3
      obtain ⟨-, -, -, -, hne2, hval⟩ := find_of_mem hwf1 hin
      exact ⟨hne2, hval⟩
  · exact remove_of_not_mem B hash m (fun h => hmem ((mem_keys_iff_bucket hwf key).mpr h))
  · simp [remove, he]

theorem remove_bucket_spec_witness :
    WF 4 id (⟨[⟨[(0, 5), (4, 6)], 2⟩, ⟨[(1, 7)], 1⟩, ⟨[], 0⟩, ⟨[], 0⟩], 3⟩ : HashMap Nat Nat) ∧
    run 4 id (empty 4 : HashMap Nat Nat) [Op.assign 0 5, Op.assign 4 6, Op.assign 1 7] =
      ⟨[⟨[(0, 5), (4, 6)], 2⟩, ⟨[(1, 7)], 1⟩, ⟨[], 0⟩, ⟨[], 0⟩], 3⟩ ∧
    remove 4 id (⟨[⟨[(0, 5), (4, 6)], 2⟩, ⟨[(1, 7)], 1⟩, ⟨[], 0⟩, ⟨[], 0⟩], 3⟩ :
        HashMap Nat Nat) 0 =
      Except.ok ⟨[⟨[(4, 6)], 1⟩, ⟨[(1, 7)], 1⟩, ⟨[], 0⟩, ⟨[], 0⟩], 2⟩ ∧
    valueOf 4 id (⟨[⟨[(4, 6)], 1⟩, ⟨[(1, 7)], 1⟩, ⟨[], 0⟩, ⟨[], 0⟩], 2⟩ : HashMap Nat Nat) 4 =
      Except.ok 6 ∧
    ((0 ∈ (entries 4 (⟨[⟨[(0, 5), (4, 6)], 2⟩, ⟨[(1, 7)], 1⟩, ⟨[], 0⟩, ⟨[], 0⟩], 3⟩ :
          HashMap Nat Nat)).map Prod.fst →
      ∃ m1, remove 4 id (⟨[⟨[(0, 5), (4, 6)], 2⟩, ⟨[(1, 7)], 1⟩, ⟨[], 0⟩, ⟨[], 0⟩], 3⟩ :
          HashMap Nat Nat) 0 = Except.ok m1 ∧
        find 4 id m1 0 = «end» 4 m1 ∧
        m1.getSize + 1 = getSize (⟨[⟨[(0, 5), (4, 6)], 2⟩, ⟨[(1, 7)], 1⟩, ⟨[], 0⟩, ⟨[], 0⟩], 3⟩ :
          HashMap Nat Nat) ∧
        ∀ k v, k ≠ 0 →
          (k, v) ∈ entries 4 (⟨[⟨[(0, 5), (4, 6)], 2⟩, ⟨[(1, 7)], 1⟩, ⟨[], 0⟩, ⟨[], 0⟩], 3⟩ :
            HashMap Nat Nat) →
          find 4 id m1 k ≠ «end» 4 m1 ∧ valueOf 4 id m1 k = Except.ok v) ∧
    (0 ∉ (entries 4 (⟨[⟨[(0, 5), (4, 6)], 2⟩, ⟨[(1, 7)], 1⟩, ⟨[], 0⟩, ⟨[], 0⟩], 3⟩ :
          HashMap Nat Nat)).map Prod.fst →
      remove 4 id (⟨[⟨[(0, 5), (4, 6)], 2⟩, ⟨[(1, 7)], 1⟩, ⟨[], 0⟩, ⟨[], 0⟩], 3⟩ :
        HashMap Nat Nat) 0 = Except.error Error.out_of_range) ∧
    (isEmpty (⟨[⟨[(0, 5), (4, 6)], 2⟩, ⟨[(1, 7)], 1⟩, ⟨[], 0⟩, ⟨[], 0⟩], 3⟩ :
        HashMap Nat Nat) = true →
      remove 4 id (⟨[⟨[(0, 5), (4, 6)], 2⟩, ⟨[(1, 7)], 1⟩, ⟨[], 0⟩, ⟨[], 0⟩], 3⟩ :
        HashMap Nat Nat) 0 = Except.error Error.out_of_range)) :=
  ⟨by decide, by decide, by decide, by decide, remove_bucket_spec 4 id _ (by decide) 0⟩

/-- C9. On two maps that satisfy the invariant, `a == b` ends normally and is true
exactly when, for every bucket index, the two chains are equal as sequences of pairs;
in particular two distinct keys of one bucket assigned to an empty map in opposite
orders give maps that compare unequal. -/
theorem eq_buckets_spec [DecidableEq K] [DecidableEq V] [Inhabited V] (B : Nat)
    (hash : K → Nat) (a b : HashMap K V) (ha : WF B hash a) (hb : WF B hash b) :
    eq B a b =
        Except.ok (decide (∀ i < B, (a.bucketAt i).elems = (b.bucketAt i).elems)) ∧
      ∀ (k1 k2 : K) (v1 v2 w1 w2 : V), k1 ≠ k2 → hash k1 % B = hash k2 % B →
        eq B (run B hash (empty B) [Op.assign k1 v1, Op.assign k2 v2])
          (run B hash (empty B) [Op.assign k2 w2, Op.assign k1 w1]) = Except.ok false := by
  have hloop : ∀ x y : HashMap K V, WF B hash x → WF B hash y →
      eq B x y = Except.ok (decide (∀ i < B, (x.bucketAt i).elems = (y.bucketAt i).elems)) := by
    intro x y hx hy
    have h := eqLoop_eq x y B 0 (fun j _ hj => hx.2.2.1 j (by omega))
      (fun j _ hj => hy.2.2.1 j (by omega))
    have hiff : (∀ j, 0 ≤ j → j < 0 + B → (x.bucketAt j).elems = (y.bucketAt j).elems) ↔
        (∀ i < B, (x.bucketAt i).elems = (y.bucketAt i).elems) := by
      constructor
      · intro h1 i hi
        exact h1 i (Nat.zero_le i) (by omega)
      · intro h1 j _ hj
        exact h1 j (by omega)
    unfold eq
    by_cases hs : x.size = y.size
    · simp only [hs, ne_eq, not_true_eq_false, if_false]
      rw [h, decide_eq_decide.mpr hiff]
    · have hnot : ¬ (∀ i < B, (x.bucketAt i).elems = (y.bucketAt i).elems) := by
        intro hall
        apply hs
        rw [hx.2.2.2.1, hy.2.2.2.1]
        simp only [entries]
        have : (List.range B).flatMap (fun i => (x.bucketAt i).elems) =
            (List.range B).flatMap (fun i => (y.bucketAt i).elems) := by
          apply List.flatMap_congr
          intro i hi
          exact hall i (List.mem_range.mp hi)
        rw [this]
      simp only [ne_eq, hs, not_false_eq_true, if_true]
      rw [decide_eq_false hnot]
  refine ⟨hloop a b ha hb, ?_⟩
  intro k1 k2 v1 v2 w1 w2 hne hbk
  have hB : 0 < B := ha.1
  obtain ⟨hwa, hca⟩ := run_two_assigns hB hash k1 k2 v1 v2 hne hbk
  obtain ⟨hwb, hcb⟩ := run_two_assigns hB hash k2 k1 w2 w1 (fun h => hne h.symm) hbk.symm
  have hnot : ¬ (∀ i < B,
      (bucketAt (run B hash (empty B) [Op.assign k1 v1, Op.assign k2 v2]) i).elems =
      (bucketAt (run B hash (empty B) [Op.assign k2 w2, Op.assign k1 w1]) i).elems) := by
    intro hall
    have h1 := hall (hash k1 % B) (Nat.mod_lt _ hB)
    rw [hca] at h1
    rw [hbk, hcb] at h1
    simp only [List.cons.injEq, Prod.mk.injEq] at h1
    exact hne h1.1.1
  rw [hloop _ _ hwa hwb, decide_eq_false hnot]

theorem eq_buckets_spec_witness :
    WF 4 id (run 4 id (empty 4 : HashMap Nat Nat) [Op.assign 0 5, Op.assign 4 6, Op.assign 1 7]) ∧
    WF 4 id (run 4 id (empty 4 : HashMap Nat Nat) [Op.assign 1 7, Op.assign 0 5, Op.assign 4 6]) ∧
    eq 4 (run 4 id (empty 4 : HashMap Nat Nat) [Op.assign 0 5, Op.assign 4 6, Op.assign 1 7])
      (run 4 id (empty 4 : HashMap Nat Nat) [Op.assign 1 7, Op.assign 0 5, Op.assign 4 6]) =
      Except.ok true ∧
    eq 4 (run 4 id (empty 4 : HashMap Nat Nat) [Op.assign 0 5, Op.assign 4 6, Op.assign 1 7])
      (run 4 id (empty 4 : HashMap Nat Nat) [Op.assign 4 6, Op.assign 0 5, Op.assign 1 7]) =
      Except.ok false ∧
    eq 4 (run 4 id (empty 4 : HashMap Nat Nat) [Op.assign 0 5, Op.assign 4 6, Op.assign 1 7])
      (run 4 id (empty 4 : HashMap Nat Nat) [Op.assign 1 7, Op.assign 0 5, Op.assign 4 6]) =
      Except.ok (decide (∀ i : Nat, i < 4 →
        (bucketAt (run 4 id (empty 4 : HashMap Nat Nat)
          [Op.assign 0 5, Op.assign 4 6, Op.assign 1 7]) i).elems =
        (bucketAt (run 4 id (empty 4 : HashMap Nat Nat)
          [Op.assign 1 7, Op.assign 0 5, Op.assign 4 6]) i).elems)) :=
  ⟨by decide, by decide, by decide, by decide,
    (eq_buckets_spec 4 id _ _ (by decide) (by decide)).1⟩

end HashMap

/-! ## Claims: LinkedList -/

namespace LinkedList

variable {α : Type}

/-- C12. On a well-formed list with contents `x :: rest`, `popFirst()` returns `x` and
leaves the contents `rest` with the size one less; on a well-formed list with contents
`init ++ [y]`, `popLast()` returns `y` and leaves the contents `init` with the size one
less; on a list that `isEmpty()` both throw `logic_error` (and leave the list as it
was). -/
theorem pop_spec (moved : α → α) (l : LinkedList α) (hwf : WF l) :
    (∀ x rest, l.elems = x :: rest →
      popFirst moved l = (Except.ok x, LinkedList.mk rest (l.getSize - 1)) ∧
        l.getSize - 1 + 1 = l.getSize) ∧
    (∀ init y, l.elems = init ++ [y] →
      popLast moved l = (Except.ok y, LinkedList.mk init (l.getSize - 1)) ∧
        l.getSize - 1 + 1 = l.getSize) ∧
    (l.elems = [] →
      popFirst moved l = (Except.error Error.logic_error, l) ∧
        popLast moved l = (Except.error Error.logic_error, l)) := by
  refine ⟨fun x rest h => ?_, fun init y h => ?_, fun h => ?_⟩
  · refine ⟨popFirst_cons moved hwf h, ?_⟩
    have : l.size = rest.length + 1 := by
      rw [hwf, h]
      rfl
    simp only [getSize]
    omega
  · refine ⟨popLast_append moved hwf h, ?_⟩
    have : l.size = init.length + 1 := by
      rw [hwf, h]
      simp
    simp only [getSize]
    omega
  · have hs : l.size = 0 := by
      rw [hwf, h]
      rfl
    simp [popFirst, popLast, isEmpty, hs]

theorem pop_spec_witness :
    WF (append (append (append (empty : LinkedList Nat) 1) 2) 3) ∧
    (append (append (append (empty : LinkedList Nat) 1) 2) 3).elems = [1, 2, 3] ∧
    popFirst id (append (append (append (empty : LinkedList Nat) 1) 2) 3) =
      (Except.ok 1, ⟨[2, 3], 2⟩) ∧
    popLast id (⟨[2, 3], 2⟩ : LinkedList Nat) = (Except.ok 3, ⟨[2], 1⟩) ∧
    popFirst id (append (append (append (empty : LinkedList Nat) 1) 2) 3) =
      (Except.ok 1, LinkedList.mk [2, 3]
        ((append (append (append (empty : LinkedList Nat) 1) 2) 3).getSize - 1)) :=
  ⟨by decide, by decide, by decide, by decide,
    ((pop_spec id (append (append (append (empty : LinkedList Nat) 1) 2) 3)
      (by decide)).1 1 [2, 3] (by decide)).1⟩

/-- C13. On a well-formed list with contents `xs`, `insert` at the position `i` (from 0
to the length of `xs`, the length being the end iterator) leaves the contents
`take i xs ++ [v] ++ drop i xs` and makes the size one more; `append(v)` is the insertion
at the length of `xs` and `prepend(v)` the insertion at position 0. -/
theorem insert_spec (l : LinkedList α) (hwf : WF l) (i : Nat) (hi : i ≤ l.elems.length)
    (v : α) :
    (insert l (iteratorAt l i) v).elems = l.elems.take i ++ [v] ++ l.elems.drop i ∧
      (insert l (iteratorAt l i) v).getSize = l.getSize + 1 ∧
      append l v = insert l (iteratorAt l l.elems.length) v ∧
      prepend l v = insert l (iteratorAt l 0) v := by
  rw [insert_iteratorAt hwf hi]
  refine ⟨rfl, ?_, ?_, ?_⟩
  · simp only [getSize]
    rw [hwf]
  · rw [iteratorAt_of_ge l (le_refl _)]
    rfl
  · rw [← begin_eq_iteratorAt]
    rfl

theorem insert_spec_witness :
    WF (⟨[10, 20, 30], 3⟩ : LinkedList Nat) ∧ 1 ≤ (⟨[10, 20, 30], 3⟩ : LinkedList Nat).elems.length ∧
    (insert (⟨[10, 20, 30], 3⟩ : LinkedList Nat) (iteratorAt ⟨[10, 20, 30], 3⟩ 1) 15).elems =
      [10, 15, 20, 30] ∧
    ((insert (⟨[10, 20, 30], 3⟩ : LinkedList Nat) (iteratorAt ⟨[10, 20, 30], 3⟩ 1) 15).elems =
        (⟨[10, 20, 30], 3⟩ : LinkedList Nat).elems.take 1 ++ [15] ++
          (⟨[10, 20, 30], 3⟩ : LinkedList Nat).elems.drop 1 ∧
      (insert (⟨[10, 20, 30], 3⟩ : LinkedList Nat) (iteratorAt ⟨[10, 20, 30], 3⟩ 1) 15).getSize =
        (⟨[10, 20, 30], 3⟩ : LinkedList Nat).getSize + 1 ∧
      append (⟨[10, 20, 30], 3⟩ : LinkedList Nat) 15 =
        insert ⟨[10, 20, 30], 3⟩
          (iteratorAt ⟨[10, 20, 30], 3⟩ (⟨[10, 20, 30], 3⟩ : LinkedList Nat).elems.length) 15 ∧
      prepend (⟨[10, 20, 30], 3⟩ : LinkedList Nat) 15 =
        insert ⟨[10, 20, 30], 3⟩ (iteratorAt ⟨[10, 20, 30], 3⟩ 0) 15) :=
  ⟨by decide, by decide, by decide, insert_spec ⟨[10, 20, 30], 3⟩ (by decide) 1 (by decide) 15⟩

/-- C14. On a well-formed list with contents `xs`, `erase` at a position `i` below the
length succeeds, leaves the contents `take i xs ++ drop (i + 1) xs` and makes the size
one less; and for the iterator at any position, `erase` throws
`out_of_range` exactly when the list is empty or the iterator is `end()` (the iterator
at a position from the length on). -/
theorem erase_spec (l : LinkedList α) (hwf : WF l) (i : Nat) :
    (i < l.elems.length →
      ∃ l1, erase l (iteratorAt l i) = Except.ok l1 ∧
        l1.elems = l.elems.take i ++ l.elems.drop (i + 1) ∧
        l1.getSize + 1 = l.getSize) ∧
    (erase l (iteratorAt l i) = Except.error Error.out_of_range ↔
      (l.elems = [] ∨ iteratorAt l i = l.end)) := by
  constructor
  · intro h
    refine ⟨_, by rw [iteratorAt_of_lt l h]; exact erase_some_eq hwf h, ?_, ?_⟩
    · exact eraseIdx_eq_take_append_drop _ _
    · simp only [getSize]
      have : l.size = l.elems.length := hwf
      omega
  · by_cases h : i < l.elems.length
    · rw [iteratorAt_of_lt l h, erase_some_eq hwf h]
      constructor
      · intro h1
        cases h1
      · rintro (h1 | h1)
        · rw [h1] at h
          simp at h
        · simp [«end»] at h1
    · rw [iteratorAt_of_ge l (not_lt.mp h)]
      constructor
      · intro _
        exact Or.inr rfl
      · intro _
        unfold erase
        split <;> rfl

theorem erase_spec_witness :
    WF (⟨[10, 20, 30], 3⟩ : LinkedList Nat) ∧
    erase (⟨[10, 20, 30], 3⟩ : LinkedList Nat) (iteratorAt ⟨[10, 20, 30], 3⟩ 1) =
      Except.ok ⟨[10, 30], 2⟩ ∧
    erase (⟨[10, 20, 30], 3⟩ : LinkedList Nat) (iteratorAt ⟨[10, 20, 30], 3⟩ 3) =
      Except.error Error.out_of_range ∧
    ((1 < (⟨[10, 20, 30], 3⟩ : LinkedList Nat).elems.length →
      ∃ l1, erase (⟨[10, 20, 30], 3⟩ : LinkedList Nat) (iteratorAt ⟨[10, 20, 30], 3⟩ 1) =
          Except.ok l1 ∧
        l1.elems = (⟨[10, 20, 30], 3⟩ : LinkedList Nat).elems.take 1 ++
          (⟨[10, 20, 30], 3⟩ : LinkedList Nat).elems.drop (1 + 1) ∧
        l1.getSize + 1 = (⟨[10, 20, 30], 3⟩ : LinkedList Nat).getSize) ∧
    (erase (⟨[10, 20, 30], 3⟩ : LinkedList Nat) (iteratorAt ⟨[10, 20, 30], 3⟩ 1) =
        Except.error Error.out_of_range ↔
      ((⟨[10, 20, 30], 3⟩ : LinkedList Nat).elems = [] ∨
        iteratorAt (⟨[10, 20, 30], 3⟩ : LinkedList Nat) 1 =
          (⟨[10, 20, 30], 3⟩ : LinkedList Nat).end))) :=
  ⟨by decide, by decide, by decide, erase_spec ⟨[10, 20, 30], 3⟩ (by decide) 1⟩

/-- C15. On a well-formed list with contents `xs` and for positions `i ≤ j` up to the
length, `erase(first, lastExcluded)` with the iterators at `i` and `j` ends normally and
removes exactly the half-open range: the contents are then `take i xs ++ drop j xs` and
the size is the former size less `j - i`; with `i = j` the list is as it was. -/
theorem eraseRange_spec (l : LinkedList α) (hwf : WF l) (i j : Nat) (hij : i ≤ j)
    (hj : j ≤ l.elems.length) (n : Nat) :
    eraseRange (j - i + (n + 1)) l (iteratorAt l i) (iteratorAt l j) =
        some (Except.ok (LinkedList.mk (l.elems.take i ++ l.elems.drop j)
          (l.getSize - (j - i)))) ∧
      (i = j → eraseRange (j - i + (n + 1)) l (iteratorAt l i) (iteratorAt l j) =
        some (Except.ok l)) := by
  have h := eraseRangeLoop_spec (j - i) l hwf i j (by omega) hj n
  have hs : l.getSize = l.elems.length := hwf
  constructor
  · rw [hs]
    exact h
  · intro he
    subst he
    simp only [eraseRange]
    rw [h]
    cases l with
    | mk elems size =>
      simp only [WF] at hwf
      simp [hwf]

theorem eraseRange_spec_witness :
    WF (⟨[0, 1, 2, 3, 4, 5], 6⟩ : LinkedList Nat) ∧ 1 ≤ 4 ∧
    4 ≤ (⟨[0, 1, 2, 3, 4, 5], 6⟩ : LinkedList Nat).elems.length ∧
    eraseRange 4 (⟨[0, 1, 2, 3, 4, 5], 6⟩ : LinkedList Nat) (some 1) (some 4) =
      some (Except.ok ⟨[0, 4, 5], 3⟩) ∧
    (eraseRange (4 - 1 + (0 + 1)) (⟨[0, 1, 2, 3, 4, 5], 6⟩ : LinkedList Nat)
        (iteratorAt ⟨[0, 1, 2, 3, 4, 5], 6⟩ 1) (iteratorAt ⟨[0, 1, 2, 3, 4, 5], 6⟩ 4) =
      some (Except.ok (LinkedList.mk
        ((⟨[0, 1, 2, 3, 4, 5], 6⟩ : LinkedList Nat).elems.take 1 ++
          (⟨[0, 1, 2, 3, 4, 5], 6⟩ : LinkedList Nat).elems.drop 4)
        ((⟨[0, 1, 2, 3, 4, 5], 6⟩ : LinkedList Nat).getSize - (4 - 1)))) ∧
    (1 = 4 →
      eraseRange (4 - 1 + (0 + 1)) (⟨[0, 1, 2, 3, 4, 5], 6⟩ : LinkedList Nat)
        (iteratorAt ⟨[0, 1, 2, 3, 4, 5], 6⟩ 1) (iteratorAt ⟨[0, 1, 2, 3, 4, 5], 6⟩ 4) =
      some (Except.ok ⟨[0, 1, 2, 3, 4, 5], 6⟩))) :=
  ⟨by decide, by decide, by decide, by decide,
    eraseRange_spec ⟨[0, 1, 2, 3, 4, 5], 6⟩ (by decide) 1 4 (by decide) (by decide) 0⟩

/-- C16. For an iterator at a position `i` up to the length `n` of the chain and an
offset `d` that is not negative: `it + d` is the iterator at position `i + d` when
`i + d ≤ n` and throws `out_of_range` otherwise; `it - d` is the iterator at position
`i - d` when `d ≤ i` and throws `out_of_range` otherwise; and both are what `d`
applications of `++`, of `--`, give. -/
theorem plus_minus_spec (l : LinkedList α) (i : Nat) (hi : i ≤ l.elems.length) (d : Nat) :
    plus l (iteratorAt l i) (d : Int) =
        (if i + d ≤ l.elems.length then Except.ok (iteratorAt l (i + d))
          else Except.error Error.out_of_range) ∧
      minus l (iteratorAt l i) (d : Int) =
        (if d ≤ i then Except.ok (iteratorAt l (i - d))
          else Except.error Error.out_of_range) ∧
      plus l (iteratorAt l i) (d : Int) = repeatStep (next l) d (iteratorAt l i) ∧
      minus l (iteratorAt l i) (d : Int) = repeatStep (prev l) d (iteratorAt l i) := by
  refine ⟨plus_iteratorAt l hi d, minus_iteratorAt l hi d, ?_, ?_⟩
  · rw [plus_iteratorAt l hi d, repeatStep_next l d hi]
  · rw [minus_iteratorAt l hi d, repeatStep_prev l d hi]

theorem plus_minus_spec_witness :
    2 ≤ (⟨[0, 1, 2, 3, 4, 5], 6⟩ : LinkedList Nat).elems.length ∧
    plus (⟨[0, 1, 2, 3, 4, 5], 6⟩ : LinkedList Nat) (some 2) 4 = Except.ok none ∧
    plus (⟨[0, 1, 2, 3, 4, 5], 6⟩ : LinkedList Nat) (some 2) 5 =
      Except.error Error.out_of_range ∧
    minus (⟨[0, 1, 2, 3, 4, 5], 6⟩ : LinkedList Nat) none 6 = Except.ok (some 0) ∧
    minus (⟨[0, 1, 2, 3, 4, 5], 6⟩ : LinkedList Nat) (some 2) 3 =
      Except.error Error.out_of_range ∧
    (plus (⟨[0, 1, 2, 3, 4, 5], 6⟩ : LinkedList Nat) (iteratorAt ⟨[0, 1, 2, 3, 4, 5], 6⟩ 2)
        ((3 : Nat) : Int) =
        (if 2 + 3 ≤ (⟨[0, 1, 2, 3, 4, 5], 6⟩ : LinkedList Nat).elems.length then
          Except.ok (iteratorAt (⟨[0, 1, 2, 3, 4, 5], 6⟩ : LinkedList Nat) (2 + 3))
          else Except.error Error.out_of_range) ∧
      minus (⟨[0, 1, 2, 3, 4, 5], 6⟩ : LinkedList Nat) (iteratorAt ⟨[0, 1, 2, 3, 4, 5], 6⟩ 2)
        ((3 : Nat) : Int) =
        (if 3 ≤ 2 then
          Except.ok (iteratorAt (⟨[0, 1, 2, 3, 4, 5], 6⟩ : LinkedList Nat) (2 - 3))
          else Except.error Error.out_of_range) ∧
      plus (⟨[0, 1, 2, 3, 4, 5], 6⟩ : LinkedList Nat) (iteratorAt ⟨[0, 1, 2, 3, 4, 5], 6⟩ 2)
        ((3 : Nat) : Int) =
        repeatStep (next (⟨[0, 1, 2, 3, 4, 5], 6⟩ : LinkedList Nat)) 3
          (iteratorAt ⟨[0, 1, 2, 3, 4, 5], 6⟩ 2) ∧
      minus (⟨[0, 1, 2, 3, 4, 5], 6⟩ : LinkedList Nat) (iteratorAt ⟨[0, 1, 2, 3, 4, 5], 6⟩ 2)
        ((3 : Nat) : Int) =
        repeatStep (prev (⟨[0, 1, 2, 3, 4, 5], 6⟩ : LinkedList Nat)) 3
          (iteratorAt ⟨[0, 1, 2, 3, 4, 5], 6⟩ 2)) :=
  ⟨by decide, by decide, by decide, by decide, by decide,
    plus_minus_spec ⟨[0, 1, 2, 3, 4, 5], 6⟩ 2 (by decide) 3⟩

end LinkedList

/-! ## Claims: all containers -/

/-- C17. In a TreeMap whose tree is ordered and in a HashMap that satisfies its
invariant alike, `valueOf(key)` throws `out_of_range` exactly when the key is not
stored, and returns the value stored under the key otherwise. -/
theorem valueOf_spec {K V : Type} [LinearOrder K] (t : TreeMap K V) (ht : Tree.BST t.root)
    (B : Nat) (hash : K → Nat) (h : HashMap K V) (hh : HashMap.WF B hash h) (key : K) :
    (TreeMap.valueOf t key = Except.error Error.out_of_range ↔ key ∉ Tree.keys t.root) ∧
    (∀ v, (key, v) ∈ Tree.toList t.root → TreeMap.valueOf t key = Except.ok v) ∧
    (HashMap.valueOf B hash h key = Except.error Error.out_of_range ↔
      key ∉ (HashMap.entries B h).map Prod.fst) ∧
    (∀ v, (key, v) ∈ HashMap.entries B h → HashMap.valueOf B hash h key = Except.ok v) := by
  refine ⟨⟨fun he hmem => ?_, fun hn => TreeMap.valueOf_of_not_mem ht hn⟩,
    fun v hv => TreeMap.valueOf_of_mem ht hv, ⟨fun he hmem => ?_, fun hn => ?_⟩,
    fun v hv => ?_⟩
  · rw [Tree.keys_eq_map_toList, List.mem_map] at hmem
    obtain ⟨⟨k, v⟩, hkv, rfl⟩ := hmem
    rw [TreeMap.valueOf_of_mem ht hkv] at he
    cases he
  · obtain ⟨⟨k, v⟩, hkv, rfl⟩ := List.mem_map.mp hmem
    obtain ⟨-, -, -, -, -, hval⟩ :=
      HashMap.find_of_mem hh ((HashMap.mem_entries_iff_bucket hh k v).mp hkv)
    rw [hval] at he
    cases he
  · exact (HashMap.find_of_not_mem B hash h
      (fun hm => hn ((HashMap.mem_keys_iff_bucket hh key).mpr hm))).2.2
  · obtain ⟨-, -, -, -, -, hval⟩ :=
      HashMap.find_of_mem hh ((HashMap.mem_entries_iff_bucket hh key v).mp hv)
    exact hval

theorem valueOf_spec_witness :
    Tree.BST (Tree.node (Tree.node Tree.null 1 10 Tree.null) 2 20 Tree.null : Tree Nat Nat) ∧
    HashMap.WF 4 id (⟨[⟨[(0, 5), (4, 6)], 2⟩, ⟨[(1, 7)], 1⟩, ⟨[], 0⟩, ⟨[], 0⟩], 3⟩ :
      HashMap Nat Nat) ∧
    TreeMap.valueOf (⟨Tree.node (Tree.node Tree.null 1 10 Tree.null) 2 20 Tree.null, 2⟩ :
      TreeMap Nat Nat) 4 = Except.error Error.out_of_range ∧
    HashMap.valueOf 4 id (⟨[⟨[(0, 5), (4, 6)], 2⟩, ⟨[(1, 7)], 1⟩, ⟨[], 0⟩, ⟨[], 0⟩], 3⟩ :
      HashMap Nat Nat) 4 = Except.ok 6 ∧
    ((TreeMap.valueOf (⟨Tree.node (Tree.node Tree.null 1 10 Tree.null) 2 20 Tree.null, 2⟩ :
        TreeMap Nat Nat) 4 = Except.error Error.out_of_range ↔
      4 ∉ Tree.keys (Tree.node (Tree.node Tree.null 1 10 Tree.null) 2 20 Tree.null :
        Tree Nat Nat)) ∧
    (∀ v, (4, v) ∈ Tree.toList (Tree.node (Tree.node Tree.null 1 10 Tree.null) 2 20 Tree.null :
        Tree Nat Nat) →
      TreeMap.valueOf (⟨Tree.node (Tree.node Tree.null 1 10 Tree.null) 2 20 Tree.null, 2⟩ :
        TreeMap Nat Nat) 4 = Except.ok v) ∧
    (HashMap.valueOf 4 id (⟨[⟨[(0, 5), (4, 6)], 2⟩, ⟨[(1, 7)], 1⟩, ⟨[], 0⟩, ⟨[], 0⟩], 3⟩ :
        HashMap Nat Nat) 4 = Except.error Error.out_of_range ↔
      4 ∉ (HashMap.entries 4 (⟨[⟨[(0, 5), (4, 6)], 2⟩, ⟨[(1, 7)], 1⟩, ⟨[], 0⟩, ⟨[], 0⟩], 3⟩ :
        HashMap Nat Nat)).map Prod.fst) ∧
    (∀ v, (4, v) ∈ HashMap.entries 4
        (⟨[⟨[(0, 5), (4, 6)], 2⟩, ⟨[(1, 7)], 1⟩, ⟨[], 0⟩, ⟨[], 0⟩], 3⟩ : HashMap Nat Nat) →
      HashMap.valueOf 4 id (⟨[⟨[(0, 5), (4, 6)], 2⟩, ⟨[(1, 7)], 1⟩, ⟨[], 0⟩, ⟨[], 0⟩], 3⟩ :
        HashMap Nat Nat) 4 = Except.ok v)) :=
  ⟨by decide, by decide, by decide, by decide,
    valueOf_spec ⟨Tree.node (Tree.node Tree.null 1 10 Tree.null) 2 20 Tree.null, 2⟩
      (by decide) 4 id ⟨[⟨[(0, 5), (4, 6)], 2⟩, ⟨[(1, 7)], 1⟩, ⟨[], 0⟩, ⟨[], 0⟩], 3⟩
      (by decide) 4⟩

/-- C18. Whenever one of the calls `erase`, `popFirst`, `popLast` of a LinkedList,
`remove(key)`, `remove(iterator)` of a TreeMap, `remove(key)`, `remove(iterator)` of a
HashMap throws, the container is then exactly as it was before the call. -/
theorem throwing_call_keeps_state {α K V : Type} [LinearOrder K] (e : Error)
    (moved : α → α) (l : LinkedList α) (pos : LinkedList.Iterator)
    (t : TreeMap K V) (key : K) (tit : TreeMap.Iterator)
    (B : Nat) (hash : K → Nat) (h : HashMap K V) (hit : HashMap.Iterator) :
    ((l.eraseCall pos).1 = Except.error e → (l.eraseCall pos).2 = l) ∧
    ((l.popFirst moved).1 = Except.error e → (l.popFirst moved).2 = l) ∧
    ((l.popLast moved).1 = Except.error e → (l.popLast moved).2 = l) ∧
    ((t.removeCall key).1 = Except.error e → (t.removeCall key).2 = t) ∧
    ((t.removeAtCall tit).1 = Except.error e → (t.removeAtCall tit).2 = t) ∧
    ((h.removeCall B hash key).1 = Except.error e → (h.removeCall B hash key).2 = h) ∧
    ((h.removeAtCall B hash hit).1 = Except.error e → (h.removeAtCall B hash hit).2 = h) :=
  ⟨LinkedList.eraseCall_error l pos e, LinkedList.popFirst_error moved l e,
    LinkedList.popLast_error moved l e, TreeMap.removeAtCall_error t _ e,
    TreeMap.removeAtCall_error t tit e, HashMap.removeCall_error B hash h key e,
    HashMap.hashRemoveAtCall_error B hash h hit e⟩

theorem throwing_call_keeps_state_witness :
    ((⟨[10, 20], 2⟩ : LinkedList Nat).eraseCall none).1 = Except.error Error.out_of_range ∧
    ((⟨[], 0⟩ : LinkedList Nat).popFirst id).1 = Except.error Error.logic_error ∧
    ((⟨[], 0⟩ : LinkedList Nat).popLast id).1 = Except.error Error.logic_error ∧
    ((⟨Tree.node Tree.null 1 10 Tree.null, 1⟩ : TreeMap Nat Nat).removeCall 7).1 =
      Except.error Error.out_of_range ∧
    ((⟨Tree.node Tree.null 1 10 Tree.null, 1⟩ : TreeMap Nat Nat).removeAtCall none).1 =
      Except.error Error.out_of_range ∧
    ((⟨[⟨[(0, 5), (4, 6)], 2⟩, ⟨[(1, 7)], 1⟩, ⟨[], 0⟩, ⟨[], 0⟩], 3⟩ :
      HashMap Nat Nat).removeCall 4 id 8).1 = Except.error Error.out_of_range ∧
    ((⟨[⟨[(0, 5), (4, 6)], 2⟩, ⟨[(1, 7)], 1⟩, ⟨[], 0⟩, ⟨[], 0⟩], 3⟩ :
      HashMap Nat Nat).removeAtCall 4 id ⟨3, 0⟩).1 = Except.error Error.out_of_range ∧
    ((⟨[10, 20], 2⟩ : LinkedList Nat).eraseCall none).2 = ⟨[10, 20], 2⟩ ∧
    ((⟨Tree.node Tree.null 1 10 Tree.null, 1⟩ : TreeMap Nat Nat).removeCall 7).2 =
      ⟨Tree.node Tree.null 1 10 Tree.null, 1⟩ ∧
    ((⟨[⟨[(0, 5), (4, 6)], 2⟩, ⟨[(1, 7)], 1⟩, ⟨[], 0⟩, ⟨[], 0⟩], 3⟩ :
      HashMap Nat Nat).removeAtCall 4 id ⟨3, 0⟩).2 =
      ⟨[⟨[(0, 5), (4, 6)], 2⟩, ⟨[(1, 7)], 1⟩, ⟨[], 0⟩, ⟨[], 0⟩], 3⟩ :=
  ⟨by decide, by decide, by decide, by decide, by decide, by decide, by decide,
    (throwing_call_keeps_state Error.out_of_range id (⟨[10, 20], 2⟩ : LinkedList Nat) none
      (⟨Tree.node Tree.null 1 10 Tree.null, 1⟩ : TreeMap Nat Nat) 7 none 4 id
      (⟨[⟨[(0, 5), (4, 6)], 2⟩, ⟨[(1, 7)], 1⟩, ⟨[], 0⟩, ⟨[], 0⟩], 3⟩ : HashMap Nat Nat)
      ⟨3, 0⟩).1 (by decide),
    (throwing_call_keeps_state Error.out_of_range id (⟨[10, 20], 2⟩ : LinkedList Nat) none
      (⟨Tree.node Tree.null 1 10 Tree.null, 1⟩ : TreeMap Nat Nat) 7 none 4 id
      (⟨[⟨[(0, 5), (4, 6)], 2⟩, ⟨[(1, 7)], 1⟩, ⟨[], 0⟩, ⟨[], 0⟩], 3⟩ : HashMap Nat Nat)
      ⟨3, 0⟩).2.2.2.1 (by decide),
    (throwing_call_keeps_state Error.out_of_range id (⟨[10, 20], 2⟩ : LinkedList Nat) none
      (⟨Tree.node Tree.null 1 10 Tree.null, 1⟩ : TreeMap Nat Nat) 7 none 4 id
      (⟨[⟨[(0, 5), (4, 6)], 2⟩, ⟨[(1, 7)], 1⟩, ⟨[], 0⟩, ⟨[], 0⟩], 3⟩ : HashMap Nat Nat)
      ⟨3, 0⟩).2.2.2.2.2.2 (by decide)⟩

/-! ## Claims: HashMap iteration -/

namespace HashMap

variable {K V : Type}

/-- C19. In a HashMap that satisfies its invariant: `begin()` is the iterator at index 0
of the lowest-indexed bucket that is not empty, where `*` reads the first entry of that
chain, and `begin()` is `end()` when every bucket is empty; the iterators at the stored
entries, taken in increasing bucket index and in chain order within a bucket, are
`getSize()` many, pairwise distinct and distinct from `end()`, the first of them is
`begin()`, `++` leads from each to the next and from the last to `end()`, and `*` reads
the stored entries through them in that order; the loop from `begin()` to `end()` ends
normally and has visited exactly these entries, in that order. -/
theorem iteration_spec (B : Nat) (hash : K → Nat) (m : HashMap K V) (hwf : WF B hash m)
    (n : Nat) :
    (∀ b x rest, b < B → (m.bucketAt b).elems = x :: rest →
      (∀ k, k < b → (m.bucketAt k).elems = []) →
        «begin» B m = { bucket := b, index := 0 } ∧ deref m («begin» B m) = Except.ok x) ∧
    ((∀ k, k < B → (m.bucketAt k).elems = []) → «begin» B m = «end» B m) ∧
    (positions B m).length = m.getSize ∧
    (positions B m).Nodup ∧
    (∀ p ∈ positions B m, p ≠ «end» B m) ∧
    «begin» B m = Walk.firstOr (positions B m) («end» B m) ∧
    Walk.LinkedBy (next B m) (positions B m) («end» B m) ∧
    (positions B m).map (deref m) = (entries B m).map Except.ok ∧
    traverse B m (m.getSize + (n + 1)) = some (Except.ok (entries B m)) := by
  have hsz := WF_getSize hwf
  refine ⟨?_, ?_, length_positions hwf, nodup_positions B m, positions_ne_end hwf,
    begin_eq_firstOr hwf.1 hsz, ?_, map_deref_positions hwf, traverse_entries hwf n⟩
  · intro b x rest hb hx hz
    have hbegin : «begin» B m = { bucket := b, index := 0 } := by
      apply begin_of_first hb
      · rw [hsz b hb, hx]
        simp
      · intro k hk
        rw [hsz k (by omega), hz k hk]
        rfl
    refine ⟨hbegin, ?_⟩
    rw [hbegin]
    apply deref_of_getElem? hwf hb
    simp [hx]
  · intro hz
    apply begin_of_all_empty hwf.1
    intro k hk
    rw [hsz k hk, hz k hk]
    rfl
  · have hl := linked_positions hsz B 0 (by omega)
    rw [← positions_eq_range'] at hl
    exact hl

theorem iteration_spec_witness :
    WF 4 id (⟨[⟨[], 0⟩, ⟨[(1, 7), (5, 8)], 2⟩, ⟨[], 0⟩, ⟨[(3, 9)], 1⟩], 3⟩ : HashMap Nat Nat) ∧
    «begin» 4 (⟨[⟨[], 0⟩, ⟨[(1, 7), (5, 8)], 2⟩, ⟨[], 0⟩, ⟨[(3, 9)], 1⟩], 3⟩ : HashMap Nat Nat) =
      { bucket := 1, index := 0 } ∧
    positions 4 (⟨[⟨[], 0⟩, ⟨[(1, 7), (5, 8)], 2⟩, ⟨[], 0⟩, ⟨[(3, 9)], 1⟩], 3⟩ :
      HashMap Nat Nat) = [⟨1, 0⟩, ⟨1, 1⟩, ⟨3, 0⟩] ∧
    «end» 4 (⟨[⟨[], 0⟩, ⟨[(1, 7), (5, 8)], 2⟩, ⟨[], 0⟩, ⟨[(3, 9)], 1⟩], 3⟩ : HashMap Nat Nat) =
      { bucket := 3, index := 1 } ∧
    traverse 4 (⟨[⟨[], 0⟩, ⟨[(1, 7), (5, 8)], 2⟩, ⟨[], 0⟩, ⟨[(3, 9)], 1⟩], 3⟩ : HashMap Nat Nat)
      4 = some (Except.ok [(1, 7), (5, 8), (3, 9)]) ∧
    traverse 4 (⟨[⟨[], 0⟩, ⟨[(1, 7), (5, 8)], 2⟩, ⟨[], 0⟩, ⟨[(3, 9)], 1⟩], 3⟩ : HashMap Nat Nat)
      (getSize (⟨[⟨[], 0⟩, ⟨[(1, 7), (5, 8)], 2⟩, ⟨[], 0⟩, ⟨[(3, 9)], 1⟩], 3⟩ :
        HashMap Nat Nat) + (0 + 1)) =
      some (Except.ok (entries 4
        (⟨[⟨[], 0⟩, ⟨[(1, 7), (5, 8)], 2⟩, ⟨[], 0⟩, ⟨[(3, 9)], 1⟩], 3⟩ : HashMap Nat Nat))) :=
  ⟨by decide, by decide, by decide, by decide, by decide,
    (iteration_spec 4 id ⟨[⟨[], 0⟩, ⟨[(1, 7), (5, 8)], 2⟩, ⟨[], 0⟩, ⟨[(3, 9)], 1⟩], 3⟩
      (by decide) 0).2.2.2.2.2.2.2.2⟩

end HashMap

/-! ## Claims: iterators and copies of both maps -/

/-- C20. In a TreeMap and in a HashMap that satisfy their invariants, for every iterator
at a stored entry (a valid iterator other than `end()`), `++` ends normally and `--`
applied to its result ends normally at the iterator one started from, whether or not
`++` led to `end()`; and in every map, with or without entries, `--` applied to
`begin()` throws `out_of_range`, also when the map is empty and `begin()` is `end()`. -/
theorem prev_next_spec {K V : Type} [LinearOrder K] (t : TreeMap K V)
    (B : Nat) (hash : K → Nat) (h : HashMap K V) :
    (TreeMap.WF t → ∀ p : List Dir, Tree.subtreeAt t.root p ≠ Tree.null →
      ∃ q, TreeMap.next t (some p) = Except.ok q ∧ TreeMap.prev t q = Except.ok (some p)) ∧
    TreeMap.prev t t.begin = Except.error Error.out_of_range ∧
    (HashMap.WF B hash h → ∀ it : HashMap.Iterator, it ∈ HashMap.positions B h →
      ∃ q, HashMap.next B h it = Except.ok q ∧ HashMap.prev B h q = Except.ok it) ∧
    HashMap.prev B h (HashMap.begin B h) = Except.error Error.out_of_range := by
  refine ⟨fun ht p hp => TreeMap.prev_next t ht.1 hp, by simp [TreeMap.prev],
    fun hh it hit => ?_, by simp [HashMap.prev]⟩
  rw [HashMap.mem_positions] at hit
  apply HashMap.prev_next_of_valid hit.1
  rw [HashMap.WF_getSize hh _ hit.1]
  exact hit.2

theorem prev_next_spec_witness :
    TreeMap.WF (⟨Tree.node (Tree.node Tree.null 1 10 Tree.null) 2 20 Tree.null, 2⟩ :
      TreeMap Nat Nat) ∧
    Tree.subtreeAt (Tree.node (Tree.node Tree.null 1 10 Tree.null) 2 20 Tree.null :
      Tree Nat Nat) [] ≠ Tree.null ∧
    HashMap.WF 4 id (⟨[⟨[], 0⟩, ⟨[(1, 7), (5, 8)], 2⟩, ⟨[], 0⟩, ⟨[], 0⟩], 2⟩ :
      HashMap Nat Nat) ∧
    (⟨1, 1⟩ : HashMap.Iterator) ∈ HashMap.positions 4
      (⟨[⟨[], 0⟩, ⟨[(1, 7), (5, 8)], 2⟩, ⟨[], 0⟩, ⟨[], 0⟩], 2⟩ : HashMap Nat Nat) ∧
    TreeMap.next (⟨Tree.node (Tree.node Tree.null 1 10 Tree.null) 2 20 Tree.null, 2⟩ :
      TreeMap Nat Nat) (some []) = Except.ok none ∧
    TreeMap.prev (⟨Tree.node (Tree.node Tree.null 1 10 Tree.null) 2 20 Tree.null, 2⟩ :
      TreeMap Nat Nat) none = Except.ok (some []) ∧
    HashMap.next 4 (⟨[⟨[], 0⟩, ⟨[(1, 7), (5, 8)], 2⟩, ⟨[], 0⟩, ⟨[], 0⟩], 2⟩ : HashMap Nat Nat)
      ⟨1, 1⟩ = Except.ok (HashMap.«end» 4
        (⟨[⟨[], 0⟩, ⟨[(1, 7), (5, 8)], 2⟩, ⟨[], 0⟩, ⟨[], 0⟩], 2⟩ : HashMap Nat Nat)) ∧
    HashMap.prev 4 (⟨[⟨[], 0⟩, ⟨[(1, 7), (5, 8)], 2⟩, ⟨[], 0⟩, ⟨[], 0⟩], 2⟩ : HashMap Nat Nat)
      ⟨3, 0⟩ = Except.ok ⟨1, 1⟩ ∧
    (TreeMap.empty : TreeMap Nat Nat).begin = (TreeMap.empty : TreeMap Nat Nat).«end» ∧
    HashMap.begin 4 (HashMap.empty 4 : HashMap Nat Nat) =
      HashMap.«end» 4 (HashMap.empty 4 : HashMap Nat Nat) ∧
    TreeMap.prev (TreeMap.empty : TreeMap Nat Nat) (TreeMap.empty : TreeMap Nat Nat).begin =
      Except.error Error.out_of_range ∧
    HashMap.prev 4 (HashMap.empty 4 : HashMap Nat Nat)
      (HashMap.begin 4 (HashMap.empty 4 : HashMap Nat Nat)) =
      Except.error Error.out_of_range ∧
    (∃ q, TreeMap.next (⟨Tree.node (Tree.node Tree.null 1 10 Tree.null) 2 20 Tree.null, 2⟩ :
        TreeMap Nat Nat) (some []) = Except.ok q ∧
      TreeMap.prev (⟨Tree.node (Tree.node Tree.null 1 10 Tree.null) 2 20 Tree.null, 2⟩ :
        TreeMap Nat Nat) q = Except.ok (some [])) ∧
    (∃ q, HashMap.next 4 (⟨[⟨[], 0⟩, ⟨[(1, 7), (5, 8)], 2⟩, ⟨[], 0⟩, ⟨[], 0⟩], 2⟩ :
        HashMap Nat Nat) ⟨1, 1⟩ = Except.ok q ∧
      HashMap.prev 4 (⟨[⟨[], 0⟩, ⟨[(1, 7), (5, 8)], 2⟩, ⟨[], 0⟩, ⟨[], 0⟩], 2⟩ :
        HashMap Nat Nat) q = Except.ok ⟨1, 1⟩) :=
  ⟨by decide, by decide, by decide, by decide, by decide, by decide, by decide, by decide,
    by decide, by decide,
    (prev_next_spec (TreeMap.empty : TreeMap Nat Nat) 4 id
      (HashMap.empty 4 : HashMap Nat Nat)).2.1,
    (prev_next_spec (TreeMap.empty : TreeMap Nat Nat) 4 id
      (HashMap.empty 4 : HashMap Nat Nat)).2.2.2,
    (prev_next_spec (⟨Tree.node (Tree.node Tree.null 1 10 Tree.null) 2 20 Tree.null, 2⟩ :
      TreeMap Nat Nat) 4 id
      (⟨[⟨[], 0⟩, ⟨[(1, 7), (5, 8)], 2⟩, ⟨[], 0⟩, ⟨[], 0⟩], 2⟩ : HashMap Nat Nat)).1
      (by decide) [] (by decide),
    (prev_next_spec (⟨Tree.node (Tree.node Tree.null 1 10 Tree.null) 2 20 Tree.null, 2⟩ :
      TreeMap Nat Nat) 4 id
      (⟨[⟨[], 0⟩, ⟨[(1, 7), (5, 8)], 2⟩, ⟨[], 0⟩, ⟨[], 0⟩], 2⟩ : HashMap Nat Nat)).2.2.1
      (by decide) ⟨1, 1⟩ (by decide)⟩

/-- C11. Stated on the nodes in memory, where an alias and a copy differ. For a TreeMap
`m` and a HashMap `h` of the memory that satisfy their invariants, with enough fuel for
the loops: the copy constructor, and the copy assignment to any other map of the memory,
ends normally with a map `c` made of nodes (and, for the HashMap, of an array) none of
which is a node of the source, the source being in memory as it was; `c` has the size of
the source and compares equal to it with `==`, the TreeMap copy has the tree of the
source, shape and entries, and the HashMap copy has in every bucket the chain of the
source in the same order. After any sequence of `operator[]` and `remove` calls on `c`,
run on the nodes, these calls have returned, `c` is what the same calls on the source
would have given, and the source is still in memory as it was, node for node.
Self-assignment changes nothing. -/
theorem copy_spec {K V : Type} [LinearOrder K] [DecidableEq V] [Inhabited V]
    (mem : List (Option (TreeMap.Node K V))) (m : TreeMap.Raw) (tm : Tree (Nat × K) V)
    (hm : TreeMap.Raw.Inv mem m tm) (ht : TreeMap.WF (TreeMap.Raw.view m tm))
    (B : Nat) (hash : K → Nat) (hp : HashMap.Heap K V) (h : HashMap.Raw)
    (arr : List HashMap.Bucket) (ch : List (List (Nat × (K × V))))
    (hh : HashMap.Raw.Inv B hp h arr ch) (hwf : HashMap.WF B hash (HashMap.Raw.view h ch))
    (fuel : Nat) (hfuel : Tree.numNodes tm < fuel) (hfuelh : ch.flatten.length < fuel) :
    (∀ r, (r = TreeMap.Raw.copy fuel mem m ∨
        ∃ self ts, TreeMap.Raw.Inv mem self ts ∧
          (∀ a ∈ TreeMap.Raw.addrs ts, a ∉ TreeMap.Raw.addrs tm) ∧ Tree.numNodes ts < fuel ∧
          r = TreeMap.Raw.copyAssign fuel false mem self m) →
      ∃ mem1 c tc, r = some (Except.ok (mem1, c)) ∧
        TreeMap.Raw.Inv mem1 c tc ∧ TreeMap.Raw.Inv mem1 m tm ∧
        (∀ a ∈ TreeMap.Raw.addrs tc, a ∉ TreeMap.Raw.addrs tm) ∧
        (TreeMap.Raw.view c tc).root = (TreeMap.Raw.view m tm).root ∧
        (TreeMap.Raw.view c tc).getSize = (TreeMap.Raw.view m tm).getSize ∧
        TreeMap.eq fuel (TreeMap.Raw.view c tc) (TreeMap.Raw.view m tm) =
          some (Except.ok true) ∧
        ∀ (ops : List (Op K V)) (fuel1 : Nat), Tree.numNodes tm + ops.length < fuel1 →
          ∃ mem2 c2 t2, TreeMap.Raw.run fuel1 (mem1, c) ops = some (mem2, c2) ∧
            TreeMap.Raw.Inv mem2 c2 t2 ∧
            TreeMap.Raw.view c2 t2 = TreeMap.run (TreeMap.Raw.view m tm) ops ∧
            TreeMap.Raw.Inv mem2 m tm) ∧
    TreeMap.Raw.copyAssign fuel true mem m m = some (Except.ok (mem, m)) ∧
    (∀ r, (r = HashMap.Raw.copy B hash fuel hp h ∨
        ∃ self arrs cs, HashMap.Raw.Inv B hp self arrs cs ∧ self.data ≠ h.data ∧
          (∀ a ∈ HashMap.Raw.addrs cs, a ∉ HashMap.Raw.addrs ch) ∧
          cs.flatten.length < fuel ∧
          r = HashMap.Raw.copyAssign B hash fuel false hp self h) →
      ∃ hp1 c arr1 c1, r = some (Except.ok (hp1, c)) ∧
        HashMap.Raw.Inv B hp1 c arr1 c1 ∧ HashMap.Raw.Inv B hp1 h arr ch ∧
        c.data ≠ h.data ∧ (∀ a ∈ HashMap.Raw.addrs c1, a ∉ HashMap.Raw.addrs ch) ∧
        (HashMap.Raw.view c c1).getSize = (HashMap.Raw.view h ch).getSize ∧
        (∀ i, i < B → ((HashMap.Raw.view c c1).bucketAt i).elems =
          ((HashMap.Raw.view h ch).bucketAt i).elems) ∧
        HashMap.eq B (HashMap.Raw.view c c1) (HashMap.Raw.view h ch) = Except.ok true ∧
        ∀ (ops : List (Op K V)) (fuel1 : Nat), ch.flatten.length + ops.length < fuel1 →
          ∃ hp2 c2 arr2 ch2, HashMap.Raw.run B hash fuel1 (hp1, c) ops = some (hp2, c2) ∧
            HashMap.Raw.Inv B hp2 c2 arr2 ch2 ∧
            HashMap.Raw.view c2 ch2 = HashMap.run B hash (HashMap.Raw.view h ch) ops ∧
            HashMap.Raw.Inv B hp2 h arr ch) ∧
    HashMap.Raw.copyAssign B hash fuel true hp h h = some (Except.ok (hp, h)) := by
  have hlt : ∀ a ∈ TreeMap.Raw.addrs tm, a < mem.length := fun a ha =>
    TreeMap.Raw.Shape_lt hm.2.1 a ha
  have htree : ∀ {mem1 : List (Option (TreeMap.Node K V))} {c : TreeMap.Raw}
      {tc : Tree (Nat × K) V} {s : List Nat}, TreeMap.Raw.Inv mem1 c tc →
      TreeMap.Raw.view c tc = TreeMap.Raw.view m tm →
      (∀ a ∈ TreeMap.Raw.addrs tc, mem.length ≤ a) → TreeMap.Raw.Frame mem mem1 s →
      (∀ a ∈ TreeMap.Raw.addrs tm, a ∉ s) →
      TreeMap.Raw.Inv mem1 c tc ∧ TreeMap.Raw.Inv mem1 m tm ∧
        (∀ a ∈ TreeMap.Raw.addrs tc, a ∉ TreeMap.Raw.addrs tm) ∧
        (TreeMap.Raw.view c tc).root = (TreeMap.Raw.view m tm).root ∧
        (TreeMap.Raw.view c tc).getSize = (TreeMap.Raw.view m tm).getSize ∧
        TreeMap.eq fuel (TreeMap.Raw.view c tc) (TreeMap.Raw.view m tm) =
          some (Except.ok true) ∧
        ∀ (ops : List (Op K V)) (fuel1 : Nat), Tree.numNodes tm + ops.length < fuel1 →
          ∃ mem2 c2 t2, TreeMap.Raw.run fuel1 (mem1, c) ops = some (mem2, c2) ∧
            TreeMap.Raw.Inv mem2 c2 t2 ∧
            TreeMap.Raw.view c2 t2 = TreeMap.run (TreeMap.Raw.view m tm) ops ∧
            TreeMap.Raw.Inv mem2 m tm := by
    intro mem1 c tc s hc hv hfresh hfr hs
    have hm1 : TreeMap.Raw.Inv mem1 m tm := TreeMap.Raw.Inv_frame hm hfr hs
    have hdisj : ∀ a ∈ TreeMap.Raw.addrs tc, a ∉ TreeMap.Raw.addrs tm := by
      intro a ha hmem
      have h1 := hfresh a ha
      have h2 := hlt a hmem
      omega
    refine ⟨hc, hm1, hdisj, by rw [hv], by rw [hv], ?_,
      fun ops fuel1 hf => TreeMap.Raw.run_isolated hc hm1 hdisj hv ops fuel1 hf⟩
    have hnum : Tree.numNodes (TreeMap.Raw.view m tm).root = Tree.numNodes tm :=
      TreeMap.Raw.numNodes_strip tm
    have hfe : fuel = Tree.numNodes (TreeMap.Raw.view c tc).root +
        ((fuel - Tree.numNodes tm - 1) + 1) := by
      rw [hv, hnum]
      omega
    rw [hfe]
    exact TreeMap.eq_self_of_BST _ _ (by rw [hv]) (by rw [hv]) (by rw [hv]; exact ht.1) _
  have hhash : ∀ {hp1 : HashMap.Heap K V} {c : HashMap.Raw} {arr1 : List HashMap.Bucket}
      {c1 : List (List (Nat × (K × V)))}, HashMap.Raw.view c c1 = HashMap.Raw.view h ch →
      HashMap.Raw.Inv B hp1 c arr1 c1 → HashMap.Raw.Inv B hp1 h arr ch → c.data ≠ h.data →
      (∀ a ∈ HashMap.Raw.addrs c1, a ∉ HashMap.Raw.addrs ch) →
      HashMap.Raw.Inv B hp1 c arr1 c1 ∧ HashMap.Raw.Inv B hp1 h arr ch ∧
        c.data ≠ h.data ∧ (∀ a ∈ HashMap.Raw.addrs c1, a ∉ HashMap.Raw.addrs ch) ∧
        (HashMap.Raw.view c c1).getSize = (HashMap.Raw.view h ch).getSize ∧
        (∀ i, i < B → ((HashMap.Raw.view c c1).bucketAt i).elems =
          ((HashMap.Raw.view h ch).bucketAt i).elems) ∧
        HashMap.eq B (HashMap.Raw.view c c1) (HashMap.Raw.view h ch) = Except.ok true ∧
        ∀ (ops : List (Op K V)) (fuel1 : Nat), ch.flatten.length + ops.length < fuel1 →
          ∃ hp2 c2 arr2 ch2, HashMap.Raw.run B hash fuel1 (hp1, c) ops = some (hp2, c2) ∧
            HashMap.Raw.Inv B hp2 c2 arr2 ch2 ∧
            HashMap.Raw.view c2 ch2 = HashMap.run B hash (HashMap.Raw.view h ch) ops ∧
            HashMap.Raw.Inv B hp2 h arr ch := by
    intro hp1 c arr1 c1 hv hc hh1 hdata hdisj
    refine ⟨hc, hh1, hdata, hdisj, by rw [hv], fun i _ => by rw [hv], ?_,
      fun ops fuel1 hf => HashMap.Raw.run_apart hwf.1 hash hc hh1 hdata hdisj hv ops fuel1 hf⟩
    rw [hv]
    exact HashMap.eq_self_of_WF hwf
  refine ⟨?_, rfl, ?_, rfl⟩
  · rintro r (rfl | ⟨self, ts, hself, hdisj, hfs, rfl⟩)
    · obtain ⟨mem1, c, tc, he, hc, hv, hfresh, hfr⟩ := TreeMap.Raw.copy_refines hm fuel hfuel
      have hv1 : TreeMap.Raw.view c tc = TreeMap.Raw.view m tm := by
        rw [hv]
        simp [TreeMap.copy, TreeMap.copyTreeStructure_eq]
      exact ⟨mem1, c, tc, he, htree hc hv1 hfresh hfr (fun _ _ => List.not_mem_nil _)⟩
    · obtain ⟨mem1, c, tc, he, hc, hv, hfresh, hfr⟩ :=
        TreeMap.Raw.copyAssign_refines hself hm hdisj fuel hfs hfuel
      have hv1 : TreeMap.Raw.view c tc = TreeMap.Raw.view m tm := by
        rw [hv]
        simp [TreeMap.copyAssign, TreeMap.copy, TreeMap.copyTreeStructure_eq]
      exact ⟨mem1, c, tc, he, htree hc hv1 hfresh hfr (fun a ha hmem => hdisj a hmem ha)⟩
  · rintro r (rfl | ⟨self, arrs, cs, hself, hdata, hdisj, hfs, rfl⟩)
    · obtain ⟨hp1, c, arr1, c1, he, hv, hc, hh1, hd, hdj, -, -⟩ :=
        HashMap.Raw.copy_simulates hh hwf fuel hfuelh
      exact ⟨hp1, c, arr1, c1, he, hhash hv hc hh1 hd hdj⟩
    · obtain ⟨hp1, c, arr1, c1, he, hv, hc, hh1, hd, hdj, -, -⟩ :=
        HashMap.Raw.copyAssign_simulates hself hh hdata hdisj hwf fuel hfs hfuelh
      exact ⟨hp1, c, arr1, c1, he, hhash hv hc hh1 hd hdj⟩

theorem copy_spec_witness :
    TreeMap.Raw.Inv
      ([some (TreeMap.Node.mk 2 20 none (some 1) none),
        some (TreeMap.Node.mk 1 10 (some 0) none none)] : List (Option (TreeMap.Node Nat Nat)))
      (TreeMap.Raw.mk (some 0) 2)
      (Tree.node (Tree.node Tree.null (1, 1) 10 Tree.null) (0, 2) 20 Tree.null) ∧
    TreeMap.WF (TreeMap.Raw.view (TreeMap.Raw.mk (some 0) 2)
      (Tree.node (Tree.node Tree.null (1, 1) 10 Tree.null) (0, 2) 20 Tree.null :
        Tree (Nat × Nat) Nat)) ∧
    HashMap.Raw.Inv 2
      (HashMap.Heap.mk
        [some (LinkedList.Node.mk (some 1) none (0, 5)),
          some (LinkedList.Node.mk none (some 0) (2, 6)),
          some (LinkedList.Node.mk none none (1, 7))]
        [some [HashMap.Bucket.mk (some 0) (some 1) 2, HashMap.Bucket.mk (some 2) (some 2) 1]] :
        HashMap.Heap Nat Nat)
      (HashMap.Raw.mk (some 0) 3)
      [HashMap.Bucket.mk (some 0) (some 1) 2, HashMap.Bucket.mk (some 2) (some 2) 1]
      [[(0, (0, 5)), (1, (2, 6))], [(2, (1, 7))]] ∧
    HashMap.WF 2 id (HashMap.Raw.view (HashMap.Raw.mk (some 0) 3)
      ([[(0, (0, 5)), (1, (2, 6))], [(2, (1, 7))]] : List (List (Nat × (Nat × Nat))))) ∧
    TreeMap.Raw.copy 4
      ([some (TreeMap.Node.mk 2 20 none (some 1) none),
        some (TreeMap.Node.mk 1 10 (some 0) none none)] : List (Option (TreeMap.Node Nat Nat)))
      (TreeMap.Raw.mk (some 0) 2) =
      some (Except.ok
        ([some (TreeMap.Node.mk 2 20 none (some 1) none),
          some (TreeMap.Node.mk 1 10 (some 0) none none),
          some (TreeMap.Node.mk 2 20 none (some 3) none),
          some (TreeMap.Node.mk 1 10 (some 2) none none)], TreeMap.Raw.mk (some 2) 2)) ∧
    TreeMap.Raw.run 4
      (([some (TreeMap.Node.mk 2 20 none (some 1) none),
        some (TreeMap.Node.mk 1 10 (some 0) none none)] : List (Option (TreeMap.Node Nat Nat))),
        TreeMap.Raw.mk (some 0) 2) [Op.assign 1 11] =
      some ([some (TreeMap.Node.mk 2 20 none (some 1) none),
        some (TreeMap.Node.mk 1 11 (some 0) none none)], TreeMap.Raw.mk (some 0) 2) ∧
    ¬ TreeMap.Raw.Inv
      ([some (TreeMap.Node.mk 2 20 none (some 1) none),
        some (TreeMap.Node.mk 1 11 (some 0) none none)] : List (Option (TreeMap.Node Nat Nat)))
      (TreeMap.Raw.mk (some 0) 2)
      (Tree.node (Tree.node Tree.null (1, 1) 10 Tree.null) (0, 2) 20 Tree.null) ∧
    (∃ mem1 c, TreeMap.Raw.copy 4
        ([some (TreeMap.Node.mk 2 20 none (some 1) none),
          some (TreeMap.Node.mk 1 10 (some 0) none none)] :
          List (Option (TreeMap.Node Nat Nat)))
        (TreeMap.Raw.mk (some 0) 2) = some (Except.ok (mem1, c)) ∧
      ∀ (ops : List (Op Nat Nat)) (fuel1 : Nat),
        Tree.numNodes (Tree.node (Tree.node Tree.null (1, 1) 10 Tree.null) (0, 2) 20 Tree.null :
          Tree (Nat × Nat) Nat) + ops.length < fuel1 →
        ∃ mem2 c2, TreeMap.Raw.run fuel1 (mem1, c) ops = some (mem2, c2) ∧
          TreeMap.Raw.Inv mem2 (TreeMap.Raw.mk (some 0) 2)
            (Tree.node (Tree.node Tree.null (1, 1) 10 Tree.null) (0, 2) 20 Tree.null)) ∧
    (∃ hp1 c, HashMap.Raw.copy 2 id 4
        (HashMap.Heap.mk
          [some (LinkedList.Node.mk (some 1) none (0, 5)),
            some (LinkedList.Node.mk none (some 0) (2, 6)),
            some (LinkedList.Node.mk none none (1, 7))]
          [some [HashMap.Bucket.mk (some 0) (some 1) 2,
            HashMap.Bucket.mk (some 2) (some 2) 1]] : HashMap.Heap Nat Nat)
        (HashMap.Raw.mk (some 0) 3) = some (Except.ok (hp1, c)) ∧
      ∀ (ops : List (Op Nat Nat)) (fuel1 : Nat),
        ([[(0, (0, 5)), (1, (2, 6))], [(2, (1, 7))]] :
          List (List (Nat × (Nat × Nat)))).flatten.length + ops.length < fuel1 →
        ∃ hp2 c2, HashMap.Raw.run 2 id fuel1 (hp1, c) ops = some (hp2, c2) ∧
          HashMap.Raw.Inv 2 hp2 (HashMap.Raw.mk (some 0) 3)
            [HashMap.Bucket.mk (some 0) (some 1) 2, HashMap.Bucket.mk (some 2) (some 2) 1]
            [[(0, (0, 5)), (1, (2, 6))], [(2, (1, 7))]]) := by
  have key := copy_spec
    ([some (TreeMap.Node.mk 2 20 none (some 1) none),
      some (TreeMap.Node.mk 1 10 (some 0) none none)] : List (Option (TreeMap.Node Nat Nat)))
    (TreeMap.Raw.mk (some 0) 2)
    (Tree.node (Tree.node Tree.null (1, 1) 10 Tree.null) (0, 2) 20 Tree.null)
    (by decide) (by decide) 2 id
    (HashMap.Heap.mk
      [some (LinkedList.Node.mk (some 1) none (0, 5)),
        some (LinkedList.Node.mk none (some 0) (2, 6)),
        some (LinkedList.Node.mk none none (1, 7))]
      [some [HashMap.Bucket.mk (some 0) (some 1) 2, HashMap.Bucket.mk (some 2) (some 2) 1]] :
      HashMap.Heap Nat Nat)
    (HashMap.Raw.mk (some 0) 3)
    [HashMap.Bucket.mk (some 0) (some 1) 2, HashMap.Bucket.mk (some 2) (some 2) 1]
    [[(0, (0, 5)), (1, (2, 6))], [(2, (1, 7))]] (by decide) (by decide) 4 (by decide)
    (by decide)
  refine ⟨by decide, by decide, by decide, by decide, by decide, by decide, by decide, ?_, ?_⟩
  · obtain ⟨mem1, c, tc, he, -, -, -, -, -, -, hrun⟩ := key.1 _ (Or.inl rfl)
    refine ⟨mem1, c, he.symm ▸ rfl, fun ops fuel1 hf => ?_⟩
    obtain ⟨mem2, c2, t2, h1, -, -, h4⟩ := hrun ops fuel1 hf
    exact ⟨mem2, c2, h1, h4⟩
  · obtain ⟨hp1, c, arr1, c1, he, -, -, -, -, -, -, -, hrun⟩ := key.2.2.1 _ (Or.inl rfl)
    refine ⟨hp1, c, he.symm ▸ rfl, fun ops fuel1 hf => ?_⟩
    obtain ⟨hp2, c2, arr2, ch2, h1, -, -, h4⟩ := hrun ops fuel1 hf
    exact ⟨hp2, c2, h1, h4⟩

/-! ## Claims: HashMap buckets and iterators -/

namespace HashMap

variable {K V : Type}

/-- C21. After every sequence of `operator[]` (read or assigned to) and `remove` calls
on an empty map the invariant holds, and every stored key is a key of the chain of bucket
`i` exactly for `i = hash(key) % B`, and occurs exactly once in that chain. -/
theorem run_keeps_buckets [DecidableEq K] [Inhabited V] (B : Nat) (hash : K → Nat)
    (hB : 0 < B) (ops : List (Op K V)) :
    WF B hash (run B hash (empty B) ops) ∧
    ∀ k, k ∈ (entries B (run B hash (empty B) ops)).map Prod.fst →
      (∀ i, i < B →
        (k ∈ ((run B hash (empty B) ops).bucketAt i).elems.map Prod.fst ↔ i = hash k % B)) ∧
      (((run B hash (empty B) ops).bucketAt (hash k % B)).elems.map Prod.fst).count k = 1 := by
  have hwf : WF B hash (run B hash (empty B) ops) := WF_hashRun (WF_empty_buckets hB hash) ops
  refine ⟨hwf, fun k hk => ?_⟩
  have hin := (mem_keys_iff_bucket hwf k).mp hk
  refine ⟨fun i hi => ⟨fun h => ?_, fun h => h ▸ hin⟩, ?_⟩
  · obtain ⟨kv, hkv, he⟩ := List.mem_map.mp h
    rw [← he]
    exact (hwf.2.2.2.2.1 i hi kv hkv).symm
  · exact List.count_eq_one_of_mem (hwf.2.2.2.2.2 _ (Nat.mod_lt _ hB)) hin

theorem run_keeps_buckets_witness :
    0 < 4 ∧
    run 4 id (empty 4 : HashMap Nat Nat)
      [Op.assign 0 5, Op.assign 4 6, Op.access 1, Op.remove 0, Op.assign 8 7, Op.remove 3] =
      ⟨[⟨[(4, 6), (8, 7)], 2⟩, ⟨[(1, 0)], 1⟩, ⟨[], 0⟩, ⟨[], 0⟩], 3⟩ ∧
    WF 4 id (run 4 id (empty 4 : HashMap Nat Nat)
      [Op.assign 0 5, Op.assign 4 6, Op.access 1, Op.remove 0, Op.assign 8 7, Op.remove 3]) :=
  ⟨by decide, by decide,
    (run_keeps_buckets 4 id (by decide)
      [Op.assign 0 5, Op.assign 4 6, Op.access 1, Op.remove 0, Op.assign 8 7, Op.remove 3]).1⟩

/-- C23. Let three distinct keys of one bucket be assigned, in the order `k1`, `k2`,
`k3`, to an empty map, and let `it = find(k2)`. Before `remove(k1)` the iterator reads
the entry of `k2`; after `remove(k1)`, which succeeds, `*it` does not throw and reads the
entry of `k3`. -/
theorem stale_iterator [DecidableEq K] [Inhabited V] (B : Nat) (hash : K → Nat) (hB : 0 < B)
    (k1 k2 k3 : K) (v1 v2 v3 : V) (h12 : k1 ≠ k2) (h13 : k1 ≠ k3) (h23 : k2 ≠ k3)
    (hb2 : hash k2 % B = hash k1 % B) (hb3 : hash k3 % B = hash k1 % B) :
    deref (run B hash (empty B) [Op.assign k1 v1, Op.assign k2 v2, Op.assign k3 v3])
        (find B hash (run B hash (empty B) [Op.assign k1 v1, Op.assign k2 v2, Op.assign k3 v3])
          k2) = Except.ok (k2, v2) ∧
    ∃ m1, remove B hash
        (run B hash (empty B) [Op.assign k1 v1, Op.assign k2 v2, Op.assign k3 v3]) k1 =
          Except.ok m1 ∧
      deref m1 (find B hash
        (run B hash (empty B) [Op.assign k1 v1, Op.assign k2 v2, Op.assign k3 v3]) k2) =
          Except.ok (k3, v3) := by
  obtain ⟨hwf, hc⟩ := run_three_assigns hB hash k1 k2 k3 v1 v2 v3 h12 h13 h23 hb2 hb3
  generalize run B hash (empty B) [Op.assign k1 v1, Op.assign k2 v2, Op.assign k3 v3] = m
    at hwf hc
  have hb : hash k1 % B < B := Nat.mod_lt _ hB
  have hbl : hash k1 % B < m.data.length := by rw [hwf.2.1]; exact hb
  have hfind : find B hash m k2 = { bucket := hash k1 % B, index := 1 } := by
    simp only [find, getBucket, hb2, hc, chainFind, h12, if_false, if_true]
  rw [hfind]
  refine ⟨deref_of_getElem? hwf hb (by simp [hc]), ?_⟩
  have hin : (k1, v1) ∈ (m.bucketAt (hash k1 % B)).elems := by
    rw [hc]
    exact List.mem_cons_self _ _
  obtain ⟨i, hget, -, hrem⟩ := remove_of_mem hwf hin
  have hi : i = 0 := by
    rw [hc] at hget
    match i, hget with
    | 0, _ => rfl
    | 1, hg =>
      simp only [List.getElem?_cons_succ, List.getElem?_cons_zero, Option.some.injEq,
        Prod.mk.injEq] at hg
      exact absurd hg.1.symm h12
    | 2, hg =>
      simp only [List.getElem?_cons_succ, List.getElem?_cons_zero, Option.some.injEq,
        Prod.mk.injEq] at hg
      exact absurd hg.1.symm h13
    | n + 3, hg => simp at hg
  subst hi
  refine ⟨_, hrem, ?_⟩
  apply deref_of_getElem? (WF_hashRemove hwf hrem) hb
  simp only
  rw [bucketAt_set m hbl]
  simp [hc]

theorem stale_iterator_witness :
    0 < 4 ∧ (0 : Nat) ≠ 4 ∧ (0 : Nat) ≠ 8 ∧ (4 : Nat) ≠ 8 ∧ id 4 % 4 = id 0 % 4 ∧
    id 8 % 4 = id 0 % 4 ∧
    find 4 id (run 4 id (empty 4 : HashMap Nat Nat)
      [Op.assign 0 5, Op.assign 4 6, Op.assign 8 7]) 4 = { bucket := 0, index := 1 } ∧
    remove 4 id (run 4 id (empty 4 : HashMap Nat Nat)
      [Op.assign 0 5, Op.assign 4 6, Op.assign 8 7]) 0 =
      Except.ok ⟨[⟨[(4, 6), (8, 7)], 2⟩, ⟨[], 0⟩, ⟨[], 0⟩, ⟨[], 0⟩], 2⟩ ∧
    deref (⟨[⟨[(4, 6), (8, 7)], 2⟩, ⟨[], 0⟩, ⟨[], 0⟩, ⟨[], 0⟩], 2⟩ : HashMap Nat Nat)
      { bucket := 0, index := 1 } = Except.ok (8, 7) ∧
    (deref (run 4 id (empty 4 : HashMap Nat Nat) [Op.assign 0 5, Op.assign 4 6, Op.assign 8 7])
        (find 4 id (run 4 id (empty 4 : HashMap Nat Nat)
          [Op.assign 0 5, Op.assign 4 6, Op.assign 8 7]) 4) = Except.ok (4, 6) ∧
      ∃ m1, remove 4 id
          (run 4 id (empty 4 : HashMap Nat Nat) [Op.assign 0 5, Op.assign 4 6, Op.assign 8 7])
            0 = Except.ok m1 ∧
        deref m1 (find 4 id (run 4 id (empty 4 : HashMap Nat Nat)
          [Op.assign 0 5, Op.assign 4 6, Op.assign 8 7]) 4) = Except.ok (8, 7)) :=
  ⟨by decide, by decide, by decide, by decide, by decide, by decide, by decide, by decide,
    by decide,
    stale_iterator 4 id (by decide) 0 4 8 5 6 7 (by decide) (by decide) (by decide)
      (by decide) (by decide)⟩

/-- C25. In a map that satisfies its invariant `find(key)` is `end()` exactly when the
key is not stored; for a stored key it is the iterator at an index below the size of the
bucket `hash(key) % B`, at which `*` reads the entry of the key, the last bucket
included; and the same holds after any sequence of `operator[]` and `remove` calls. -/
theorem find_eq_end_iff [DecidableEq K] [Inhabited V] (B : Nat) (hash : K → Nat)
    (m : HashMap K V) (hwf : WF B hash m) (key : K) :
    (find B hash m key = «end» B m ↔ key ∉ (entries B m).map Prod.fst) ∧
    (∀ v, (key, v) ∈ entries B m →
      (find B hash m key).bucket = hash key % B ∧
      (find B hash m key).index < (m.bucketAt (hash key % B)).getSize ∧
      deref m (find B hash m key) = Except.ok (key, v)) ∧
    ∀ ops, (find B hash (run B hash m ops) key = «end» B (run B hash m ops) ↔
      key ∉ (entries B (run B hash m ops)).map Prod.fst) := by
  have key_iff : ∀ x : HashMap K V, WF B hash x →
      (find B hash x key = «end» B x ↔ key ∉ (entries B x).map Prod.fst) := by
    intro x hx
    constructor
    · intro he hmem
      obtain ⟨⟨k, v⟩, hkv, hk⟩ := List.mem_map.mp hmem
      simp only at hk
      subst hk
      obtain ⟨-, -, -, -, hne, -⟩ := find_of_mem hx ((mem_entries_iff_bucket hx k v).mp hkv)
      exact hne he
    · intro hn
      exact (find_of_not_mem B hash x
        (fun hm => hn ((mem_keys_iff_bucket hx key).mpr hm))).2.1
  refine ⟨key_iff m hwf, fun v hv => ?_, fun ops => key_iff _ (WF_hashRun hwf ops)⟩
  have hb : hash key % B < B := Nat.mod_lt _ hwf.1
  obtain ⟨i, -, hget, hfind, -, -⟩ := find_of_mem hwf ((mem_entries_iff_bucket hwf key v).mp hv)
  have hlen : i < (m.bucketAt (hash key % B)).elems.length := by
    rw [List.getElem?_eq_some] at hget
    exact hget.1
  rw [hfind]
  refine ⟨rfl, ?_, deref_of_getElem? hwf hb hget⟩
  rw [WF_getSize hwf _ hb]
  exact hlen

theorem find_eq_end_iff_witness :
    WF 4 id (⟨[⟨[], 0⟩, ⟨[(1, 7)], 1⟩, ⟨[], 0⟩, ⟨[(3, 5), (7, 6)], 2⟩], 3⟩ : HashMap Nat Nat) ∧
    «end» 4 (⟨[⟨[], 0⟩, ⟨[(1, 7)], 1⟩, ⟨[], 0⟩, ⟨[(3, 5), (7, 6)], 2⟩], 3⟩ : HashMap Nat Nat) =
      { bucket := 3, index := 2 } ∧
    find 4 id (⟨[⟨[], 0⟩, ⟨[(1, 7)], 1⟩, ⟨[], 0⟩, ⟨[(3, 5), (7, 6)], 2⟩], 3⟩ : HashMap Nat Nat)
      7 = { bucket := 3, index := 1 } ∧
    find 4 id (⟨[⟨[], 0⟩, ⟨[(1, 7)], 1⟩, ⟨[], 0⟩, ⟨[(3, 5), (7, 6)], 2⟩], 3⟩ : HashMap Nat Nat)
      11 = { bucket := 3, index := 2 } ∧
    (find 4 id (⟨[⟨[], 0⟩, ⟨[(1, 7)], 1⟩, ⟨[], 0⟩, ⟨[(3, 5), (7, 6)], 2⟩], 3⟩ :
        HashMap Nat Nat) 7 =
      «end» 4 (⟨[⟨[], 0⟩, ⟨[(1, 7)], 1⟩, ⟨[], 0⟩, ⟨[(3, 5), (7, 6)], 2⟩], 3⟩ :
        HashMap Nat Nat) ↔
      7 ∉ (entries 4 (⟨[⟨[], 0⟩, ⟨[(1, 7)], 1⟩, ⟨[], 0⟩, ⟨[(3, 5), (7, 6)], 2⟩], 3⟩ :
        HashMap Nat Nat)).map Prod.fst) :=
  ⟨by decide, by decide, by decide, by decide,
    (find_eq_end_iff 4 id ⟨[⟨[], 0⟩, ⟨[(1, 7)], 1⟩, ⟨[], 0⟩, ⟨[(3, 5), (7, 6)], 2⟩], 3⟩
      (by decide) 7).1⟩

end HashMap

/-! ## Claims: TreeMap removal of a node with two children -/

namespace TreeMap

open Tree

variable {K V : Type}

/-- C24. In a map that satisfies its invariant, let the node of a stored key have both
children. `erase` then takes its branch for one child with the left child (its branch
for two children is not reached): `remove(key)` succeeds and leaves the tree in which
the left child has taken the place of the node; the keys of that tree are the former
keys other than `key` and other than the keys of the right subtree of the node; and
`getSize()` is exactly one less. -/
theorem remove_two_children_splices_left [LinearOrder K] (m : TreeMap K V) (hwf : WF m)
    (p : List Dir) (l r : Tree K V) (key : K) (v : V)
    (hp : subtreeAt m.root p = node l key v r) (hl : l ≠ null) (hr : r ≠ null) :
    erase m.root p = setSlot m.root p l ∧
    remove m key = Except.ok ⟨setSlot m.root p l, m.size - 1⟩ ∧
    (∀ x, x ∈ keys (setSlot m.root p l) ↔ (x ∈ keys m.root ∧ x ≠ key ∧ x ∉ keys r)) ∧
    (TreeMap.mk (setSlot m.root p l) (m.size - 1)).getSize + 1 = m.getSize := by
  have hln : l.isNull = false := (isNull_false_iff l).mpr hl
  have hrn : r.isNull = false := (isNull_false_iff r).mpr hr
  have herase : erase m.root p = setSlot m.root p l := by
    rw [erase_eq, hp]
    simp [hln]
  have hf : find m key = some p := findLoop_of_subtreeAt hwf.1 hp
  have hmem : key ∈ keys m.root := mem_keys_of_subtreeAt hp
  have hpos : 0 < numNodes m.root := by
    rw [← length_keys]
    exact List.length_pos_of_mem hmem
  have hsz : 0 < m.size := lt_of_lt_of_le hpos hwf.2
  have hne : m.isEmpty = false := by
    simp only [isEmpty, beq_eq_false_iff_ne]
    omega
  refine ⟨herase, ?_, ?_, ?_⟩
  · simp [remove, removeAt, hf, hne, herase]
  · obtain ⟨A, B, h1, h2⟩ := keys_erase hp
    rw [herase] at h2
    have hn := hwf.1.nodup_keys
    rw [h1] at hn
    rw [h1, h2]
    simp only [hln, Bool.false_eq_true, if_false]
    simp only [List.nodup_append, List.nodup_cons, List.mem_append, List.mem_cons] at hn
    obtain ⟨⟨hA, ⟨hL, ⟨hkR, hR⟩, hLR⟩, hAm⟩, hB, hmB⟩ := hn
    intro x
    simp only [List.mem_append, List.mem_cons]
    constructor
    · rintro ((hx | hx) | hx)
      · refine ⟨Or.inl (Or.inl hx), ?_, ?_⟩
        · rintro rfl
          exact hAm hx (by simp)
        · intro hxr
          exact hAm hx (by simp [hxr])
      · refine ⟨Or.inl (Or.inr (Or.inl hx)), ?_, ?_⟩
        · rintro rfl
          exact hLR hx (by simp)
        · intro hxr
          exact hLR hx (by simp [hxr])
      · refine ⟨Or.inr hx, ?_, ?_⟩
        · rintro rfl
          exact hmB (by simp) hx
        · intro hxr
          exact hmB (by simp [hxr]) hx
    · rintro ⟨(((hx | hx | hx | hx)) | hx), hk, hxr⟩
      · exact Or.inl (Or.inl hx)
      · exact Or.inl (Or.inr hx)
      · exact absurd hx hk
      · exact absurd hx hxr
      · exact Or.inr hx
  · simp only [getSize]
    omega

theorem remove_two_children_splices_left_witness :
    WF (⟨node (node null 1 10 null) 2 20 (node (node null 3 30 null) 4 40 null), 4⟩ :
      TreeMap Nat Nat) ∧
    subtreeAt (node (node null 1 10 null) 2 20 (node (node null 3 30 null) 4 40 null) :
      Tree Nat Nat) [] = node (node null 1 10 null) 2 20 (node (node null 3 30 null) 4 40 null) ∧
    (node null 1 10 null : Tree Nat Nat) ≠ null ∧
    (node (node null 3 30 null) 4 40 null : Tree Nat Nat) ≠ null ∧
    remove (⟨node (node null 1 10 null) 2 20 (node (node null 3 30 null) 4 40 null), 4⟩ :
      TreeMap Nat Nat) 2 =
      Except.ok ⟨setSlot (node (node null 1 10 null) 2 20 (node (node null 3 30 null) 4 40 null))
        [] (node null 1 10 null), 4 - 1⟩ ∧
    setSlot (node (node null 1 10 null) 2 20 (node (node null 3 30 null) 4 40 null) :
      Tree Nat Nat) [] (node null 1 10 null) = node null 1 10 null :=
  ⟨by decide, by decide, by decide, by decide,
    (remove_two_children_splices_left
      (⟨node (node null 1 10 null) 2 20 (node (node null 3 30 null) 4 40 null), 4⟩ :
        TreeMap Nat Nat) (by decide) [] (node null 1 10 null)
      (node (node null 3 30 null) 4 40 null) 2 20 (by decide) (by decide) (by decide)).2.1,
    by decide⟩

end TreeMap

/-! ## Claims: LinkedList offsets -/

namespace LinkedList

variable {α : Type}

/-- C26. For the iterator at any position `i` of a chain of length `n` (`i = n` being
`end()`) and any negative offset `d`, both `it + d` and `it - d` end by throwing
`out_of_range` and return no iterator: the loop of `operator+` takes `++` steps until it
has run off the end, as `n - i + 1` applications of `++` do, and the loop of `operator-`
takes `--` steps until it has run off the beginning, as `i + 1` applications of `--` do.
The outcome is the same for every offset above `n`; and it is the same when the counter
has 64 bits and wraps around at the least `difference_type`, for every chain of less
than `2 ^ 63 - 1` nodes. -/
theorem negative_offset_throws (l : LinkedList α) (i : Nat) (hi : i ≤ l.elems.length)
    (d : Int) (hd : d < 0) :
    plus l (iteratorAt l i) d = Except.error Error.out_of_range ∧
    minus l (iteratorAt l i) d = Except.error Error.out_of_range ∧
    repeatStep (next l) (l.elems.length - i + 1) (iteratorAt l i) =
      Except.error Error.out_of_range ∧
    repeatStep (prev l) (i + 1) (iteratorAt l i) = Except.error Error.out_of_range ∧
    (∀ e : Nat, l.elems.length < e →
      plus l (iteratorAt l i) (e : Int) = Except.error Error.out_of_range ∧
      minus l (iteratorAt l i) (e : Int) = Except.error Error.out_of_range) ∧
    ((l.elems.length : Int) < 2 ^ 63 - 1 → -(2 ^ 63) ≤ d →
      plusWrapped l (iteratorAt l i) d = Except.error Error.out_of_range ∧
      minusWrapped l (iteratorAt l i) d = Except.error Error.out_of_range) := by
  refine ⟨plus_neg l hi d hd, minus_neg l hi d hd, ?_, ?_, fun e he => ⟨?_, ?_⟩,
    fun hlen h1 => ⟨plusWrapped_neg l hi d h1 hd hlen, minusWrapped_neg l hi d h1 hd hlen⟩⟩
  · rw [repeatStep_next l _ hi]
    have : ¬ i + (l.elems.length - i + 1) ≤ l.elems.length := by omega
    simp only [this, if_false]
  · rw [repeatStep_prev l _ hi]
    have : ¬ i + 1 ≤ i := by omega
    simp only [this, if_false]
  · rw [plus_iteratorAt l hi]
    have : ¬ i + e ≤ l.elems.length := by omega
    simp only [this, if_false]
  · rw [minus_iteratorAt l hi]
    have : ¬ e ≤ i := by omega
    simp only [this, if_false]

theorem negative_offset_throws_witness :
    1 ≤ (⟨[10, 20, 30], 3⟩ : LinkedList Nat).elems.length ∧ (-2 : Int) < 0 ∧
    iteratorAt (⟨[10, 20, 30], 3⟩ : LinkedList Nat) 1 = some 1 ∧
    plus (⟨[10, 20, 30], 3⟩ : LinkedList Nat) (some 1) (-2) =
      Except.error Error.out_of_range ∧
    minus (⟨[10, 20, 30], 3⟩ : LinkedList Nat) (some 1) (-2) =
      Except.error Error.out_of_range ∧
    decrWrapped (-9223372036854775808) = 9223372036854775807 ∧
    plusWrapped (⟨[10, 20, 30], 3⟩ : LinkedList Nat) (some 1) (-9223372036854775808) =
      Except.error Error.out_of_range ∧
    minusWrapped (⟨[10, 20, 30], 3⟩ : LinkedList Nat) (some 1) (-9223372036854775808) =
      Except.error Error.out_of_range ∧
    plus (⟨[10, 20, 30], 3⟩ : LinkedList Nat)
      (iteratorAt (⟨[10, 20, 30], 3⟩ : LinkedList Nat) 1) (-2) =
      Except.error Error.out_of_range :=
  ⟨by decide, by decide, by decide, by decide, by decide, by decide, by decide, by decide,
    (negative_offset_throws (⟨[10, 20, 30], 3⟩ : LinkedList Nat) 1 (by decide) (-2)
      (by decide)).1⟩

end LinkedList

/-! ## Claims: LinkedList links -/

namespace LinkedList

namespace Raw

variable {α : Type}

/-- C22. The list invariant `Inv l cells` says, for the sequence `cells` of the nodes of
the list: the nodes are pairwise distinct (the path is finite and has no cycle);
following `next` from `root` visits them in order and ends after the node `tail`, whose
`next` is `nullptr`; the `prev` link of each node is the node before it and that of the
first node is `nullptr`; and `size` is the number of nodes. It holds of the new list, and
makes `root` and `tail` `nullptr` exactly when there is no node, which is when the list
`isEmpty()`. Every operation on a list with the invariant ends normally with a list with
the invariant: `insert` at a position `i` up to the number of nodes (the new node comes
before the node at `i`), `append`, `prepend`, `erase` at a position below the number of
nodes, `erase(first, lastExcluded)` for positions `i ≤ j` (within `j - i + 1` rounds of
its loop), `popFirst` and `popLast` on a list with a node. -/
theorem links_preserved (l : Raw α) (cells : List (Nat × α)) (h : Inv l cells) (item : α)
    (moved : α → α) :
    Inv (empty : Raw α) [] ∧
    ((l.root = none ↔ cells = []) ∧ (l.tail = none ↔ cells = []) ∧
      (l.isEmpty = true ↔ cells = [])) ∧
    (∀ i, i ≤ cells.length →
      ∃ l1, insert l (ptrAt cells i) item = Except.ok l1 ∧
        Inv l1 (cells.take i ++ (l.mem.length, item) :: cells.drop i)) ∧
    (∃ l1, append l item = Except.ok l1 ∧ Inv l1 (cells ++ [(l.mem.length, item)])) ∧
    (∃ l1, prepend l item = Except.ok l1 ∧ Inv l1 ((l.mem.length, item) :: cells)) ∧
    (∀ i, i < cells.length →
      ∃ l1, erase l (ptrAt cells i) = Except.ok l1 ∧
        Inv l1 (cells.take i ++ cells.drop (i + 1))) ∧
    (∀ i j n, i ≤ j → j ≤ cells.length →
      ∃ l1, eraseRange (j - i + (n + 1)) l (ptrAt cells i) (ptrAt cells j) =
          some (Except.ok l1) ∧
        Inv l1 (cells.take i ++ cells.drop j)) ∧
    (∀ c rest, cells = c :: rest →
      ∃ l1, popFirst moved l = Except.ok (c.2, l1) ∧ Inv l1 rest) ∧
    (∀ init c, cells = init ++ [c] →
      ∃ l1, popLast moved l = Except.ok (c.2, l1) ∧ Inv l1 init) := by
  refine ⟨⟨by simp, trivial, rfl, rfl, rfl⟩, ⟨?_, ?_, isEmpty_iff h⟩, ?_, ?_, ?_, ?_, ?_, ?_, ?_⟩
  · rw [h.2.2.1]
    cases cells with
    | nil => simp [firstAddr]
    | cons c cells => simp [firstAddr]
  · rw [h.2.2.2.1]
    rcases List.eq_nil_or_concat cells with rfl | ⟨ys, d, rfl⟩
    · simp [lastAddr]
    · rw [List.concat_eq_append, lastAddr_concat]
      simp
  · intro i _
    have h1 : Inv l (cells.take i ++ cells.drop i) := by
      rw [List.take_append_drop]
      exact h
    have := insert_Inv h1 item
    rw [firstAddr_drop] at this
    exact this
  · have h1 : Inv l (cells ++ []) := by
      rw [List.append_nil]
      exact h
    exact insert_Inv h1 item
  · have h1 : Inv l ([] ++ cells) := h
    have := insert_Inv h1 item
    rw [← h.2.2.1] at this
    exact this
  · intro i hi
    have hsplit : cells = cells.take i ++ cells[i] :: cells.drop (i + 1) := by
      rw [← List.drop_eq_getElem_cons hi, List.take_append_drop]
    have h1 : Inv l (cells.take i ++ cells[i] :: cells.drop (i + 1)) := by
      rw [← hsplit]
      exact h
    have hp : ptrAt cells i = some (cells[i]).1 := by
      simp [ptrAt, List.getElem?_eq_getElem hi]
    rw [hp]
    exact erase_Inv h1
  · intro i j n hij hj
    have hdrop : cells.drop i = (cells.drop i).take (j - i) ++ cells.drop j := by
      have h2 := (List.take_append_drop (j - i) (cells.drop i)).symm
      rw [List.drop_drop] at h2
      have h3 : i + (j - i) = j := by omega
      rw [h3] at h2
      exact h2
    have hlen : ((cells.drop i).take (j - i)).length = j - i := by
      rw [List.length_take, List.length_drop]
      omega
    have h1 : Inv l (cells.take i ++ ((cells.drop i).take (j - i) ++ cells.drop j)) := by
      rw [← hdrop, List.take_append_drop]
      exact h
    have := eraseRangeLoop_Inv ((cells.drop i).take (j - i)) h1 n
    rw [← hdrop, firstAddr_drop, firstAddr_drop, hlen] at this
    exact this
  · intro c rest hc
    subst hc
    exact popFirst_Inv moved h
  · intro init c hc
    subst hc
    exact popLast_Inv moved h

theorem links_preserved_witness :
    Inv (⟨[some ⟨some 2, some 3, 10⟩, some ⟨none, some 2, 30⟩, some ⟨some 1, some 0, 20⟩,
      some ⟨some 0, none, 5⟩], some 3, some 1, 4⟩ : Raw Nat) [(3, 5), (0, 10), (2, 20), (1, 30)] ∧
    ptrAt [(3, 5), (0, 10), (2, 20), (1, 30)] 2 = some 2 ∧
    erase (⟨[some ⟨some 2, some 3, 10⟩, some ⟨none, some 2, 30⟩, some ⟨some 1, some 0, 20⟩,
      some ⟨some 0, none, 5⟩], some 3, some 1, 4⟩ : Raw Nat) (some 2) =
      Except.ok ⟨[some ⟨some 1, some 3, 10⟩, some ⟨none, some 0, 30⟩, none,
        some ⟨some 0, none, 5⟩], some 3, some 1, 3⟩ ∧
    insert (⟨[some ⟨some 2, some 3, 10⟩, some ⟨none, some 2, 30⟩, some ⟨some 1, some 0, 20⟩,
      some ⟨some 0, none, 5⟩], some 3, some 1, 4⟩ : Raw Nat) (some 2) 15 =
      Except.ok ⟨[some ⟨some 4, some 3, 10⟩, some ⟨none, some 2, 30⟩, some ⟨some 1, some 4, 20⟩,
        some ⟨some 0, none, 5⟩, some ⟨some 2, some 0, 15⟩], some 3, some 1, 5⟩ ∧
    eraseRange 3 (⟨[some ⟨some 2, some 3, 10⟩, some ⟨none, some 2, 30⟩,
      some ⟨some 1, some 0, 20⟩, some ⟨some 0, none, 5⟩], some 3, some 1, 4⟩ : Raw Nat)
      (some 0) (some 1) =
      some (Except.ok ⟨[none, some ⟨none, some 3, 30⟩, none, some ⟨some 1, none, 5⟩], some 3,
        some 1, 2⟩) ∧
    (∀ i, i < ([(3, 5), (0, 10), (2, 20), (1, 30)] : List (Nat × Nat)).length →
      ∃ l1, erase (⟨[some ⟨some 2, some 3, 10⟩, some ⟨none, some 2, 30⟩,
          some ⟨some 1, some 0, 20⟩, some ⟨some 0, none, 5⟩], some 3, some 1, 4⟩ : Raw Nat)
          (ptrAt [(3, 5), (0, 10), (2, 20), (1, 30)] i) = Except.ok l1 ∧
        Inv l1 (([(3, 5), (0, 10), (2, 20), (1, 30)] : List (Nat × Nat)).take i ++
          ([(3, 5), (0, 10), (2, 20), (1, 30)] : List (Nat × Nat)).drop (i + 1))) :=
  ⟨by decide, by decide, by decide, by decide, by decide,
    (links_preserved (⟨[some ⟨some 2, some 3, 10⟩, some ⟨none, some 2, 30⟩,
      some ⟨some 1, some 0, 20⟩, some ⟨some 0, none, 5⟩], some 3, some 1, 4⟩ : Raw Nat)
      [(3, 5), (0, 10), (2, 20), (1, 30)] (by decide) 0 id).2.2.2.2.2.1⟩

end Raw

end LinkedList

end aisdi
